import Mathlib

/-! super-graph: the query compilation core

A shallow embedding of `qcode/qcode.go` (GraphQL operation to QCode) and
`psql/psql.go` (QCode to one PostgreSQL statement), with the properties of the
specification stated and proved over it.

Conventions of the embedding.

* Go strings are `String`; the byte sink `io.Writer` is the text written to it.
  A routine that writes returns the fragment it wrote, the caller appends.
* Go maps are association lists, looked up with `List.lookup`.
* Pointers that are only read are the value they point to; a pointer that may
  be nil is an `Option`.  Structures that are mutated through pointers while a
  tree is built (`Select.Joins`, `Exp.Children`) live in an explicit heap of
  cells addressed by their creation index.
* `Node.Parent` and `Field.Parent` back references are carried by the
  traversals: the trees handed over by the parser are well formed, every child
  has as `Parent` the node that lists it.
* Run-time panics of Go (nil dereference, index out of range, explicit `panic`)
  are outcomes of their own, distinct from returned errors.
* Work-list loops take a fuel argument; the entry points supply a bound computed
  from the input, and are proved never to exhaust it.
-/

namespace GoStr

/-- ASCII fragment of `strings.ToLower`: the letters `A` to `Z` are mapped, every
other character is left as it is, where Go also maps the upper-case letters
outside ASCII.  The theorems below use the mapping as a function only, none of
them depends on what it does to a character. -/
def ToLower (s : String) : String := ⟨s.data.map Char.toLower⟩

/-- The function `strings.HasPrefix`. -/
def HasPrefix (s p : String) : Bool := p.data.isPrefixOf s.data

/-- The function `strings.HasSuffix`. -/
def HasSuffix (s p : String) : Bool := p.data.reverse.isPrefixOf s.data.reverse

/-- Go slice `s[n:]`, for offsets that fall after one-byte characters. -/
def sliceFrom (s : String) (n : Nat) : String := ⟨s.data.drop n⟩

/-- Go slice `s[0:n]`, for offsets that fall after one-byte characters. -/
def sliceTo (s : String) (n : Nat) : String := ⟨s.data.take n⟩

/-- The function `strings.Join`. -/
def Join : List String → String → String
  | [], _ => ""
  | [a], _ => a
  | a :: b :: l, sep => a ++ sep ++ Join (b :: l) sep

/-- ASCII fragment of `strings.EqualFold`. -/
def EqualFold (a b : String) : Bool := ToLower a == ToLower b

/-- Decimal rendering of a signed integer, the verb `%d`. -/
def itoa (i : Int) : String :=
  match i with
  | Int.ofNat n => Nat.repr n
  | Int.negSucc n => "-" ++ Nat.repr (n + 1)

/-- Writes `f a` for every element, with `, ` after each one but the last:
the loop `for i := range xs { ...; if i < len(xs)-1 { write(", ") } }`. -/
def commaSep {α : Type} (f : α → String) : List α → String
  | [] => ""
  | [a] => f a
  | a :: b :: l => f a ++ ", " ++ commaSep f (b :: l)

end GoStr

/-! ## Parenthesis depth of a text -/

namespace GoStr

/-- The nesting depth after reading a text from depth `d`; `none` when a
closing parenthesis has no opening one before it. -/
def depthAfter : Nat → List Char → Option Nat
  | d, [] => some d
  | d, c :: cs =>
    if c = '(' then depthAfter (d + 1) cs
    else if c = ')' then
      (match d with
      | 0 => none
      | e + 1 => depthAfter e cs)
    else depthAfter d cs

/-- The parentheses of a text are balanced: every closing one has its opening
one, and none stays open. -/
def ParensBalanced (s : String) : Prop := depthAfter 0 s.data = some 0

/-- The number of semicolons of a text. -/
def semicolons (s : String) : Nat := s.data.count ';'

/-- A text without parenthesis and without semicolon. -/
def plain (s : String) : Bool := s.data.all (fun c => c != '(' && c != ')' && c != ';')

/-- A text that takes the nesting depth from `a` to `b` (from any depth not
below `a`, by as much) and has no semicolon. -/
def Steps (a b : Nat) (s : String) : Prop :=
  (∀ d, depthAfter (a + d) s.data = some (b + d)) ∧ ';' ∉ s.data

/-- A piece of a rendered text: a literal, or a text with known depth
behaviour. -/
inductive Piece where
  | lit (s : String)
  | txt (s : String) (h : plain s = true)
  | sub (s : String) (a b : Nat) (h : Steps a b s)

/-- The text of a piece. -/
def Piece.str : Piece → String
  | Piece.lit s => s
  | Piece.txt s _ => s
  | Piece.sub s _ _ _ => s

/-- The concatenation of a list of pieces. -/
def pieces : List Piece → String
  | [] => ""
  | p :: l => p.str ++ pieces l

/-- The depth after one piece read from depth `d`. -/
def Piece.step (d : Nat) : Piece → Option Nat
  | Piece.lit s => if s.data.contains ';' then none else depthAfter d s.data
  | Piece.txt _ _ => some d
  | Piece.sub _ a b _ => if a ≤ d then some (d - a + b) else none

/-- The depth after a list of pieces read from depth `d`. -/
def check : Nat → List Piece → Option Nat
  | d, [] => some d
  | d, p :: l =>
    match p.step d with
    | none => none
    | some e => check e l

end GoStr

namespace qcode

inductive ExpOp where
  | OpNop | OpAnd | OpOr | OpNot | OpEquals | OpNotEquals | OpGreaterOrEquals
  | OpLesserOrEquals | OpGreaterThan | OpLesserThan | OpIn | OpNotIn | OpLike
  | OpNotLike | OpILike | OpNotILike | OpSimilar | OpNotSimilar | OpContains
  | OpContainedIn | OpHasKey | OpHasKeyAny | OpHasKeyAll | OpIsNull | OpEqID
  | OpTsQuery
  deriving DecidableEq, Repr

/-- The integer value of an operator, in the order of the `iota` block. -/
def ExpOp.code : ExpOp → Nat
  | ExpOp.OpNop => 0 | ExpOp.OpAnd => 1 | ExpOp.OpOr => 2 | ExpOp.OpNot => 3
  | ExpOp.OpEquals => 4 | ExpOp.OpNotEquals => 5 | ExpOp.OpGreaterOrEquals => 6
  | ExpOp.OpLesserOrEquals => 7 | ExpOp.OpGreaterThan => 8 | ExpOp.OpLesserThan => 9
  | ExpOp.OpIn => 10 | ExpOp.OpNotIn => 11 | ExpOp.OpLike => 12 | ExpOp.OpNotLike => 13
  | ExpOp.OpILike => 14 | ExpOp.OpNotILike => 15 | ExpOp.OpSimilar => 16
  | ExpOp.OpNotSimilar => 17 | ExpOp.OpContains => 18 | ExpOp.OpContainedIn => 19
  | ExpOp.OpHasKey => 20 | ExpOp.OpHasKeyAny => 21 | ExpOp.OpHasKeyAll => 22
  | ExpOp.OpIsNull => 23 | ExpOp.OpEqID => 24 | ExpOp.OpTsQuery => 25

/-- Value kinds; `ValZero` is the zero value of the Go integer type, carried by
expressions whose `Type` was never assigned. -/
inductive ValType where
  | ValZero | ValStr | ValInt | ValFloat | ValBool | ValList | ValVar | ValNone
  deriving DecidableEq, Repr

/-- Ordering directions; `OrderZero` is the zero value of the Go integer type. -/
inductive Order where
  | OrderZero | OrderAsc | OrderDesc | OrderAscNullsFirst | OrderAscNullsLast
  | OrderDescNullsFirst | OrderDescNullsLast
  deriving DecidableEq, Repr

/-- Node kinds of the parser (declared in the parser, which is not part of the
sources at hand; the seven kinds are those the compiler switches on). -/
inductive NodeType where
  | nodeStr | nodeInt | nodeFloat | nodeBool | nodeObj | nodeList | nodeVar
  deriving DecidableEq, Repr

/-- Parsed argument value.  `Parent` is carried by the traversals. -/
structure Node where
  Typ : NodeType
  Name : String
  Val : String
  Children : List Node
  deriving Repr

structure Arg where
  Name : String
  Val : Node
  deriving Repr

/-- Parsed field.  `Parent` is carried by the traversal; a nil `Children` slice
is the empty list. -/
structure Field where
  ID : Nat
  Name : String
  Alias : String
  Args : List (Option Arg)
  Children : List Field
  deriving Repr

inductive OpType where
  | opQuery | opMutate | opSub | opOther
  deriving DecidableEq, Repr

structure Operation where
  Typ : OpType
  Fields : List Field
  FieldLen : Nat
  deriving Repr

structure Column where
  Table : String
  Name : String
  FieldName : String
  deriving DecidableEq, Repr

/-- A filter expression.  `Children` is a slice of pointers, an entry of which
may be nil. -/
structure Exp where
  Op : ExpOp
  Col : String
  NestedCol : Bool
  Typ : ValType
  Val : String
  ListType : ValType
  ListVal : List String
  Children : List (Option Exp)
  deriving Repr

structure OrderBy where
  Col : String
  Order : Order
  deriving DecidableEq, Repr

structure Paging where
  Limit : String
  Offset : String
  deriving DecidableEq, Repr

structure Select where
  ID : Int
  Args : List (String × Node)
  AsList : Bool
  Table : String
  Singular : String
  FieldName : String
  Cols : List Column
  Where : Option Exp
  OrderBy : List OrderBy
  DistinctOn : List String
  Paging : Paging
  Joins : List Select
  deriving Repr

structure Query where
  Select : Option Select
  deriving Repr

structure QCode where
  Query : Option Query
  deriving Repr

end qcode

namespace psql

open qcode GoStr

/-- How a routine ended: normally, with a returned error, with a Go panic, or
(for the work-list loops of the embedding only) with its fuel exhausted. -/
inductive Status where
  | done
  | error (msg : String)
  | panicked (msg : String)
  | outOfFuel
  deriving DecidableEq, Repr

/-- What a rendering routine did: the text it wrote to the sink, and how it
ended.  Text written before an error or panic stays in the sink. -/
structure Wr where
  out : String
  st : Status
  deriving DecidableEq, Repr

/-- A routine that writes `s` and cannot fail. -/
def Wr.text (s : String) : Wr := ⟨s, Status.done⟩

/-- Sequencing: `b` runs only when `a` ended normally. -/
def Wr.andThen (a b : Wr) : Wr :=
  match a.st with
  | Status.done => ⟨a.out ++ b.out, b.st⟩
  | _ => a

/-- Modelled from the spec: relationship kinds of the schema catalog (section 3,
`type ∈ { BelongsTo, OneToMany, OneToManyThrough }`); their declaration is not
part of the sources at hand. -/
inductive RelType where
  | RelBelongTo | RelOneToMany | RelOneToManyThrough
  deriving DecidableEq, Repr

/-- Modelled from the spec: a relationship `{ type, Col1, Col2, Through, ColT }`. -/
structure DBRel where
  Typ : RelType
  Through : String
  ColT : String
  Col1 : String
  Col2 : String
  deriving DecidableEq, Repr

/-- Modelled from the spec: the directional key `(child-table, parent-table)`. -/
structure TTKey where
  Table1 : String
  Table2 : String
  deriving DecidableEq, Repr

/-- Modelled from the spec: per-table metadata; `Columns` lists the keys of the
column map, an empty `PrimaryCol` or `TSVCol` means the table has none. -/
structure DBTableInfo where
  Name : String
  PrimaryCol : String
  TSVCol : String
  Columns : List String
  deriving DecidableEq, Repr

/-- Modelled from the spec: the catalog, `table-name → DBTableInfo` and
`(child, parent) → Relationship`. -/
structure DBSchema where
  Tables : List (String × DBTableInfo)
  RelMap : List (TTKey × DBRel)
  deriving Repr

/-- Modelled from the spec: `GetTable(name) → DBTableInfo | NotFound`, a
case-sensitive lookup; `none` is the returned error. -/
def DBSchema.GetTable (s : DBSchema) (table : String) : Option DBTableInfo :=
  s.Tables.lookup table

structure Compiler where
  schema : DBSchema
  vars : List (String × String)
  tmap : List (String × String)
  deriving Repr

def Compiler.getTable (c : Compiler) (sel : Select) : Option DBTableInfo :=
  match c.tmap.lookup sel.Table with
  | some tn => c.schema.GetTable tn
  | none => c.schema.GetTable sel.Table

/-- One pass of the loop of `relationshipColumns` over `parent.Joins`, from
index `i` on; `colmap` is the set of the parent's requested column names. -/
def relationshipColumnsFrom (c : Compiler) (parent : Select) (colmap : List String) :
    Nat → List Select → List Column × List Nat
  | _, [] => ([], [])
  | i, sub :: rest =>
    let tl := relationshipColumnsFrom c parent colmap (i + 1) rest
    match c.schema.RelMap.lookup ⟨sub.Table, parent.Table⟩ with
    | none => tl
    | some rel =>
      match rel.Typ with
      | RelType.RelBelongTo | RelType.RelOneToMany =>
        ((if colmap.contains rel.Col2 then [] else [⟨parent.Table, rel.Col2, rel.Col2⟩]) ++ tl.1,
          i :: tl.2)
      | RelType.RelOneToManyThrough =>
        ((if colmap.contains rel.Col1 then [] else [⟨parent.Table, rel.Col1, rel.Col1⟩]) ++ tl.1,
          i :: tl.2)

def Compiler.relationshipColumns (c : Compiler) (parent : Select) : List Column × List Nat :=
  relationshipColumnsFrom c parent (parent.Cols.map (fun col => col.Name)) 0 parent.Joins

/-- The alias scope `<Table>_<ID>` that the format `%s_%d` writes. -/
def scope (sel : Select) : String := sel.Table ++ "_" ++ itoa sel.ID

/-- One entry of `renderOrderBy`; `none` is the error of the default branch.
The quoting of each branch is that of the source. -/
def renderOrderByEntry (sel : Select) (ob : OrderBy) : Option String :=
  match ob.Order with
  | Order.OrderAsc => some ("\"" ++ scope sel ++ ".ob." ++ ob.Col ++ "\" ASC")
  | Order.OrderDesc => some ("\"" ++ scope sel ++ ".ob." ++ ob.Col ++ "\" DESC")
  | Order.OrderAscNullsFirst => some ("\"" ++ scope sel ++ ".ob." ++ ob.Col ++ "\" ASC NULLS FIRST")
  | Order.OrderDescNullsFirst => some (scope sel ++ ".ob." ++ ob.Col ++ " DESC NULLS FIRST")
  | Order.OrderAscNullsLast => some ("\"" ++ scope sel ++ ".ob." ++ ob.Col ++ " ASC NULLS LAST")
  | Order.OrderDescNullsLast => some (scope sel ++ ".ob." ++ ob.Col ++ " DESC NULLS LAST")
  | Order.OrderZero => none

/-- The loop of `renderOrderBy` over the entries. -/
def renderOrderByLoop (sel : Select) : List OrderBy → Wr
  | [] => Wr.text ""
  | ob :: rest =>
    match renderOrderByEntry sel ob with
    | none => ⟨"", Status.error "[qcode.Order By] unexpected value encountered"⟩
    | some s =>
      (Wr.text (s ++ (if rest.isEmpty then "" else ", "))).andThen (renderOrderByLoop sel rest)

def renderOrderBy (sel : Select) : Wr :=
  (Wr.text " ORDER BY ").andThen (renderOrderByLoop sel sel.OrderBy)

def renderDistinctOn (sel : Select) : String :=
  " DISTINCT ON (" ++ commaSep (fun d => "\"" ++ scope sel ++ ".ob." ++ d ++ "\"") sel.DistinctOn
    ++ ") "

def renderList (ex : Exp) : String :=
  " (" ++ commaSep (fun v =>
      match ex.ListType with
      | ValType.ValBool | ValType.ValInt | ValType.ValFloat => v
      | ValType.ValStr => "'" ++ v ++ "'"
      | _ => "") ex.ListVal ++ ")"

def renderVal (ex : Exp) (vars : List (String × String)) : String :=
  " (" ++ (match ex.Typ with
    | ValType.ValBool | ValType.ValInt | ValType.ValFloat => ex.Val
    | ValType.ValStr => "'" ++ ex.Val ++ "'"
    | ValType.ValVar =>
      match vars.lookup ex.Val with
      | some val => val
      | none => "'\x7b\x7b" ++ ex.Val ++ "\x7d\x7d'"
    | _ => "") ++ ")"

def funcPrefixLen (fn : String) : Nat :=
  if HasPrefix fn "avg_" then 4
  else if HasPrefix fn "count_" then 6
  else if HasPrefix fn "max_" then 4
  else if HasPrefix fn "min_" then 4
  else if HasPrefix fn "sum_" then 4
  else if HasPrefix fn "stddev_" then 7
  else if HasPrefix fn "stddev_pop_" then 11
  else if HasPrefix fn "stddev_samp_" then 12
  else if HasPrefix fn "variance_" then 9
  else if HasPrefix fn "var_pop_" then 8
  else if HasPrefix fn "var_samp_" then 9
  else 0

/-- Entries of the work stack of `renderWhere`: an operator token or an
expression. -/
inductive WItem where
  | op (o : ExpOp)
  | exp (e : Option Exp)
  deriving Repr

/-- The SQL token of a comparison operator, `none` for the operators the switch
of `renderWhere` does not write as a plain token. -/
def opToken : ExpOp → Option String
  | ExpOp.OpEquals => some "="
  | ExpOp.OpNotEquals => some "!="
  | ExpOp.OpGreaterOrEquals => some ">="
  | ExpOp.OpLesserOrEquals => some "<="
  | ExpOp.OpGreaterThan => some ">"
  | ExpOp.OpLesserThan => some "<"
  | ExpOp.OpIn => some "IN"
  | ExpOp.OpNotIn => some "NOT IN"
  | ExpOp.OpLike => some "LIKE"
  | ExpOp.OpNotLike => some "NOT LIKE"
  | ExpOp.OpILike => some "ILIKE"
  | ExpOp.OpNotILike => some "NOT ILIKE"
  | ExpOp.OpSimilar => some "SIMILAR TO"
  | ExpOp.OpNotSimilar => some "NOT SIMILAR TO"
  | ExpOp.OpContains => some "@>"
  | ExpOp.OpContainedIn => some "<@"
  | ExpOp.OpHasKey => some "?"
  | ExpOp.OpHasKeyAny => some "?|"
  | ExpOp.OpHasKeyAll => some "?&"
  | _ => none

/-- The column opening that `renderWhere` writes before the operator. -/
def whereColOpen (sel : Select) (val : Exp) : String :=
  if val.NestedCol then "((\"" ++ val.Col ++ "\") "
  else if val.Col.length != 0 then "((\"" ++ sel.Table ++ "\".\"" ++ val.Col ++ "\") "
  else ""

/-- The branch of `renderWhere` for an expression that is not And, Or or Not. -/
def renderWhereTerminal (sel : Select) (ti : DBTableInfo) (vars : List (String × String))
    (val : Exp) : Wr :=
  (Wr.text (whereColOpen sel val)).andThen
    (match val.Op with
    | ExpOp.OpIsNull =>
      Wr.text (if EqualFold val.Val "true" then "IS NULL)" else "IS NOT NULL)")
    | ExpOp.OpEqID =>
      if ti.PrimaryCol.length = 0 then
        ⟨"", Status.error ("no primary key column defined for " ++ sel.Table)⟩
      else Wr.text ("((\"" ++ ti.PrimaryCol ++ "\") = ('" ++ val.Val ++ "'))")
    | ExpOp.OpTsQuery =>
      if ti.TSVCol.length = 0 then
        ⟨"", Status.error ("no tsv column defined for " ++ sel.Table)⟩
      else Wr.text ("((\"" ++ ti.TSVCol ++ "\") @@ to_tsquery('" ++ val.Val ++ "'))")
    | o =>
      match opToken o with
      | none => ⟨"", Status.error ("[Where] unexpected op code " ++ Nat.repr o.code)⟩
      | some tok =>
        Wr.text (tok ++ (if val.Typ = ValType.ValList then renderList val else renderVal val vars)
          ++ ")"))

/-- The pushes of `for i := len-1; i >= 0; i-- { Push(Children[i]); if i > 0 { Push(Op) } }`
for the children after the first: each ends up under its operator token. -/
def pushRest (o : ExpOp) : List (Option Exp) → List WItem → List WItem
  | [], st => st
  | c :: cs, st => WItem.op o :: WItem.exp c :: pushRest o cs st

/-- The stack after the pushes for an And or Or node: the first child on top. -/
def pushAndOr (o : ExpOp) : List (Option Exp) → List WItem → List WItem
  | [], st => st
  | c :: cs, st => WItem.exp c :: pushRest o cs st

/-- The loop of `renderWhere`; the head of the list is the top of the stack. -/
def renderWhereLoop (sel : Select) (ti : DBTableInfo) (vars : List (String × String)) :
    Nat → List WItem → Wr
  | _, [] => Wr.text ""
  | 0, _ :: _ => ⟨"", Status.outOfFuel⟩
  | n + 1, WItem.op o :: st =>
    match o with
    | ExpOp.OpAnd => (Wr.text " AND ").andThen (renderWhereLoop sel ti vars n st)
    | ExpOp.OpOr => (Wr.text " OR ").andThen (renderWhereLoop sel ti vars n st)
    | ExpOp.OpNot => (Wr.text "NOT ").andThen (renderWhereLoop sel ti vars n st)
    | _ => ⟨"", Status.error "[Where] unexpected value encountered"⟩
  | _ + 1, WItem.exp none :: _ => ⟨"", Status.panicked "nil pointer dereference"⟩
  | n + 1, WItem.exp (some val) :: st =>
    match val.Op with
    | ExpOp.OpAnd => renderWhereLoop sel ti vars n (pushAndOr ExpOp.OpAnd val.Children st)
    | ExpOp.OpOr => renderWhereLoop sel ti vars n (pushAndOr ExpOp.OpOr val.Children st)
    | ExpOp.OpNot =>
      match val.Children with
      | [] => ⟨"", Status.panicked "index out of range [0] with length 0"⟩
      | c :: _ => renderWhereLoop sel ti vars n (WItem.op ExpOp.OpNot :: WItem.exp c :: st)
    | _ => (renderWhereTerminal sel ti vars val).andThen (renderWhereLoop sel ti vars n st)

mutual
/-- Number of stack entries `renderWhere` pops for an expression (a bound). -/
def expCost : Exp → Nat
  | ⟨_, _, _, _, _, _, _, cs⟩ => 2 + expsCost cs
/-- Sum of `expCost` over a list, plus one operator token per element. -/
def expsCost : List (Option Exp) → Nat
  | [] => 0
  | none :: cs => 2 + expsCost cs
  | some c :: cs => 1 + expCost c + expsCost cs
end

def renderWhere (sel : Select) (ti : DBTableInfo) (vars : List (String × String)) : Wr :=
  match sel.Where with
  | none => Wr.text ""
  | some e => renderWhereLoop sel ti vars (expCost e) [WItem.exp (some e)]

def renderColumns (sel : Select) : String :=
  commaSep (fun col : Column =>
    "\"" ++ scope sel ++ "\".\"" ++ col.Name ++ "\" AS \"" ++ col.FieldName ++ "\"") sel.Cols

/-- The select `v.sel.Joins[childIDs[i]]`; the indices come from ranging over
`Joins`, so the lookup never fails. -/
def joinAt (sel : Select) (i : Nat) : Option Select := sel.Joins[i]?

def renderJoinedColumns (sel : Select) (childIDs : List Nat) : String :=
  (if sel.Cols.length != 0 && childIDs.length != 0 then ", " else "") ++
  commaSep (fun i =>
    match joinAt sel i with
    | some s => "\"" ++ scope s ++ ".join\".\"" ++ s.Table ++ "\" AS \"" ++ s.FieldName ++ "\""
    | none => "") childIDs

def renderOrderByColumns (sel : Select) : String :=
  (if sel.Cols.length != 0 then ", " else "") ++
  commaSep (fun ob : OrderBy =>
    "\"" ++ scope sel ++ "\".\"" ++ ob.Col ++ "\" AS \"" ++ scope sel ++ ".ob." ++ ob.Col ++ "\"")
    sel.OrderBy

/-- The routine `renderJoinTable`; `parent` is `v.parent`, not nil here. -/
def renderJoinTable (schema : DBSchema) (parent sel : Select) : Wr :=
  match schema.RelMap.lookup ⟨sel.Table, parent.Table⟩ with
  | none => ⟨"", Status.panicked "no relationship found"⟩
  | some rel =>
    match rel.Typ with
    | RelType.RelOneToManyThrough =>
      Wr.text (" LEFT OUTER JOIN \"" ++ rel.Through ++ "\" ON ((\"" ++ rel.Through ++ "\".\""
        ++ rel.ColT ++ "\") = (\"" ++ scope parent ++ "\".\"" ++ rel.Col1 ++ "\"))")
    | _ => Wr.text ""

def renderRelationship (schema : DBSchema) (parent sel : Select) : Wr :=
  match schema.RelMap.lookup ⟨sel.Table, parent.Table⟩ with
  | none => ⟨"", Status.panicked "no relationship found"⟩
  | some rel =>
    match rel.Typ with
    | RelType.RelBelongTo | RelType.RelOneToMany =>
      Wr.text ("((\"" ++ sel.Table ++ "\".\"" ++ rel.Col1 ++ "\") = (\"" ++ scope parent
        ++ "\".\"" ++ rel.Col2 ++ "\"))")
    | RelType.RelOneToManyThrough =>
      Wr.text ("((\"" ++ sel.Table ++ "\".\"" ++ rel.Col1 ++ "\") = (\"" ++ rel.Through
        ++ "\".\"" ++ rel.Col2 ++ "\"))")

/-- What the body of the column loop of `renderBaseSelect` found a column to be. -/
inductive ColKind where
  | real | aggregate | other
  deriving DecidableEq, Repr

/-- The select list item written for one requested column (the body of the loop
without the separator), and the kind of the column. -/
def renderBaseCol (sel : Select) (ti : DBTableInfo) (col : Column) : String × ColKind :=
  let cn := col.Name
  if ti.Columns.contains cn then
    ("\"" ++ sel.Table ++ "\".\"" ++ cn ++ "\"", ColKind.real)
  else
    match sel.Args.lookup "search" with
    | some arg =>
      if cn = "search_rank" then
        ("ts_rank(\"" ++ sel.Table ++ "\".\"" ++ ti.TSVCol ++ "\", to_tsquery('" ++ arg.Val
          ++ "')) AS " ++ col.Name, ColKind.other)
      else if HasPrefix cn "search_headline_" then
        ("ts_headline(\"" ++ sel.Table ++ "\".\"" ++ sliceFrom cn 16 ++ "\", to_tsquery('"
          ++ arg.Val ++ "')) AS " ++ col.Name, ColKind.other)
      else ("", ColKind.other)
    | none =>
      let pl := funcPrefixLen cn
      if pl = 0 then ("'" ++ cn ++ " not defined' AS " ++ col.Name, ColKind.other)
      else
        (sliceTo cn (pl - 1) ++ "(\"" ++ sel.Table ++ "\".\"" ++ sliceFrom cn pl ++ "\") AS "
          ++ col.Name, ColKind.aggregate)

/-- The column loop of `renderBaseSelect` from index `i` on: the text written,
the indices appended to `groupBy`, and whether `isAgg` was set.  `more` is
`len(childCols) != 0`. -/
def renderBaseColsFrom (sel : Select) (ti : DBTableInfo) (more : Bool) :
    Nat → List Column → String × List Nat × Bool
  | _, [] => ("", [], false)
  | i, col :: rest =>
    let r := renderBaseCol sel ti col
    let tl := renderBaseColsFrom sel ti more (i + 1) rest
    (r.1 ++ (if !rest.isEmpty || more then ", " else "") ++ tl.1,
      (if r.2 = ColKind.real then i :: tl.2.1 else tl.2.1),
      (r.2 == ColKind.aggregate) || tl.2.2)

/-- The LIMIT and OFFSET clauses, written alike by `renderBaseSelect` and by
`selectBlockClose.render`. -/
def renderPaging (sel : Select) : String :=
  (if sel.Paging.Limit.length != 0 then " LIMIT ('" ++ sel.Paging.Limit ++ "') :: integer"
    else " LIMIT ('20') :: integer") ++
  (if sel.Paging.Offset.length != 0 then " OFFSET ('" ++ sel.Paging.Offset ++ "') :: integer"
    else "")

/-- The FROM clause of the base select, with the table remapping. -/
def renderFrom (c : Compiler) (sel : Select) : String :=
  match c.tmap.lookup sel.Table with
  | some tn => " FROM \"" ++ tn ++ "\" AS \"" ++ sel.Table ++ "\""
  | none => " FROM \"" ++ sel.Table ++ "\""

/-- The WHERE part of `renderBaseSelect`, for the root and for a child. -/
def renderBaseWhere (c : Compiler) (parent : Option Select) (sel : Select) (ti : DBTableInfo) :
    Wr :=
  match parent with
  | none =>
    if sel.Where.isSome then
      (Wr.text " WHERE (").andThen ((renderWhere sel ti c.vars).andThen (Wr.text ")"))
    else Wr.text ""
  | some p =>
    (renderJoinTable c.schema p sel).andThen ((Wr.text " WHERE (").andThen
      ((renderRelationship c.schema p sel).andThen
        ((if sel.Where.isSome then
            (Wr.text " AND ").andThen (renderWhere sel ti c.vars)
          else Wr.text "").andThen (Wr.text ")"))))

/-- The GROUP BY clause of `renderBaseSelect`. -/
def renderGroupBy (sel : Select) (groupBy : List Nat) (isAgg : Bool) : String :=
  if isAgg && groupBy.length != 0 then
    " GROUP BY " ++ commaSep (fun id =>
      match sel.Cols[id]? with
      | some col => "\"" ++ sel.Table ++ "\".\"" ++ col.Name ++ "\""
      | none => "") groupBy
  else ""

def renderBaseSelect (c : Compiler) (parent : Option Select) (sel : Select) (ti : DBTableInfo)
    (childCols : List Column) : Wr :=
  let cols := renderBaseColsFrom sel ti (childCols.length != 0) 0 sel.Cols
  (Wr.text (" FROM (SELECT " ++ cols.1 ++
      commaSep (fun col : Column => "\"" ++ col.Table ++ "\".\"" ++ col.Name ++ "\"") childCols
      ++ renderFrom c sel)).andThen
    ((renderBaseWhere c parent sel ti).andThen
      (Wr.text (renderGroupBy sel cols.2.1 cols.2.2 ++ renderPaging sel ++
        ") AS \"" ++ scope sel ++ "\"")))

/-- The routine `selectBlock.render`. -/
def renderSelect (c : Compiler) (parent : Option Select) (sel : Select) (ti : DBTableInfo)
    (childCols : List Column) (childIDs : List Nat) : Wr :=
  let hasOrder := sel.OrderBy.length != 0
  (if sel.AsList then
      (Wr.text ("SELECT coalesce(json_agg(\"" ++ sel.Table ++ "\"")).andThen
        ((if hasOrder then renderOrderBy sel else Wr.text "").andThen
          (Wr.text ("), '[]') AS \"" ++ sel.Table ++ "\" FROM (")))
    else Wr.text "").andThen
  ((Wr.text ("SELECT " ++ (if sel.DistinctOn.length != 0 then renderDistinctOn sel else "")
      ++ "row_to_json((" ++ "SELECT \"sel_" ++ itoa sel.ID ++ "\" FROM (SELECT "
      ++ renderColumns sel ++ renderJoinedColumns sel childIDs
      ++ ") AS \"sel_" ++ itoa sel.ID ++ "\"" ++ ")) AS \"" ++ sel.Table ++ "\""
      ++ (if hasOrder then renderOrderByColumns sel else ""))).andThen
    (renderBaseSelect c parent sel ti childCols))

/-- The routine `selectBlockClose.render`. -/
def renderSelectClose (sel : Select) : Wr :=
  (if sel.OrderBy.length != 0 then renderOrderBy sel else Wr.text "").andThen
    (Wr.text (renderPaging sel ++
      (if sel.AsList then ") AS \"" ++ scope sel ++ "\"" else "")))

/-- The routine `joinOpen.render`. -/
def renderJoinOpen : String := " LEFT OUTER JOIN LATERAL ("

/-- The routine `joinClose.render`. -/
def renderJoinClose (sel : Select) : String :=
  ") AS \"" ++ scope sel ++ ".join\" ON ('true')"

/-- Entries of the work stack of `Compile`. -/
inductive Item where
  | selectBlock (parent : Option Select) (sel : Select) (ti : DBTableInfo)
  | selectBlockClose (parent : Option Select) (sel : Select)
  | joinOpen (sel : Select)
  | joinClose (sel : Select)
  deriving Repr

/-- `Compile` drops the error a `render` call returns: the loop goes on. -/
def Wr.dropError (a : Wr) : Wr :=
  match a.st with
  | Status.error _ => ⟨a.out, Status.done⟩
  | _ => a

/-- The pushes of `for i := range childIDs` in `Compile`; the loop returns the
error of `getTable` for the first child whose table is unknown. -/
def pushJoins (c : Compiler) (sel : Select) : List Nat → List Item → Except Status (List Item)
  | [], st => Except.ok st
  | i :: rest, st =>
    match joinAt sel i with
    | none => Except.error (Status.panicked "index out of range")
    | some sub =>
      match c.getTable sub with
      | none => Except.error (Status.error ("unknown table " ++ sub.Table))
      | some ti =>
        pushJoins c sel rest (Item.joinOpen sub :: Item.selectBlock (some sel) sub ti ::
          Item.selectBlockClose (some sel) sub :: Item.joinClose sub :: st)

/-- The loop of `Compile`; the head of the list is the top of the stack. -/
def compileLoop (c : Compiler) : Nat → List Item → Wr
  | _, [] => Wr.text ""
  | 0, _ :: _ => ⟨"", Status.outOfFuel⟩
  | n + 1, Item.selectBlock parent sel ti :: st =>
    let cc := c.relationshipColumns sel
    (renderSelect c parent sel ti cc.1 cc.2).dropError.andThen
      (match pushJoins c sel cc.2 st with
      | Except.error e => ⟨"", e⟩
      | Except.ok st1 => compileLoop c n st1)
  | n + 1, Item.selectBlockClose _ sel :: st =>
    (renderSelectClose sel).dropError.andThen (compileLoop c n st)
  | n + 1, Item.joinOpen _ :: st => (Wr.text renderJoinOpen).andThen (compileLoop c n st)
  | n + 1, Item.joinClose sel :: st =>
    (Wr.text (renderJoinClose sel)).andThen (compileLoop c n st)

mutual
/-- Four stack entries for every select of the tree: a bound on the pops of
the loop of `Compile`. -/
def selCost : Select → Nat
  | ⟨_, _, _, _, _, _, _, _, _, _, _, js⟩ => 4 + selsCost js
/-- Sum of `selCost` over a list. -/
def selsCost : List Select → Nat
  | [] => 0
  | s :: ss => selCost s + selsCost ss
end

def Compiler.Compile (c : Compiler) (qc : QCode) : Wr :=
  match qc.Query with
  | none => ⟨"", Status.panicked "nil pointer dereference"⟩
  | some q =>
    match q.Select with
    | none => ⟨"", Status.panicked "nil pointer dereference"⟩
    | some root =>
      match c.getTable root with
      | none => ⟨"", Status.error ("unknown table " ++ root.Table)⟩
      | some ti =>
        (Wr.text ("SELECT json_object_agg('" ++ root.FieldName ++ "', " ++ root.Table
          ++ ") FROM (")).andThen
          ((compileLoop c (selCost root)
              [Item.selectBlock none root ti, Item.selectBlockClose none root]).andThen
            (Wr.text ") AS \"done_1337\";"))

end psql

namespace qcode

open GoStr

/-- Outcome of a compilation routine: a value, a returned error, a Go panic, or
(for the work-list loops of the embedding only) exhausted fuel. -/
inductive Result (α : Type) where
  | ok (a : α)
  | error (msg : String)
  | panicked (msg : String)
  | outOfFuel
  deriving Repr

/-- The English inflection functions `flect.Pluralize` and `flect.Singularize`
of the external library, taken as parameters. -/
structure Inflect where
  Pluralize : String → String
  Singularize : String → String

/-- The compiler state: the compiled `Filter` (possibly nil), the compiled
`FilterMap` and the lower-cased blacklist. -/
structure Compiler where
  fl : Option Exp
  fm : List (String × Option Exp)
  bl : List String
  deriving Repr

/-- The zero value `Exp{}`. -/
def Exp.zero : Exp :=
  ⟨ExpOp.OpNop, "", false, ValType.ValZero, "", ValType.ValZero, [], []⟩

/-- A heap cell for an `Exp` under construction: `kids` are the addresses in
`Children`, in order (the field `Children` of `ex` itself stays empty). -/
structure ExpCell where
  ex : Exp
  kids : List Nat
  deriving Repr

/-- Work-stack entry of `compileArgNode`: the address of the parent expression
(or nil), the node, and the chain `node.Parent, node.Parent.Parent, ...`. -/
structure expT where
  parent : Option Nat
  node : Node
  anc : List Node
  deriving Repr

/-- The `list` that the loop of `setWhereColName` builds from the ancestors. -/
def whereColList (anc : List Node) : List String :=
  anc.foldl (fun list n =>
    if n.Typ ≠ NodeType.nodeObj then list
    else
      let k := ToLower n.Name
      if k = "and" ∨ k = "or" ∨ k = "not" ∨ k = "_and" ∨ k = "_or" ∨ k = "_not" then list
      else if k.length != 0 then k :: list else list) []

def setWhereColName (ex : Exp) (anc : List Node) : Exp :=
  let list := whereColList anc
  if list.length = 1 then { ex with Col := list.headD "" }
  else if list.length > 2 then { ex with Col := Join list ".", NestedCol := true }
  else ex

/-- The `list` that the loop of `setOrderByColName` builds from the node and its
ancestors. -/
def orderByColList (node : Node) (anc : List Node) : List String :=
  (node :: anc).foldl (fun list n =>
    let k := ToLower n.Name
    if k.length != 0 then k :: list else list) []

def setOrderByColName (ob : OrderBy) (node : Node) (anc : List Node) : OrderBy :=
  let list := orderByColList node anc
  if list.length != 0 then { ob with Col := Join list "." } else ob

def setListVal (ex : Exp) (node : Node) : Exp :=
  let ex1 :=
    match node.Children with
    | [] => ex
    | c :: _ =>
      match c.Typ with
      | NodeType.nodeStr => { ex with ListType := ValType.ValStr }
      | NodeType.nodeInt => { ex with ListType := ValType.ValInt }
      | NodeType.nodeBool => { ex with ListType := ValType.ValBool }
      | NodeType.nodeFloat => { ex with ListType := ValType.ValFloat }
      | _ => ex
  { ex1 with ListVal := ex1.ListVal ++ node.Children.map (fun c => c.Val) }

/-- The stack after `pushChildren(st, ex, node)`: the last child ends on top. -/
def pushChildren (st : List expT) (ex : Option Nat) (node : Node) (anc : List Node) :
    List expT :=
  (node.Children.map (fun c => (⟨ex, c, node :: anc⟩ : expT))).reverse ++ st

/-- The operator a (lower-cased, underscore-stripped) name stands for in the
switch of `newExp`, for the comparison operators that copy `node.Val`. -/
def valOp : String → Option ExpOp
  | "eq" | "equals" => some ExpOp.OpEquals
  | "neq" | "not_equals" => some ExpOp.OpNotEquals
  | "gt" | "greater_than" => some ExpOp.OpGreaterThan
  | "lt" | "lesser_than" => some ExpOp.OpLesserThan
  | "gte" | "greater_or_equals" => some ExpOp.OpGreaterOrEquals
  | "lte" | "lesser_or_equals" => some ExpOp.OpLesserOrEquals
  | "like" => some ExpOp.OpLike
  | "nlike" | "not_like" => some ExpOp.OpNotLike
  | "ilike" => some ExpOp.OpILike
  | "nilike" | "not_ilike" => some ExpOp.OpILike
  | "similar" => some ExpOp.OpSimilar
  | "nsimilar" | "not_similar" => some ExpOp.OpNotSimilar
  | "contains" => some ExpOp.OpContains
  | "contained_in" => some ExpOp.OpContainedIn
  | "has_key" => some ExpOp.OpHasKey
  | "has_key_any" => some ExpOp.OpHasKeyAny
  | "has_key_all" => some ExpOp.OpHasKeyAll
  | "is_null" => some ExpOp.OpIsNull
  | _ => none

/-- The tail of `newExp` for a comparison: the value kind and the column. -/
def finishTerminal (ex : Exp) (node : Node) (anc : List Node) : Result Exp :=
  let typ : Option ValType :=
    match node.Typ with
    | NodeType.nodeStr => some ValType.ValStr
    | NodeType.nodeInt => some ValType.ValInt
    | NodeType.nodeBool => some ValType.ValBool
    | NodeType.nodeFloat => some ValType.ValFloat
    | NodeType.nodeList => some ValType.ValList
    | NodeType.nodeVar => some ValType.ValVar
    | NodeType.nodeObj => none
  match typ with
  | none => Result.error "[Where] valid values include string, int, float, boolean and list"
  | some t => Result.ok (setWhereColName { ex with Typ := t } anc)

/-- The routine `newExp`.  `addr` is the address the new expression gets when
one is returned; the result is the expression (nil when the node is skipped)
and the stack after the pushes. -/
def newExp (st : List expT) (addr : Nat) (eT : expT) : Result (Option Exp × List expT) :=
  let node := eT.node
  if node.Name.length = 0 then
    Result.ok (none, pushChildren st eT.parent node eT.anc)
  else
    let name0 := ToLower node.Name
    let name := if name0.data.head? = some '_' then sliceFrom name0 1 else name0
    if name = "and" then
      Result.ok (some { Exp.zero with Op := ExpOp.OpAnd }, pushChildren st (some addr) node eT.anc)
    else if name = "or" then
      Result.ok (some { Exp.zero with Op := ExpOp.OpOr }, pushChildren st (some addr) node eT.anc)
    else if name = "not" then
      match node.Children with
      | [] => Result.panicked "index out of range [0] with length 0"
      | c :: _ =>
        Result.ok (some { Exp.zero with Op := ExpOp.OpNot },
          (⟨some addr, c, node :: eT.anc⟩ : expT) :: st)
    else if name = "in" then
      match finishTerminal (setListVal { Exp.zero with Op := ExpOp.OpIn } node) node eT.anc with
      | Result.ok ex => Result.ok (some ex, st)
      | Result.error e => Result.error e
      | Result.panicked e => Result.panicked e
      | Result.outOfFuel => Result.outOfFuel
    else if name = "nin" ∨ name = "not_in" then
      match finishTerminal (setListVal { Exp.zero with Op := ExpOp.OpNotIn } node) node eT.anc with
      | Result.ok ex => Result.ok (some ex, st)
      | Result.error e => Result.error e
      | Result.panicked e => Result.panicked e
      | Result.outOfFuel => Result.outOfFuel
    else
      match valOp name with
      | some o =>
        match finishTerminal { Exp.zero with Op := o, Val := node.Val } node eT.anc with
        | Result.ok ex => Result.ok (some ex, st)
        | Result.error e => Result.error e
        | Result.panicked e => Result.panicked e
        | Result.outOfFuel => Result.outOfFuel
      | none => Result.ok (none, pushChildren st eT.parent node eT.anc)

/-- Appends `a` to the `Children` of the cell at address `p`. -/
def addKid (heap : List ExpCell) (p a : Nat) : List ExpCell :=
  heap.modify (fun cell => { cell with kids := cell.kids ++ [a] }) p

/-- The loop of `compileArgNode` over the work stack, the heap of expressions
built so far and the current `root`. -/
def compileArgNodeLoop (com : Compiler) :
    Nat → List expT → List ExpCell → Option Nat → Result (List ExpCell × Option Nat)
  | _, [], heap, root => Result.ok (heap, root)
  | 0, _ :: _, _, _ => Result.outOfFuel
  | n + 1, eT :: st, heap, root =>
    if eT.node.Name.length != 0 && com.bl.contains (ToLower eT.node.Name) then
      compileArgNodeLoop com n st heap root
    else
      match newExp st heap.length eT with
      | Result.error e => Result.error e
      | Result.panicked e => Result.panicked e
      | Result.outOfFuel => Result.outOfFuel
      | Result.ok (none, st1) => compileArgNodeLoop com n st1 heap root
      | Result.ok (some ex, st1) =>
        match eT.parent with
        | none => compileArgNodeLoop com n st1 (heap ++ [⟨ex, []⟩]) (some heap.length)
        | some p => compileArgNodeLoop com n st1 (addKid (heap ++ [⟨ex, []⟩]) p heap.length) root

/-- The expression tree at address `a` of a finished heap. -/
def buildExp (heap : List ExpCell) : Nat → Nat → Exp
  | 0, a => (heap[a]?.map (fun cell => cell.ex)).getD Exp.zero
  | n + 1, a =>
    match heap[a]? with
    | none => Exp.zero
    | some cell => { cell.ex with Children := cell.kids.map (fun k => some (buildExp heap n k)) }

mutual
/-- Number of nodes of an argument value. -/
def Node.size : Node → Nat
  | ⟨_, _, _, cs⟩ => 1 + Node.sizeList cs
/-- Number of nodes of a list of argument values. -/
def Node.sizeList : List Node → Nat
  | [] => 0
  | c :: cs => c.size + Node.sizeList cs
end

def Compiler.compileArgNode (com : Compiler) (val : Node) : Result (Option Exp) :=
  match val.Children with
  | [] => Result.panicked "index out of range [0] with length 0"
  | c :: _ =>
    match compileArgNodeLoop com val.size [⟨none, c, [val]⟩] [] none with
    | Result.ok (heap, root) => Result.ok (root.map (buildExp heap heap.length))
    | Result.error e => Result.error e
    | Result.panicked e => Result.panicked e
    | Result.outOfFuel => Result.outOfFuel

def Compiler.compileArgObj (com : Compiler) (arg : Arg) : Result (Option Exp) :=
  if arg.Val.Typ ≠ NodeType.nodeObj then Result.error "expecting an object"
  else com.compileArgNode arg.Val

def Compiler.compileArgID (_com : Compiler) (sel : Select) (arg : Arg) : Select :=
  if (sel.Where.map (fun w => w.Op)) = some ExpOp.OpEqID then sel
  else
    let ex : Exp := { Exp.zero with Op := ExpOp.OpEqID, Val := arg.Val.Val }
    let ex1 : Exp :=
      match arg.Val.Typ with
      | NodeType.nodeStr => { ex with Typ := ValType.ValStr }
      | NodeType.nodeInt => { ex with Typ := ValType.ValInt }
      | NodeType.nodeFloat => { ex with Typ := ValType.ValFloat }
      | _ => ex
    { sel with Where := some ex1 }

/-- The expression `&Exp{Op: OpAnd, Children: []*Exp{a, b}}`. -/
def andPair (a b : Option Exp) : Exp :=
  { Exp.zero with Op := ExpOp.OpAnd, Children := [a, b] }

def Compiler.compileArgSearch (_com : Compiler) (sel : Select) (arg : Arg) : Select :=
  let ex : Exp := { Exp.zero with Op := ExpOp.OpTsQuery, Typ := ValType.ValStr, Val := arg.Val.Val }
  match sel.Where with
  | some w => { sel with Where := some (andPair (some ex) (some w)) }
  | none => { sel with Where := some ex }

def Compiler.compileArgWhere (com : Compiler) (sel : Select) (arg : Arg) : Result Select :=
  match com.compileArgObj arg with
  | Result.error e => Result.error e
  | Result.panicked e => Result.panicked e
  | Result.outOfFuel => Result.outOfFuel
  | Result.ok ex =>
    match sel.Where with
    | some w => Result.ok { sel with Where := some (andPair ex (some w)) }
    | none => Result.ok { sel with Where := ex }

/-- The direction a (lower-cased) value stands for in `compileArgOrderBy`. -/
def orderOf : String → Option Order
  | "asc" => some Order.OrderAsc
  | "desc" => some Order.OrderDesc
  | "asc_nulls_first" => some Order.OrderAscNullsFirst
  | "desc_nulls_first" => some Order.OrderDescNullsFirst
  | "asc_nulls_last" => some Order.OrderAscNullsLast
  | "desc_nulls_last" => some Order.OrderDescNullsLast
  | _ => none

/-- The loop of `compileArgOrderBy`: the stack holds nodes with their ancestor
chains, `obs` is `sel.OrderBy`. -/
def compileArgOrderByLoop (com : Compiler) :
    Nat → List (Node × List Node) → List OrderBy → Result (List OrderBy)
  | _, [], obs => Result.ok obs
  | 0, _ :: _, _ => Result.outOfFuel
  | n + 1, (node, anc) :: st, obs =>
    if com.bl.contains (ToLower node.Name) then compileArgOrderByLoop com n st obs
    else if node.Typ = NodeType.nodeObj then
      compileArgOrderByLoop com n
        ((node.Children.map (fun c => (c, node :: anc))).reverse ++ st) obs
    else
      match orderOf (ToLower node.Val) with
      | none =>
        Result.error "valid values include asc, desc, asc_nulls_first and desc_nulls_first"
      | some o =>
        compileArgOrderByLoop com n st
          (obs ++ [setOrderByColName ⟨"", o⟩ node anc])

def Compiler.compileArgOrderBy (com : Compiler) (sel : Select) (arg : Arg) : Result Select :=
  if arg.Val.Typ ≠ NodeType.nodeObj then Result.error "expecting an object"
  else
    match compileArgOrderByLoop com arg.Val.size
        ((arg.Val.Children.map (fun c => (c, [arg.Val]))).reverse) sel.OrderBy with
    | Result.ok obs => Result.ok { sel with OrderBy := obs }
    | Result.error e => Result.error e
    | Result.panicked e => Result.panicked e
    | Result.outOfFuel => Result.outOfFuel

def Compiler.compileArgDistinctOn (com : Compiler) (sel : Select) (arg : Arg) : Result Select :=
  let node := arg.Val
  if com.bl.contains (ToLower node.Name) then Result.ok sel
  else if node.Typ ≠ NodeType.nodeList ∧ node.Typ ≠ NodeType.nodeStr then
    Result.error "expecting a list of strings or just a string"
  else
    let d1 := if node.Typ = NodeType.nodeStr then sel.DistinctOn ++ [node.Val] else sel.DistinctOn
    Result.ok { sel with DistinctOn := d1 ++ node.Children.map (fun c => c.Val) }

def Compiler.compileArgLimit (_com : Compiler) (sel : Select) (arg : Arg) : Result Select :=
  if arg.Val.Typ ≠ NodeType.nodeInt then Result.error "expecting an integer"
  else Result.ok { sel with Paging := { sel.Paging with Limit := arg.Val.Val } }

def Compiler.compileArgOffset (_com : Compiler) (sel : Select) (arg : Arg) : Result Select :=
  if arg.Val.Typ ≠ NodeType.nodeInt then Result.error "expecting an integer"
  else Result.ok { sel with Paging := { sel.Paging with Offset := arg.Val.Val } }

/-- The switch of `compileArgs` on the lower-cased argument name. -/
def Compiler.compileArg (com : Compiler) (sel : Select) (an : String) (arg : Arg) :
    Result Select :=
  if an = "id" then
    (if sel.ID = 0 then Result.ok (com.compileArgID sel arg) else Result.ok sel)
  else if an = "search" then Result.ok (com.compileArgSearch sel arg)
  else if an = "where" then com.compileArgWhere sel arg
  else if an = "orderby" ∨ an = "order_by" ∨ an = "order" then com.compileArgOrderBy sel arg
  else if an = "distinct_on" ∨ an = "distinct" then com.compileArgDistinctOn sel arg
  else if an = "limit" then com.compileArgLimit sel arg
  else if an = "offset" then com.compileArgOffset sel arg
  else Result.ok sel

/-- The loop of `compileArgs`. -/
def Compiler.compileArgsLoop (com : Compiler) : Select → List (Option Arg) → Result Select
  | sel, [] => Result.ok sel
  | _, none :: _ => Result.error "[Args] unexpected nil argument found"
  | sel, some arg :: rest =>
    let an := ToLower arg.Name
    if (sel.Args.lookup an).isSome then com.compileArgsLoop sel rest
    else
      match com.compileArg sel an arg with
      | Result.ok sel1 => com.compileArgsLoop { sel1 with Args := sel1.Args ++ [(an, arg.Val)] } rest
      | Result.error e => Result.error e
      | Result.panicked e => Result.panicked e
      | Result.outOfFuel => Result.outOfFuel

def Compiler.compileArgs (com : Compiler) (sel : Select) (args : List (Option Arg)) :
    Result Select :=
  com.compileArgsLoop { sel with Args := [] } args

/-- A heap cell for a `Select` under construction: `joins` are the addresses in
`Joins`, in order (the field `Joins` of `sel` itself stays empty). -/
structure Cell where
  sel : Select
  joins : List Nat
  deriving Repr

/-- The variables of the loop of `compileQuery`: the counter `id`, the array
`fs` (addresses, nil where unset), the heap of the selects created so far and
`selRoot`. -/
structure QState where
  id : Int
  fs : List (Option Nat)
  heap : List Cell
  selRoot : Option Nat
  deriving Repr

/-- Increment of an `int16`, with wrap-around. -/
def incr16 (i : Int) : Int := (i + 1 + 32768) % 65536 - 32768

/-- The select created for a field, before its arguments are compiled. -/
def newSelect (inf : Inflect) (id : Int) (field : Field) : Select :=
  let fn := ToLower field.Name
  let tn := inf.Pluralize fn
  let singular := if fn = tn then inf.Singularize fn else fn
  let asList : Bool := fn = tn
  { ID := id, Args := [], AsList := asList, Table := tn, Singular := singular,
    FieldName := if field.Alias.length != 0 then field.Alias
      else if asList then tn else singular,
    Cols := [], Where := none, OrderBy := [], DistinctOn := [],
    Paging := ⟨if asList then "" else "1", ""⟩, Joins := [] }

/-- The column appended for a child field without children. -/
def newColumn (f : Field) : Column :=
  { Table := "", Name := ToLower f.Name,
    FieldName := if f.Alias.length != 0 then f.Alias else f.Name }

/-- The loop `for i := range field.Children` of `compileQuery`: the columns
appended to `s.Cols` and the fields pushed, in push order. -/
def childrenLoop (com : Compiler) : List Field → List Column × List Field
  | [] => ([], [])
  | f :: rest =>
    let tl := childrenLoop com rest
    if com.bl.contains (ToLower f.Name) then tl
    else if f.Children.isEmpty then (newColumn f :: tl.1, tl.2)
    else (tl.1, f :: tl.2)

/-- Appends address `a` to the `Joins` of the cell at address `p`. -/
def addJoin (heap : List Cell) (p a : Nat) : List Cell :=
  heap.modify (fun cell => { cell with joins := cell.joins ++ [a] }) p

/-- The loop of `compileQuery`.  A stack entry is a field with the `ID` of its
`Parent` (nil for a top-level field). -/
def compileQueryLoop (com : Compiler) (inf : Inflect) :
    Nat → List (Field × Option Nat) → QState → Result QState
  | _, [], q => Result.ok q
  | 0, _ :: _, _ => Result.outOfFuel
  | n + 1, (field, parent) :: st, q =>
    if com.bl.contains (ToLower field.Name) then compileQueryLoop com inf n st q
    else
      let s := newSelect inf q.id field
      let a := q.heap.length
      if q.fs.length ≤ field.ID then Result.panicked "index out of range"
      else
        match com.compileArgs s field.Args with
        | Result.error e => Result.error e
        | Result.panicked e => Result.panicked e
        | Result.outOfFuel => Result.outOfFuel
        | Result.ok s1 =>
          let ch := childrenLoop com field.Children
          let s2 : Select := { s1 with Cols := s1.Cols ++ ch.1 }
          let st1 := (ch.2.map (fun f => (f, some field.ID))).reverse ++ st
          let fs1 := q.fs.set field.ID (some a)
          let heap1 := q.heap ++ [⟨s2, []⟩]
          match parent with
          | none => compileQueryLoop com inf n st1 ⟨incr16 q.id, fs1, heap1, some a⟩
          | some pid =>
            match fs1[pid]? with
            | none => Result.panicked "index out of range"
            | some none => Result.panicked "nil pointer dereference"
            | some (some pa) =>
              compileQueryLoop com inf n st1 ⟨incr16 q.id, fs1, addJoin heap1 pa a, q.selRoot⟩

/-- The select tree at address `a` of a finished heap. -/
def buildSelect (heap : List Cell) : Nat → Nat → Option Select
  | 0, _ => none
  | n + 1, a =>
    match heap[a]? with
    | none => none
    | some cell => some { cell.sel with Joins := cell.joins.filterMap (buildSelect heap n) }

mutual
/-- Number of fields of a selection tree. -/
def Field.size : Field → Nat
  | ⟨_, _, _, _, cs⟩ => 1 + Field.sizeList cs
/-- Number of fields of a list of selection trees. -/
def Field.sizeList : List Field → Nat
  | [] => 0
  | c :: cs => c.size + Field.sizeList cs
end

/-- The effective filter of `compileQuery` for a root table: the `FilterMap`
entry when there is one, else `Filter`. -/
def Compiler.filterFor (com : Compiler) (table : String) : Option Exp :=
  match com.fm.lookup table with
  | some fil => fil
  | none => com.fl

/-- The last step of `compileQuery`: the effective filter is And-ed into the
Where of the root. -/
def applyFilter (fil : Option Exp) (w : Option Exp) : Option Exp :=
  match fil with
  | none => w
  | some f =>
    if f.Op ≠ ExpOp.OpNop then
      match w with
      | some w1 => some (andPair (some f) (some w1))
      | none => some f
    else w

/-- The walk of `compileQuery`: the state when the work stack is empty. -/
def Compiler.compileQueryWalk (com : Compiler) (inf : Inflect) (op : Operation) :
    Result QState :=
  compileQueryLoop com inf (Field.sizeList op.Fields)
    ((op.Fields.map (fun f => (f, (none : Option Nat)))).reverse)
    ⟨0, List.replicate op.FieldLen none, [], none⟩

def Compiler.compileQuery (com : Compiler) (inf : Inflect) (op : Operation) : Result Query :=
  match com.compileQueryWalk inf op with
  | Result.error e => Result.error e
  | Result.panicked e => Result.panicked e
  | Result.outOfFuel => Result.outOfFuel
  | Result.ok q =>
    match q.selRoot.bind (buildSelect q.heap q.heap.length) with
    | none => Result.panicked "nil pointer dereference"
    | some root =>
      Result.ok ⟨some { root with Where := applyFilter (com.filterFor root.Table) root.Where }⟩

/-- The routine `CompileQuery`; the parser is external and taken as a
parameter. -/
def Compiler.CompileQuery (com : Compiler) (inf : Inflect)
    (ParseQuery : String → Result Operation) (query : String) : Result QCode :=
  match ParseQuery query with
  | Result.error e => Result.error e
  | Result.panicked e => Result.panicked e
  | Result.outOfFuel => Result.outOfFuel
  | Result.ok op =>
    match op.Typ with
    | OpType.opQuery =>
      match com.compileQuery inf op with
      | Result.ok q => Result.ok ⟨some q⟩
      | Result.error e => Result.error e
      | Result.panicked e => Result.panicked e
      | Result.outOfFuel => Result.outOfFuel
    | OpType.opMutate => Result.ok ⟨none⟩
    | OpType.opSub => Result.ok ⟨none⟩
    | OpType.opOther => Result.error "Unknown operation type"

/-- The routine `compileFilter`; it compiles with an empty `Compiler`, hence
with an empty blacklist.  The parser is external and taken as a parameter. -/
def compileFilter (ParseArgValue : String → Result Node) : List String → Result (Option Exp)
  | [] => Result.ok (some { Exp.zero with Op := ExpOp.OpNop })
  | filter =>
    filter.foldl (fun acc f =>
      match acc with
      | Result.ok fl =>
        match ParseArgValue f with
        | Result.ok node =>
          match (⟨none, [], []⟩ : Compiler).compileArgNode node with
          | Result.ok ex =>
            (match fl with
            | none => Result.ok ex
            | some fl1 => Result.ok (some (andPair (some fl1) ex)))
          | r => r
        | Result.error e => Result.error e
        | Result.panicked e => Result.panicked e
        | Result.outOfFuel => Result.outOfFuel
      | r => r) (Result.ok none)

end qcode

/-! ## Concrete inputs used by the evaluations below -/

namespace Examples

open qcode psql

/-- A stand-in for the inflection library on the names used below: a name
ending in `s` is a plural. -/
def inflect : Inflect :=
  { Pluralize := fun s => if s.data.getLast? = some 's' then s else s ++ "s",
    Singularize := fun s => if s.data.getLast? = some 's' then ⟨s.data.dropLast⟩ else s }

/-- A catalog with four tables; `logs` has neither primary key nor tsvector
column. -/
def schema : DBSchema :=
  { Tables := [("users", ⟨"users", "id", "", ["id", "name", "email"]⟩),
               ("posts", ⟨"posts", "id", "tsv", ["id", "title", "user_id"]⟩),
               ("tags", ⟨"tags", "id", "", ["id", "label"]⟩),
               ("logs", ⟨"logs", "", "", ["line"]⟩)],
    RelMap := [(⟨"users", "posts"⟩, ⟨RelType.RelBelongTo, "", "", "id", "user_id"⟩),
               (⟨"posts", "users"⟩, ⟨RelType.RelOneToMany, "", "", "user_id", "id"⟩),
               (⟨"tags", "posts"⟩,
                 ⟨RelType.RelOneToManyThrough, "taggings", "post_id", "id", "tag_id"⟩)] }

def sqlc : psql.Compiler := ⟨schema, [], []⟩

/-- A select with the given identity, columns, filter and children, and
nothing else set. -/
def sel (id : Int) (table field : String) (asList : Bool) (cols : List String)
    (w : Option Exp) (joins : List Select) : Select :=
  { ID := id, Args := [], AsList := asList, Table := table, Singular := field,
    FieldName := field, Cols := cols.map (fun c => ⟨"", c, c⟩), Where := w, OrderBy := [],
    DistinctOn := [], Paging := ⟨if asList then "" else "1", ""⟩, Joins := joins }

/-- The filter `EqID` with value `5`, as `compileArgID` builds it for `id: 5`. -/
def eqID5 : Exp := { Exp.zero with Op := ExpOp.OpEqID, Typ := ValType.ValInt, Val := "5" }

/-- The QCode of `{ log(id: 5) { line } }`: an `EqID` filter on a table without
primary key. -/
def qcLogByID : QCode := ⟨some ⟨some (sel 0 "logs" "log" false ["line"] (some eqID5) [])⟩⟩

/-- A filter `Not` without child: what `compileArgNode` leaves of
`where: { not: { password: { eq: "x" } } }` when `password` is blacklisted. -/
def notEmpty : Exp := { Exp.zero with Op := ExpOp.OpNot }

/-- The QCode of `{ users(where: { not: { password: { eq: "x" } } }) { name } }`
under a blacklist with `password`. -/
def qcNotEmpty : QCode := ⟨some ⟨some (sel 0 "users" "users" true ["name"] (some notEmpty) [])⟩⟩

/-- The select of `{ posts { id title user { id name } tags { label } } }`; the
children are in the order `compileQuery` leaves them in. -/
def postsSel : Select :=
  sel 0 "posts" "posts" true ["id", "title"] none
    [sel 1 "tags" "tags" true ["label"] none [],
     sel 2 "users" "user" false ["id", "name"] none []]

/-- The select of `{ users { name logs { line } } }`: the catalog has no
relationship `(logs, users)`. -/
def usersWithLogs : Select :=
  sel 0 "users" "users" true ["name"] none [sel 1 "logs" "logs" true ["line"] none []]

/-- The child `user` of `postsSel`. -/
def userSel : Select := sel 2 "users" "user" false ["id", "name"] none []

/-- The child `tags` of `postsSel`. -/
def tagsSel : Select := sel 1 "tags" "tags" true ["label"] none []

/-- A field without arguments and children. -/
def leaf (id : Nat) (name : String) : Field := ⟨id, name, "", [], []⟩

/-- A compiler without filters whose blacklist is that of the configuration
`Blacklist: ["Password"]`. -/
def com : qcode.Compiler := ⟨some { Exp.zero with Op := ExpOp.OpNop }, [], ["password"]⟩

/-- The operation `{ users(id: 5) { name } posts { title } }`. -/
def opTwoFields : Operation :=
  ⟨OpType.opQuery,
    [⟨0, "users", "", [some ⟨"id", ⟨NodeType.nodeInt, "", "5", []⟩⟩], [leaf 1 "name"]⟩,
     ⟨2, "posts", "", [], [leaf 3 "title"]⟩], 4⟩

/-- The operation `{ users(id: 5) { name } }`. -/
def opOneField : Operation :=
  ⟨OpType.opQuery,
    [⟨0, "users", "", [some ⟨"id", ⟨NodeType.nodeInt, "", "5", []⟩⟩], [leaf 1 "name"]⟩], 2⟩

/-- The operation `{ users(distinct_on: "password") { name } }`. -/
def opDistinct : Operation :=
  ⟨OpType.opQuery,
    [⟨0, "users", "", [some ⟨"distinct_on", ⟨NodeType.nodeStr, "", "password", []⟩⟩],
      [leaf 1 "name"]⟩], 2⟩

/-- The filter `{ account_id: { eq: 7 } }`, compiled. -/
def accountFilter : Exp :=
  { Exp.zero with Op := ExpOp.OpEquals, Col := "account_id", Typ := ValType.ValInt, Val := "7" }

/-- A compiler whose `Filter` is `accountFilter`, with an empty `FilterMap` and
an empty blacklist. -/
def comFiltered : qcode.Compiler := ⟨some accountFilter, [], []⟩

/-- The root that `compileQuery` builds for `{ users(id: 5) { name } }` under
`comFiltered`. -/
def filteredRoot : Select :=
  { ID := 0, Args := [("id", ⟨NodeType.nodeInt, "", "5", []⟩)], AsList := true,
    Table := "users", Singular := "user", FieldName := "users",
    Cols := [⟨"", "name", "name"⟩],
    Where := some (andPair (some accountFilter) (some eqID5)),
    OrderBy := [], DistinctOn := [], Paging := ⟨"", ""⟩, Joins := [] }

/-- The operation `{ users { name Password secrets { key } } }`. -/
def opBlacklisted : Operation :=
  ⟨OpType.opQuery,
    [⟨0, "users", "", [], [leaf 1 "name", leaf 2 "Password",
      ⟨3, "secrets", "", [], [leaf 4 "key"]⟩]⟩], 5⟩

/-- A compiler whose blacklist is that of `Blacklist: ["Password", "Secrets"]`. -/
def comBlacklist : qcode.Compiler :=
  ⟨some { Exp.zero with Op := ExpOp.OpNop }, [], ["password", "secrets"]⟩

/-- The root that `compileQuery` builds for `opBlacklisted` under
`comBlacklist`. -/
def blacklistedRoot : Select :=
  { ID := 0, Args := [], AsList := true, Table := "users", Singular := "user",
    FieldName := "users", Cols := [⟨"", "name", "name"⟩], Where := none,
    OrderBy := [], DistinctOn := [], Paging := ⟨"", ""⟩, Joins := [] }

end Examples

/-! ## Reference renderings

Recursive descriptions of what the two work-list loops of the SQL compiler
write; the loops are proved equal to them below. -/

namespace psql

open qcode GoStr

/-- The token written when an operator entry is popped by `renderWhere`. -/
def serToken (o : ExpOp) : Wr :=
  match o with
  | ExpOp.OpAnd => Wr.text " AND "
  | ExpOp.OpOr => Wr.text " OR "
  | ExpOp.OpNot => Wr.text "NOT "
  | _ => ⟨"", Status.error "[Where] unexpected value encountered"⟩

mutual
/-- Recursive serialisation of an expression: what `renderWhere` writes from
the moment the expression is popped until the stack is back to what was below
it. -/
def serExp (sel : Select) (ti : DBTableInfo) (vars : List (String × String)) : Exp → Wr
  | ⟨op, col, nested, typ, val, lt, lv, cs⟩ =>
    match op with
    | ExpOp.OpAnd =>
      (match cs with
      | [] => Wr.text ""
      | none :: _ => ⟨"", Status.panicked "nil pointer dereference"⟩
      | some e :: rest => (serExp sel ti vars e).andThen (serRest sel ti vars ExpOp.OpAnd rest))
    | ExpOp.OpOr =>
      (match cs with
      | [] => Wr.text ""
      | none :: _ => ⟨"", Status.panicked "nil pointer dereference"⟩
      | some e :: rest => (serExp sel ti vars e).andThen (serRest sel ti vars ExpOp.OpOr rest))
    | ExpOp.OpNot =>
      (match cs with
      | [] => ⟨"", Status.panicked "index out of range [0] with length 0"⟩
      | none :: _ => (Wr.text "NOT ").andThen ⟨"", Status.panicked "nil pointer dereference"⟩
      | some e :: _ => (Wr.text "NOT ").andThen (serExp sel ti vars e))
    | _ => renderWhereTerminal sel ti vars ⟨op, col, nested, typ, val, lt, lv, cs⟩
/-- Serialisation of the children after the first: each preceded by the
operator token. -/
def serRest (sel : Select) (ti : DBTableInfo) (vars : List (String × String)) (o : ExpOp) :
    List (Option Exp) → Wr
  | [] => Wr.text ""
  | none :: _ => (serToken o).andThen ⟨"", Status.panicked "nil pointer dereference"⟩
  | some e :: rest =>
    (serToken o).andThen ((serExp sel ti vars e).andThen (serRest sel ti vars o rest))
end

end psql

namespace psql

open qcode GoStr

/-- Whether the relationship key `(sub.Table, parent.Table)` is in `RelMap`. -/
def resolves (c : Compiler) (parent sub : Select) : Bool :=
  (c.schema.RelMap.lookup ⟨sub.Table, parent.Table⟩).isSome

/-- The children of a select that `relationshipColumns` records in `childIDs`,
in the order of `Joins`: those whose relationship resolves. -/
def emitted (c : Compiler) (parent : Select) : List Select :=
  parent.Joins.filter (resolves c parent)

/-- The first select of a list whose table `getTable` does not find. -/
def firstUnknown (c : Compiler) : List Select → Option Select
  | [] => none
  | j :: js =>
    match c.getTable j with
    | none => some j
    | some _ => firstUnknown c js

/-- The four stack entries pushed for one child. -/
def joinItem (c : Compiler) (p j : Select) : List Item :=
  match c.getTable j with
  | some ti =>
    [Item.joinOpen j, Item.selectBlock (some p) j ti, Item.selectBlockClose (some p) j,
      Item.joinClose j]
  | none => []

/-- The stack segment left by the pushes for a list of children: the entries
of the last child are on top. -/
def joinItems (c : Compiler) (p : Select) : List Select → List Item
  | [] => []
  | j :: l => joinItems c p l ++ joinItem c p j

mutual
/-- Recursive description of what `Compile` writes for a select, from its select
block to its select close, with how it ends. -/
def emitSel (c : Compiler) (parent : Option Select) (ti : DBTableInfo) : Select → Wr
  | ⟨id, args, asList, table, singular, fieldName, cols, wh, ob, dist, paging, js⟩ =>
    let sel : Select := ⟨id, args, asList, table, singular, fieldName, cols, wh, ob, dist, paging, js⟩
    let cc := c.relationshipColumns sel
    (renderSelect c parent sel ti cc.1 cc.2).dropError.andThen
      (match firstUnknown c (emitted c sel) with
      | some j => ⟨"", Status.error ("unknown table " ++ j.Table)⟩
      | none => (emitJoins c sel js).andThen (renderSelectClose sel).dropError)
/-- What `Compile` writes for the children of `p` among `js`: the lateral join
of every child whose relationship resolves, the last child of the list first. -/
def emitJoins (c : Compiler) (p : Select) : List Select → Wr
  | [] => Wr.text ""
  | j :: js =>
    (emitJoins c p js).andThen
      (if resolves c p j then
        match c.getTable j with
        | some ti =>
          (Wr.text renderJoinOpen).andThen
            ((emitSel c (some p) ti j).andThen (Wr.text (renderJoinClose j)))
        | none => Wr.text ""
      else Wr.text "")
end

end psql

namespace psql

open qcode GoStr

mutual
/-- The arity condition under which `renderWhere` does not panic: no child
pointer of an And or Or is nil, and every Not has a first child that is not
nil. -/
def expSafe : Exp → Bool
  | ⟨op, _, _, _, _, _, _, cs⟩ =>
    match op with
    | ExpOp.OpAnd => expsSafe cs
    | ExpOp.OpOr => expsSafe cs
    | ExpOp.OpNot =>
      (match cs with
      | some e :: _ => expSafe e
      | _ => false)
    | _ => true
/-- The condition `expSafe` for every child of a list, none of them nil. -/
def expsSafe : List (Option Exp) → Bool
  | [] => true
  | none :: _ => false
  | some e :: rest => expSafe e && expsSafe rest
end

/-- The condition `expSafe` for an optional filter. -/
def whereSafe (w : Option Exp) : Bool :=
  match w with
  | none => true
  | some e => expSafe e

mutual
/-- The precondition of the emission of a select: its table is known, its
filter meets `expSafe`, and so do all children that are emitted. -/
def emitOK (c : Compiler) : Select → Bool
  | ⟨id, args, asList, table, singular, fieldName, cols, wh, ob, dist, paging, js⟩ =>
    (c.getTable ⟨id, args, asList, table, singular, fieldName, cols, wh, ob, dist, paging, js⟩).isSome
      && whereSafe wh
      && emitOKs c ⟨id, args, asList, table, singular, fieldName, cols, wh, ob, dist, paging, js⟩ js
/-- The condition `emitOK` for the children of `p` among `js` whose relationship
resolves. -/
def emitOKs (c : Compiler) (p : Select) : List Select → Bool
  | [] => true
  | j :: js => (if resolves c p j then emitOK c j else true) && emitOKs c p js
end

/-- The text of the select block of `sel`: what `selectBlock.render` writes. -/
def blockText (c : Compiler) (parent : Option Select) (sel : Select) : String :=
  match c.getTable sel with
  | some ti =>
    (renderSelect c parent sel ti (c.relationshipColumns sel).1 (c.relationshipColumns sel).2).out
  | none => ""

/-- The text of the select close of `sel`: what `selectBlockClose.render`
writes. -/
def closeText (sel : Select) : String := (renderSelectClose sel).out

mutual
/-- The text emitted for a select: its block, the joins of its children, its
close. -/
def selText (c : Compiler) (parent : Option Select) : Select → String
  | ⟨id, args, asList, table, singular, fieldName, cols, wh, ob, dist, paging, js⟩ =>
    blockText c parent
        ⟨id, args, asList, table, singular, fieldName, cols, wh, ob, dist, paging, js⟩ ++
      joinsText c ⟨id, args, asList, table, singular, fieldName, cols, wh, ob, dist, paging, js⟩
        js ++
      closeText ⟨id, args, asList, table, singular, fieldName, cols, wh, ob, dist, paging, js⟩
/-- The join emissions of the children of `p` among `js`: for every child whose
relationship resolves the lateral join around its text, the last child first. -/
def joinsText (c : Compiler) (p : Select) : List Select → String
  | [] => ""
  | j :: js =>
    joinsText c p js ++
      (if resolves c p j then renderJoinOpen ++ selText c (some p) j ++ renderJoinClose j
        else "")
end

/-- The lateral join emitted for the child `j` of `p`. -/
def joinText (c : Compiler) (p j : Select) : String :=
  renderJoinOpen ++ blockText c (some p) j ++ joinsText c j j.Joins ++ closeText j
    ++ renderJoinClose j

/-- The selects for which `Compile` emits a block, each with the parent it is
emitted under: the root, and every child of an emitted select whose
relationship to it resolves. -/
inductive Emits (c : Compiler) (root : Select) : Option Select → Select → Prop where
  | root : Emits c root none root
  | child (par : Option Select) (p j : Select) :
    Emits c root par p → j ∈ emitted c p → Emits c root (some p) j

end psql

namespace psql

/-- A routine ended without panic and within its fuel: normally, or with a
returned error. -/
def Wr.calm (w : Wr) : Prop := w.st = Status.done ∨ ∃ m, w.st = Status.error m

open qcode in
/-- The parent a select is emitted under: none for the root, else a select to
which its relationship resolves. -/
def parentOK (c : Compiler) (parent : Option Select) (sel : Select) : Prop :=
  ∀ p, parent = some p → resolves c p sel = true

end psql

namespace psql

open qcode GoStr

/-- The select `s` with another list of children. -/
def withJoins (s : Select) (js : List Select) : Select := { s with Joins := js }

mutual
/-- The select without the children whose relationship to their parent does
not resolve, at every level below it. -/
def prune (c : Compiler) : Select → Select
  | ⟨id, args, asList, table, singular, fieldName, cols, wh, ob, dist, paging, js⟩ =>
    ⟨id, args, asList, table, singular, fieldName, cols, wh, ob, dist, paging,
      pruneList c table js⟩
/-- The children of a select with table `ptable` whose relationship resolves,
each pruned in turn. -/
def pruneList (c : Compiler) (ptable : String) : List Select → List Select
  | [] => []
  | j :: js =>
    if (c.schema.RelMap.lookup ⟨j.Table, ptable⟩).isSome then
      prune c j :: pruneList c ptable js
    else pruneList c ptable js
end

/-- The item that `renderJoinedColumns` writes for an emitted child. -/
def joinedColumn (s : Select) : String :=
  "\"" ++ scope s ++ ".join\".\"" ++ s.Table ++ "\" AS \"" ++ s.FieldName ++ "\""

/-- The column that `relationshipColumns` appends for one child. -/
def childColumn (c : Compiler) (parent : Select) (colmap : List String) (sub : Select) :
    List Column :=
  match c.schema.RelMap.lookup ⟨sub.Table, parent.Table⟩ with
  | none => []
  | some rel =>
    match rel.Typ with
    | RelType.RelBelongTo | RelType.RelOneToMany =>
      if colmap.contains rel.Col2 then [] else [⟨parent.Table, rel.Col2, rel.Col2⟩]
    | RelType.RelOneToManyThrough =>
      if colmap.contains rel.Col1 then [] else [⟨parent.Table, rel.Col1, rel.Col1⟩]

end psql

namespace qcode

open GoStr

/-- The value of a result that is one, for inspection. -/
def Result.toOption {α : Type} : Result α → Option α
  | Result.ok a => some a
  | _ => none

/-- The root select of the result of `compileQuery`. -/
def Result.root (r : Result Query) : Option Select :=
  r.toOption.bind (fun q => q.Select)

/-- The configuration of the compiler. -/
structure Config where
  Filter : List String
  FilterMap : List (String × List String)
  Blacklist : List String

/-- The loop of `NewCompiler` over `FilterMap`. -/
def compileFilterMap (ParseArgValue : String → Result Node) :
    List (String × List String) → Result (List (String × Option Exp))
  | [] => Result.ok []
  | (k, v) :: rest =>
    match compileFilter ParseArgValue v with
    | Result.ok fil =>
      (match compileFilterMap ParseArgValue rest with
      | Result.ok fm => Result.ok ((ToLower k, fil) :: fm)
      | Result.error e => Result.error e
      | Result.panicked e => Result.panicked e
      | Result.outOfFuel => Result.outOfFuel)
    | Result.error e => Result.error e
    | Result.panicked e => Result.panicked e
    | Result.outOfFuel => Result.outOfFuel

/-- The routine `NewCompiler`: the blacklist is stored lower-cased. -/
def NewCompiler (ParseArgValue : String → Result Node) (conf : Config) : Result Compiler :=
  match compileFilter ParseArgValue conf.Filter with
  | Result.ok fl =>
    (match compileFilterMap ParseArgValue conf.FilterMap with
    | Result.ok fm => Result.ok ⟨fl, fm, conf.Blacklist.map ToLower⟩
    | Result.error e => Result.error e
    | Result.panicked e => Result.panicked e
    | Result.outOfFuel => Result.outOfFuel)
  | Result.error e => Result.error e
  | Result.panicked e => Result.panicked e
  | Result.outOfFuel => Result.outOfFuel

end qcode

namespace qcode

open GoStr

/-- The fields of an operation that are not blacklisted and have no
blacklisted ancestor. -/
inductive Live (com : Compiler) (op : Operation) : Field → Prop where
  | top (f : Field) :
    f ∈ op.Fields → com.bl.contains (ToLower f.Name) = false → Live com op f
  | child (p f : Field) :
    Live com op p → f ∈ p.Children → com.bl.contains (ToLower f.Name) = false → Live com op f

/-- The select that `compileQuery` creates for a field, as it stands in the
heap: the new select after `compileArgs`, with the columns of the children
loop. -/
def cellFrom (com : Compiler) (inf : Inflect) (f : Field) (s : Select) : Prop :=
  ∃ id s1, com.compileArgs (newSelect inf id f) f.Args = Result.ok s1 ∧
    s = { s1 with Cols := s1.Cols ++ (childrenLoop com f.Children).1 }

/-- A select of the finished QCode was created from the field `f`: it agrees
with the select created for `f` in all but its children and its filter. -/
def builtFrom (com : Compiler) (inf : Inflect) (f : Field) (s : Select) : Prop :=
  ∃ s0, cellFrom com inf f s0 ∧ s.ID = s0.ID ∧ s.Args = s0.Args ∧ s.AsList = s0.AsList ∧
    s.Table = s0.Table ∧ s.Singular = s0.Singular ∧ s.FieldName = s0.FieldName ∧
    s.Cols = s0.Cols ∧ s.OrderBy = s0.OrderBy ∧ s.DistinctOn = s0.DistinctOn ∧
    s.Paging = s0.Paging

mutual
/-- All selects of a tree: the select and the selects below it. -/
def Select.subs : Select → List Select
  | ⟨id, args, asList, table, singular, fieldName, cols, wh, ob, dist, paging, js⟩ =>
    ⟨id, args, asList, table, singular, fieldName, cols, wh, ob, dist, paging, js⟩ ::
      Select.subsList js
/-- All selects of a list of trees. -/
def Select.subsList : List Select → List Select
  | [] => []
  | j :: js => j.subs ++ Select.subsList js
end

end qcode

namespace qcode

/-- The fields of a select that the argument compilers never assign. -/
def sameCore (a b : Select) : Prop :=
  a.ID = b.ID ∧ a.AsList = b.AsList ∧ a.Table = b.Table ∧ a.Singular = b.Singular ∧
    a.FieldName = b.FieldName ∧ a.Cols = b.Cols ∧ a.Joins = b.Joins

end qcode

namespace psql

open qcode GoStr

/-- A routine ended normally and its text takes the nesting depth from `a` to
`b`. -/
def WSteps (a b : Nat) (w : Wr) : Prop := w.st = Status.done ∧ Steps a b w.out

/-- The names of a relationship have no parenthesis and no semicolon. -/
def plainRel (r : DBRel) : Bool :=
  plain r.Through && plain r.ColT && plain r.Col1 && plain r.Col2

/-- The names of the schema, the table map and the values of the variables
have no parenthesis and no semicolon. -/
def plainCompiler (c : Compiler) : Bool :=
  c.schema.Tables.all (fun e => plain e.2.PrimaryCol && plain e.2.TSVCol) &&
    c.schema.RelMap.all (fun e => plainRel e.2) &&
    c.vars.all (fun e => plain e.2) &&
    c.tmap.all (fun e => plain e.2)

mutual
/-- The condition under which `renderWhere` serialises an expression without
error: the IR invariants (a comparison has a column, `EqID` and `TsQuery` have
none and their table has the column they read, no `Nop`, a first child under
`Not`, no nil child), with names and values free of parentheses and
semicolons. -/
def expStrict (ti : DBTableInfo) : Exp → Bool
  | ⟨op, col, nested, _, val, _, lv, cs⟩ =>
    match op with
    | ExpOp.OpAnd => expsStrict ti cs
    | ExpOp.OpOr => expsStrict ti cs
    | ExpOp.OpNot =>
      (match cs with
      | some e :: _ => expStrict ti e
      | _ => false)
    | ExpOp.OpNop => false
    | ExpOp.OpEqID =>
      !nested && col.length == 0 && ti.PrimaryCol.length != 0 && plain val
    | ExpOp.OpTsQuery =>
      !nested && col.length == 0 && ti.TSVCol.length != 0 && plain val
    | _ => (nested || col.length != 0) && plain col && plain val && lv.all plain
/-- The condition `expStrict` for every child of a list, none of them nil. -/
def expsStrict (ti : DBTableInfo) : List (Option Exp) → Bool
  | [] => true
  | none :: _ => false
  | some e :: rest => expStrict ti e && expsStrict ti rest
end

/-- The condition of `selStrict` on the select itself, for its table `ti`. -/
def headStrict (ti : DBTableInfo) (sel : Select) : Bool :=
  plain sel.Table && plain sel.FieldName && plain sel.Paging.Limit && plain sel.Paging.Offset &&
    sel.Cols.all (fun col => plain col.Name && plain col.FieldName) &&
    sel.OrderBy.all (fun ob => plain ob.Col && ob.Order != Order.OrderZero) &&
    sel.DistinctOn.all plain &&
    (match sel.Args.lookup "search" with
    | some arg => plain arg.Val
    | none => true) &&
    (match sel.Where with
    | some e => expStrict ti e
    | none => true)

mutual
/-- The precondition of a well-formed statement: for the select and every
emitted child, the table is known, names and literal values have no
parenthesis and no semicolon, the ordering directions are among the six, and
the filter meets `expStrict`. -/
def selStrict (c : Compiler) : Select → Bool
  | ⟨id, args, asList, table, singular, fieldName, cols, wh, ob, dist, paging, js⟩ =>
    (match c.getTable
        ⟨id, args, asList, table, singular, fieldName, cols, wh, ob, dist, paging, js⟩ with
    | some ti =>
      headStrict ti ⟨id, args, asList, table, singular, fieldName, cols, wh, ob, dist, paging, js⟩
    | none => false) &&
    selsStrict c ⟨id, args, asList, table, singular, fieldName, cols, wh, ob, dist, paging, js⟩ js
/-- The condition `selStrict` for the children of `p` among `js` whose
relationship resolves. -/
def selsStrict (c : Compiler) (p : Select) : List Select → Bool
  | [] => true
  | j :: js => (if resolves c p j then selStrict c j else true) && selsStrict c p js
end

end psql

namespace Examples

open qcode psql

/-- The operation `{ users(where: { profile: { age: { eq: 1 } } }) { id } }`:
the comparison sits under a path of two names. -/
def opTwoSegment : Operation :=
  ⟨OpType.opQuery,
    [⟨0, "users", "", [some ⟨"where", ⟨NodeType.nodeObj, "", "",
        [⟨NodeType.nodeObj, "profile", "",
          [⟨NodeType.nodeObj, "age", "", [⟨NodeType.nodeInt, "eq", "1", []⟩]⟩]⟩]⟩⟩],
      [leaf 1 "id"]⟩], 2⟩

/-- The root that `compileQuery` builds for `opTwoSegment` under `com`:
`setWhereColName` sets no column for a path of two names. -/
def twoSegmentRoot : Select :=
  { ID := 0,
    Args := [("where", ⟨NodeType.nodeObj, "", "",
        [⟨NodeType.nodeObj, "profile", "",
          [⟨NodeType.nodeObj, "age", "", [⟨NodeType.nodeInt, "eq", "1", []⟩]⟩]⟩]⟩)],
    AsList := true, Table := "users", Singular := "user", FieldName := "users",
    Cols := [⟨"", "id", "id"⟩],
    Where := some { Exp.zero with Op := ExpOp.OpEquals, Typ := ValType.ValInt, Val := "1" },
    OrderBy := [], DistinctOn := [], Paging := ⟨"", ""⟩, Joins := [] }

end Examples

namespace Examples

open qcode psql

/-- The operation `{ secrets { key } }`; `secrets` is on the blacklist of
`comBlacklist`. -/
def opSecrets : Operation :=
  ⟨OpType.opQuery, [⟨0, "secrets", "", [], [leaf 1 "key"]⟩], 2⟩

/-- A select of `users` with one `OrderBy` entry for each direction: `name` asc,
`id` desc, `a` asc_nulls_first, `b` desc_nulls_first, `c` asc_nulls_last, `d`
desc_nulls_last. -/
def orderedSel : Select :=
  { sel 0 "users" "users" true ["name"] none [] with
    OrderBy := [⟨"name", Order.OrderAsc⟩, ⟨"id", Order.OrderDesc⟩,
      ⟨"a", Order.OrderAscNullsFirst⟩, ⟨"b", Order.OrderDescNullsFirst⟩,
      ⟨"c", Order.OrderAscNullsLast⟩, ⟨"d", Order.OrderDescNullsLast⟩] }

/-- A table `T` with the columns `id` and `name`. -/
def tiT : DBTableInfo := ⟨"T", "id", "", ["id", "name"]⟩

/-- The select of `{ T { stddev_pop_x stddev_samp_x name } }`. -/
def stddevSel : Select := sel 0 "T" "T" true ["stddev_pop_x", "stddev_samp_x", "name"] none []

/-- The table `posts` of the catalog. -/
def tiPosts : DBTableInfo := ⟨"posts", "id", "tsv", ["id", "title", "user_id"]⟩

/-- The select of `{ posts(search: "rust") { count_id title } }` (without the
filter that `search` adds). -/
def searchSel : Select :=
  { sel 0 "posts" "posts" true ["count_id", "title"] none [] with
    Args := [("search", ⟨NodeType.nodeStr, "", "rust", []⟩)] }

end Examples

namespace GoStr

/-- The index of the first occurrence of `sub` in `s` at or after position `i`,
counted from the start of the text `s` was cut from. -/
def indexFrom (sub : List Char) : List Char → Nat → Option Nat
  | [], i => if sub.isEmpty then some i else none
  | c :: cs, i => if sub.isPrefixOf (c :: cs) then some i else indexFrom sub cs (i + 1)

/-- The function `strings.Index`: the position of the first occurrence of `sub`
in `s`, or -1. -/
def Index (s sub : String) : Int :=
  match indexFrom sub.data s.data 0 with
  | some i => i
  | none => -1

end GoStr

namespace psql

/-- The writers of a list run one after the other, with `tok` between two of
them. -/
def Wr.joinWith (tok : Wr) : List Wr → Wr
  | [] => Wr.text ""
  | [w] => w
  | w :: v :: rest => w.andThen (tok.andThen (Wr.joinWith tok (v :: rest)))

end psql

namespace Examples

open qcode psql

/-- The comparison `age > 18`. -/
def gtAge : Exp :=
  { Exp.zero with Op := ExpOp.OpGreaterThan, Col := "age", Typ := ValType.ValInt, Val := "18" }

/-- The comparison `name LIKE 'A%'`. -/
def likeName : Exp :=
  { Exp.zero with Op := ExpOp.OpLike, Col := "name", Typ := ValType.ValStr, Val := "A%" }

/-- The comparison `active = true`. -/
def eqActive : Exp :=
  { Exp.zero with Op := ExpOp.OpEquals, Col := "active", Typ := ValType.ValBool, Val := "true" }

/-- The filter `Or[Like(name, "A%"), Equals(active, true)]`. -/
def orNameActive : Exp :=
  { Exp.zero with Op := ExpOp.OpOr, Children := [some likeName, some eqActive] }

/-- The filter `And[GreaterThan(age, 18), Or[Like(name, "A%"), Equals(active, true)]]`. -/
def groupedFilter : Exp :=
  { Exp.zero with Op := ExpOp.OpAnd, Children := [some gtAge, some orNameActive] }

/-- A root select on the table `T` with the filter `groupedFilter`. -/
def groupedSel : Select := sel 0 "T" "T" true ["id"] (some groupedFilter) []

end Examples

namespace psql

open qcode GoStr

/-- Whether the name of a requested column is a key of the column map of the
table: the test `_, isRealCol := v.ti.Columns[cn]` of `renderBaseSelect`. -/
def isRealCol (ti : DBTableInfo) (col : Column) : Bool := ti.Columns.contains col.Name

/-- Whether `renderBaseSelect` sets `isAgg` at a requested column. -/
def isAggCol (sel : Select) (ti : DBTableInfo) (col : Column) : Bool :=
  (renderBaseCol sel ti col).2 == ColKind.aggregate

end psql

namespace Examples

open qcode psql

/-- A table `orders` with the columns `id`, `amount` and `customer_id`. -/
def tiOrders : DBTableInfo := ⟨"orders", "id", "", ["id", "amount", "customer_id"]⟩

/-- The select of `{ orders { count_id sum_amount customer_id } }`. -/
def ordersSel : Select :=
  sel 0 "orders" "orders" true ["count_id", "sum_amount", "customer_id"] none []

end Examples

namespace Examples

open qcode psql

/-- The operation `{ posts { id title user { id name } tags { label } } }`. -/
def opPosts : Operation :=
  ⟨OpType.opQuery,
    [⟨0, "posts", "", [], [leaf 1 "id", leaf 2 "title",
      ⟨3, "user", "", [], [leaf 4 "id", leaf 5 "name"]⟩,
      ⟨6, "tags", "", [], [leaf 7 "label"]⟩]⟩], 8⟩

/-- The root that `compileQuery` builds for `opPosts` under `com`: the children
are `tags`, `user`, the reverse of the source. -/
def postsRoot : Select :=
  { sel 0 "posts" "posts" true ["id", "title"] none [{ tagsSel with Singular := "tag" }, userSel]
    with Singular := "post" }

end Examples

namespace qcode

open GoStr

mutual
/-- The conjuncts of a filter: what stands under its And nodes, at any depth,
and is not an And node itself.  A nil child of an And node is kept, as a nil
conjunct. -/
def Exp.conjuncts : Exp → List (Option Exp)
  | ⟨op, col, nested, typ, val, lt, lv, cs⟩ =>
    if op = ExpOp.OpAnd then Exp.conjunctsList cs
    else [some ⟨op, col, nested, typ, val, lt, lv, cs⟩]
/-- The conjuncts of the children of an And node. -/
def Exp.conjunctsList : List (Option Exp) → List (Option Exp)
  | [] => []
  | none :: rest => none :: Exp.conjunctsList rest
  | some e :: rest => e.conjuncts ++ Exp.conjunctsList rest
end

/-- The conjuncts of an optional filter; no filter has none. -/
def whereConjuncts (w : Option Exp) : List (Option Exp) :=
  match w with
  | none => []
  | some e => e.conjuncts

/-- What `compileArgSearch` and `compileArgWhere` leave in `sel.Where` for a new
expression `c`: `&Exp{Op: OpAnd, Children: {c, sel.Where}}` when there is a
filter already, else `c`. -/
def andOnto (w : Option Exp) (c : Exp) : Option Exp :=
  match w with
  | some w1 => some (andPair (some c) (some w1))
  | none => some c

/-- The expression that an argument brings to the filter: the `TsQuery` of
`compileArgSearch` for `search`, the expression that `compileArgObj` returns
for `where`, none for the other arguments. -/
def argExps (com : Compiler) (x : Arg) : List Exp :=
  if ToLower x.Name = "search" then
    [{ Exp.zero with Op := ExpOp.OpTsQuery, Typ := ValType.ValStr, Val := x.Val.Val }]
  else if ToLower x.Name = "where" then
    match com.compileArgObj x with
    | Result.ok (some e) => [e]
    | _ => []
  else []

/-- The lower-cased argument name with the aliases of the switch of
`compileArgs` taken as one name. -/
def canonArg (an : String) : String :=
  if an = "order_by" ∨ an = "order" then "orderby"
  else if an = "distinct" then "distinct_on"
  else an

/-- The name under which `compileArgs` handles an argument. -/
def argKey (name : String) : String := canonArg (ToLower name)

/-- What one argument adds to a select: conjuncts of the filter, ordering
entries, distinct-on entries, a limit, an offset. -/
structure ArgEffect where
  conj : List (Option Exp)
  ob : List OrderBy
  dist : List String
  limit : Option String
  offset : Option String

/-- The select `b1` is `b` with the effect `e` added. -/
def ArgEffect.relates (e : ArgEffect) (b b1 : Select) : Prop :=
  b1.ID = b.ID ∧ b1.Args = b.Args ∧
    (whereConjuncts b1.Where).Perm (e.conj ++ whereConjuncts b.Where) ∧
    b1.OrderBy = b.OrderBy ++ e.ob ∧ b1.DistinctOn = b.DistinctOn ++ e.dist ∧
    b1.Paging.Limit = e.limit.getD b.Paging.Limit ∧
    b1.Paging.Offset = e.offset.getD b.Paging.Offset

/-- An effect touches the ordering, the distinct-on list, the limit and the
offset only under the argument name that stands for them. -/
def ArgEffect.within (e : ArgEffect) (key : String) : Prop :=
  (e.ob ≠ [] → key = "orderby") ∧ (e.dist ≠ [] → key = "distinct_on") ∧
    (e.limit ≠ none → key = "limit") ∧ (e.offset ≠ none → key = "offset")

/-- Two selects with the same semantic outcome of the arguments: the same
conjuncts of the filter (nil ones included) up to their order, and the same
ordering, distinct-on list and paging. -/
def sameOutcome (a b : Select) : Prop :=
  a.ID = b.ID ∧ (whereConjuncts a.Where).Perm (whereConjuncts b.Where) ∧
    a.OrderBy = b.OrderBy ∧ a.DistinctOn = b.DistinctOn ∧ a.Paging = b.Paging

end qcode

namespace Examples

open qcode psql

/-- The argument `where: { password: { eq: "x" } }`; under the blacklist of
`com` it compiles to nil. -/
def argWhereBlacklisted : Arg :=
  ⟨"where", ⟨NodeType.nodeObj, "", "",
    [⟨NodeType.nodeObj, "password", "", [⟨NodeType.nodeStr, "eq", "x", []⟩]⟩]⟩⟩

/-- The argument `order: { name: asc }`. -/
def argOrderName : Arg :=
  ⟨"order", ⟨NodeType.nodeObj, "", "", [⟨NodeType.nodeStr, "name", "asc", []⟩]⟩⟩

/-- The argument `order_by: { id: desc }`. -/
def argOrderByID : Arg :=
  ⟨"order_by", ⟨NodeType.nodeObj, "", "", [⟨NodeType.nodeStr, "id", "desc", []⟩]⟩⟩

end Examples

namespace Examples

open qcode psql

/-- The argument `where: { name: { eq: "x" } }`. -/
def argWhereName : Arg :=
  ⟨"where", ⟨NodeType.nodeObj, "", "",
    [⟨NodeType.nodeObj, "name", "", [⟨NodeType.nodeStr, "eq", "x", []⟩]⟩]⟩⟩

/-- The argument `id: 5`. -/
def argID5 : Arg := ⟨"id", ⟨NodeType.nodeInt, "", "5", []⟩⟩

/-- The comparison `name = 'x'`, as `compileArgWhere` builds it for
`argWhereName`. -/
def eqNameX : Exp :=
  { Exp.zero with Op := ExpOp.OpEquals, Col := "name", Typ := ValType.ValStr, Val := "x" }

/-- The argument `search: "rust"`. -/
def argSearch : Arg := ⟨"search", ⟨NodeType.nodeStr, "", "rust", []⟩⟩

/-- The filter that `compileArgSearch` builds for `argSearch`. -/
def tsRust : Exp :=
  { Exp.zero with Op := ExpOp.OpTsQuery, Typ := ValType.ValStr, Val := "rust" }

end Examples

namespace qcode

open GoStr

mutual
/-- The IDs of a field and of the fields below it. -/
def Field.ids : Field → List Nat
  | ⟨id, _, _, _, cs⟩ => id :: Field.idsList cs
/-- The IDs of the fields of a list of selection trees. -/
def Field.idsList : List Field → List Nat
  | [] => []
  | f :: fs => f.ids ++ Field.idsList fs
end

mutual
/-- No field has the ID of a field below it: the parser numbers the fields of
an operation one after the other. -/
def Field.wellNumbered : Field → Bool
  | ⟨id, _, _, _, cs⟩ => !(Field.idsList cs).contains id && Field.wellNumberedList cs
/-- The condition `wellNumbered` for every field of a list. -/
def Field.wellNumberedList : List Field → Bool
  | [] => true
  | f :: fs => f.wellNumbered && Field.wellNumberedList fs
end

/-- The addresses of the selects of a list of trees laid out one after the
other from address `b`. -/
def childAddrs : Nat → List Select → List Nat
  | _, [] => []
  | b, j :: js => b :: childAddrs (b + j.subs.length) js

mutual
/-- The cells of a select tree laid out from address `a`: the cell of the
select, then the trees of its children in the order of `Joins`. -/
def Select.enc : Select → Nat → List Cell
  | ⟨id, args, asList, table, singular, fieldName, cols, wh, ob, dist, paging, js⟩, a =>
    ⟨⟨id, args, asList, table, singular, fieldName, cols, wh, ob, dist, paging, []⟩,
      childAddrs (a + 1) js⟩ :: Select.encList js (a + 1)
/-- The cells of a list of select trees laid out from address `b`. -/
def Select.encList : List Select → Nat → List Cell
  | [], _ => []
  | j :: js, b => j.enc b ++ Select.encList js (b + j.subs.length)
end

mutual
/-- The select tree `t` is the tree that the walk of `compileQuery` builds for
the field: its head is the select created for the field, its children are the
trees of the children of the field that are pushed, the last one first. -/
def TreeOf (com : Compiler) (inf : Inflect) : Field → Select → Prop
  | ⟨id, name, al, args, cs⟩, t =>
    cellFrom com inf ⟨id, name, al, args, cs⟩ (psql.withJoins t []) ∧
      TreesOf com inf cs t.Joins
/-- The select trees `ts` are the trees of the children of a field that are
pushed (not blacklisted, with children of their own), in the reverse of the
order of the children. -/
def TreesOf (com : Compiler) (inf : Inflect) : List Field → List Select → Prop
  | [], ts => ts = []
  | g :: rest, ts =>
    if com.bl.contains (ToLower g.Name) = true ∨ g.Children.isEmpty = true then
      TreesOf com inf rest ts
    else ∃ ts1 tg, ts = ts1 ++ [tg] ∧ TreesOf com inf rest ts1 ∧ TreeOf com inf g tg
end

end qcode
namespace qcode

open GoStr

/-- The children of a field that `compileQuery` pushes on its work stack, in
source order: those that are not blacklisted and have children. -/
def Compiler.nestedChildren (com : Compiler) (f : Field) : List Field :=
  f.Children.filter (fun g => !com.bl.contains (ToLower g.Name) && !g.Children.isEmpty)

/-- The children of a field that `compileQuery` turns into columns, in source
order: those that are not blacklisted and have no children. -/
def Compiler.leafChildren (com : Compiler) (f : Field) : List Field :=
  f.Children.filter (fun g => !com.bl.contains (ToLower g.Name) && g.Children.isEmpty)

end qcode

namespace Examples

open qcode psql

/-- The argument `order_by: { name: asc, id: desc }`. -/
def argOrderBy : Arg :=
  ⟨"order_by", ⟨NodeType.nodeObj, "", "",
    [⟨NodeType.nodeStr, "name", "asc", []⟩, ⟨NodeType.nodeStr, "id", "desc", []⟩]⟩⟩

/-- A catalog with the tables `orders` and `customers`; an order belongs to a
customer through `orders.customer_id`. -/
def schemaOrders : DBSchema :=
  { Tables := [("orders", tiOrders), ("customers", ⟨"customers", "id", "", ["id", "name"]⟩)],
    RelMap := [(⟨"customers", "orders"⟩, ⟨RelType.RelBelongTo, "", "", "id", "customer_id"⟩)] }

def sqlcOrders : psql.Compiler := ⟨schemaOrders, [], []⟩

/-- The select of `{ orders { count_id amount customer { name } } }`. -/
def ordersWithCustomer : Select :=
  sel 0 "orders" "orders" true ["count_id", "amount"] none
    [sel 1 "customers" "customer" false ["name"] none []]

end Examples
namespace qcode

open GoStr

/-- The names of the logical connectives and their aliases, which a column path
leaves out. -/
def connectiveNames : List String := ["and", "or", "not", "_and", "_or", "_not"]

/-- The column path of a where node as the specification words it: the
lower-cased names of its object-typed ancestors, taken top-down (`anc` is the
chain of parents, nearest first), without the connectives and the empty
names. -/
def pathSegments (anc : List Node) : List String :=
  ((anc.reverse.filter (fun n => n.Typ = NodeType.nodeObj)).map (fun n => ToLower n.Name)).filter
    (fun k => !connectiveNames.contains k && k != "")

end qcode

namespace Examples

open qcode

/-- The work-stack entry of `compileArgNode` for the node `eq` of
`where: { name: { eq: "x" } }`: its ancestors are the object `name` and the
argument object. -/
def eqEntry : expT :=
  ⟨none, ⟨NodeType.nodeStr, "eq", "x", []⟩,
    [⟨NodeType.nodeObj, "name", "", [⟨NodeType.nodeStr, "eq", "x", []⟩]⟩, argWhereName.Val]⟩

end Examples
namespace psql

/-- A routine did not end with the panic of `renderJoinTable` and
`renderRelationship`. -/
def Wr.relFound (w : Wr) : Prop := w.st ≠ Status.panicked "no relationship found"

end psql
namespace psql

open qcode GoStr

/-- The value serialisation as the specification words it: Bool, Int and Float
unquoted, String single-quoted, Var the substituted value of `vars` or the
placeholder with the name in double braces. -/
def specScalar (t : ValType) (v : String) (vars : List (String × String)) : String :=
  match t with
  | ValType.ValBool | ValType.ValInt | ValType.ValFloat => v
  | ValType.ValStr => "'" ++ v ++ "'"
  | ValType.ValVar =>
    (match vars.lookup v with
    | some x => x
    | none => "'\x7b\x7b" ++ v ++ "\x7d\x7d'")
  | _ => ""

/-- The `<value>` of a comparison as the specification words it: the scalar, or
for a list the comma-separated items, each under the rule of scalars. -/
def specValue (e : Exp) (vars : List (String × String)) : String :=
  if e.Typ = ValType.ValList then commaSep (fun v => specScalar e.ListType v vars) e.ListVal
  else specScalar e.Typ e.Val vars

/-- The column opening of a terminal as the specification words it:
`(("<Table>"."<Col>") `, and `(("<Col>") ` when `NestedCol`. -/
def specColOpen (sel : Select) (e : Exp) : String :=
  if e.NestedCol then "((\"" ++ e.Col ++ "\") "
  else "((\"" ++ sel.Table ++ "\".\"" ++ e.Col ++ "\") "

/-- The reference serialisation of a terminal, after the words of the
specification. -/
def specTerminal (sel : Select) (ti : DBTableInfo) (vars : List (String × String)) (e : Exp) :
    String :=
  match e.Op with
  | ExpOp.OpIsNull =>
    specColOpen sel e ++ (if ToLower e.Val = "true" then "IS NULL)" else "IS NOT NULL)")
  | ExpOp.OpEqID => "((\"" ++ ti.PrimaryCol ++ "\") = ('" ++ e.Val ++ "'))"
  | ExpOp.OpTsQuery => "((\"" ++ ti.TSVCol ++ "\") @@ to_tsquery('" ++ e.Val ++ "'))"
  | o =>
    match opToken o with
    | some tok => specColOpen sel e ++ tok ++ " (" ++ specValue e vars ++ "))"
    | none => ""

/-- The separator between the children of an And or Or node. -/
def specSep : ExpOp → String
  | ExpOp.OpAnd => " AND "
  | ExpOp.OpOr => " OR "
  | _ => ""

mutual
/-- The recursive reference serialisation `ser` of the specification:
`ser(And[c1..cn]) = ser(c1) + " AND " + ... + ser(cn)`, Or likewise with
` OR `, `ser(Not[c]) = "NOT " + ser(c)`, and `specTerminal` for a terminal. -/
def specSer (sel : Select) (ti : DBTableInfo) (vars : List (String × String)) : Exp → String
  | ⟨op, col, nested, typ, val, lt, lv, cs⟩ =>
    match op with
    | ExpOp.OpAnd =>
      (match cs with
      | some e :: rest => specSer sel ti vars e ++ specSerRest sel ti vars ExpOp.OpAnd rest
      | _ => "")
    | ExpOp.OpOr =>
      (match cs with
      | some e :: rest => specSer sel ti vars e ++ specSerRest sel ti vars ExpOp.OpOr rest
      | _ => "")
    | ExpOp.OpNot =>
      (match cs with
      | some e :: _ => "NOT " ++ specSer sel ti vars e
      | _ => "")
    | _ => specTerminal sel ti vars ⟨op, col, nested, typ, val, lt, lv, cs⟩
/-- The children after the first, each preceded by the separator. -/
def specSerRest (sel : Select) (ti : DBTableInfo) (vars : List (String × String)) (o : ExpOp) :
    List (Option Exp) → String
  | [] => ""
  | none :: _ => ""
  | some e :: rest => specSep o ++ specSer sel ti vars e ++ specSerRest sel ti vars o rest
end

mutual
/-- The expression trees on which `renderWhere` is compared with `specSer`: no
child pointer is nil, a Not node has exactly one child, a comparison or IsNull
has a non-empty `Col` and an operator of the table, a list value has no
variable items, EqID and TsQuery have no column and the table has the
primary-key or tsvector column they read. -/
def serDomain (ti : DBTableInfo) : Exp → Bool
  | ⟨op, col, nested, typ, _, lt, _, cs⟩ =>
    match op with
    | ExpOp.OpAnd => serDomainList ti cs
    | ExpOp.OpOr => serDomainList ti cs
    | ExpOp.OpNot =>
      (match cs with
      | [some e] => serDomain ti e
      | _ => false)
    | ExpOp.OpEqID => col.length == 0 && !nested && ti.PrimaryCol.length != 0
    | ExpOp.OpTsQuery => col.length == 0 && !nested && ti.TSVCol.length != 0
    | ExpOp.OpIsNull => col.length != 0
    | o => (opToken o).isSome && col.length != 0 &&
        !(typ == ValType.ValList && lt == ValType.ValVar)
/-- The condition `serDomain` for every child of a list, none of them nil. -/
def serDomainList (ti : DBTableInfo) : List (Option Exp) → Bool
  | [] => true
  | none :: _ => false
  | some e :: rest => serDomain ti e && serDomainList ti rest
end

end psql

namespace Examples

open qcode psql

/-- The table `logs` of the catalog: it has no primary key. -/
def tiLogs : DBTableInfo := ⟨"logs", "", "", ["line"]⟩

/-- The root select of `{ log(id: 5) { line } }`. -/
def logByID : Select := sel 0 "logs" "log" false ["line"] (some eqID5) []

end Examples

namespace qcode

open GoStr

/-- What `setWhereColName` reads of an ancestor: its kind and its name. -/
def Node.kindName (n : Node) : NodeType × String := (n.Typ, n.Name)

/-- A work-stack entry of `compileArgNode` up to what the loop reads of it: the
parent address, the node, and the kinds and names of the ancestors. -/
def expT.key (e : expT) : Option Nat × Node × List (NodeType × String) :=
  (e.parent, e.node, e.anc.map Node.kindName)

/-- The number of nodes that the entries of a work stack stand for. -/
def stackSize (st : List expT) : Nat := Node.sizeList (st.map (fun e => e.node))

end qcode

namespace Examples

open qcode

/-- The value of the argument `where: { name: { eq: "x" }, age: { gt: 5 } }`. -/
def whereTwoConditions : Node :=
  ⟨NodeType.nodeObj, "", "",
    [⟨NodeType.nodeObj, "name", "", [⟨NodeType.nodeStr, "eq", "x", []⟩]⟩,
     ⟨NodeType.nodeObj, "age", "", [⟨NodeType.nodeInt, "gt", "5", []⟩]⟩]⟩

end Examples

namespace qcode

open GoStr

/-- The name that the switch of `newExp` reads: the lower-cased name of the
node without a leading underscore. -/
def nodeOp (node : Node) : String :=
  if (ToLower node.Name).data.head? = some '_' then sliceFrom (ToLower node.Name) 1
  else ToLower node.Name

end qcode

namespace qcode

open GoStr

/-- The expression that `newExp` starts a terminal from, before the value kind
and the column are set: for `in` and `nin` with the list values, for the other
comparison operators with `node.Val`; `none` when the name is no operator. -/
def terminalStart (node : Node) : Option Exp :=
  if nodeOp node = "in" then some (setListVal { Exp.zero with Op := ExpOp.OpIn } node)
  else if nodeOp node = "nin" ∨ nodeOp node = "not_in" then
    some (setListVal { Exp.zero with Op := ExpOp.OpNotIn } node)
  else (valOp (nodeOp node)).map (fun o => { Exp.zero with Op := o, Val := node.Val })

end qcode

namespace qcode

open GoStr

/-- The value of the 16-bit signed counter `id` of `compileQuery` after `k`
increments from 0. -/
def wrap16 (k : Nat) : Int := ((k : Int) + 32768) % 65536 - 32768

end qcode
namespace Examples

open qcode

/-- The `i`-th child `posts { id }` of the wide operation, with field IDs
`2 * i + 1` and `2 * i + 2`. -/
def wideKid (i : Nat) : Field := ⟨2 * i + 1, "posts", "", [], [leaf (2 * i + 2) "id"]⟩

/-- The operation `{ users { posts { id } ... posts { id } } }` with `n`
children `posts { id }` under the one top-level field. -/
def opWide (n : Nat) : Operation :=
  ⟨OpType.opQuery, [⟨0, "users", "", [], (List.range n).map wideKid⟩], 2 * n + 1⟩

end Examples

namespace qcode

open GoStr

mutual
/-- The number of expressions that a node of a where object hands to its
parent in `compileArgNode`: none when its name is blacklisted, one when it is a
connective or a comparison operator, and those of its children when its name
is empty or no operator (a column path). -/
def Node.yield (com : Compiler) : Node → Nat
  | ⟨t, name, v, cs⟩ =>
    if (name.length != 0 && com.bl.contains (ToLower name)) = true then 0
    else if name.length = 0 then Node.yieldList com cs
    else if nodeOp ⟨t, name, v, cs⟩ = "and" ∨ nodeOp ⟨t, name, v, cs⟩ = "or" ∨
        nodeOp ⟨t, name, v, cs⟩ = "not" then 1
    else if (terminalStart ⟨t, name, v, cs⟩).isSome = true then 1
    else Node.yieldList com cs
/-- The sum of `Node.yield` over a list of nodes. -/
def Node.yieldList (com : Compiler) : List Node → Nat
  | [] => 0
  | c :: cs => c.yield com + Node.yieldList com cs
end

mutual
/-- The where objects that respect the arities: below every name that is not
blacklisted, the children of an `and` or `or` hand over at least two
expressions, and the first child of a `not` hands over exactly one. -/
def Node.arityOK (com : Compiler) : Node → Bool
  | ⟨t, name, v, cs⟩ =>
    if (name.length != 0 && com.bl.contains (ToLower name)) = true then true
    else if name.length = 0 then Node.arityOKList com cs
    else if nodeOp ⟨t, name, v, cs⟩ = "and" ∨ nodeOp ⟨t, name, v, cs⟩ = "or" then
      decide (2 ≤ Node.yieldList com cs) && Node.arityOKList com cs
    else if nodeOp ⟨t, name, v, cs⟩ = "not" then
      (match cs with
      | c :: _ => decide (c.yield com = 1) && c.arityOK com
      | [] => false)
    else if (terminalStart ⟨t, name, v, cs⟩).isSome = true then true
    else Node.arityOKList com cs
/-- The condition `Node.arityOK` for every node of a list. -/
def Node.arityOKList (com : Compiler) : List Node → Bool
  | [] => true
  | c :: cs => c.arityOK com && Node.arityOKList com cs
end

mutual
/-- The arity invariant of the IR: every And and Or node has at least two
children and every Not node exactly one. -/
def Exp.arityOK : Exp → Bool
  | ⟨op, _, _, _, _, _, _, cs⟩ =>
    (if op = ExpOp.OpAnd ∨ op = ExpOp.OpOr then decide (2 ≤ cs.length)
      else if op = ExpOp.OpNot then decide (cs.length = 1) else true) && Exp.arityOKList cs
/-- The invariant `Exp.arityOK` for every child that is not nil. -/
def Exp.arityOKList : List (Option Exp) → Bool
  | [] => true
  | none :: cs => Exp.arityOKList cs
  | some e :: cs => e.arityOK && Exp.arityOKList cs
end

/-- The invariant `Exp.arityOK` for an optional filter. -/
def whereArityOK (w : Option Exp) : Bool :=
  match w with
  | none => true
  | some e => e.arityOK

/-- The arity of a node with operator `op` and `k` children is as the invariant
of the IR asks. -/
def opArity (op : ExpOp) (k : Nat) : Prop :=
  (op = ExpOp.OpAnd ∨ op = ExpOp.OpOr → 2 ≤ k) ∧ (op = ExpOp.OpNot → k = 1)

/-- The number of expressions that the entries of the work stack will still hand
to the parent `q`. -/
def pending (com : Compiler) (st : List expT) (q : Option Nat) : Nat :=
  ((st.filter (fun e => e.parent = q)).map (fun e => e.node.yield com)).sum

end qcode

namespace Examples

open qcode

/-- The value of the argument `where: { and: { name: { eq: "x" } } }`. -/
def whereAndOne : Node :=
  ⟨NodeType.nodeObj, "", "",
    [⟨NodeType.nodeObj, "and", "",
      [⟨NodeType.nodeObj, "name", "", [⟨NodeType.nodeStr, "eq", "x", []⟩]⟩]⟩]⟩

/-- The value of the argument `where: { not: { age: { gt: 1, lt: 5 } } }`. -/
def whereNotTwo : Node :=
  ⟨NodeType.nodeObj, "", "",
    [⟨NodeType.nodeObj, "not", "",
      [⟨NodeType.nodeObj, "age", "",
        [⟨NodeType.nodeInt, "gt", "1", []⟩, ⟨NodeType.nodeInt, "lt", "5", []⟩]⟩]⟩]⟩

/-- The value of the argument
`where: { and: { name: { eq: "x" }, age: { gt: 5 } } }`. -/
def whereAndTwo : Node :=
  ⟨NodeType.nodeObj, "", "",
    [⟨NodeType.nodeObj, "and", "",
      [⟨NodeType.nodeObj, "name", "", [⟨NodeType.nodeStr, "eq", "x", []⟩]⟩,
       ⟨NodeType.nodeObj, "age", "", [⟨NodeType.nodeInt, "gt", "5", []⟩]⟩]⟩]⟩

end Examples

namespace qcode

open GoStr

/-- The entries of the work stack of `compileArgNode` respect the arities and
name parents that are in the heap. -/
def stackOK (com : Compiler) (st : List expT) (len : Nat) : Prop :=
  ∀ e ∈ st, e.node.arityOK com = true ∧ ∀ p, e.parent = some p → p < len

/-- Every cell of the heap has its children after it, and will have the arity
of the invariant once the stack has handed over what is pending for it. -/
def heapOK (com : Compiler) (st : List expT) (heap : List ExpCell) : Prop :=
  ∀ (a : Nat) (cell : ExpCell), heap[a]? = some cell →
    (∀ k ∈ cell.kids, a < k) ∧ opArity cell.ex.Op (cell.kids.length + pending com st (some a))

end qcode
namespace Examples

open qcode

/-- The operation `{ users(where: { and: { name: { eq: "x" } } }) { name } }`. -/
def opWhereAndOne : Operation :=
  ⟨OpType.opQuery, [⟨0, "users", "", [some ⟨"where", whereAndOne⟩], [leaf 1 "name"]⟩], 2⟩

/-- The filter of `opWhereAndOne`: an `And` with the single child `name = 'x'`. -/
def andOfOne : Exp :=
  { Exp.zero with Op := ExpOp.OpAnd, Children := [some eqNameX] }

/-- The filter that `compileArgNode` builds for `whereNotTwo`: a `Not` with the
two comparisons of `age` as children, the last of the source first. -/
def notOfTwo : Exp :=
  { Exp.zero with Op := ExpOp.OpNot, Children :=
    [some { Exp.zero with Op := ExpOp.OpLesserThan, Col := "age", Typ := ValType.ValInt, Val := "5" },
     some { Exp.zero with Op := ExpOp.OpGreaterThan, Col := "age", Typ := ValType.ValInt, Val := "1" }] }

end Examples

namespace qcode

open GoStr

/-- The top-level fields (those without a `Parent`) on the work stack of
`compileQuery`, the top of the stack first. -/
def stackTops (st : List (Field × Option Nat)) : List Field :=
  (st.filter (fun e => e.2.isNone)).map Prod.fst

/-- The field whose select `compileQuery` leaves in `selRoot`: every top-level
field that is not blacklisted assigns `selRoot`, and the fields are popped from
the last to the first, so it is the first top-level field that is not
blacklisted. -/
def Compiler.rootField (com : Compiler) (fields : List Field) : Option Field :=
  fields.find? (fun f => !com.bl.contains (ToLower f.Name))

/-- The variable `selRoot` after the top-level fields `done` have been popped:
nil when all of them are blacklisted, else the select created for the first
that is not. -/
def rootIs (com : Compiler) (inf : Inflect) (done : List Field) (q : QState) : Prop :=
  match com.rootField done with
  | none => q.selRoot = none
  | some f => ∃ a s, q.selRoot = some a ∧ (q.heap.map Cell.sel)[a]? = some s ∧
      cellFrom com inf f s

end qcode

namespace Examples

open qcode psql

/-- The operation `{ log(id: 5) { line } }`. -/
def opLogByID : Operation :=
  ⟨OpType.opQuery, [⟨0, "log", "", [some argID5], [leaf 1 "line"]⟩], 2⟩

/-- The root that `compileQuery` builds for `opLogByID`: a singular select of
the table `logs` with the limit `1` and the filter `EqID`. -/
def logRoot : Select :=
  { sel 0 "logs" "log" false ["line"] (some eqID5) [] with
    Args := [("id", ⟨NodeType.nodeInt, "", "5", []⟩)] }

end Examples

namespace psql

open qcode GoStr

/-- The aggregate prefixes, as the specification lists them. -/
def aggPrefixes : List String :=
  ["avg_", "count_", "max_", "min_", "sum_", "stddev_", "stddev_pop_", "stddev_samp_",
    "variance_", "var_pop_", "var_samp_"]

/-- An aggregate column in the words of the specification: a requested column
that is no real column of the table and whose name starts with an aggregate
prefix. -/
def specAggCol (ti : DBTableInfo) (col : Column) : Bool :=
  !isRealCol ti col && aggPrefixes.any (fun p => HasPrefix col.Name p)

end psql

namespace Examples

open qcode psql

/-- The select of `{ posts(search: "rust") { count_id title } }`, with the
filter that `search` adds. -/
def searchCountSel : Select :=
  { sel 0 "posts" "posts" true ["count_id", "title"] (some tsRust) [] with
    Args := [("search", ⟨NodeType.nodeStr, "", "rust", []⟩)] }

/-- The select of `{ log(id: 5) { count_line line } }`: an aggregate and a real
column of the table `logs`, which has no primary key. -/
def logCountSel : Select :=
  { sel 0 "logs" "log" false ["count_line", "line"] (some eqID5) [] with
    Args := [("id", ⟨NodeType.nodeInt, "", "5", []⟩)] }

end Examples

namespace qcode

open GoStr

/-- The first child of an argument object, the one that `compileArgNode`
compiles, respects the arities. -/
def Node.firstOK (com : Compiler) (val : Node) : Bool :=
  match val.Children with
  | c :: _ => c.arityOK com
  | [] => true

/-- The value of every `where` argument of a list respects the arities. -/
def argsArityOK (com : Compiler) (args : List (Option Arg)) : Prop :=
  ∀ arg, some arg ∈ args → ToLower arg.Name = "where" → Node.firstOK com arg.Val = true

end qcode

namespace Examples

open qcode

/-- The operation
`{ users(where: { and: { name: { eq: "x" }, age: { gt: 5 } } }) { name } }`. -/
def opWhereAndTwo : Operation :=
  ⟨OpType.opQuery, [⟨0, "users", "", [some ⟨"where", whereAndTwo⟩], [leaf 1 "name"]⟩], 2⟩

end Examples

/-! ## Properties of the SQL compiler -/

namespace psql

open qcode GoStr

/-- C5 (evaluation): `CompileQuery` answers a mutation and a subscription with
the empty QCode, and `Compile` applied to the empty QCode dereferences the nil
`Query` and panics; it does not return an error. -/
theorem Compile_empty_qcode_panics (c : Compiler) (com : qcode.Compiler) (inf : Inflect)
    (query : String) (fields : List Field) (n : Nat) :
    com.CompileQuery inf (fun _ => Result.ok ⟨OpType.opMutate, fields, n⟩) query
        = Result.ok ⟨none⟩ ∧
      com.CompileQuery inf (fun _ => Result.ok ⟨OpType.opSub, fields, n⟩) query
        = Result.ok ⟨none⟩ ∧
      c.Compile ⟨none⟩ = ⟨"", Status.panicked "nil pointer dereference"⟩ :=
  ⟨rfl, rfl, rfl⟩

/-- C3 (evaluation): for `{ log(id: 5) { line } }` on a table without primary
key, `renderWhere` returns the error `no primary key column defined for logs`,
yet `Compile` ends normally: the error is dropped at the call of `render` and
never reaches the caller. -/
theorem Compile_drops_no_primary_key_error :
    (renderWhere (Examples.sel 0 "logs" "log" false ["line"] (some Examples.eqID5) [])
        ⟨"logs", "", "", ["line"]⟩ []).st
      = Status.error "no primary key column defined for logs" ∧
    (Examples.sqlc.Compile Examples.qcLogByID).st = Status.done := by
  constructor <;> decide

/-! ### The writer algebra -/

theorem Wr.andThen_assoc (a b c : Wr) : (a.andThen b).andThen c = a.andThen (b.andThen c) := by
  obtain ⟨ao, ast⟩ := a
  obtain ⟨bo, bst⟩ := b
  cases ast <;> cases bst <;> simp [Wr.andThen, String.append_assoc]

theorem Wr.text_andThen (s : String) (b : Wr) : (Wr.text s).andThen b = ⟨s ++ b.out, b.st⟩ := rfl

theorem Wr.andThen_text_empty (a : Wr) : a.andThen (Wr.text "") = a := by
  obtain ⟨ao, ast⟩ := a
  cases ast <;> simp [Wr.andThen, Wr.text]

theorem Wr.empty_andThen (b : Wr) : (Wr.text "").andThen b = b := by
  cases b; simp [Wr.andThen, Wr.text]

theorem Wr.andThen_of_not_done (a b : Wr) (h : a.st ≠ Status.done) : a.andThen b = a := by
  obtain ⟨ao, ast⟩ := a
  cases ast <;> simp_all [Wr.andThen]

/-! ### The loop of `renderWhere` is the recursive serialisation -/

theorem renderWhereLoop_none (sel : Select) (ti : DBTableInfo) (vars : List (String × String))
    (st : List WItem) (fuel : Nat) (h : 1 ≤ fuel) :
    renderWhereLoop sel ti vars fuel (WItem.exp none :: st)
      = ⟨"", Status.panicked "nil pointer dereference"⟩ := by
  obtain ⟨n, rfl⟩ : ∃ n, fuel = n + 1 := ⟨fuel - 1, by omega⟩
  simp [renderWhereLoop]

theorem renderWhereLoop_token (sel : Select) (ti : DBTableInfo) (vars : List (String × String))
    (o : ExpOp) (st : List WItem) (n : Nat) :
    renderWhereLoop sel ti vars (n + 1) (WItem.op o :: st)
      = (serToken o).andThen (renderWhereLoop sel ti vars n st) := by
  cases o <;> simp [renderWhereLoop, serToken, Wr.andThen]

theorem renderWhereLoop_andor (sel : Select) (ti : DBTableInfo) (vars : List (String × String))
    (e : Exp) (o : ExpOp) (ho : o = ExpOp.OpAnd ∨ o = ExpOp.OpOr) (h : e.Op = o)
    (st : List WItem) (n : Nat) :
    renderWhereLoop sel ti vars (n + 1) (WItem.exp (some e) :: st)
      = renderWhereLoop sel ti vars n (pushAndOr o e.Children st) := by
  rw [renderWhereLoop]
  rcases ho with rfl | rfl <;> simp [h]

theorem renderWhereLoop_not (sel : Select) (ti : DBTableInfo) (vars : List (String × String))
    (e : Exp) (h : e.Op = ExpOp.OpNot) (c : Option Exp) (cs : List (Option Exp))
    (hc : e.Children = c :: cs) (st : List WItem) (n : Nat) :
    renderWhereLoop sel ti vars (n + 1) (WItem.exp (some e) :: st)
      = renderWhereLoop sel ti vars n (WItem.op ExpOp.OpNot :: WItem.exp c :: st) := by
  rw [renderWhereLoop]
  simp [h, hc]

theorem renderWhereLoop_not_nil (sel : Select) (ti : DBTableInfo)
    (vars : List (String × String)) (e : Exp) (h : e.Op = ExpOp.OpNot) (hc : e.Children = [])
    (st : List WItem) (n : Nat) :
    renderWhereLoop sel ti vars (n + 1) (WItem.exp (some e) :: st)
      = ⟨"", Status.panicked "index out of range [0] with length 0"⟩ := by
  rw [renderWhereLoop]
  simp [h, hc]

theorem renderWhereLoop_terminal (sel : Select) (ti : DBTableInfo)
    (vars : List (String × String)) (e : Exp) (h1 : e.Op ≠ ExpOp.OpAnd) (h2 : e.Op ≠ ExpOp.OpOr)
    (h3 : e.Op ≠ ExpOp.OpNot) (st : List WItem) (n : Nat) :
    renderWhereLoop sel ti vars (n + 1) (WItem.exp (some e) :: st)
      = (renderWhereTerminal sel ti vars e).andThen (renderWhereLoop sel ti vars n st) := by
  rw [renderWhereLoop]
  cases h : e.Op <;> simp_all

theorem serExp_andor (sel : Select) (ti : DBTableInfo) (vars : List (String × String))
    (e : Exp) (o : ExpOp) (ho : o = ExpOp.OpAnd ∨ o = ExpOp.OpOr) (h : e.Op = o) :
    serExp sel ti vars e =
      match e.Children with
      | [] => Wr.text ""
      | none :: _ => ⟨"", Status.panicked "nil pointer dereference"⟩
      | some e1 :: rest => (serExp sel ti vars e1).andThen (serRest sel ti vars o rest) := by
  obtain ⟨op, col, nested, typ, val, lt, lv, cs⟩ := e
  simp only at h
  subst h
  rcases ho with rfl | rfl <;> rcases cs with _ | ⟨_ | _, _⟩ <;> simp [serExp]

theorem serExp_not (sel : Select) (ti : DBTableInfo) (vars : List (String × String))
    (e : Exp) (h : e.Op = ExpOp.OpNot) :
    serExp sel ti vars e =
      match e.Children with
      | [] => ⟨"", Status.panicked "index out of range [0] with length 0"⟩
      | none :: _ => (Wr.text "NOT ").andThen ⟨"", Status.panicked "nil pointer dereference"⟩
      | some e1 :: _ => (Wr.text "NOT ").andThen (serExp sel ti vars e1) := by
  obtain ⟨op, col, nested, typ, val, lt, lv, cs⟩ := e
  simp only at h
  subst h
  rcases cs with _ | ⟨_ | _, _⟩ <;> simp [serExp]

theorem serExp_terminal (sel : Select) (ti : DBTableInfo) (vars : List (String × String))
    (e : Exp) (h1 : e.Op ≠ ExpOp.OpAnd) (h2 : e.Op ≠ ExpOp.OpOr) (h3 : e.Op ≠ ExpOp.OpNot) :
    serExp sel ti vars e = renderWhereTerminal sel ti vars e := by
  obtain ⟨op, col, nested, typ, val, lt, lv, cs⟩ := e
  cases op <;> simp_all [serExp]

mutual
theorem renderWhereLoop_exp (sel : Select) (ti : DBTableInfo) (vars : List (String × String)) :
    ∀ (e : Exp) (k : Nat) (st : List WItem) (fuel : Nat), expCost e + k ≤ fuel →
      ∃ fuel1, k ≤ fuel1 ∧
        renderWhereLoop sel ti vars fuel (WItem.exp (some e) :: st)
          = (serExp sel ti vars e).andThen (renderWhereLoop sel ti vars fuel1 st)
  | ⟨op, col, nested, typ, val, lt, lv, []⟩, k, st, fuel, h => by
    obtain ⟨n, rfl⟩ : ∃ n, fuel = n + 1 := ⟨fuel - 1, by simp [expCost] at h; omega⟩
    have hk : k ≤ n := by simp [expCost, expsCost] at h; omega
    by_cases hao : op = ExpOp.OpAnd ∨ op = ExpOp.OpOr
    · refine ⟨n, hk, ?_⟩
      rw [renderWhereLoop_andor sel ti vars _ op hao rfl, serExp_andor sel ti vars _ op hao rfl]
      simp [pushAndOr, Wr.empty_andThen]
    · by_cases hnot : op = ExpOp.OpNot
      · refine ⟨n, hk, ?_⟩
        rw [renderWhereLoop_not_nil sel ti vars _ hnot rfl, serExp_not sel ti vars _ hnot]
        simp [Wr.andThen]
      · refine ⟨n, hk, ?_⟩
        rw [renderWhereLoop_terminal sel ti vars _ (fun h => hao (Or.inl h))
          (fun h => hao (Or.inr h)) hnot,
          serExp_terminal sel ti vars _ (fun h => hao (Or.inl h)) (fun h => hao (Or.inr h)) hnot]
  | ⟨op, col, nested, typ, val, lt, lv, none :: rest⟩, k, st, fuel, h => by
    obtain ⟨n, rfl⟩ : ∃ n, fuel = n + 3 := ⟨fuel - 3, by simp [expCost, expsCost] at h; omega⟩
    have hk : k ≤ n := by simp [expCost, expsCost] at h; omega
    by_cases hao : op = ExpOp.OpAnd ∨ op = ExpOp.OpOr
    · refine ⟨n, hk, ?_⟩
      rw [renderWhereLoop_andor sel ti vars _ op hao rfl, serExp_andor sel ti vars _ op hao rfl]
      simp only [pushAndOr]
      rw [renderWhereLoop_none sel ti vars _ (n + 2) (by omega)]
      simp [Wr.andThen]
    · by_cases hnot : op = ExpOp.OpNot
      · refine ⟨n, hk, ?_⟩
        rw [renderWhereLoop_not sel ti vars _ hnot none rest rfl,
          serExp_not sel ti vars _ hnot, renderWhereLoop_token,
          renderWhereLoop_none sel ti vars _ (n + 1) (by omega)]
        simp [Wr.andThen, serToken, Wr.text]
      · refine ⟨n + 2, by omega, ?_⟩
        rw [renderWhereLoop_terminal sel ti vars _ (fun h => hao (Or.inl h))
          (fun h => hao (Or.inr h)) hnot,
          serExp_terminal sel ti vars _ (fun h => hao (Or.inl h)) (fun h => hao (Or.inr h)) hnot]
  | ⟨op, col, nested, typ, val, lt, lv, some e :: rest⟩, k, st, fuel, h => by
    obtain ⟨n, rfl⟩ : ∃ n, fuel = n + 2 := ⟨fuel - 2, by simp [expCost] at h; omega⟩
    have hc : expCost e + (expsCost rest + k) + 3 ≤ n + 2 := by
      simp [expCost, expsCost] at h ⊢; omega
    by_cases hao : op = ExpOp.OpAnd ∨ op = ExpOp.OpOr
    · obtain ⟨f1, hf1, e1⟩ := renderWhereLoop_exp sel ti vars e (expsCost rest + k)
        (pushRest op rest st) (n + 1) (by omega)
      obtain ⟨f2, hf2, e2⟩ := renderWhereLoop_rest sel ti vars op hao rest k st f1 hf1
      refine ⟨f2, hf2, ?_⟩
      rw [renderWhereLoop_andor sel ti vars _ op hao rfl, serExp_andor sel ti vars _ op hao rfl]
      simp only [pushAndOr]
      rw [e1, e2, Wr.andThen_assoc]
    · by_cases hnot : op = ExpOp.OpNot
      · obtain ⟨f1, hf1, e1⟩ := renderWhereLoop_exp sel ti vars e k st n (by omega)
        refine ⟨f1, hf1, ?_⟩
        rw [renderWhereLoop_not sel ti vars _ hnot (some e) rest rfl,
          serExp_not sel ti vars _ hnot, renderWhereLoop_token, e1, Wr.andThen_assoc]
        rfl
      · refine ⟨n + 1, by omega, ?_⟩
        rw [renderWhereLoop_terminal sel ti vars _ (fun h => hao (Or.inl h))
          (fun h => hao (Or.inr h)) hnot,
          serExp_terminal sel ti vars _ (fun h => hao (Or.inl h)) (fun h => hao (Or.inr h)) hnot]
theorem renderWhereLoop_rest (sel : Select) (ti : DBTableInfo) (vars : List (String × String))
    (o : ExpOp) (ho : o = ExpOp.OpAnd ∨ o = ExpOp.OpOr) :
    ∀ (cs : List (Option Exp)) (k : Nat) (st : List WItem) (fuel : Nat), expsCost cs + k ≤ fuel →
      ∃ fuel1, k ≤ fuel1 ∧
        renderWhereLoop sel ti vars fuel (pushRest o cs st)
          = (serRest sel ti vars o cs).andThen (renderWhereLoop sel ti vars fuel1 st)
  | [], k, st, fuel, h =>
    ⟨fuel, by simpa [expsCost] using h, by simp [pushRest, serRest, Wr.empty_andThen]⟩
  | none :: cs, k, st, fuel, h => by
    obtain ⟨n, rfl⟩ : ∃ n, fuel = n + 2 := ⟨fuel - 2, by simp [expsCost] at h; omega⟩
    refine ⟨n + 2, by omega, ?_⟩
    simp only [pushRest, serRest, renderWhereLoop_token]
    rw [renderWhereLoop_none sel ti vars _ (n + 1) (by omega), Wr.andThen_assoc]
    congr 1
  | some e :: cs, k, st, fuel, h => by
    obtain ⟨n, rfl⟩ : ∃ n, fuel = n + 1 := ⟨fuel - 1, by simp [expsCost] at h; omega⟩
    have hc : expCost e + (expsCost cs + k) ≤ n := by simp [expsCost] at h; omega
    obtain ⟨f1, hf1, e1⟩ := renderWhereLoop_exp sel ti vars e (expsCost cs + k)
      (pushRest o cs st) n hc
    obtain ⟨f2, hf2, e2⟩ := renderWhereLoop_rest sel ti vars o ho cs k st f1 hf1
    refine ⟨f2, hf2, ?_⟩
    simp only [pushRest, serRest, renderWhereLoop_token]
    rw [e1, e2]
    simp only [Wr.andThen_assoc]
end

/-- The routine `renderWhere` writes the recursive serialisation of the filter:
its fuel always suffices. -/
theorem renderWhere_eq_serExp (sel : Select) (ti : DBTableInfo) (vars : List (String × String))
    (e : Exp) (h : sel.Where = some e) : renderWhere sel ti vars = serExp sel ti vars e := by
  obtain ⟨f1, _, e1⟩ := renderWhereLoop_exp sel ti vars e 0 [] (expCost e) (by omega)
  rw [renderWhere, h]
  simp only
  rw [e1]
  cases f1 <;> simp [renderWhereLoop, Wr.andThen_text_empty]

end psql

/-! ### The loop of `Compile` is the recursive emission -/

namespace psql

open qcode GoStr

theorem emitSel_eq (c : Compiler) (parent : Option Select) (ti : DBTableInfo) (sel : Select) :
    emitSel c parent ti sel =
      (renderSelect c parent sel ti (c.relationshipColumns sel).1
          (c.relationshipColumns sel).2).dropError.andThen
        (match firstUnknown c (emitted c sel) with
        | some j => ⟨"", Status.error ("unknown table " ++ j.Table)⟩
        | none => (emitJoins c sel sel.Joins).andThen (renderSelectClose sel).dropError) := by
  cases sel
  simp [emitSel]

theorem relationshipColumnsFrom_ids (c : Compiler) (parent : Select) (colmap : List String)
    (i : Nat) (sub : Select) (rest : List Select) :
    (relationshipColumnsFrom c parent colmap i (sub :: rest)).2 =
      if resolves c parent sub then
        i :: (relationshipColumnsFrom c parent colmap (i + 1) rest).2
      else (relationshipColumnsFrom c parent colmap (i + 1) rest).2 := by
  simp only [relationshipColumnsFrom, resolves]
  split
  · rename_i h
    simp only [h, Option.isSome_none, Bool.false_eq_true, if_false]
  · rename_i rel h
    simp only [h, Option.isSome_some, if_true]
    split <;> rfl

/-- The list form of the pushes of `Compile`. -/
theorem pushJoins_ids (c : Compiler) (sel : Select) (colmap : List String) :
    ∀ (js pre : List Select) (st : List Item), pre ++ js = sel.Joins →
      pushJoins c sel (relationshipColumnsFrom c sel colmap pre.length js).2 st =
        match firstUnknown c (js.filter (resolves c sel)) with
        | some j => Except.error (Status.error ("unknown table " ++ j.Table))
        | none => Except.ok (joinItems c sel (js.filter (resolves c sel)) ++ st) := by
  intro js
  induction js with
  | nil => intro pre st _; simp [relationshipColumnsFrom, pushJoins, firstUnknown, joinItems]
  | cons j js ih =>
    intro pre st hpre
    have hj : joinAt sel pre.length = some j := by
      rw [joinAt, ← hpre, List.getElem?_append_right (le_refl _)]
      simp
    have ih1 := fun st => ih (pre ++ [j]) st (by simpa using hpre)
    simp only [List.length_append, List.length_singleton] at ih1
    rw [relationshipColumnsFrom_ids]
    by_cases hr : resolves c sel j = true
    · simp only [hr, if_true, List.filter_cons_of_pos, pushJoins, hj, firstUnknown]
      cases ht : c.getTable j with
      | none => simp
      | some ti =>
        simp only [ih1]
        cases firstUnknown c (js.filter (resolves c sel)) with
        | some b => simp
        | none => simp [joinItems, joinItem, ht]
    · simp only [hr, if_false, Bool.false_eq_true]
      rw [List.filter_cons_of_neg (by simpa using hr)]
      exact ih1 st

theorem pushJoins_relationshipColumns (c : Compiler) (sel : Select) (st : List Item) :
    pushJoins c sel (c.relationshipColumns sel).2 st =
      match firstUnknown c (emitted c sel) with
      | some j => Except.error (Status.error ("unknown table " ++ j.Table))
      | none => Except.ok (joinItems c sel (emitted c sel) ++ st) :=
  pushJoins_ids c sel _ sel.Joins [] st rfl

theorem compileLoop_selectBlock (c : Compiler) (parent : Option Select) (sel : Select)
    (ti : DBTableInfo) (st : List Item) (n : Nat) :
    compileLoop c (n + 1) (Item.selectBlock parent sel ti :: st) =
      (renderSelect c parent sel ti (c.relationshipColumns sel).1
          (c.relationshipColumns sel).2).dropError.andThen
        (match firstUnknown c (emitted c sel) with
        | some j => ⟨"", Status.error ("unknown table " ++ j.Table)⟩
        | none => compileLoop c n (joinItems c sel (emitted c sel) ++ st)) := by
  rw [compileLoop]
  simp only [pushJoins_relationshipColumns]
  cases firstUnknown c (emitted c sel) <;> rfl

theorem compileLoop_selectBlockClose (c : Compiler) (parent : Option Select) (sel : Select)
    (st : List Item) (n : Nat) :
    compileLoop c (n + 1) (Item.selectBlockClose parent sel :: st) =
      (renderSelectClose sel).dropError.andThen (compileLoop c n st) := by
  rw [compileLoop]

theorem compileLoop_joinOpen (c : Compiler) (sel : Select) (st : List Item) (n : Nat) :
    compileLoop c (n + 1) (Item.joinOpen sel :: st) =
      (Wr.text renderJoinOpen).andThen (compileLoop c n st) := by
  rw [compileLoop]

theorem compileLoop_joinClose (c : Compiler) (sel : Select) (st : List Item) (n : Nat) :
    compileLoop c (n + 1) (Item.joinClose sel :: st) =
      (Wr.text (renderJoinClose sel)).andThen (compileLoop c n st) := by
  rw [compileLoop]

theorem firstUnknown_cons_none (c : Compiler) (j : Select) (l : List Select)
    (h : firstUnknown c (j :: l) = none) :
    (∃ ti, c.getTable j = some ti) ∧ firstUnknown c l = none := by
  rw [firstUnknown] at h
  cases ht : c.getTable j with
  | none => simp [ht] at h
  | some ti => exact ⟨⟨ti, rfl⟩, by simpa [ht] using h⟩

mutual
theorem compileLoop_sel (c : Compiler) :
    ∀ (s : Select) (parent : Option Select) (ti : DBTableInfo) (k : Nat) (rest : List Item)
      (fuel : Nat), selCost s + k ≤ fuel + 2 →
      ∃ fuel1, k ≤ fuel1 ∧
        compileLoop c fuel (Item.selectBlock parent s ti :: Item.selectBlockClose parent s :: rest)
          = (emitSel c parent ti s).andThen (compileLoop c fuel1 rest)
  | ⟨id, args, asList, table, singular, fieldName, cols, wh, ob, dist, paging, js⟩, parent, ti, k,
      rest, fuel, h => by
    obtain ⟨n, rfl⟩ : ∃ n, fuel = n + 2 := ⟨fuel - 2, by simp [selCost] at h; omega⟩
    have hc : selsCost js + (k + 1) ≤ n + 1 := by simp [selCost] at h; omega
    cases hu : firstUnknown c (emitted c
        ⟨id, args, asList, table, singular, fieldName, cols, wh, ob, dist, paging, js⟩) with
    | some j =>
      refine ⟨k, le_refl _, ?_⟩
      rw [compileLoop_selectBlock, emitSel_eq]
      simp only [hu]
      rw [Wr.andThen_assoc]
      rfl
    | none =>
      obtain ⟨f1, hf1, e1⟩ := compileLoop_joins c js
        ⟨id, args, asList, table, singular, fieldName, cols, wh, ob, dist, paging, js⟩ (k + 1)
        (Item.selectBlockClose parent
          ⟨id, args, asList, table, singular, fieldName, cols, wh, ob, dist, paging, js⟩ :: rest)
        (n + 1) hc hu
      obtain ⟨m, rfl⟩ : ∃ m, f1 = m + 1 := ⟨f1 - 1, by omega⟩
      refine ⟨m, by omega, ?_⟩
      rw [compileLoop_selectBlock, emitSel_eq]
      simp only [hu]
      simp only [emitted] at e1 ⊢
      rw [e1, compileLoop_selectBlockClose]
      simp only [Wr.andThen_assoc]
theorem compileLoop_joins (c : Compiler) :
    ∀ (js : List Select) (p : Select) (k : Nat) (rest : List Item) (fuel : Nat),
      selsCost js + k ≤ fuel → firstUnknown c (js.filter (resolves c p)) = none →
      ∃ fuel1, k ≤ fuel1 ∧
        compileLoop c fuel (joinItems c p (js.filter (resolves c p)) ++ rest)
          = (emitJoins c p js).andThen (compileLoop c fuel1 rest)
  | [], p, k, rest, fuel, h, _ =>
    ⟨fuel, by simpa [selsCost] using h, by simp [joinItems, emitJoins, Wr.empty_andThen]⟩
  | j :: js, p, k, rest, fuel, h, hu => by
    have hj4 : 4 ≤ selCost j := by cases j; simp [selCost]
    by_cases hr : resolves c p j = true
    · rw [List.filter_cons_of_pos hr] at hu ⊢
      obtain ⟨⟨ti, ht⟩, hu1⟩ := firstUnknown_cons_none c j _ hu
      obtain ⟨f1, hf1, e1⟩ := compileLoop_joins c js p (k + selCost j)
        (joinItem c p j ++ rest) fuel (by simp [selsCost] at h; omega) hu1
      obtain ⟨m, rfl⟩ : ∃ m, f1 = m + 1 := ⟨f1 - 1, by omega⟩
      obtain ⟨f2, hf2, e2⟩ := compileLoop_sel c j (some p) ti (k + 1)
        (Item.joinClose j :: rest) m (by omega)
      obtain ⟨m2, rfl⟩ : ∃ m2, f2 = m2 + 1 := ⟨f2 - 1, by omega⟩
      refine ⟨m2, by omega, ?_⟩
      rw [joinItems, List.append_assoc, e1, emitJoins]
      simp only [hr, if_true, ht, joinItem, List.cons_append, List.nil_append]
      rw [compileLoop_joinOpen, e2, compileLoop_joinClose]
      simp only [Wr.andThen_assoc]
    · rw [List.filter_cons_of_neg hr] at hu ⊢
      obtain ⟨f1, hf1, e1⟩ := compileLoop_joins c js p k rest fuel
        (by simp [selsCost] at h; omega) hu
      refine ⟨f1, hf1, ?_⟩
      rw [e1, emitJoins]
      simp [hr, Wr.andThen_text_empty]
end

/-- The routine `Compile` writes the heading, the recursive emission of the root
and the closing: the fuel of its loop always suffices. -/
theorem Compile_eq_emitSel (c : Compiler) (root : Select) (ti : DBTableInfo)
    (ht : c.getTable root = some ti) :
    c.Compile ⟨some ⟨some root⟩⟩ =
      (Wr.text ("SELECT json_object_agg('" ++ root.FieldName ++ "', " ++ root.Table
          ++ ") FROM (")).andThen
        ((emitSel c none ti root).andThen (Wr.text ") AS \"done_1337\";")) := by
  obtain ⟨f1, _, e1⟩ := compileLoop_sel c root none ti 0 [] (selCost root) (by omega)
  simp only [Compiler.Compile, ht]
  rw [e1]
  have : compileLoop c f1 [] = Wr.text "" := by cases f1 <;> rfl
  rw [this, Wr.andThen_text_empty]

end psql

/-! ### When the emission neither panics nor fails -/

namespace psql

open qcode GoStr

theorem Wr.calm_text (s : String) : (Wr.text s).calm := Or.inl rfl

theorem Wr.calm_error (s m : String) : (⟨s, Status.error m⟩ : Wr).calm := Or.inr ⟨m, rfl⟩

theorem Wr.calm_andThen (a b : Wr) (ha : a.calm) (hb : b.calm) : (a.andThen b).calm := by
  obtain ⟨ao, ast⟩ := a
  rcases ha with ha | ⟨m, ha⟩
  · simp only at ha
    subst ha
    rcases hb with hb | ⟨m, hb⟩
    · exact Or.inl (by simp [Wr.andThen, hb])
    · exact Or.inr ⟨m, by simp [Wr.andThen, hb]⟩
  · simp only at ha
    subst ha
    exact Or.inr ⟨m, by simp [Wr.andThen]⟩

theorem Wr.dropError_of_calm (a : Wr) (ha : a.calm) : a.dropError = ⟨a.out, Status.done⟩ := by
  obtain ⟨ao, ast⟩ := a
  rcases ha with ha | ⟨m, ha⟩ <;> simp only at ha <;> subst ha <;> rfl

theorem Wr.text_andThen_text (s t : String) :
    (Wr.text s).andThen (Wr.text t) = Wr.text (s ++ t) := rfl

theorem Wr.done_andThen (s : String) (b : Wr) :
    (⟨s, Status.done⟩ : Wr).andThen b = ⟨s ++ b.out, b.st⟩ := rfl

theorem serToken_calm (o : ExpOp) : (serToken o).calm := by
  cases o <;> first | exact Wr.calm_text _ | exact Wr.calm_error _ _

theorem renderWhereTerminal_calm (sel : Select) (ti : DBTableInfo)
    (vars : List (String × String)) (e : Exp) : (renderWhereTerminal sel ti vars e).calm := by
  unfold renderWhereTerminal
  apply Wr.calm_andThen _ _ (Wr.calm_text _)
  split
  · exact Wr.calm_text _
  · split
    · exact Wr.calm_error _ _
    · exact Wr.calm_text _
  · split
    · exact Wr.calm_error _ _
    · exact Wr.calm_text _
  · split
    · exact Wr.calm_error _ _
    · exact Wr.calm_text _

mutual
theorem serExp_calm (sel : Select) (ti : DBTableInfo) (vars : List (String × String)) :
    ∀ (e : Exp), expSafe e = true → (serExp sel ti vars e).calm
  | ⟨op, col, nested, typ, val, lt, lv, []⟩, h => by
    by_cases hao : op = ExpOp.OpAnd ∨ op = ExpOp.OpOr
    · rw [serExp_andor sel ti vars _ op hao rfl]
      exact Wr.calm_text _
    · by_cases hnot : op = ExpOp.OpNot
      · subst hnot
        simp [expSafe] at h
      · rw [serExp_terminal sel ti vars _ (fun h => hao (Or.inl h)) (fun h => hao (Or.inr h)) hnot]
        exact renderWhereTerminal_calm _ _ _ _
  | ⟨op, col, nested, typ, val, lt, lv, none :: rest⟩, h => by
    by_cases hao : op = ExpOp.OpAnd ∨ op = ExpOp.OpOr
    · rcases hao with rfl | rfl <;> simp [expSafe, expsSafe] at h
    · by_cases hnot : op = ExpOp.OpNot
      · subst hnot
        simp [expSafe] at h
      · rw [serExp_terminal sel ti vars _ (fun h => hao (Or.inl h)) (fun h => hao (Or.inr h)) hnot]
        exact renderWhereTerminal_calm _ _ _ _
  | ⟨op, col, nested, typ, val, lt, lv, some e :: rest⟩, h => by
    by_cases hao : op = ExpOp.OpAnd ∨ op = ExpOp.OpOr
    · rw [serExp_andor sel ti vars _ op hao rfl]
      have h2 : expSafe e = true ∧ expsSafe rest = true := by
        rcases hao with rfl | rfl <;> simpa [expSafe, expsSafe] using h
      exact Wr.calm_andThen _ _ (serExp_calm sel ti vars e h2.1)
        (serRest_calm sel ti vars op rest h2.2)
    · by_cases hnot : op = ExpOp.OpNot
      · subst hnot
        rw [serExp_not sel ti vars _ rfl]
        exact Wr.calm_andThen _ _ (Wr.calm_text _)
          (serExp_calm sel ti vars e (by simpa [expSafe] using h))
      · rw [serExp_terminal sel ti vars _ (fun h => hao (Or.inl h)) (fun h => hao (Or.inr h)) hnot]
        exact renderWhereTerminal_calm _ _ _ _
theorem serRest_calm (sel : Select) (ti : DBTableInfo) (vars : List (String × String))
    (o : ExpOp) : ∀ (cs : List (Option Exp)), expsSafe cs = true → (serRest sel ti vars o cs).calm
  | [], _ => by simp only [serRest]; exact Wr.calm_text _
  | none :: rest, h => by simp [expsSafe] at h
  | some e :: rest, h => by
    have h2 : expSafe e = true ∧ expsSafe rest = true := by simpa [expsSafe] using h
    simp only [serRest]
    exact Wr.calm_andThen _ _ (serToken_calm o)
      (Wr.calm_andThen _ _ (serExp_calm sel ti vars e h2.1) (serRest_calm sel ti vars o rest h2.2))
end

theorem renderWhere_calm (sel : Select) (ti : DBTableInfo) (vars : List (String × String))
    (h : whereSafe sel.Where = true) : (renderWhere sel ti vars).calm := by
  cases hw : sel.Where with
  | none => simp only [renderWhere, hw]; exact Wr.calm_text _
  | some e =>
    rw [renderWhere_eq_serExp sel ti vars e hw]
    exact serExp_calm sel ti vars e (by simpa [whereSafe, hw] using h)

theorem renderOrderByLoop_calm (sel : Select) :
    ∀ (obs : List OrderBy), (renderOrderByLoop sel obs).calm
  | [] => Wr.calm_text _
  | ob :: rest => by
    simp only [renderOrderByLoop]
    split
    · exact Wr.calm_error _ _
    · exact Wr.calm_andThen _ _ (Wr.calm_text _) (renderOrderByLoop_calm sel rest)

theorem renderOrderBy_calm (sel : Select) : (renderOrderBy sel).calm :=
  Wr.calm_andThen _ _ (Wr.calm_text _) (renderOrderByLoop_calm sel _)

theorem renderSelectClose_calm (sel : Select) : (renderSelectClose sel).calm := by
  unfold renderSelectClose
  apply Wr.calm_andThen _ _ _ (Wr.calm_text _)
  split
  · exact renderOrderBy_calm sel
  · exact Wr.calm_text _

theorem renderJoinTable_calm (c : Compiler) (p sel : Select) (h : resolves c p sel = true) :
    (renderJoinTable c.schema p sel).calm := by
  unfold renderJoinTable
  unfold resolves at h
  split
  · rename_i h1; simp [h1] at h
  · split <;> exact Wr.calm_text _

theorem renderRelationship_calm (c : Compiler) (p sel : Select) (h : resolves c p sel = true) :
    (renderRelationship c.schema p sel).calm := by
  unfold renderRelationship
  unfold resolves at h
  split
  · rename_i h1; simp [h1] at h
  · split <;> exact Wr.calm_text _

theorem renderBaseWhere_calm (c : Compiler) (parent : Option Select) (sel : Select)
    (ti : DBTableInfo) (hw : whereSafe sel.Where = true) (hp : parentOK c parent sel) :
    (renderBaseWhere c parent sel ti).calm := by
  unfold renderBaseWhere
  cases parent with
  | none =>
    simp only
    split
    · exact Wr.calm_andThen _ _ (Wr.calm_text _)
        (Wr.calm_andThen _ _ (renderWhere_calm sel ti c.vars hw) (Wr.calm_text _))
    · exact Wr.calm_text _
  | some p =>
    simp only
    have hr := hp p rfl
    refine Wr.calm_andThen _ _ (renderJoinTable_calm c p sel hr)
      (Wr.calm_andThen _ _ (Wr.calm_text _)
        (Wr.calm_andThen _ _ (renderRelationship_calm c p sel hr)
          (Wr.calm_andThen _ _ ?_ (Wr.calm_text _))))
    split
    · exact Wr.calm_andThen _ _ (Wr.calm_text _) (renderWhere_calm sel ti c.vars hw)
    · exact Wr.calm_text _

theorem renderSelect_calm (c : Compiler) (parent : Option Select) (sel : Select)
    (ti : DBTableInfo) (cols : List Column) (ids : List Nat)
    (hw : whereSafe sel.Where = true) (hp : parentOK c parent sel) :
    (renderSelect c parent sel ti cols ids).calm := by
  unfold renderSelect
  refine Wr.calm_andThen _ _ ?_ (Wr.calm_andThen _ _ (Wr.calm_text _) ?_)
  · split
    · refine Wr.calm_andThen _ _ (Wr.calm_text _) (Wr.calm_andThen _ _ ?_ (Wr.calm_text _))
      split
      · exact renderOrderBy_calm sel
      · exact Wr.calm_text _
    · exact Wr.calm_text _
  · unfold renderBaseSelect
    exact Wr.calm_andThen _ _ (Wr.calm_text _)
      (Wr.calm_andThen _ _ (renderBaseWhere_calm c parent sel ti hw hp) (Wr.calm_text _))

end psql

namespace psql

open qcode GoStr

theorem emitOK_eq (c : Compiler) (sel : Select) :
    emitOK c sel = ((c.getTable sel).isSome && whereSafe sel.Where && emitOKs c sel sel.Joins) := by
  cases sel
  simp [emitOK]

theorem selText_eq (c : Compiler) (parent : Option Select) (sel : Select) :
    selText c parent sel =
      blockText c parent sel ++ joinsText c sel sel.Joins ++ closeText sel := by
  cases sel
  simp [selText]

theorem emitOKs_firstUnknown (c : Compiler) (p : Select) :
    ∀ (js : List Select), emitOKs c p js = true →
      firstUnknown c (js.filter (resolves c p)) = none
  | [], _ => rfl
  | j :: js, h => by
    simp only [emitOKs, Bool.and_eq_true] at h
    by_cases hr : resolves c p j = true
    · rw [List.filter_cons_of_pos hr, firstUnknown]
      have hj := h.1
      simp only [hr, if_true] at hj
      rw [emitOK_eq] at hj
      simp only [Bool.and_eq_true] at hj
      cases ht : c.getTable j with
      | none => simp [ht] at hj
      | some ti => exact emitOKs_firstUnknown c p js h.2
    · rw [List.filter_cons_of_neg hr]
      exact emitOKs_firstUnknown c p js h.2

mutual
theorem emitSel_text (c : Compiler) :
    ∀ (s : Select) (parent : Option Select) (ti : DBTableInfo), emitOK c s = true →
      c.getTable s = some ti → parentOK c parent s →
      emitSel c parent ti s = ⟨selText c parent s, Status.done⟩
  | ⟨id, args, asList, table, singular, fieldName, cols, wh, ob, dist, paging, js⟩, parent, ti, h,
      ht, hp => by
    rw [emitOK_eq] at h
    simp only [Bool.and_eq_true] at h
    obtain ⟨⟨_, hw⟩, hjs⟩ := h
    have hu := emitOKs_firstUnknown c _ js hjs
    rw [emitSel_eq, selText_eq]
    simp only [emitted, hu]
    rw [emitJoins_text c js _ hjs,
      Wr.dropError_of_calm _ (renderSelect_calm c parent _ ti _ _ hw hp),
      Wr.dropError_of_calm _ (renderSelectClose_calm _)]
    simp only [Wr.done_andThen, blockText, ht, closeText, String.append_assoc]
theorem emitJoins_text (c : Compiler) :
    ∀ (js : List Select) (p : Select), emitOKs c p js = true →
      emitJoins c p js = ⟨joinsText c p js, Status.done⟩
  | [], p, _ => rfl
  | j :: js, p, h => by
    simp only [emitOKs, Bool.and_eq_true] at h
    rw [emitJoins, joinsText, emitJoins_text c js p h.2]
    by_cases hr : resolves c p j = true
    · have hj := h.1
      simp only [hr, if_true] at hj ⊢
      have hj2 := hj
      rw [emitOK_eq] at hj2
      simp only [Bool.and_eq_true] at hj2
      cases ht : c.getTable j with
      | none => simp [ht] at hj2
      | some ti =>
        simp only
        rw [emitSel_text c j (some p) ti hj ht (fun q hq => by cases hq; exact hr)]
        simp only [Wr.done_andThen, Wr.text, String.append_assoc]
    · simp only [hr, Bool.false_eq_true, if_false]
      simp [Wr.done_andThen, Wr.text]
end

end psql

namespace psql

open qcode GoStr

theorem joinsText_mem (c : Compiler) (p j : Select) :
    ∀ (js : List Select), j ∈ js.filter (resolves c p) →
      ∃ m1 m2, joinsText c p js =
        m1 ++ (renderJoinOpen ++ selText c (some p) j ++ renderJoinClose j) ++ m2
  | [], h => by simp at h
  | x :: xs, h => by
    rw [joinsText]
    by_cases hr : resolves c p x = true
    · rw [List.filter_cons_of_pos hr, List.mem_cons] at h
      simp only [hr, if_true]
      rcases h with rfl | h
      · exact ⟨joinsText c p xs, "", by simp [String.append_assoc]⟩
      · obtain ⟨m1, m2, e⟩ := joinsText_mem c p j xs h
        exact ⟨m1, m2 ++ (renderJoinOpen ++ selText c (some p) x ++ renderJoinClose x),
          by rw [e]; simp only [String.append_assoc]⟩
    · rw [List.filter_cons_of_neg hr] at h
      obtain ⟨m1, m2, e⟩ := joinsText_mem c p j xs h
      exact ⟨m1, m2, by rw [e]; simp [hr]⟩

theorem selText_child (c : Compiler) (par : Option Select) (p j : Select)
    (h : j ∈ emitted c p) :
    ∃ m1 m2, selText c par p =
      blockText c par p ++ m1 ++ joinText c p j ++ m2 ++ closeText p := by
  obtain ⟨m1, m2, e⟩ := joinsText_mem c p j p.Joins h
  refine ⟨m1, m2, ?_⟩
  rw [selText_eq, e, selText_eq, joinText]
  simp only [String.append_assoc]

theorem selText_emits (c : Compiler) (root : Select) (par : Option Select) (p : Select)
    (h : Emits c root par p) : ∃ a b, selText c none root = a ++ selText c par p ++ b := by
  induction h with
  | root => exact ⟨"", "", by simp⟩
  | child par p j _ hj ih =>
    obtain ⟨a, b, e⟩ := ih
    obtain ⟨m1, m2, e2⟩ := joinsText_mem c p j p.Joins hj
    refine ⟨a ++ blockText c par p ++ m1 ++ renderJoinOpen,
      renderJoinClose j ++ m2 ++ closeText p ++ b, ?_⟩
    rw [e, selText_eq c par p, e2]
    simp only [String.append_assoc]

/-- C1 (as amended): when the table of the root and of every emitted child is
known and the filter of every emitted select has a first child under each Not
and no nil child pointer, `Compile` ends normally, its text is the heading
`SELECT json_object_agg('<FieldName>', <Table>) FROM (`, the emission of the
root and the closing `) AS "done_1337";`, and for every emitted child `C` of an
emitted select `P` the text contains, between the select block of `P` and the
select close of `P`, the contiguous lateral join of `C`: the opening, the select
block of `C`, the joins of the children of `C`, the select close of `C` and
`) AS "<C.Table>_<C.ID>.join" ON ('true')`. -/
theorem Compile_lateral_join_structure (c : Compiler) (root : Select)
    (h : emitOK c root = true) :
    (c.Compile ⟨some ⟨some root⟩⟩).st = Status.done ∧
    (c.Compile ⟨some ⟨some root⟩⟩).out =
      "SELECT json_object_agg('" ++ root.FieldName ++ "', " ++ root.Table ++ ") FROM (" ++
        selText c none root ++ ") AS \"done_1337\";" ∧
    ∀ (par : Option Select) (P C : Select), Emits c root par P → C ∈ emitted c P →
      ∃ a m1 m2 b, (c.Compile ⟨some ⟨some root⟩⟩).out =
        a ++ blockText c par P ++ m1 ++
          (" LEFT OUTER JOIN LATERAL (" ++ blockText c (some P) C ++ joinsText c C C.Joins ++
            closeText C ++ ") AS \"" ++ C.Table ++ "_" ++ itoa C.ID ++ ".join\" ON ('true')")
          ++ m2 ++ closeText P ++ b := by
  have h1 := h
  rw [emitOK_eq] at h1
  simp only [Bool.and_eq_true] at h1
  obtain ⟨ti, ht⟩ := Option.isSome_iff_exists.mp h1.1.1
  have hc := Compile_eq_emitSel c root ti ht
  rw [emitSel_text c root none ti h ht (fun p hp => by cases hp)] at hc
  have hout : (c.Compile ⟨some ⟨some root⟩⟩).out =
      "SELECT json_object_agg('" ++ root.FieldName ++ "', " ++ root.Table ++ ") FROM (" ++
        selText c none root ++ ") AS \"done_1337\";" := by
    rw [hc]; simp [Wr.andThen, Wr.text, String.append_assoc]
  refine ⟨by rw [hc]; rfl, hout, ?_⟩
  intro par P C hP hC
  obtain ⟨a, b, e⟩ := selText_emits c root par P hP
  obtain ⟨m1, m2, e2⟩ := selText_child c par P C hC
  refine ⟨"SELECT json_object_agg('" ++ root.FieldName ++ "', " ++ root.Table ++ ") FROM (" ++ a,
    m1, m2, b ++ ") AS \"done_1337\";", ?_⟩
  rw [hout, e, e2, joinText, renderJoinOpen, renderJoinClose, scope]
  simp only [String.append_assoc]

/-- Witness of C1 on `{ posts { id title user { id name } tags { label } } }`. -/
theorem Compile_lateral_join_structure_witness :
    emitOK Examples.sqlc Examples.postsSel = true ∧
    (Examples.sqlc.Compile ⟨some ⟨some Examples.postsSel⟩⟩).st = Status.done :=
  ⟨by decide, (Compile_lateral_join_structure Examples.sqlc Examples.postsSel (by decide)).1⟩

/-- C1 (counterexample to the claim as stated): the table of the root is known
and it has no child, yet for a filter `Not` without child `Compile` panics in
`renderWhere` and the text written does not end with `) AS "done_1337";`. -/
theorem Compile_not_without_child_panics :
    (Examples.sqlc.getTable (Examples.sel 0 "users" "users" true ["name"]
        (some Examples.notEmpty) [])).isSome = true ∧
    (Examples.sqlc.Compile Examples.qcNotEmpty).st
      = Status.panicked "index out of range [0] with length 0" ∧
    HasSuffix (Examples.sqlc.Compile Examples.qcNotEmpty).out ") AS \"done_1337\";" = false := by
  decide

end psql

/-! ### Children without relationship are skipped -/

namespace psql

open qcode GoStr

theorem commaSep_map {α β : Type} (f : β → String) (g : α → β) :
    ∀ (l : List α), commaSep (fun a => f (g a)) l = commaSep f (l.map g)
  | [] => rfl
  | [a] => rfl
  | a :: b :: l => by
    simp only [commaSep, List.map_cons]
    rw [commaSep_map f g (b :: l)]
    rfl

theorem relationshipColumnsFrom_cols (c : Compiler) (parent : Select) (colmap : List String) :
    ∀ (js : List Select) (i : Nat),
      (relationshipColumnsFrom c parent colmap i js).1 =
        (js.map (childColumn c parent colmap)).flatten
  | [], _ => rfl
  | j :: js, i => by
    simp only [relationshipColumnsFrom, List.map_cons, List.flatten_cons, childColumn]
    rw [← relationshipColumnsFrom_cols c parent colmap js (i + 1)]
    split
    · rfl
    · split <;> rfl

theorem relationshipColumnsFrom_selects (c : Compiler) (sel : Select) (colmap : List String) :
    ∀ (js pre : List Select), pre ++ js = sel.Joins →
      (relationshipColumnsFrom c sel colmap pre.length js).2.map (joinAt sel) =
        (js.filter (resolves c sel)).map some := by
  intro js
  induction js with
  | nil => intro pre _; simp [relationshipColumnsFrom]
  | cons j js ih =>
    intro pre hpre
    have hj : joinAt sel pre.length = some j := by
      rw [joinAt, ← hpre, List.getElem?_append_right (le_refl _)]
      simp
    have ih1 := ih (pre ++ [j]) (by simpa using hpre)
    simp only [List.length_append, List.length_singleton] at ih1
    rw [relationshipColumnsFrom_ids]
    by_cases hr : resolves c sel j = true
    · simp only [hr, if_true, List.map_cons, hj, ih1, List.filter_cons_of_pos]
    · simp only [hr, Bool.false_eq_true, if_false, ih1]
      rw [List.filter_cons_of_neg hr]

/-- The joined columns are those of the emitted children, in the order of
`Joins`. -/
theorem renderJoinedColumns_emitted (c : Compiler) (sel : Select) :
    renderJoinedColumns sel (c.relationshipColumns sel).2 =
      (if sel.Cols.length != 0 && (emitted c sel).length != 0 then ", " else "") ++
        commaSep joinedColumn (emitted c sel) := by
  have h := relationshipColumnsFrom_selects c sel (sel.Cols.map (fun col => col.Name))
    sel.Joins [] rfl
  simp only [List.length_nil] at h
  have hlen : (c.relationshipColumns sel).2.length = (emitted c sel).length := by
    have := congrArg List.length h
    simpa [Compiler.relationshipColumns, emitted] using this
  unfold renderJoinedColumns
  rw [hlen]
  congr 1
  have e1 : (fun i => match joinAt sel i with
      | some s => "\"" ++ scope s ++ ".join\".\"" ++ s.Table ++ "\" AS \"" ++ s.FieldName ++ "\""
      | none => "") = (fun i => (fun o : Option Select => match o with
      | some s => joinedColumn s
      | none => "") (joinAt sel i)) := by
    funext i
    cases joinAt sel i <;> rfl
  have key := commaSep_map (fun o : Option Select => match o with
      | some s => joinedColumn s
      | none => "") (joinAt sel) (c.relationshipColumns sel).2
  rw [e1, key, Compiler.relationshipColumns, h]
  exact (commaSep_map _ some _).symm

end psql

namespace psql

open qcode GoStr

theorem scope_withJoins (s : Select) (js : List Select) : scope (withJoins s js) = scope s := rfl

theorem renderOrderByLoop_withJoins (s : Select) (js : List Select) :
    ∀ (obs : List OrderBy), renderOrderByLoop (withJoins s js) obs = renderOrderByLoop s obs
  | [] => rfl
  | ob :: rest => by
    simp only [renderOrderByLoop, renderOrderByLoop_withJoins s js rest]
    rfl

theorem renderOrderBy_withJoins (s : Select) (js : List Select) :
    renderOrderBy (withJoins s js) = renderOrderBy s := by
  simp only [renderOrderBy, renderOrderByLoop_withJoins]
  rfl

theorem renderWhereLoop_withJoins (s : Select) (js : List Select) (ti : DBTableInfo)
    (vars : List (String × String)) :
    ∀ (n : Nat) (st : List WItem),
      renderWhereLoop (withJoins s js) ti vars n st = renderWhereLoop s ti vars n st
  | 0, [] => rfl
  | 0, _ :: _ => rfl
  | _ + 1, [] => rfl
  | n + 1, WItem.op o :: st => by
    simp only [renderWhereLoop_token, renderWhereLoop_withJoins s js ti vars n st]
  | n + 1, WItem.exp none :: st => by
    simp only [renderWhereLoop]
  | n + 1, WItem.exp (some e) :: st => by
    have ih := renderWhereLoop_withJoins s js ti vars n
    have ht : renderWhereTerminal (withJoins s js) ti vars e = renderWhereTerminal s ti vars e :=
      rfl
    simp only [renderWhereLoop, ih, ht]

theorem renderWhere_withJoins (s : Select) (js : List Select) (ti : DBTableInfo)
    (vars : List (String × String)) :
    renderWhere (withJoins s js) ti vars = renderWhere s ti vars := by
  have h : (withJoins s js).Where = s.Where := rfl
  simp only [renderWhere, h, renderWhereLoop_withJoins]

theorem renderBaseColsFrom_withJoins (s : Select) (js : List Select) (ti : DBTableInfo)
    (more : Bool) :
    ∀ (cols : List Column) (i : Nat),
      renderBaseColsFrom (withJoins s js) ti more i cols = renderBaseColsFrom s ti more i cols
  | [], _ => rfl
  | col :: rest, i => by
    have ht : renderBaseCol (withJoins s js) ti col = renderBaseCol s ti col := rfl
    simp only [renderBaseColsFrom, ht, renderBaseColsFrom_withJoins s js ti more rest (i + 1)]

theorem renderBaseWhere_withJoins (c : Compiler) (parent : Option Select) (s : Select)
    (js : List Select) (ti : DBTableInfo) :
    renderBaseWhere c parent (withJoins s js) ti = renderBaseWhere c parent s ti := by
  have h : (withJoins s js).Where = s.Where := rfl
  cases parent with
  | none => simp only [renderBaseWhere, h, renderWhere_withJoins]
  | some p =>
    have h1 : renderJoinTable c.schema p (withJoins s js) = renderJoinTable c.schema p s := rfl
    have h2 : renderRelationship c.schema p (withJoins s js) = renderRelationship c.schema p s :=
      rfl
    simp only [renderBaseWhere, h, renderWhere_withJoins, h1, h2]

theorem renderBaseSelect_withJoins (c : Compiler) (parent : Option Select) (s : Select)
    (js : List Select) (ti : DBTableInfo) (cols : List Column) :
    renderBaseSelect c parent (withJoins s js) ti cols = renderBaseSelect c parent s ti cols := by
  have h1 : (withJoins s js).Cols = s.Cols := rfl
  have h2 : renderFrom c (withJoins s js) = renderFrom c s := rfl
  have h3 : ∀ g a, renderGroupBy (withJoins s js) g a = renderGroupBy s g a := fun _ _ => rfl
  have h4 : renderPaging (withJoins s js) = renderPaging s := rfl
  simp only [renderBaseSelect, h1, h2, h3, h4, renderBaseColsFrom_withJoins,
    renderBaseWhere_withJoins, scope_withJoins]

theorem renderSelectClose_withJoins (s : Select) (js : List Select) :
    renderSelectClose (withJoins s js) = renderSelectClose s := by
  have h1 : (withJoins s js).OrderBy = s.OrderBy := rfl
  have h2 : (withJoins s js).AsList = s.AsList := rfl
  have h4 : renderPaging (withJoins s js) = renderPaging s := rfl
  simp only [renderSelectClose, h1, h2, h4, renderOrderBy_withJoins, scope_withJoins]

/-- The select block depends on the children only through the joined
columns. -/
theorem renderSelect_withJoins (c : Compiler) (parent : Option Select) (s : Select)
    (js : List Select) (ti : DBTableInfo) (cols : List Column) (ids ids1 : List Nat)
    (h : renderJoinedColumns (withJoins s js) ids1 = renderJoinedColumns s ids) :
    renderSelect c parent (withJoins s js) ti cols ids1 = renderSelect c parent s ti cols ids := by
  have h1 : (withJoins s js).OrderBy = s.OrderBy := rfl
  have h2 : (withJoins s js).AsList = s.AsList := rfl
  have h3 : (withJoins s js).Table = s.Table := rfl
  have h4 : (withJoins s js).DistinctOn = s.DistinctOn := rfl
  have h5 : (withJoins s js).ID = s.ID := rfl
  have h6 : renderDistinctOn (withJoins s js) = renderDistinctOn s := rfl
  have h7 : renderColumns (withJoins s js) = renderColumns s := rfl
  have h8 : renderOrderByColumns (withJoins s js) = renderOrderByColumns s := rfl
  simp only [renderSelect, h, h1, h2, h3, h4, h5, h6, h7, h8, renderOrderBy_withJoins,
    renderBaseSelect_withJoins]

/-- The select block of a child depends on its parent only through the table
and the identifier of the parent. -/
theorem renderSelect_parent (c : Compiler) (p p1 s : Select) (ti : DBTableInfo)
    (cols : List Column) (ids : List Nat) (ht : p1.Table = p.Table) (hi : p1.ID = p.ID) :
    renderSelect c (some p1) s ti cols ids = renderSelect c (some p) s ti cols ids := by
  simp only [renderSelect, renderBaseSelect, renderBaseWhere, renderJoinTable, renderRelationship,
    scope, ht, hi]

end psql

namespace psql

open qcode GoStr

theorem prune_eq (c : Compiler) (s : Select) :
    prune c s = withJoins s (pruneList c s.Table s.Joins) := by
  cases s
  simp [prune, withJoins]

theorem prune_Table (c : Compiler) (s : Select) : (prune c s).Table = s.Table := by
  rw [prune_eq]; rfl

theorem prune_ID (c : Compiler) (s : Select) : (prune c s).ID = s.ID := by
  rw [prune_eq]; rfl

theorem getTable_prune (c : Compiler) (s : Select) : c.getTable (prune c s) = c.getTable s := by
  rw [prune_eq]; rfl

theorem resolves_congr (c : Compiler) (p p1 j j1 : Select) (hp : p1.Table = p.Table)
    (hj : j1.Table = j.Table) : resolves c p1 j1 = resolves c p j := by
  simp only [resolves, hp, hj]

theorem pruneList_eq (c : Compiler) (p : Select) :
    ∀ (js : List Select), pruneList c p.Table js = (js.filter (resolves c p)).map (prune c)
  | [] => rfl
  | j :: js => by
    rw [pruneList, pruneList_eq c p js]
    by_cases hr : resolves c p j = true
    · rw [List.filter_cons_of_pos hr]
      simp only [resolves] at hr
      simp [hr]
    · rw [List.filter_cons_of_neg hr]
      simp only [resolves] at hr
      simp [hr]

theorem emitted_prune (c : Compiler) (s : Select) :
    emitted c (prune c s) = (emitted c s).map (prune c) := by
  have hj : (prune c s).Joins = (emitted c s).map (prune c) := by
    rw [prune_eq]
    exact pruneList_eq c s s.Joins
  rw [emitted, hj, List.filter_eq_self]
  intro a ha
  obtain ⟨j, hj1, rfl⟩ := List.mem_map.mp ha
  rw [resolves_congr c s (prune c s) j (prune c j) (prune_Table c s) (prune_Table c j)]
  exact (List.mem_filter.mp hj1).2

theorem flatten_map_filter {α β : Type} (f : α → List β) (p : α → Bool)
    (h : ∀ a, p a = false → f a = []) :
    ∀ (l : List α), (l.map f).flatten = ((l.filter p).map f).flatten
  | [] => rfl
  | a :: l => by
    cases hp : p a with
    | true =>
      rw [List.filter_cons_of_pos hp]
      simp only [List.map_cons, List.flatten_cons, flatten_map_filter f p h l]
    | false =>
      rw [List.filter_cons_of_neg (by simp [hp])]
      simp only [List.map_cons, List.flatten_cons, h a hp, List.nil_append,
        flatten_map_filter f p h l]

theorem childColumn_congr (c : Compiler) (p p1 j j1 : Select) (colmap : List String)
    (hp : p1.Table = p.Table) (hj : j1.Table = j.Table) :
    childColumn c p1 colmap j1 = childColumn c p colmap j := by
  simp only [childColumn, hp, hj]

theorem relationshipColumns_prune (c : Compiler) (s : Select) :
    (c.relationshipColumns (prune c s)).1 = (c.relationshipColumns s).1 := by
  have hc : (prune c s).Cols = s.Cols := by rw [prune_eq]; rfl
  have hj : (prune c s).Joins = (emitted c s).map (prune c) := by
    rw [prune_eq]
    exact pruneList_eq c s s.Joins
  simp only [Compiler.relationshipColumns, relationshipColumnsFrom_cols, hc, hj, List.map_map]
  rw [flatten_map_filter _ (resolves c s) _ s.Joins]
  · congr 1
    apply List.map_congr_left
    intro j _
    exact childColumn_congr c s (prune c s) j (prune c j) _ (prune_Table c s) (prune_Table c j)
  · intro a ha
    simp only [resolves] at ha
    simp only [childColumn]
    cases hl : c.schema.RelMap.lookup ⟨a.Table, s.Table⟩ with
    | none => rfl
    | some r => simp [hl] at ha

theorem joinedColumn_prune (c : Compiler) (j : Select) :
    joinedColumn (prune c j) = joinedColumn j := by
  rw [prune_eq]; rfl

theorem renderJoinedColumns_prune (c : Compiler) (s : Select) :
    renderJoinedColumns (prune c s) (c.relationshipColumns (prune c s)).2 =
      renderJoinedColumns s (c.relationshipColumns s).2 := by
  have hc : (prune c s).Cols = s.Cols := by rw [prune_eq]; rfl
  rw [renderJoinedColumns_emitted, renderJoinedColumns_emitted, emitted_prune, hc,
    List.length_map, ← commaSep_map]
  simp only [joinedColumn_prune]

theorem renderSelect_prune (c : Compiler) (parent : Option Select) (s : Select)
    (ti : DBTableInfo) :
    renderSelect c parent (prune c s) ti (c.relationshipColumns (prune c s)).1
        (c.relationshipColumns (prune c s)).2 =
      renderSelect c parent s ti (c.relationshipColumns s).1 (c.relationshipColumns s).2 := by
  have h := renderJoinedColumns_prune c s
  rw [relationshipColumns_prune]
  rw [prune_eq] at h ⊢
  exact renderSelect_withJoins c parent s _ ti _ _ _ h

theorem firstUnknown_prune (c : Compiler) :
    ∀ (l : List Select),
      firstUnknown c (l.map (prune c)) = (firstUnknown c l).map (prune c)
  | [] => rfl
  | j :: l => by
    simp only [List.map_cons, firstUnknown, getTable_prune]
    cases c.getTable j with
    | none => rfl
    | some ti => exact firstUnknown_prune c l

theorem emitSel_parent (c : Compiler) (p p1 s : Select) (ti : DBTableInfo)
    (ht : p1.Table = p.Table) (hi : p1.ID = p.ID) :
    emitSel c (some p1) ti s = emitSel c (some p) ti s := by
  rw [emitSel_eq, emitSel_eq, renderSelect_parent c p p1 s ti _ _ ht hi]

mutual
theorem emitSel_prune (c : Compiler) :
    ∀ (s : Select) (parent : Option Select) (ti : DBTableInfo),
      emitSel c parent ti (prune c s) = emitSel c parent ti s
  | ⟨id, args, asList, table, singular, fieldName, cols, wh, ob, dist, paging, js⟩, parent,
      ti => by
    have hj := emitJoins_prune c js
      ⟨id, args, asList, table, singular, fieldName, cols, wh, ob, dist, paging, js⟩
      (prune c ⟨id, args, asList, table, singular, fieldName, cols, wh, ob, dist, paging, js⟩)
      (prune_Table c _) (prune_ID c _)
    have hjs : (prune c
        ⟨id, args, asList, table, singular, fieldName, cols, wh, ob, dist, paging, js⟩).Joins
        = pruneList c table js := by
      rw [prune_eq]; rfl
    have hclose : renderSelectClose (prune c
        ⟨id, args, asList, table, singular, fieldName, cols, wh, ob, dist, paging, js⟩)
        = renderSelectClose
          ⟨id, args, asList, table, singular, fieldName, cols, wh, ob, dist, paging, js⟩ := by
      rw [prune_eq]; exact renderSelectClose_withJoins _ _
    rw [emitSel_eq, emitSel_eq, renderSelect_prune, emitted_prune, firstUnknown_prune, hjs,
      hj, hclose]
    cases firstUnknown c (emitted c
      ⟨id, args, asList, table, singular, fieldName, cols, wh, ob, dist, paging, js⟩) with
    | none => rfl
    | some j => simp only [Option.map_some', prune_Table]
theorem emitJoins_prune (c : Compiler) :
    ∀ (js : List Select) (p p1 : Select), p1.Table = p.Table → p1.ID = p.ID →
      emitJoins c p1 (pruneList c p.Table js) = emitJoins c p js
  | [], _, _, _, _ => rfl
  | j :: js, p, p1, ht, hi => by
    have ih := emitJoins_prune c js p p1 ht hi
    rw [pruneList, emitJoins]
    by_cases hr : resolves c p j = true
    · have hr1 : resolves c p1 (prune c j) = true := by
        rw [resolves_congr c p p1 j (prune c j) ht (prune_Table c j)]; exact hr
      have hl : (c.schema.RelMap.lookup ⟨j.Table, p.Table⟩).isSome = true := hr
      simp only [hl, if_true, hr]
      rw [emitJoins, ih]
      simp only [hr1, if_true, getTable_prune]
      cases c.getTable j with
      | none => rfl
      | some ti =>
        simp only
        rw [emitSel_prune c j (some p1) ti, emitSel_parent c p p1 j ti ht hi]
        have : renderJoinClose (prune c j) = renderJoinClose j := by rw [prune_eq]; rfl
        rw [this]
    · have hl : ¬ (c.schema.RelMap.lookup ⟨j.Table, p.Table⟩).isSome = true := hr
      simp only [hl, hr, Bool.false_eq_true, if_false, ih, Wr.andThen_text_empty]
end

end psql

namespace psql

open qcode GoStr

/-- C4 (as amended): a child whose key `(child.Table, parent.Table)` is not in
`RelMap` is skipped, not rejected: every index that `relationshipColumns`
records in `childIDs` is that of a child whose relationship resolves, and
`Compile` gives the same text and the same ending as for the QCode from which
the children without relationship are removed at every level. -/
theorem Compile_skips_children_without_relationship (c : Compiler) (root : Select) :
    c.Compile ⟨some ⟨some root⟩⟩ = c.Compile ⟨some ⟨some (prune c root)⟩⟩ ∧
    ∀ (P : Select) (i : Nat), i ∈ (c.relationshipColumns P).2 →
      ∃ C, joinAt P i = some C ∧ C ∈ P.Joins ∧ resolves c P C = true := by
  constructor
  · cases ht : c.getTable root with
    | none =>
      have ht1 : c.getTable (prune c root) = none := by rw [getTable_prune]; exact ht
      simp only [Compiler.Compile, ht, ht1, prune_Table]
    | some ti =>
      have ht1 : c.getTable (prune c root) = some ti := by rw [getTable_prune]; exact ht
      have hf : (prune c root).FieldName = root.FieldName := by rw [prune_eq]; rfl
      rw [Compile_eq_emitSel c root ti ht, Compile_eq_emitSel c (prune c root) ti ht1,
        emitSel_prune, hf, prune_Table]
  · intro P i hi
    have h := relationshipColumnsFrom_selects c P (P.Cols.map (fun col => col.Name)) P.Joins []
      rfl
    have hm : joinAt P i ∈ (c.relationshipColumns P).2.map (joinAt P) :=
      List.mem_map.mpr ⟨i, hi, rfl⟩
    simp only [Compiler.relationshipColumns, List.length_nil] at hm h
    rw [h] at hm
    obtain ⟨C, hC, hCe⟩ := List.mem_map.mp hm
    exact ⟨C, hCe.symm, (List.mem_filter.mp hC).1, (List.mem_filter.mp hC).2⟩

set_option maxRecDepth 100000 in
/-- C4 (counterexample to the claim as stated): in `{ users { name logs { line } } }`
the key `(logs, users)` is not in `RelMap`, yet `Compile` ends normally with a
complete statement for `users` alone. -/
theorem Compile_child_without_relationship_succeeds :
    Examples.schema.RelMap.lookup ⟨"logs", "users"⟩ = none ∧
    Examples.sqlc.Compile ⟨some ⟨some Examples.usersWithLogs⟩⟩ =
      ⟨"SELECT json_object_agg('users', users) FROM (SELECT coalesce(json_agg(\"users\"), '[]') AS \"users\" FROM (SELECT row_to_json((SELECT \"sel_0\" FROM (SELECT \"users_0\".\"name\" AS \"name\") AS \"sel_0\")) AS \"users\" FROM (SELECT \"users\".\"name\" FROM \"users\" LIMIT ('20') :: integer) AS \"users_0\" LIMIT ('20') :: integer) AS \"users_0\") AS \"done_1337\";",
        Status.done⟩ := by
  decide

end psql

/-! ### Join predicates and the parent columns they read -/

namespace psql

open qcode GoStr

theorem Wr.out_text_andThen (s : String) (w : Wr) : ((Wr.text s).andThen w).out = s ++ w.out :=
  rfl

theorem Wr.eq_text_of_done (w : Wr) (h : w.st = Status.done) : w = Wr.text w.out := by
  cases w
  simp only at h
  subst h
  rfl

theorem commaSep_mem {α : Type} (f : α → String) (x : α) :
    ∀ (l : List α), x ∈ l → ∃ a b, commaSep f l = a ++ f x ++ b
  | [], h => by simp at h
  | [y], h => by
    obtain rfl : x = y := by simpa using h
    exact ⟨"", "", by simp [commaSep]⟩
  | y :: z :: l, h => by
    rcases List.mem_cons.mp h with rfl | h1
    · exact ⟨"", ", " ++ commaSep f (z :: l), by simp [commaSep, String.append_assoc]⟩
    · obtain ⟨a, b, e⟩ := commaSep_mem f x (z :: l) h1
      exact ⟨f y ++ ", " ++ a, b, by rw [commaSep, e]; simp only [String.append_assoc]⟩

theorem renderBaseColsFrom_mem (sel : Select) (ti : DBTableInfo) (more : Bool) (col : Column) :
    ∀ (cols : List Column) (i : Nat), col ∈ cols →
      ∃ a b, (renderBaseColsFrom sel ti more i cols).1 = a ++ (renderBaseCol sel ti col).1 ++ b
  | [], _, h => by simp at h
  | y :: l, i, h => by
    simp only [renderBaseColsFrom]
    rcases List.mem_cons.mp h with rfl | h1
    · exact ⟨"", _, by simp only [String.empty_append, String.append_assoc]; rfl⟩
    · obtain ⟨a, b, e⟩ := renderBaseColsFrom_mem sel ti more col l (i + 1) h1
      exact ⟨(renderBaseCol sel ti y).1 ++ (if (!l.isEmpty || more) = true then ", " else "") ++ a,
        b, by rw [e]; simp only [String.append_assoc]⟩

theorem renderBaseSelect_out (c : Compiler) (par : Option Select) (sel : Select)
    (ti : DBTableInfo) (cc : List Column) :
    ∃ rest, (renderBaseSelect c par sel ti cc).out =
      " FROM (SELECT " ++ ((renderBaseColsFrom sel ti (cc.length != 0) 0 sel.Cols).1 ++
        commaSep (fun col : Column => "\"" ++ col.Table ++ "\".\"" ++ col.Name ++ "\"") cc) ++
        renderFrom c sel ++ rest := by
  apply Exists.intro
  simp only [renderBaseSelect, Wr.out_text_andThen, String.append_assoc]
  rfl

/-- The select list of the base select of `P` has the item `"<P.Table>"."<key>"`
when `key` is the parent column of the relationship of one of its children and
is a real column of the table of `P`. -/
theorem renderBaseSelect_projects (c : Compiler) (par : Option Select) (P C : Select)
    (tiP : DBTableInfo) (key : String) (hC : C ∈ P.Joins)
    (hkey : childColumn c P (P.Cols.map (fun col => col.Name)) C = [⟨P.Table, key, key⟩] ∨
      (key ∈ P.Cols.map (fun col => col.Name)))
    (hreal : tiP.Columns.contains key = true) :
    ∃ a b rest, (renderBaseSelect c par P tiP (c.relationshipColumns P).1).out =
      " FROM (SELECT " ++ a ++ ("\"" ++ P.Table ++ "\".\"" ++ key ++ "\"") ++ b ++
        renderFrom c P ++ rest := by
  obtain ⟨rest, hrest⟩ := renderBaseSelect_out c par P tiP (c.relationshipColumns P).1
  rw [hrest]
  rcases hkey with hk | hk
  · have hmem : (⟨P.Table, key, key⟩ : Column) ∈ (c.relationshipColumns P).1 := by
      simp only [Compiler.relationshipColumns, relationshipColumnsFrom_cols, List.mem_flatten,
        List.mem_map]
      exact ⟨_, ⟨C, hC, rfl⟩, by rw [hk]; simp⟩
    obtain ⟨a, b, e⟩ := commaSep_mem
      (fun col : Column => "\"" ++ col.Table ++ "\".\"" ++ col.Name ++ "\"") _ _ hmem
    refine ⟨(renderBaseColsFrom P tiP ((c.relationshipColumns P).1.length != 0) 0 P.Cols).1 ++ a,
      b, rest, ?_⟩
    rw [e]
    simp only [String.append_assoc]
  · obtain ⟨col, hcol, rfl⟩ := List.mem_map.mp hk
    obtain ⟨a, b, e⟩ := renderBaseColsFrom_mem P tiP ((c.relationshipColumns P).1.length != 0)
      col P.Cols 0 hcol
    have hr : (renderBaseCol P tiP col).1 = "\"" ++ P.Table ++ "\".\"" ++ col.Name ++ "\"" := by
      simp only [renderBaseCol, hreal, if_true]
    refine ⟨a, b ++ commaSep (fun col : Column => "\"" ++ col.Table ++ "\".\"" ++ col.Name
      ++ "\"") (c.relationshipColumns P).1, rest, ?_⟩
    rw [e, hr]
    simp only [String.append_assoc]

/-- The key column of the parent is requested, or `relationshipColumns` adds
it. -/
theorem childColumn_or_requested (c : Compiler) (P C : Select) (rel : DBRel)
    (hrel : c.schema.RelMap.lookup ⟨C.Table, P.Table⟩ = some rel) :
    (rel.Typ ≠ RelType.RelOneToManyThrough →
      childColumn c P (P.Cols.map (fun col => col.Name)) C = [⟨P.Table, rel.Col2, rel.Col2⟩] ∨
        rel.Col2 ∈ P.Cols.map (fun col => col.Name)) ∧
    (rel.Typ = RelType.RelOneToManyThrough →
      childColumn c P (P.Cols.map (fun col => col.Name)) C = [⟨P.Table, rel.Col1, rel.Col1⟩] ∨
        rel.Col1 ∈ P.Cols.map (fun col => col.Name)) := by
  simp only [childColumn, hrel]
  constructor
  · intro ht
    by_cases hc : (P.Cols.map (fun col => col.Name)).contains rel.Col2 = true
    · exact Or.inr (by simpa using hc)
    · left
      cases h : rel.Typ
      · simp only [hc, Bool.false_eq_true, if_false]
      · simp only [hc, Bool.false_eq_true, if_false]
      · exact absurd h ht
  · intro ht
    by_cases hc : (P.Cols.map (fun col => col.Name)).contains rel.Col1 = true
    · exact Or.inr (by simpa using hc)
    · left
      simp only [ht, hc, Bool.false_eq_true, if_false]

/-- The base select of a child writes the join table and the relationship
predicate right after its FROM clause. -/
theorem renderBaseSelect_child_out (c : Compiler) (P C : Select) (tiC : DBTableInfo)
    (cols : List Column) (rel : DBRel)
    (hrel : c.schema.RelMap.lookup ⟨C.Table, P.Table⟩ = some rel) :
    ∃ a b, (renderBaseSelect c (some P) C tiC cols).out =
      a ++ (renderJoinTable c.schema P C).out ++ " WHERE (" ++
        (renderRelationship c.schema P C).out ++ b := by
  have h1 : (renderJoinTable c.schema P C).st = Status.done := by
    simp only [renderJoinTable, hrel]; split <;> rfl
  have h2 : (renderRelationship c.schema P C).st = Status.done := by
    simp only [renderRelationship, hrel]; split <;> rfl
  have e1 := Wr.eq_text_of_done _ h1
  have e2 := Wr.eq_text_of_done _ h2
  refine ⟨" FROM (SELECT " ++ ((renderBaseColsFrom C tiC (cols.length != 0) 0 C.Cols).1 ++
    commaSep (fun col : Column => "\"" ++ col.Table ++ "\".\"" ++ col.Name ++ "\"") cols) ++
    renderFrom c C, ?_⟩
  apply Exists.intro
  simp only [renderBaseSelect, renderBaseWhere, Wr.out_text_andThen]
  rw [e1, e2]
  simp only [Wr.andThen_assoc, Wr.out_text_andThen, String.append_assoc, Wr.text]
  rfl

end psql

namespace psql

open qcode GoStr

/-- C6: for a child `C` of `P` with `rel = RelMap[(C.Table, P.Table)]`.  If `rel`
is BelongsTo or OneToMany, the base select of `C` has
` WHERE ((("<C.Table>"."<Col1>") = ("<P.Table>_<P.ID>"."<Col2>"))`, and the
select list of the base select of `P` has the item `"<P.Table>"."<Col2>"` when
`Col2` is a real column of the table of `P`.  If `rel` is OneToManyThrough, the
base select of `C` has the join
` LEFT OUTER JOIN "<Through>" ON (("<Through>"."<ColT>") = ("<P.Table>_<P.ID>"."<Col1>"))`
followed by ` WHERE ((("<C.Table>"."<Col1>") = ("<Through>"."<Col2>"))`, and the
select list of the base select of `P` has the item `"<P.Table>"."<Col1>"` when
`Col1` is a real column of the table of `P`. -/
theorem join_predicate_reads_projected_column (c : Compiler) (par : Option Select)
    (P C : Select) (tiP tiC : DBTableInfo) (cols : List Column) (rel : DBRel)
    (hC : C ∈ P.Joins) (hrel : c.schema.RelMap.lookup ⟨C.Table, P.Table⟩ = some rel) :
    (rel.Typ = RelType.RelBelongTo ∨ rel.Typ = RelType.RelOneToMany →
      (∃ a b, (renderBaseSelect c (some P) C tiC cols).out =
        a ++ " WHERE (" ++ ("((\"" ++ C.Table ++ "\".\"" ++ rel.Col1 ++ "\") = (\"" ++ P.Table
          ++ "_" ++ itoa P.ID ++ "\".\"" ++ rel.Col2 ++ "\"))") ++ b) ∧
      (tiP.Columns.contains rel.Col2 = true →
        ∃ a b rest, (renderBaseSelect c par P tiP (c.relationshipColumns P).1).out =
          " FROM (SELECT " ++ a ++ ("\"" ++ P.Table ++ "\".\"" ++ rel.Col2 ++ "\"") ++ b ++
            renderFrom c P ++ rest)) ∧
    (rel.Typ = RelType.RelOneToManyThrough →
      (∃ a b, (renderBaseSelect c (some P) C tiC cols).out =
        a ++ (" LEFT OUTER JOIN \"" ++ rel.Through ++ "\" ON ((\"" ++ rel.Through ++ "\".\""
          ++ rel.ColT ++ "\") = (\"" ++ P.Table ++ "_" ++ itoa P.ID ++ "\".\"" ++ rel.Col1
          ++ "\"))") ++ " WHERE (" ++ ("((\"" ++ C.Table ++ "\".\"" ++ rel.Col1 ++ "\") = (\""
          ++ rel.Through ++ "\".\"" ++ rel.Col2 ++ "\"))") ++ b) ∧
      (tiP.Columns.contains rel.Col1 = true →
        ∃ a b rest, (renderBaseSelect c par P tiP (c.relationshipColumns P).1).out =
          " FROM (SELECT " ++ a ++ ("\"" ++ P.Table ++ "\".\"" ++ rel.Col1 ++ "\"") ++ b ++
            renderFrom c P ++ rest)) := by
  obtain ⟨a, b, e⟩ := renderBaseSelect_child_out c P C tiC cols rel hrel
  have hk := childColumn_or_requested c P C rel hrel
  constructor
  · intro ht
    have hnt : rel.Typ ≠ RelType.RelOneToManyThrough := by
      rcases ht with h | h <;> rw [h] <;> decide
    refine ⟨⟨a, b, ?_⟩, fun hreal =>
      renderBaseSelect_projects c par P C tiP rel.Col2 hC (hk.1 hnt) hreal⟩
    rw [e]
    have h1 : (renderJoinTable c.schema P C).out = "" := by
      rcases ht with h | h <;> simp only [renderJoinTable, hrel, h] <;> rfl
    have h2 : (renderRelationship c.schema P C).out =
        "((\"" ++ C.Table ++ "\".\"" ++ rel.Col1 ++ "\") = (\"" ++ P.Table
          ++ "_" ++ itoa P.ID ++ "\".\"" ++ rel.Col2 ++ "\"))" := by
      rcases ht with h | h <;>
        simp only [renderRelationship, hrel, h, scope, Wr.text, String.append_assoc]
    rw [h1, h2, String.append_empty]
  · intro ht
    refine ⟨⟨a, b, ?_⟩, fun hreal =>
      renderBaseSelect_projects c par P C tiP rel.Col1 hC (hk.2 ht) hreal⟩
    rw [e]
    have h1 : (renderJoinTable c.schema P C).out =
        " LEFT OUTER JOIN \"" ++ rel.Through ++ "\" ON ((\"" ++ rel.Through ++ "\".\""
          ++ rel.ColT ++ "\") = (\"" ++ P.Table ++ "_" ++ itoa P.ID ++ "\".\"" ++ rel.Col1
          ++ "\"))" := by
      simp only [renderJoinTable, hrel, ht, scope, Wr.text, String.append_assoc]
    have h2 : (renderRelationship c.schema P C).out =
        "((\"" ++ C.Table ++ "\".\"" ++ rel.Col1 ++ "\") = (\""
          ++ rel.Through ++ "\".\"" ++ rel.Col2 ++ "\"))" := by
      simp only [renderRelationship, hrel, ht, scope, Wr.text, String.append_assoc]
    rw [h1, h2]

/-- Witness of C6 on `{ posts { id title user { id name } tags { label } } }`: the
base select of `user` has the predicate on `"posts_0"."user_id"`. -/
theorem join_predicate_reads_projected_column_witness :
    Examples.userSel ∈ Examples.postsSel.Joins ∧
    Examples.schema.RelMap.lookup ⟨"users", "posts"⟩
      = some ⟨RelType.RelBelongTo, "", "", "id", "user_id"⟩ ∧
    ∃ a b, (renderBaseSelect Examples.sqlc (some Examples.postsSel) Examples.userSel
        ⟨"users", "id", "", ["id", "name", "email"]⟩ []).out =
      a ++ " WHERE (" ++ "((\"users\".\"id\") = (\"posts_0\".\"user_id\"))" ++ b :=
  ⟨List.Mem.tail _ (List.Mem.head _), by decide,
    ((join_predicate_reads_projected_column Examples.sqlc none Examples.postsSel
      Examples.userSel ⟨"posts", "id", "tsv", ["id", "title", "user_id"]⟩
      ⟨"users", "id", "", ["id", "name", "email"]⟩ []
      ⟨RelType.RelBelongTo, "", "", "id", "user_id"⟩ (List.Mem.tail _ (List.Mem.head _))
      (by decide)).1 (Or.inl rfl)).1⟩

end psql

/-! ## Properties of the QCode compiler -/

namespace qcode

open GoStr

/-- C10 (evaluation): in `{ users(id: 5) { name } posts { title } }` the field
`posts` is popped first and takes ID 0, so the root `users` gets ID 1 and its
`id` argument installs no filter; alone, `{ users(id: 5) { name } }` gives the
root ID 0 and the `EqID` filter. -/
theorem compileQuery_root_id_not_zero :
    ((Examples.com.compileQuery Examples.inflect Examples.opTwoFields).root.map
        (fun s => (s.Table, s.ID, s.Where.isSome))) = some ("users", 1, false) ∧
    ((Examples.com.compileQuery Examples.inflect Examples.opOneField).root.map
        (fun s => (s.Table, s.ID, s.Where.map (fun w => (w.Op, w.Val)))))
      = some ("users", 0, some (ExpOp.OpEqID, "5")) := by
  decide

/-- C9 (evaluation): with `password` blacklisted,
`{ users(distinct_on: "password") { name } }` compiles to a root whose
`DistinctOn` is `["password"]`: `compileArgDistinctOn` looks up the name of the
argument value node in the blacklist, not the column names it appends. -/
theorem compileArgDistinctOn_keeps_blacklisted :
    Examples.com.bl.contains "password" = true ∧
    ((Examples.com.compileQuery Examples.inflect Examples.opDistinct).root.map
        (fun s => s.DistinctOn)) = some ["password"] := by
  decide

end qcode

namespace qcode

open GoStr

/-! ### What the argument compilers leave untouched -/

theorem sameCore_refl (a : Select) : sameCore a a := ⟨rfl, rfl, rfl, rfl, rfl, rfl, rfl⟩

theorem sameCore_trans {a b c : Select} (h1 : sameCore a b) (h2 : sameCore b c) :
    sameCore a c := by
  obtain ⟨a1, a2, a3, a4, a5, a6, a7⟩ := h1
  obtain ⟨b1, b2, b3, b4, b5, b6, b7⟩ := h2
  exact ⟨a1.trans b1, a2.trans b2, a3.trans b3, a4.trans b4, a5.trans b5, a6.trans b6,
    a7.trans b7⟩

theorem compileArgID_sameCore (com : Compiler) (sel : Select) (arg : Arg) :
    sameCore (com.compileArgID sel arg) sel := by
  unfold Compiler.compileArgID
  split
  · exact sameCore_refl _
  · exact ⟨rfl, rfl, rfl, rfl, rfl, rfl, rfl⟩

theorem compileArgSearch_sameCore (com : Compiler) (sel : Select) (arg : Arg) :
    sameCore (com.compileArgSearch sel arg) sel := by
  unfold Compiler.compileArgSearch
  split <;> exact ⟨rfl, rfl, rfl, rfl, rfl, rfl, rfl⟩

theorem compileArgWhere_sameCore (com : Compiler) (sel s1 : Select) (arg : Arg)
    (h : com.compileArgWhere sel arg = Result.ok s1) : sameCore s1 sel := by
  unfold Compiler.compileArgWhere at h
  split at h
  · cases h
  · cases h
  · cases h
  · split at h <;> cases h <;> exact ⟨rfl, rfl, rfl, rfl, rfl, rfl, rfl⟩

theorem compileArgOrderBy_sameCore (com : Compiler) (sel s1 : Select) (arg : Arg)
    (h : com.compileArgOrderBy sel arg = Result.ok s1) : sameCore s1 sel := by
  unfold Compiler.compileArgOrderBy at h
  split at h
  · cases h
  · split at h
    · cases h; exact ⟨rfl, rfl, rfl, rfl, rfl, rfl, rfl⟩
    · cases h
    · cases h
    · cases h

theorem compileArgDistinctOn_sameCore (com : Compiler) (sel s1 : Select) (arg : Arg)
    (h : com.compileArgDistinctOn sel arg = Result.ok s1) : sameCore s1 sel := by
  unfold Compiler.compileArgDistinctOn at h
  simp only at h
  split at h
  · cases h; exact sameCore_refl _
  · split at h
    · cases h
    · cases h; exact ⟨rfl, rfl, rfl, rfl, rfl, rfl, rfl⟩

theorem compileArgLimit_sameCore (com : Compiler) (sel s1 : Select) (arg : Arg)
    (h : com.compileArgLimit sel arg = Result.ok s1) : sameCore s1 sel := by
  unfold Compiler.compileArgLimit at h
  split at h
  · cases h
  · cases h; exact ⟨rfl, rfl, rfl, rfl, rfl, rfl, rfl⟩

theorem compileArgOffset_sameCore (com : Compiler) (sel s1 : Select) (arg : Arg)
    (h : com.compileArgOffset sel arg = Result.ok s1) : sameCore s1 sel := by
  unfold Compiler.compileArgOffset at h
  split at h
  · cases h
  · cases h; exact ⟨rfl, rfl, rfl, rfl, rfl, rfl, rfl⟩

theorem compileArg_sameCore (com : Compiler) (sel s1 : Select) (an : String) (arg : Arg)
    (h : com.compileArg sel an arg = Result.ok s1) : sameCore s1 sel := by
  unfold Compiler.compileArg at h
  split at h
  · split at h <;> cases h
    · exact compileArgID_sameCore com sel arg
    · exact sameCore_refl _
  · split at h
    · cases h; exact compileArgSearch_sameCore com sel arg
    · split at h
      · exact compileArgWhere_sameCore com sel s1 arg h
      · split at h
        · exact compileArgOrderBy_sameCore com sel s1 arg h
        · split at h
          · exact compileArgDistinctOn_sameCore com sel s1 arg h
          · split at h
            · exact compileArgLimit_sameCore com sel s1 arg h
            · split at h
              · exact compileArgOffset_sameCore com sel s1 arg h
              · cases h; exact sameCore_refl _

theorem compileArgsLoop_sameCore (com : Compiler) :
    ∀ (args : List (Option Arg)) (sel s1 : Select),
      com.compileArgsLoop sel args = Result.ok s1 → sameCore s1 sel
  | [], sel, s1, h => by
    simp only [Compiler.compileArgsLoop] at h
    cases h
    exact sameCore_refl _
  | none :: _, sel, s1, h => by
    simp only [Compiler.compileArgsLoop] at h
    cases h
  | some arg :: rest, sel, s1, h => by
    simp only [Compiler.compileArgsLoop] at h
    split at h
    · exact compileArgsLoop_sameCore com rest sel s1 h
    · split at h
      · rename_i s2 h2
        have h3 := compileArgsLoop_sameCore com rest _ s1 h
        exact sameCore_trans h3
          (sameCore_trans ⟨rfl, rfl, rfl, rfl, rfl, rfl, rfl⟩ (compileArg_sameCore com sel s2 _ arg h2))
      · cases h
      · cases h
      · cases h

theorem compileArgs_sameCore (com : Compiler) (args : List (Option Arg)) (sel s1 : Select)
    (h : com.compileArgs sel args = Result.ok s1) : sameCore s1 sel :=
  sameCore_trans (compileArgsLoop_sameCore com args _ s1 h) ⟨rfl, rfl, rfl, rfl, rfl, rfl, rfl⟩

end qcode

namespace qcode

open GoStr

/-! ### The invariant of the loop of `compileQuery` -/

theorem addJoin_map_sel (heap : List Cell) (p a : Nat) :
    (addJoin heap p a).map Cell.sel = heap.map Cell.sel := by
  unfold addJoin
  induction heap generalizing p with
  | nil => simp
  | cons x l ih =>
    cases p with
    | zero => simp
    | succ n => simp [ih]

theorem childrenLoop_sub (com : Compiler) :
    ∀ (cs : List Field) (f : Field), f ∈ (childrenLoop com cs).2 → f ∈ cs
  | [], f, h => by simp [childrenLoop] at h
  | x :: rest, f, h => by
    simp only [childrenLoop] at h
    split at h
    · exact List.mem_cons_of_mem _ (childrenLoop_sub com rest f h)
    · split at h
      · exact List.mem_cons_of_mem _ (childrenLoop_sub com rest f h)
      · rcases List.mem_cons.mp h with rfl | h1
        · exact List.mem_cons_self _ _
        · exact List.mem_cons_of_mem _ (childrenLoop_sub com rest f h1)

theorem childrenLoop_cols (com : Compiler) :
    ∀ (cs : List Field) (col : Column), col ∈ (childrenLoop com cs).1 →
      com.bl.contains col.Name = false
  | [], col, h => by simp [childrenLoop] at h
  | x :: rest, col, h => by
    simp only [childrenLoop] at h
    split at h
    · exact childrenLoop_cols com rest col h
    · rename_i hb
      split at h
      · rcases List.mem_cons.mp h with rfl | h1
        · simpa [newColumn] using hb
        · exact childrenLoop_cols com rest col h1
      · exact childrenLoop_cols com rest col h

/-- The invariant of the loop of `compileQuery`: every select in the heap was
created from a field that is not blacklisted and has no blacklisted ancestor,
and `selRoot` is the select of a top-level field. -/
theorem compileQueryLoop_inv (com : Compiler) (inf : Inflect) (op : Operation) :
    ∀ (fuel : Nat) (st : List (Field × Option Nat)) (q q1 : QState),
      (∀ e ∈ st, (e.1 ∈ op.Fields ∨ ∃ p, Live com op p ∧ e.1 ∈ p.Children) ∧
        (e.2 = none → e.1 ∈ op.Fields)) →
      (∀ s ∈ q.heap.map Cell.sel, ∃ f, Live com op f ∧ cellFrom com inf f s) →
      (∀ a, q.selRoot = some a → ∃ s f, (q.heap.map Cell.sel)[a]? = some s ∧ f ∈ op.Fields ∧
        Live com op f ∧ cellFrom com inf f s) →
      compileQueryLoop com inf fuel st q = Result.ok q1 →
      (∀ s ∈ q1.heap.map Cell.sel, ∃ f, Live com op f ∧ cellFrom com inf f s) ∧
      (∀ a, q1.selRoot = some a → ∃ s f, (q1.heap.map Cell.sel)[a]? = some s ∧
        f ∈ op.Fields ∧ Live com op f ∧ cellFrom com inf f s) := by
  intro fuel
  induction fuel with
  | zero =>
    intro st q q1 _ hh hr h
    cases st with
    | nil => simp only [compileQueryLoop] at h; cases h; exact ⟨hh, hr⟩
    | cons e st => simp only [compileQueryLoop] at h; cases h
  | succ n ih =>
    intro st q q1 hst hh hr h
    cases st with
    | nil => simp only [compileQueryLoop] at h; cases h; exact ⟨hh, hr⟩
    | cons e st =>
      obtain ⟨field, parent⟩ := e
      have hst1 : ∀ e ∈ st, (e.1 ∈ op.Fields ∨ ∃ p, Live com op p ∧ e.1 ∈ p.Children) ∧
          (e.2 = none → e.1 ∈ op.Fields) := fun e he => hst e (List.mem_cons_of_mem _ he)
      have hfield := hst (field, parent) (List.mem_cons_self _ _)
      rw [compileQueryLoop] at h
      split at h
      · exact ih st q q1 hst1 hh hr h
      · rename_i hbl
        have hbl1 : com.bl.contains (ToLower field.Name) = false := by simpa using hbl
        have hlive : Live com op field := by
          rcases hfield.1 with h1 | ⟨p, hp, hc⟩
          · exact Live.top field h1 hbl1
          · exact Live.child p field hp hc hbl1
        simp only at h
        split at h
        · cases h
        · split at h
          · cases h
          · cases h
          · cases h
          · rename_i s1 hs1
            have hcell : cellFrom com inf field
                { s1 with Cols := s1.Cols ++ (childrenLoop com field.Children).1 } :=
              ⟨q.id, s1, hs1, rfl⟩
            have hst2 : ∀ e ∈ ((childrenLoop com field.Children).2.map
                (fun f => (f, some field.ID))).reverse ++ st,
                (e.1 ∈ op.Fields ∨ ∃ p, Live com op p ∧ e.1 ∈ p.Children) ∧
                (e.2 = none → e.1 ∈ op.Fields) := by
              intro e he
              rcases List.mem_append.mp he with h1 | h1
              · obtain ⟨f, hf, rfl⟩ := List.mem_map.mp (List.mem_reverse.mp h1)
                exact ⟨Or.inr ⟨field, hlive, childrenLoop_sub com _ f hf⟩,
                  fun hn => by cases hn⟩
              · exact hst1 e h1
            have hh1 : ∀ s ∈ (q.heap ++ [(⟨{ s1 with Cols := s1.Cols ++
                (childrenLoop com field.Children).1 }, []⟩ : Cell)]).map Cell.sel,
                ∃ f, Live com op f ∧ cellFrom com inf f s := by
              intro s hs
              simp only [List.map_append, List.map_cons, List.map_nil, List.mem_append,
                List.mem_singleton] at hs
              rcases hs with h1 | rfl
              · exact hh s h1
              · exact ⟨field, hlive, hcell⟩
            split at h
            · rename_i hpar
              refine ih _ _ q1 hst2 hh1 ?_ h
              intro a ha
              simp only [Option.some.injEq] at ha
              subst ha
              refine ⟨_, field, ?_, hfield.2 rfl, hlive, hcell⟩
              simp
            · split at h
              · cases h
              · cases h
              · rename_i pa hpa
                refine ih _ _ q1 hst2 (by rw [addJoin_map_sel]; exact hh1) ?_ h
                intro a ha
                obtain ⟨s, f, hs, hf, hl, hc⟩ := hr a ha
                refine ⟨s, f, ?_, hf, hl, hc⟩
                rw [addJoin_map_sel, List.map_append]
                rw [List.getElem?_append_left]
                · exact hs
                · exact (List.getElem?_eq_some_iff.mp hs).1

end qcode

namespace qcode

open GoStr

/-! ### From the heap to the finished QCode -/

theorem Select.subs_eq (s : Select) : s.subs = s :: Select.subsList s.Joins := by
  cases s
  simp [Select.subs]

theorem Select.mem_subsList (s : Select) :
    ∀ (l : List Select), s ∈ Select.subsList l → ∃ j ∈ l, s ∈ j.subs
  | [], h => by simp [Select.subsList] at h
  | j :: l, h => by
    simp only [Select.subsList, List.mem_append] at h
    rcases h with h | h
    · exact ⟨j, List.mem_cons_self _ _, h⟩
    · obtain ⟨k, hk, hs⟩ := Select.mem_subsList s l h
      exact ⟨k, List.mem_cons_of_mem _ hk, hs⟩

theorem buildSelect_root (heap : List Cell) (n a : Nat) (t : Select)
    (h : buildSelect heap n a = some t) :
    ∃ s0, (heap.map Cell.sel)[a]? = some s0 ∧ psql.withJoins t [] = psql.withJoins s0 [] := by
  cases n with
  | zero => simp [buildSelect] at h
  | succ n =>
    simp only [buildSelect] at h
    split at h
    · cases h
    · rename_i cell hc
      cases h
      exact ⟨cell.sel, by simp [hc], rfl⟩

theorem buildSelect_subs (heap : List Cell) :
    ∀ (n a : Nat) (t : Select), buildSelect heap n a = some t →
      ∀ s ∈ t.subs, ∃ s0 ∈ heap.map Cell.sel, psql.withJoins s [] = psql.withJoins s0 [] := by
  intro n
  induction n with
  | zero => intro a t h; simp [buildSelect] at h
  | succ n ih =>
    intro a t h s hs
    have hroot := buildSelect_root heap (n + 1) a t h
    simp only [buildSelect] at h
    split at h
    · cases h
    · rename_i cell hc
      cases h
      rw [Select.subs_eq] at hs
      rcases List.mem_cons.mp hs with rfl | hs1
      · obtain ⟨s0, h0, e0⟩ := hroot
        obtain ⟨hlt, heq⟩ := List.getElem?_eq_some_iff.mp h0
        exact ⟨s0, heq ▸ List.getElem_mem hlt, e0⟩
      · obtain ⟨j, hj, hsj⟩ := Select.mem_subsList s _ hs1
        simp only [List.mem_filterMap] at hj
        obtain ⟨b, _, hb⟩ := hj
        exact ih b j hb s hsj

/-- What `compileQuery` returns: the tree of the root of the walk, with the
effective filter applied to its Where. -/
theorem compileQuery_ok (com : Compiler) (inf : Inflect) (op : Operation) (q : Query)
    (h : com.compileQuery inf op = Result.ok q) :
    ∃ qs a root0, com.compileQueryWalk inf op = Result.ok qs ∧ qs.selRoot = some a ∧
      buildSelect qs.heap qs.heap.length a = some root0 ∧
      q = ⟨some { root0 with Where := applyFilter (com.filterFor root0.Table) root0.Where }⟩ := by
  unfold Compiler.compileQuery at h
  split at h
  · cases h
  · cases h
  · cases h
  · rename_i qs hqs
    split at h
    · cases h
    · rename_i root0 hroot
      cases h
      cases hr : qs.selRoot with
      | none => simp [hr] at hroot
      | some a =>
        simp only [hr, Option.some_bind] at hroot
        exact ⟨qs, a, root0, hqs, hr, hroot, rfl⟩

/-- The invariant at the end of the walk of `compileQuery`. -/
theorem compileQueryWalk_inv (com : Compiler) (inf : Inflect) (op : Operation) (qs : QState)
    (h : com.compileQueryWalk inf op = Result.ok qs) :
    (∀ s ∈ qs.heap.map Cell.sel, ∃ f, Live com op f ∧ cellFrom com inf f s) ∧
    (∀ a, qs.selRoot = some a → ∃ s f, (qs.heap.map Cell.sel)[a]? = some s ∧
      f ∈ op.Fields ∧ Live com op f ∧ cellFrom com inf f s) := by
  refine compileQueryLoop_inv com inf op _ _ _ qs ?_ ?_ ?_ h
  · intro e he
    obtain ⟨f, hf, rfl⟩ := List.mem_map.mp (List.mem_reverse.mp he)
    exact ⟨Or.inl hf, fun _ => hf⟩
  · intro s hs
    simp at hs
  · intro a ha
    cases ha

end qcode

namespace qcode

open GoStr

theorem withJoins_nil_eq (s s0 : Select) (h : psql.withJoins s [] = psql.withJoins s0 []) :
    s.ID = s0.ID ∧ s.Args = s0.Args ∧ s.AsList = s0.AsList ∧ s.Table = s0.Table ∧
      s.Singular = s0.Singular ∧ s.FieldName = s0.FieldName ∧ s.Cols = s0.Cols ∧
      s.Where = s0.Where ∧ s.OrderBy = s0.OrderBy ∧ s.DistinctOn = s0.DistinctOn ∧
      s.Paging = s0.Paging := by
  cases s
  cases s0
  simp only [psql.withJoins, Select.mk.injEq] at h
  obtain ⟨h1, h2, h3, h4, h5, h6, h7, h8, h9, h10, h11, _⟩ := h
  exact ⟨h1, h2, h3, h4, h5, h6, h7, h8, h9, h10, h11⟩

theorem builtFrom_of_withJoins (com : Compiler) (inf : Inflect) (f : Field) (s s0 : Select)
    (hc : cellFrom com inf f s0) (h : psql.withJoins s [] = psql.withJoins s0 []) :
    builtFrom com inf f s := by
  obtain ⟨h1, h2, h3, h4, h5, h6, h7, _, h9, h10, h11⟩ := withJoins_nil_eq s s0 h
  exact ⟨s0, hc, h1, h2, h3, h4, h5, h6, h7, h9, h10, h11⟩

theorem builtFrom_cols (com : Compiler) (inf : Inflect) (f : Field) (s : Select)
    (h : builtFrom com inf f s) : ∀ col ∈ s.Cols, com.bl.contains col.Name = false := by
  obtain ⟨s0, ⟨id, s1, hs1, rfl⟩, _, _, _, _, _, _, hcols, _⟩ := h
  have hcore := compileArgs_sameCore com f.Args _ s1 hs1
  have h0 : s1.Cols = [] := hcore.2.2.2.2.2.1
  intro col hcol
  rw [hcols] at hcol
  simp only [h0, List.nil_append] at hcol
  exact childrenLoop_cols com f.Children col hcol

/-- C8: every select of the QCode that `compileQuery` returns was created from a
field that is not blacklisted (by its lower-cased name) and has no blacklisted
ancestor, and no column of any of its selects has a blacklisted name; the
blacklist holds lower-cased names and is matched against lower-cased field
names. -/
theorem compileQuery_drops_blacklisted (com : Compiler) (inf : Inflect) (op : Operation)
    (q : Query) (root : Select) (h : com.compileQuery inf op = Result.ok q)
    (hroot : q.Select = some root) :
    ∀ s ∈ root.subs, (∃ f, Live com op f ∧ builtFrom com inf f s) ∧
      ∀ col ∈ s.Cols, com.bl.contains col.Name = false := by
  obtain ⟨qs, a, root0, hw, hr, hb, rfl⟩ := compileQuery_ok com inf op q h
  obtain ⟨hheap, _⟩ := compileQueryWalk_inv com inf op qs hw
  simp only [Option.some.injEq] at hroot
  subst hroot
  have key : ∀ s ∈ ({ root0 with Where := applyFilter (com.filterFor root0.Table) root0.Where } :
      Select).subs, ∃ f, Live com op f ∧ builtFrom com inf f s := by
    intro s hs
    rw [Select.subs_eq] at hs
    rcases List.mem_cons.mp hs with rfl | hs1
    · obtain ⟨s0, h0, e0⟩ := buildSelect_subs qs.heap _ a root0 hb root0
        (by rw [Select.subs_eq]; exact List.mem_cons_self _ _)
      obtain ⟨f, hl, hc⟩ := hheap s0 h0
      obtain ⟨h1, h2, h3, h4, h5, h6, h7, _, h9, h10, h11⟩ := withJoins_nil_eq root0 s0 e0
      exact ⟨f, hl, s0, hc, h1, h2, h3, h4, h5, h6, h7, h9, h10, h11⟩
    · obtain ⟨s0, h0, e0⟩ := buildSelect_subs qs.heap _ a root0 hb s
        (by rw [Select.subs_eq]; exact List.mem_cons_of_mem _ hs1)
      obtain ⟨f, hl, hc⟩ := hheap s0 h0
      exact ⟨f, hl, builtFrom_of_withJoins com inf f s s0 hc e0⟩
  intro s hs
  obtain ⟨f, hl, hbf⟩ := key s hs
  exact ⟨⟨f, hl, hbf⟩, builtFrom_cols com inf f s hbf⟩

/-- Witness of C8 on `{ users { name Password secrets { key } } }` with
`password` and `secrets` blacklisted: the QCode has the select `users` with
the column `name` alone. -/
theorem compileQuery_drops_blacklisted_witness :
    Examples.comBlacklist.compileQuery Examples.inflect Examples.opBlacklisted
      = Result.ok ⟨some Examples.blacklistedRoot⟩ ∧
    ∀ s ∈ Examples.blacklistedRoot.subs,
      (∃ f, Live Examples.comBlacklist Examples.opBlacklisted f ∧
        builtFrom Examples.comBlacklist Examples.inflect f s) ∧
      ∀ col ∈ s.Cols, Examples.comBlacklist.bl.contains col.Name = false :=
  ⟨rfl, compileQuery_drops_blacklisted Examples.comBlacklist Examples.inflect
    Examples.opBlacklisted ⟨some Examples.blacklistedRoot⟩ Examples.blacklistedRoot rfl rfl⟩

end qcode

/-! ### The root of the QCode -/

namespace qcode

open GoStr

theorem stackTops_cons_none (f : Field) (st : List (Field × Option Nat)) :
    stackTops ((f, none) :: st) = f :: stackTops st := by
  simp [stackTops]

theorem stackTops_cons_some (f : Field) (p : Nat) (st : List (Field × Option Nat)) :
    stackTops ((f, some p) :: st) = stackTops st := by
  simp [stackTops]

theorem stackTops_push (cs : List Field) (p : Nat) (st : List (Field × Option Nat)) :
    stackTops ((cs.map (fun f => (f, some p))).reverse ++ st) = stackTops st := by
  unfold stackTops
  rw [List.filter_append]
  have : (cs.map (fun f => (f, some p))).reverse.filter (fun e => e.2.isNone) = [] := by
    rw [List.filter_eq_nil_iff]
    intro e he
    obtain ⟨f, _, rfl⟩ := List.mem_map.mp (List.mem_reverse.mp he)
    simp
  rw [this, List.nil_append]

theorem stackTops_tops (fields : List Field) :
    (stackTops ((fields.map (fun f => (f, (none : Option Nat)))).reverse)).reverse = fields := by
  unfold stackTops
  rw [List.filter_eq_self.mpr]
  · simp [List.map_reverse, Function.comp_def]
  · intro e he
    obtain ⟨f, _, rfl⟩ := List.mem_map.mp (List.mem_reverse.mp he)
    rfl

theorem rootField_cons_blacklisted (com : Compiler) (f : Field) (done : List Field)
    (h : com.bl.contains (ToLower f.Name) = true) :
    com.rootField (f :: done) = com.rootField done := by
  unfold Compiler.rootField
  rw [List.find?_cons, h]
  rfl

theorem rootField_cons_live (com : Compiler) (f : Field) (done : List Field)
    (h : com.bl.contains (ToLower f.Name) = false) :
    com.rootField (f :: done) = some f := by
  unfold Compiler.rootField
  rw [List.find?_cons, h]
  rfl

theorem rootIs_heap (com : Compiler) (inf : Inflect) (done : List Field) (q q1 : QState)
    (hr : q1.selRoot = q.selRoot)
    (hh : ∀ (a : Nat) (s : Select), (q.heap.map Cell.sel)[a]? = some s →
      (q1.heap.map Cell.sel)[a]? = some s)
    (h : rootIs com inf done q) : rootIs com inf done q1 := by
  unfold rootIs at h ⊢
  cases hf : com.rootField done with
  | none =>
    rw [hf] at h
    simp only at h ⊢
    rw [hr, h]
  | some f =>
    rw [hf] at h
    simp only at h ⊢
    obtain ⟨a, s, h1, h2, h3⟩ := h
    exact ⟨a, s, by rw [hr, h1], hh a s h2, h3⟩

/-- The loop of `compileQuery` leaves in `selRoot` the select of the first
top-level field that is not blacklisted. -/
theorem compileQueryLoop_root (com : Compiler) (inf : Inflect) :
    ∀ (fuel : Nat) (st : List (Field × Option Nat)) (q q1 : QState) (done : List Field),
      rootIs com inf done q → compileQueryLoop com inf fuel st q = Result.ok q1 →
      rootIs com inf ((stackTops st).reverse ++ done) q1 := by
  intro fuel
  induction fuel with
  | zero =>
    intro st q q1 done hr h
    cases st with
    | nil => simp only [compileQueryLoop] at h; cases h; exact hr
    | cons e st => simp only [compileQueryLoop] at h; cases h
  | succ n ih =>
    intro st q q1 done hr h
    cases st with
    | nil => simp only [compileQueryLoop] at h; cases h; exact hr
    | cons e st =>
      obtain ⟨field, parent⟩ := e
      rw [compileQueryLoop] at h
      split at h
      · rename_i hbl
        cases parent with
        | none =>
          rw [stackTops_cons_none, List.reverse_cons, List.append_assoc]
          refine ih st q q1 ([field] ++ done) ?_ h
          unfold rootIs
          rw [List.singleton_append, rootField_cons_blacklisted com field done hbl]
          exact hr
        | some p =>
          rw [stackTops_cons_some]
          exact ih st q q1 done hr h
      · rename_i hbl
        have hbl1 : com.bl.contains (ToLower field.Name) = false := by simpa using hbl
        simp only at h
        split at h
        · cases h
        · split at h
          · cases h
          · cases h
          · cases h
          · rename_i s1 hs1
            have hcell : cellFrom com inf field
                { s1 with Cols := s1.Cols ++ (childrenLoop com field.Children).1 } :=
              ⟨q.id, s1, hs1, rfl⟩
            split at h
            · have := ih _ _ q1 ([field] ++ done) ?_ h
              · rw [stackTops_push] at this
                rw [stackTops_cons_none, List.reverse_cons, List.append_assoc]
                exact this
              · unfold rootIs
                rw [List.singleton_append, rootField_cons_live com field done hbl1]
                exact ⟨q.heap.length, _, rfl, by simp, hcell⟩
            · split at h
              · cases h
              · cases h
              · rename_i pid _ pa hpa
                have := ih _ _ q1 done ?_ h
                · rw [stackTops_push] at this
                  rw [stackTops_cons_some]
                  exact this
                · refine rootIs_heap com inf done q _ rfl ?_ hr
                  intro a s hs
                  simp only
                  rw [addJoin_map_sel, List.map_append, List.getElem?_append_left]
                  · exact hs
                  · exact (List.getElem?_eq_some_iff.mp hs).1

/-- The root of the walk of `compileQuery` is the select of the first top-level
field that is not blacklisted. -/
theorem compileQueryWalk_root (com : Compiler) (inf : Inflect) (op : Operation) (qs : QState)
    (h : com.compileQueryWalk inf op = Result.ok qs) : rootIs com inf op.Fields qs := by
  have := compileQueryLoop_root com inf _ _ _ qs [] (by
    show rootIs com inf [] ⟨0, List.replicate op.FieldLen none, [], none⟩
    simp [rootIs, Compiler.rootField]) h
  rw [stackTops_tops, List.append_nil] at this
  exact this

end qcode

namespace qcode

open GoStr

/-- C7: the root of the QCode that `compileQuery` returns is the select of the
first top-level field `f` that is not blacklisted: with `s1` the select that
`compileArgs` builds from the new select of `f` (which has the ID of the root)
and the arguments of `f`, the root is `s1` with the columns of the children of
`f`, its joins and its final Where.  With `s1.Where` the Where built from the
arguments and `fil` the effective filter, the final `root.Where` is `fil`
itself when `fil` is not Nop and the arguments gave no Where, the And node
`&Exp{Op: OpAnd, Children: {fil, s1.Where}}` when `fil` is not Nop and the
arguments gave one, and `s1.Where` when `fil` is Nop (or nil).  The effective
filter is the `FilterMap` entry of the table of the root when there is one, and
`Filter` only when there is none. -/
theorem compileQuery_root_where (com : Compiler) (inf : Inflect) (op : Operation)
    (q : Query) (root : Select) (h : com.compileQuery inf op = Result.ok q)
    (hroot : q.Select = some root) :
    ∃ f s1, com.rootField op.Fields = some f ∧
      com.compileArgs (newSelect inf root.ID f) f.Args = Result.ok s1 ∧
      root = { s1 with Cols := s1.Cols ++ (childrenLoop com f.Children).1,
                       Where := root.Where, Joins := root.Joins } ∧
      (∀ e, com.filterFor root.Table = some e → e.Op ≠ ExpOp.OpNop →
        (s1.Where = none → root.Where = some e) ∧
        (∀ w, s1.Where = some w → root.Where = some (andPair (some e) (some w)))) ∧
      (∀ e, com.filterFor root.Table = some e → e.Op = ExpOp.OpNop →
        root.Where = s1.Where) ∧
      (com.filterFor root.Table = none → root.Where = s1.Where) ∧
      (∀ e, com.fm.lookup root.Table = some e → com.filterFor root.Table = e) ∧
      (com.fm.lookup root.Table = none → com.filterFor root.Table = com.fl) := by
  obtain ⟨qs, a, root0, hw, hr, hb, rfl⟩ := compileQuery_ok com inf op q h
  have hrootIs := compileQueryWalk_root com inf op qs hw
  simp only [Option.some.injEq] at hroot
  subst hroot
  unfold rootIs at hrootIs
  cases hf : com.rootField op.Fields with
  | none =>
    rw [hf] at hrootIs
    simp only at hrootIs
    rw [hrootIs] at hr
    cases hr
  | some f =>
    rw [hf] at hrootIs
    simp only at hrootIs
    obtain ⟨a1, s0, ha1, hs0, ⟨id, s1, hs1, rfl⟩⟩ := hrootIs
    rw [hr] at ha1
    cases ha1
    obtain ⟨t0, ht0, e0⟩ := buildSelect_root qs.heap _ a root0 hb
    rw [hs0] at ht0
    simp only [Option.some.injEq] at ht0
    subst ht0
    have hcore := compileArgs_sameCore com f.Args _ s1 hs1
    have hid : s1.ID = id := hcore.1
    obtain ⟨h1, h2, h3, hT, h5, h6, h7, hW, h9, h10, h11⟩ := withJoins_nil_eq root0 _ e0
    simp only at h1 h2 h3 hT h5 h6 h7 hW h9 h10 h11
    have hid2 : root0.ID = id := by rw [h1, hid]
    refine ⟨f, s1, rfl, ?_, ?_, ?_, ?_, ?_, ?_, ?_⟩
    · simp only [hid2]
      exact hs1
    · obtain ⟨a1, a2, a3, a4, a5, a6, a7, a8, a9, a10, a11, a12⟩ := root0
      obtain ⟨b1, b2, b3, b4, b5, b6, b7, b8, b9, b10, b11, b12⟩ := s1
      simp only at h1 h2 h3 hT h5 h6 h7 hW h9 h10 h11
      subst h1 h2 h3 hT h5 h6 h7 hW h9 h10 h11
      rfl
    · intro e he hne
      simp only [he, applyFilter, hW, hne, ne_eq, not_false_eq_true, if_true]
      refine ⟨fun hn => by rw [hn], fun w hw1 => ?_⟩
      rw [hw1]
    · intro e he hnop
      simp only [he, applyFilter, hW, hnop, ne_eq, not_true_eq_false, if_false]
    · intro he
      simp only [he, applyFilter, hW]
    · intro e he
      simp only [Compiler.filterFor, he]
    · intro he
      simp only [Compiler.filterFor, he]

/-- Witness of C7 on `{ users(id: 5) { name } }` with the filter
`{ account_id: { eq: 7 } }`: the Where of the root is the And of the filter and
the `EqID` filter of the argument. -/
theorem compileQuery_root_where_witness :
    Examples.comFiltered.compileQuery Examples.inflect Examples.opOneField
      = Result.ok ⟨some Examples.filteredRoot⟩ ∧
    Examples.filteredRoot.Where
      = some (andPair (some Examples.accountFilter) (some Examples.eqID5)) ∧
    ∃ f s1, Examples.comFiltered.rootField Examples.opOneField.Fields = some f ∧
      Examples.comFiltered.compileArgs (newSelect Examples.inflect Examples.filteredRoot.ID f)
        f.Args = Result.ok s1 ∧
      Examples.filteredRoot = { s1 with
        Cols := s1.Cols ++ (childrenLoop Examples.comFiltered f.Children).1,
        Where := Examples.filteredRoot.Where, Joins := Examples.filteredRoot.Joins } ∧
      (∀ e, Examples.comFiltered.filterFor Examples.filteredRoot.Table = some e →
        e.Op ≠ ExpOp.OpNop →
        (s1.Where = none → Examples.filteredRoot.Where = some e) ∧
        (∀ w, s1.Where = some w →
          Examples.filteredRoot.Where = some (andPair (some e) (some w)))) :=
  ⟨rfl, rfl, by
    obtain ⟨f, s1, h1, h2, h3, h4, _⟩ := compileQuery_root_where Examples.comFiltered
      Examples.inflect Examples.opOneField ⟨some Examples.filteredRoot⟩ Examples.filteredRoot
      rfl rfl
    exact ⟨f, s1, h1, h2, h3, h4⟩⟩

end qcode

/-! ## Balanced parentheses and the single semicolon -/

namespace GoStr

theorem depthAfter_append (d : Nat) (s t : List Char) :
    depthAfter d (s ++ t) = (depthAfter d s).bind (fun e => depthAfter e t) := by
  induction s generalizing d with
  | nil => simp [depthAfter]
  | cons c cs ih =>
    simp only [List.cons_append, depthAfter]
    split
    · exact ih _
    · split
      · cases d with
        | zero => simp
        | succ e => exact ih _
      · exact ih _

theorem depthAfter_shift (s : List Char) :
    ∀ (a b d : Nat), depthAfter a s = some b → depthAfter (a + d) s = some (b + d) := by
  induction s with
  | nil =>
    intro a b d h
    simp only [depthAfter, Option.some.injEq] at h ⊢
    omega
  | cons c cs ih =>
    intro a b d h
    simp only [depthAfter] at h ⊢
    split
    · rename_i hc
      simp only [hc, if_true] at h
      have := ih (a + 1) b d h
      rw [show a + d + 1 = a + 1 + d by omega]
      exact this
    · rename_i hc
      simp only [hc, if_false] at h
      split
      · rename_i hc2
        simp only [hc2, if_true] at h
        cases a with
        | zero => simp at h
        | succ e =>
          simp only at h
          have := ih e b d h
          rw [show e + 1 + d = (e + d) + 1 by omega]
          exact this
      · rename_i hc2
        simp only [hc2, if_false] at h
        exact ih a b d h

theorem Steps.append {a b c : Nat} {s t : String} (h1 : Steps a b s) (h2 : Steps b c t) :
    Steps a c (s ++ t) := by
  constructor
  · intro d
    rw [String.data_append, depthAfter_append, h1.1 d]
    exact h2.1 d
  · rw [String.data_append, List.mem_append]
    exact fun h => h.elim h1.2 h2.2

theorem Steps.empty (a : Nat) : Steps a a "" := ⟨fun _ => rfl, by simp⟩

theorem Steps.shift {a b : Nat} {s : String} (h : Steps a b s) (k : Nat) :
    Steps (a + k) (b + k) s := by
  refine ⟨fun d => ?_, h.2⟩
  have := h.1 (k + d)
  rw [show a + k + d = a + (k + d) by omega, show b + k + d = b + (k + d) by omega]
  exact this

theorem Steps.of_le {a b d : Nat} {s : String} (h : Steps a b s) (hd : a ≤ d) :
    Steps d (d - a + b) s := by
  have := h.shift (d - a)
  rw [show a + (d - a) = d by omega, show b + (d - a) = d - a + b by omega] at this
  exact this

theorem depthAfter_plain (s : List Char)
    (h : s.all (fun c => c != '(' && c != ')' && c != ';') = true) (d : Nat) :
    depthAfter d s = some d := by
  induction s with
  | nil => rfl
  | cons c cs ih =>
    simp only [List.all_cons, Bool.and_eq_true, bne_iff_ne, ne_eq] at h
    obtain ⟨⟨⟨h1, h2⟩, _⟩, h4⟩ := h
    simp only [depthAfter, h1, h2, if_false]
    exact ih h4

theorem Steps.plain {s : String} (h : plain s = true) (a : Nat) : Steps a a s := by
  refine ⟨fun d => depthAfter_plain s.data h _, ?_⟩
  intro hm
  have := List.all_eq_true.mp h ';' hm
  simp at this

theorem Steps.lit {a b : Nat} {s : String} (h : (Piece.lit s).step a = some b) :
    Steps a b s := by
  simp only [Piece.step] at h
  split at h
  · cases h
  · rename_i hc
    refine ⟨fun d => depthAfter_shift _ _ _ _ h, ?_⟩
    intro hm
    exact hc (by simpa using hm)

/-- Soundness of the piecewise depth computation. -/
theorem check_sound : ∀ (l : List Piece) (a b : Nat), check a l = some b → Steps a b (pieces l)
  | [], a, b, h => by
    simp only [check, Option.some.injEq] at h
    subst h
    exact Steps.empty a
  | p :: l, a, b, h => by
    simp only [check] at h
    split at h
    · cases h
    · rename_i e he
      refine Steps.append ?_ (check_sound l e b h)
      cases p with
      | lit s => exact Steps.lit he
      | txt s hs =>
        simp only [Piece.step, Option.some.injEq] at he
        subst he
        exact Steps.plain hs a
      | sub s a1 b1 hs =>
        simp only [Piece.step] at he
        split at he
        · rename_i hle
          cases he
          exact hs.of_le hle
        · cases he

theorem Steps.of_pieces (l : List Piece) (a b : Nat) (s : String) (e : s = pieces l)
    (h : check a l = some b) : Steps a b s :=
  e ▸ check_sound l a b h

theorem plain_append (s t : String) : plain (s ++ t) = (plain s && plain t) := by
  simp [plain, String.data_append, List.all_append]

theorem Steps.commaSep {α : Type} (f : α → String) (a : Nat) :
    ∀ (l : List α), (∀ x ∈ l, Steps a a (f x)) → Steps a a (commaSep f l)
  | [], _ => Steps.empty a
  | [x], h => h x (List.mem_cons_self _ _)
  | x :: y :: l, h => by
    simp only [GoStr.commaSep]
    exact ((h x (List.mem_cons_self _ _)).append (Steps.plain (by decide) a)).append
      (Steps.commaSep f a (y :: l) (fun z hz => h z (List.mem_cons_of_mem _ hz)))

end GoStr

namespace GoStr

theorem digitChar_ok :
    ∀ m, m < 10 →
      (Nat.digitChar m != '(' && Nat.digitChar m != ')' && Nat.digitChar m != ';') = true := by
  decide

theorem toDigitsCore_ok :
    ∀ (fuel n : Nat) (ds : List Char),
      ds.all (fun c => c != '(' && c != ')' && c != ';') = true →
      (Nat.toDigitsCore 10 fuel n ds).all (fun c => c != '(' && c != ')' && c != ';') = true
  | 0, _, ds, h => by simpa [Nat.toDigitsCore] using h
  | fuel + 1, n, ds, h => by
    simp only [Nat.toDigitsCore]
    have hd : (Nat.digitChar (n % 10) :: ds).all
        (fun c => c != '(' && c != ')' && c != ';') = true := by
      rw [List.all_cons, digitChar_ok (n % 10) (Nat.mod_lt _ (by decide)), h]
      rfl
    split
    · exact hd
    · exact toDigitsCore_ok fuel _ _ hd

theorem plain_repr (n : Nat) : plain (Nat.repr n) = true := by
  simp only [plain, Nat.repr, Nat.toDigits, List.asString]
  exact toDigitsCore_ok _ _ _ rfl

theorem plain_itoa (i : Int) : plain (itoa i) = true := by
  cases i with
  | ofNat n => exact plain_repr n
  | negSucc n =>
    simp only [itoa, plain_append, plain_repr, Bool.and_true]
    decide

end GoStr

namespace psql

open qcode GoStr

theorem WSteps.text {a b : Nat} {s : String} (h : Steps a b s) : WSteps a b (Wr.text s) :=
  ⟨rfl, h⟩

theorem WSteps.andThen {a b c : Nat} {x y : Wr} (h1 : WSteps a b x) (h2 : WSteps b c y) :
    WSteps a c (x.andThen y) := by
  obtain ⟨xo, xs⟩ := x
  obtain ⟨hx, hxs⟩ := h1
  simp only at hx
  subst hx
  exact ⟨h2.1, hxs.append h2.2⟩

theorem WSteps.calm {a b : Nat} {w : Wr} (h : WSteps a b w) : w.calm := Or.inl h.1

theorem plain_scope (sel : Select) (h : plain sel.Table = true) : plain (scope sel) = true := by
  simp only [scope, plain_append, h, plain_itoa, Bool.and_true, Bool.true_and]
  decide

end psql

namespace psql

open qcode GoStr

theorem lookup_mem {α β : Type} [BEq α] (k : α) (v : β) :
    ∀ (l : List (α × β)), l.lookup k = some v → ∃ k1, (k1, v) ∈ l
  | [], h => by simp at h
  | (k1, v1) :: l, h => by
    simp only [List.lookup] at h
    split at h
    · cases h
      exact ⟨k1, List.mem_cons_self _ _⟩
    · obtain ⟨k2, h2⟩ := lookup_mem k v l h
      exact ⟨k2, List.mem_cons_of_mem _ h2⟩

theorem Steps.renderVal (ex : Exp) (vars : List (String × String))
    (hv : plain ex.Val = true) (hvars : vars.all (fun e => plain e.2) = true) :
    Steps 0 0 (renderVal ex vars) := by
  have hx : plain (match ex.Typ with
      | ValType.ValBool | ValType.ValInt | ValType.ValFloat => ex.Val
      | ValType.ValStr => "'" ++ ex.Val ++ "'"
      | ValType.ValVar =>
        match vars.lookup ex.Val with
        | some val => val
        | none => "'\x7b\x7b" ++ ex.Val ++ "\x7d\x7d'"
      | _ => "") = true := by
    split
    · exact hv
    · exact hv
    · exact hv
    · simp only [plain_append, hv, Bool.and_true, Bool.true_and]; decide
    · split
      · rename_i val hl
        obtain ⟨k1, hm⟩ := lookup_mem _ _ _ hl
        exact List.all_eq_true.mp hvars _ hm
      · simp only [plain_append, hv, Bool.and_true, Bool.true_and]; decide
    · rfl
  exact Steps.of_pieces [Piece.lit " (", Piece.txt _ hx, Piece.lit ")"] 0 0 _
    (by simp only [psql.renderVal, pieces, Piece.str, String.append_assoc, String.append_empty])
    rfl

theorem Steps.renderList (ex : Exp) (hv : ex.ListVal.all plain = true) :
    Steps 0 0 (renderList ex) := by
  have hx : Steps 1 1 (commaSep (fun v =>
      match ex.ListType with
      | ValType.ValBool | ValType.ValInt | ValType.ValFloat => v
      | ValType.ValStr => "'" ++ v ++ "'"
      | _ => "") ex.ListVal) := by
    apply Steps.commaSep
    intro v hm
    have hp := List.all_eq_true.mp hv v hm
    apply Steps.plain
    split
    · exact hp
    · exact hp
    · exact hp
    · simp only [plain_append, hp, Bool.and_true, Bool.true_and]; decide
    · rfl
  exact Steps.of_pieces [Piece.lit " (", Piece.sub _ 1 1 hx, Piece.lit ")"] 0 0 _
    (by simp only [psql.renderList, pieces, Piece.str, String.append_assoc, String.append_empty])
    rfl

end psql

namespace psql

open qcode GoStr

theorem whereColOpen_steps (sel : Select) (val : Exp)
    (hc : (val.NestedCol || val.Col.length != 0) = true) (hp : plain val.Col = true)
    (hT : plain sel.Table = true) : Steps 0 1 (whereColOpen sel val) := by
  unfold whereColOpen
  split
  · exact Steps.of_pieces [Piece.lit "((\"", Piece.txt _ hp, Piece.lit "\") "] 0 1 _
      (by simp only [pieces, Piece.str, String.append_assoc, String.append_empty]) rfl
  · rename_i hn
    have hl : (val.Col.length != 0) = true := by
      simpa [hn] using hc
    simp only [hl, if_true]
    exact Steps.of_pieces [Piece.lit "((\"", Piece.txt _ hT, Piece.lit "\".\"", Piece.txt _ hp,
      Piece.lit "\") "] 0 1 _
      (by simp only [pieces, Piece.str, String.append_assoc, String.append_empty]) rfl

theorem whereColOpen_empty (sel : Select) (val : Exp) (hn : val.NestedCol = false)
    (hc : (val.Col.length == 0) = true) : whereColOpen sel val = "" := by
  have hl : val.Col.length = 0 := by simpa using hc
  simp [whereColOpen, hn, hl]

theorem WSteps.comparison (sel : Select) (val : Exp) (vars : List (String × String))
    (tok : String) (hopen : Steps 0 1 (whereColOpen sel val)) (htok : plain tok = true)
    (hv : plain val.Val = true) (hl : val.ListVal.all plain = true)
    (hvars : vars.all (fun e => plain e.2) = true) :
    WSteps 0 0 ((Wr.text (whereColOpen sel val)).andThen
      (Wr.text (tok ++ (if val.Typ = ValType.ValList then renderList val
        else renderVal val vars) ++ ")"))) := by
  have hx : Steps 0 0 (if val.Typ = ValType.ValList then renderList val
      else renderVal val vars) := by
    split
    · exact Steps.renderList val hl
    · exact Steps.renderVal val vars hv hvars
  exact WSteps.andThen (WSteps.text hopen) (WSteps.text
    (Steps.of_pieces [Piece.txt _ htok, Piece.sub _ 0 0 hx, Piece.lit ")"] 1 0 _
      (by simp only [pieces, Piece.str, String.append_assoc, String.append_empty]) rfl))

theorem renderWhereTerminal_steps (sel : Select) (ti : DBTableInfo)
    (vars : List (String × String)) (e : Exp) (hs : expStrict ti e = true)
    (h1 : e.Op ≠ ExpOp.OpAnd) (h2 : e.Op ≠ ExpOp.OpOr) (h3 : e.Op ≠ ExpOp.OpNot)
    (hT : plain sel.Table = true) (hpk : plain ti.PrimaryCol = true)
    (htsv : plain ti.TSVCol = true) (hvars : vars.all (fun e => plain e.2) = true) :
    WSteps 0 0 (renderWhereTerminal sel ti vars e) := by
  obtain ⟨op, col, nested, typ, val, lt, lv, cs⟩ := e
  cases op
  case OpAnd => exact absurd rfl h1
  case OpOr => exact absurd rfl h2
  case OpNot => exact absurd rfl h3
  case OpNop => simp [expStrict] at hs
  case OpIsNull =>
    simp only [expStrict, Bool.and_eq_true] at hs
    obtain ⟨⟨⟨hc, hpc⟩, _⟩, _⟩ := hs
    simp only [renderWhereTerminal]
    refine WSteps.andThen (WSteps.text (whereColOpen_steps sel _ hc hpc hT)) (WSteps.text ?_)
    split
    · exact Steps.lit rfl
    · exact Steps.lit rfl
  case OpEqID =>
    simp only [expStrict, Bool.and_eq_true, Bool.not_eq_true'] at hs
    obtain ⟨⟨⟨hn, hc⟩, hk⟩, hpv⟩ := hs
    have hk1 : ¬ ti.PrimaryCol.length = 0 := by simpa using hk
    have ho := whereColOpen_empty sel ⟨ExpOp.OpEqID, col, nested, typ, val, lt, lv, cs⟩ hn hc
    simp only [renderWhereTerminal, ho, hk1, if_false, Wr.empty_andThen]
    exact WSteps.text (Steps.of_pieces [Piece.lit "((\"", Piece.txt _ hpk, Piece.lit "\") = ('",
      Piece.txt _ hpv, Piece.lit "'))"] 0 0 _
      (by simp only [pieces, Piece.str, String.append_assoc, String.append_empty]) rfl)
  case OpTsQuery =>
    simp only [expStrict, Bool.and_eq_true, Bool.not_eq_true'] at hs
    obtain ⟨⟨⟨hn, hc⟩, hk⟩, hpv⟩ := hs
    have hk1 : ¬ ti.TSVCol.length = 0 := by simpa using hk
    have ho := whereColOpen_empty sel ⟨ExpOp.OpTsQuery, col, nested, typ, val, lt, lv, cs⟩ hn hc
    simp only [renderWhereTerminal, ho, hk1, if_false, Wr.empty_andThen]
    exact WSteps.text (Steps.of_pieces [Piece.lit "((\"", Piece.txt _ htsv,
      Piece.lit "\") @@ to_tsquery('", Piece.txt _ hpv, Piece.lit "'))"] 0 0 _
      (by simp only [pieces, Piece.str, String.append_assoc, String.append_empty]) rfl)
  all_goals
    simp only [expStrict, Bool.and_eq_true] at hs
    obtain ⟨⟨⟨hc, hpc⟩, hpv⟩, hpl⟩ := hs
    simp only [renderWhereTerminal, opToken]
    exact WSteps.comparison sel _ vars _ (whereColOpen_steps sel _ hc hpc hT) (by decide) hpv
      hpl hvars

end psql

namespace psql

open qcode GoStr

theorem expStrict_andor (ti : DBTableInfo) (e : Exp) (h : e.Op = ExpOp.OpAnd ∨ e.Op = ExpOp.OpOr) :
    expStrict ti e = expsStrict ti e.Children := by
  obtain ⟨op, col, nested, typ, val, lt, lv, cs⟩ := e
  simp only at h
  rcases h with rfl | rfl <;> simp [expStrict]

theorem serToken_steps (o : ExpOp) (h : o = ExpOp.OpAnd ∨ o = ExpOp.OpOr) :
    WSteps 0 0 (serToken o) := by
  rcases h with rfl | rfl <;> exact WSteps.text (Steps.plain (by decide) 0)

mutual
theorem serExp_steps (sel : Select) (ti : DBTableInfo) (vars : List (String × String))
    (hT : plain sel.Table = true) (hpk : plain ti.PrimaryCol = true)
    (htsv : plain ti.TSVCol = true) (hvars : vars.all (fun e => plain e.2) = true) :
    ∀ (e : Exp), expStrict ti e = true → WSteps 0 0 (serExp sel ti vars e)
  | ⟨op, col, nested, typ, val, lt, lv, []⟩, h => by
    by_cases hao : op = ExpOp.OpAnd ∨ op = ExpOp.OpOr
    · rw [serExp_andor sel ti vars _ op hao rfl]
      exact WSteps.text (Steps.empty 0)
    · by_cases hnot : op = ExpOp.OpNot
      · subst hnot
        simp [expStrict] at h
      · rw [serExp_terminal sel ti vars _ (fun h => hao (Or.inl h)) (fun h => hao (Or.inr h)) hnot]
        exact renderWhereTerminal_steps sel ti vars _ h (fun h => hao (Or.inl h))
          (fun h => hao (Or.inr h)) hnot hT hpk htsv hvars
  | ⟨op, col, nested, typ, val, lt, lv, none :: rest⟩, h => by
    by_cases hao : op = ExpOp.OpAnd ∨ op = ExpOp.OpOr
    · rcases hao with rfl | rfl <;> simp [expStrict, expsStrict] at h
    · by_cases hnot : op = ExpOp.OpNot
      · subst hnot
        simp [expStrict] at h
      · rw [serExp_terminal sel ti vars _ (fun h => hao (Or.inl h)) (fun h => hao (Or.inr h)) hnot]
        exact renderWhereTerminal_steps sel ti vars _ h (fun h => hao (Or.inl h))
          (fun h => hao (Or.inr h)) hnot hT hpk htsv hvars
  | ⟨op, col, nested, typ, val, lt, lv, some e :: rest⟩, h => by
    by_cases hao : op = ExpOp.OpAnd ∨ op = ExpOp.OpOr
    · rw [serExp_andor sel ti vars _ op hao rfl]
      have h2 : expStrict ti e = true ∧ expsStrict ti rest = true := by
        rw [expStrict_andor ti _ hao] at h
        simpa [expsStrict] using h
      exact WSteps.andThen (serExp_steps sel ti vars hT hpk htsv hvars e h2.1)
        (serRest_steps sel ti vars hT hpk htsv hvars op hao rest h2.2)
    · by_cases hnot : op = ExpOp.OpNot
      · subst hnot
        rw [serExp_not sel ti vars _ rfl]
        exact WSteps.andThen (WSteps.text (Steps.plain (by decide) 0))
          (serExp_steps sel ti vars hT hpk htsv hvars e (by simpa [expStrict] using h))
      · rw [serExp_terminal sel ti vars _ (fun h => hao (Or.inl h)) (fun h => hao (Or.inr h)) hnot]
        exact renderWhereTerminal_steps sel ti vars _ h (fun h => hao (Or.inl h))
          (fun h => hao (Or.inr h)) hnot hT hpk htsv hvars
theorem serRest_steps (sel : Select) (ti : DBTableInfo) (vars : List (String × String))
    (hT : plain sel.Table = true) (hpk : plain ti.PrimaryCol = true)
    (htsv : plain ti.TSVCol = true) (hvars : vars.all (fun e => plain e.2) = true)
    (o : ExpOp) (ho : o = ExpOp.OpAnd ∨ o = ExpOp.OpOr) :
    ∀ (cs : List (Option Exp)), expsStrict ti cs = true → WSteps 0 0 (serRest sel ti vars o cs)
  | [], _ => by simp only [serRest]; exact WSteps.text (Steps.empty 0)
  | none :: rest, h => by simp [expsStrict] at h
  | some e :: rest, h => by
    have h2 : expStrict ti e = true ∧ expsStrict ti rest = true := by simpa [expsStrict] using h
    simp only [serRest]
    exact WSteps.andThen (serToken_steps o ho)
      (WSteps.andThen (serExp_steps sel ti vars hT hpk htsv hvars e h2.1)
        (serRest_steps sel ti vars hT hpk htsv hvars o ho rest h2.2))
end

theorem renderWhere_steps (sel : Select) (ti : DBTableInfo) (vars : List (String × String))
    (e : Exp) (hw : sel.Where = some e) (hs : expStrict ti e = true)
    (hT : plain sel.Table = true) (hpk : plain ti.PrimaryCol = true)
    (htsv : plain ti.TSVCol = true) (hvars : vars.all (fun e => plain e.2) = true) :
    WSteps 0 0 (renderWhere sel ti vars) := by
  rw [renderWhere_eq_serExp sel ti vars e hw]
  exact serExp_steps sel ti vars hT hpk htsv hvars e hs

mutual
theorem expStrict_safe (ti : DBTableInfo) : ∀ (e : Exp), expStrict ti e = true → expSafe e = true
  | ⟨op, col, nested, typ, val, lt, lv, []⟩, h => by
    cases op <;> simp_all [expStrict, expSafe, expsSafe]
  | ⟨op, col, nested, typ, val, lt, lv, none :: rest⟩, h => by
    cases op <;> simp_all [expStrict, expSafe, expsStrict]
  | ⟨op, col, nested, typ, val, lt, lv, some e :: rest⟩, h => by
    have ih := expStrict_safe ti e
    have ihs := expsStrict_safe ti rest
    cases op <;> simp_all [expStrict, expSafe, expsStrict, expsSafe]
theorem expsStrict_safe (ti : DBTableInfo) :
    ∀ (cs : List (Option Exp)), expsStrict ti cs = true → expsSafe cs = true
  | [], _ => rfl
  | none :: rest, h => by simp [expsStrict] at h
  | some e :: rest, h => by
    have h2 : expStrict ti e = true ∧ expsStrict ti rest = true := by simpa [expsStrict] using h
    simp only [expsSafe, expStrict_safe ti e h2.1, expsStrict_safe ti rest h2.2, Bool.and_self]
end

end psql

namespace psql

open qcode GoStr

theorem renderOrderByEntry_plain (sel : Select) (ob : OrderBy) (hT : plain sel.Table = true)
    (hc : plain ob.Col = true) (ho : ob.Order ≠ Order.OrderZero) :
    ∃ s, renderOrderByEntry sel ob = some s ∧ plain s = true := by
  have hs := plain_scope sel hT
  cases h : ob.Order
  case OrderZero => exact absurd h ho
  all_goals
    simp only [renderOrderByEntry, h]
    refine ⟨_, rfl, ?_⟩
    simp only [plain_append, hs, hc, Bool.and_true, Bool.true_and]
    decide

theorem renderOrderByLoop_steps (sel : Select) (hT : plain sel.Table = true) :
    ∀ (obs : List OrderBy),
      obs.all (fun ob => plain ob.Col && ob.Order != Order.OrderZero) = true →
      WSteps 0 0 (renderOrderByLoop sel obs)
  | [], _ => WSteps.text (Steps.empty 0)
  | ob :: rest, h => by
    simp only [List.all_cons, Bool.and_eq_true, bne_iff_ne, ne_eq] at h
    obtain ⟨s, hs, hp⟩ := renderOrderByEntry_plain sel ob hT h.1.1 h.1.2
    simp only [renderOrderByLoop, hs]
    refine WSteps.andThen (WSteps.text ?_) (renderOrderByLoop_steps sel hT rest (by simpa using h.2))
    refine (Steps.plain hp 0).append ?_
    split
    · exact Steps.empty 0
    · exact Steps.plain (by decide) 0

theorem renderOrderBy_steps (sel : Select) (hT : plain sel.Table = true)
    (ho : sel.OrderBy.all (fun ob => plain ob.Col && ob.Order != Order.OrderZero) = true) :
    WSteps 0 0 (renderOrderBy sel) :=
  WSteps.andThen (WSteps.text (Steps.plain (by decide) 0)) (renderOrderByLoop_steps sel hT _ ho)

theorem renderDistinctOn_steps (sel : Select) (hT : plain sel.Table = true)
    (hd : sel.DistinctOn.all plain = true) : Steps 0 0 (renderDistinctOn sel) := by
  have hs := plain_scope sel hT
  have hx : Steps 1 1 (commaSep (fun d => "\"" ++ scope sel ++ ".ob." ++ d ++ "\"")
      sel.DistinctOn) := by
    apply Steps.commaSep
    intro d hm
    have hp := List.all_eq_true.mp hd d hm
    exact Steps.of_pieces [Piece.lit "\"", Piece.txt _ hs, Piece.lit ".ob.", Piece.txt _ hp,
      Piece.lit "\""] 1 1 _
      (by simp only [pieces, Piece.str, String.append_assoc, String.append_empty]) rfl
  exact Steps.of_pieces [Piece.lit " DISTINCT ON (", Piece.sub _ 1 1 hx, Piece.lit ") "] 0 0 _
    (by simp only [renderDistinctOn, pieces, Piece.str, String.append_assoc,
      String.append_empty]) rfl

theorem renderColumns_steps (sel : Select) (hT : plain sel.Table = true)
    (hc : sel.Cols.all (fun col => plain col.Name && plain col.FieldName) = true) (a : Nat) :
    Steps a a (renderColumns sel) := by
  have hs := plain_scope sel hT
  apply Steps.commaSep
  intro col hm
  have hp := List.all_eq_true.mp hc col hm
  simp only [Bool.and_eq_true] at hp
  exact (Steps.of_pieces [Piece.lit "\"", Piece.txt _ hs, Piece.lit "\".\"", Piece.txt _ hp.1,
    Piece.lit "\" AS \"", Piece.txt _ hp.2, Piece.lit "\""] 0 0 _
    (by simp only [pieces, Piece.str, String.append_assoc, String.append_empty]) rfl).of_le
      (Nat.zero_le a)

theorem renderOrderByColumns_steps (sel : Select) (hT : plain sel.Table = true)
    (ho : sel.OrderBy.all (fun ob => plain ob.Col && ob.Order != Order.OrderZero) = true) :
    Steps 0 0 (renderOrderByColumns sel) := by
  have hs := plain_scope sel hT
  unfold renderOrderByColumns
  refine Steps.append (b := 0) ?_ ?_
  · split
    · exact Steps.plain (by decide) 0
    · exact Steps.empty 0
  · apply Steps.commaSep
    intro ob hm
    have hp := List.all_eq_true.mp ho ob hm
    simp only [Bool.and_eq_true] at hp
    exact Steps.of_pieces [Piece.lit "\"", Piece.txt _ hs, Piece.lit "\".\"", Piece.txt _ hp.1,
      Piece.lit "\" AS \"", Piece.txt _ hs, Piece.lit ".ob.", Piece.txt _ hp.1, Piece.lit "\""]
      0 0 _ (by simp only [pieces, Piece.str, String.append_assoc, String.append_empty]) rfl

theorem joinedColumn_steps (s : Select) (hT : plain s.Table = true)
    (hF : plain s.FieldName = true) : Steps 0 0 (joinedColumn s) :=
  Steps.of_pieces [Piece.lit "\"", Piece.txt _ (plain_scope s hT), Piece.lit ".join\".\"",
    Piece.txt _ hT, Piece.lit "\" AS \"", Piece.txt _ hF, Piece.lit "\""] 0 0 _
    (by simp only [joinedColumn, pieces, Piece.str, String.append_assoc, String.append_empty]) rfl

theorem renderPaging_steps (sel : Select) (h1 : plain sel.Paging.Limit = true)
    (h2 : plain sel.Paging.Offset = true) : Steps 0 0 (renderPaging sel) := by
  unfold renderPaging
  refine Steps.append (b := 0) ?_ ?_
  · split
    · exact Steps.of_pieces [Piece.lit " LIMIT ('", Piece.txt _ h1, Piece.lit "') :: integer"]
        0 0 _ (by simp only [pieces, Piece.str, String.append_assoc, String.append_empty]) rfl
    · exact Steps.lit rfl
  · split
    · exact Steps.of_pieces [Piece.lit " OFFSET ('", Piece.txt _ h2, Piece.lit "') :: integer"]
        0 0 _ (by simp only [pieces, Piece.str, String.append_assoc, String.append_empty]) rfl
    · exact Steps.empty 0

end psql

namespace psql

open qcode GoStr

theorem plain_sliceFrom (s : String) (n : Nat) (h : plain s = true) :
    plain (sliceFrom s n) = true := by
  simp only [plain, sliceFrom] at h ⊢
  exact List.all_eq_true.mpr (fun c hc => List.all_eq_true.mp h c (List.mem_of_mem_drop hc))

theorem plain_sliceTo (s : String) (n : Nat) (h : plain s = true) :
    plain (sliceTo s n) = true := by
  simp only [plain, sliceTo] at h ⊢
  exact List.all_eq_true.mpr (fun c hc => List.all_eq_true.mp h c (List.mem_of_mem_take hc))

theorem headStrict_facts (ti : DBTableInfo) (sel : Select) (h : headStrict ti sel = true) :
    plain sel.Table = true ∧ plain sel.FieldName = true ∧ plain sel.Paging.Limit = true ∧
    plain sel.Paging.Offset = true ∧
    sel.Cols.all (fun col => plain col.Name && plain col.FieldName) = true ∧
    sel.OrderBy.all (fun ob => plain ob.Col && ob.Order != Order.OrderZero) = true ∧
    sel.DistinctOn.all plain = true ∧
    (∀ arg, sel.Args.lookup "search" = some arg → plain arg.Val = true) ∧
    (∀ e, sel.Where = some e → expStrict ti e = true) := by
  simp only [headStrict, Bool.and_eq_true] at h
  obtain ⟨⟨⟨⟨⟨⟨⟨⟨h1, h2⟩, h3⟩, h4⟩, h5⟩, h6⟩, h7⟩, h8⟩, h9⟩ := h
  refine ⟨h1, h2, h3, h4, h5, h6, h7, ?_, ?_⟩
  · intro arg ha
    rw [ha] at h8
    exact h8
  · intro e he
    rw [he] at h9
    exact h9

theorem renderBaseCol_steps (sel : Select) (ti : DBTableInfo) (col : Column)
    (hT : plain sel.Table = true) (hn : plain col.Name = true) (htsv : plain ti.TSVCol = true)
    (hsearch : ∀ arg, sel.Args.lookup "search" = some arg → plain arg.Val = true) :
    Steps 0 0 (renderBaseCol sel ti col).1 := by
  unfold renderBaseCol
  simp only
  split
  · exact Steps.of_pieces [Piece.lit "\"", Piece.txt _ hT, Piece.lit "\".\"", Piece.txt _ hn,
      Piece.lit "\""] 0 0 _
      (by simp only [pieces, Piece.str, String.append_assoc, String.append_empty]) rfl
  · split
    · rename_i arg ha
      have hv := hsearch arg ha
      split
      · exact Steps.of_pieces [Piece.lit "ts_rank(\"", Piece.txt _ hT, Piece.lit "\".\"",
          Piece.txt _ htsv, Piece.lit "\", to_tsquery('", Piece.txt _ hv, Piece.lit "')) AS ",
          Piece.txt _ hn] 0 0 _
          (by simp only [pieces, Piece.str, String.append_assoc, String.append_empty]) rfl
      · split
        · exact Steps.of_pieces [Piece.lit "ts_headline(\"", Piece.txt _ hT, Piece.lit "\".\"",
            Piece.txt _ (plain_sliceFrom col.Name 16 hn), Piece.lit "\", to_tsquery('",
            Piece.txt _ hv, Piece.lit "')) AS ", Piece.txt _ hn] 0 0 _
            (by simp only [pieces, Piece.str, String.append_assoc, String.append_empty]) rfl
        · exact Steps.empty 0
    · split
      · exact Steps.of_pieces [Piece.lit "'", Piece.txt _ hn, Piece.lit " not defined' AS ",
          Piece.txt _ hn] 0 0 _
          (by simp only [pieces, Piece.str, String.append_assoc, String.append_empty]) rfl
      · exact Steps.of_pieces [Piece.txt _ (plain_sliceTo col.Name
            (funcPrefixLen col.Name - 1) hn), Piece.lit "(\"",
          Piece.txt _ hT, Piece.lit "\".\"",
          Piece.txt _ (plain_sliceFrom col.Name (funcPrefixLen col.Name) hn),
          Piece.lit "\") AS ", Piece.txt _ hn] 0 0 _
          (by simp only [pieces, Piece.str, String.append_assoc, String.append_empty]) rfl

theorem renderBaseColsFrom_steps (sel : Select) (ti : DBTableInfo) (more : Bool)
    (hT : plain sel.Table = true) (htsv : plain ti.TSVCol = true)
    (hsearch : ∀ arg, sel.Args.lookup "search" = some arg → plain arg.Val = true) :
    ∀ (cols : List Column) (i : Nat),
      cols.all (fun col => plain col.Name && plain col.FieldName) = true →
      Steps 0 0 (renderBaseColsFrom sel ti more i cols).1
  | [], _, _ => Steps.empty 0
  | col :: rest, i, h => by
    simp only [List.all_cons, Bool.and_eq_true] at h
    simp only [renderBaseColsFrom]
    refine ((renderBaseCol_steps sel ti col hT h.1.1 htsv hsearch).append (b := 0) ?_).append
      (renderBaseColsFrom_steps sel ti more hT htsv hsearch rest (i + 1) h.2)
    split
    · exact Steps.plain (by decide) 0
    · exact Steps.empty 0

theorem renderGroupBy_steps (sel : Select) (groupBy : List Nat) (isAgg : Bool)
    (hT : plain sel.Table = true)
    (hc : sel.Cols.all (fun col => plain col.Name && plain col.FieldName) = true) :
    Steps 0 0 (renderGroupBy sel groupBy isAgg) := by
  unfold renderGroupBy
  split
  · refine (Steps.plain (by decide) 0).append ?_
    apply Steps.commaSep
    intro id _
    split
    · rename_i col hcol
      obtain ⟨hlt, heq⟩ := List.getElem?_eq_some_iff.mp hcol
      have hm : col ∈ sel.Cols := heq ▸ List.getElem_mem hlt
      have hp := List.all_eq_true.mp hc col hm
      simp only [Bool.and_eq_true] at hp
      exact Steps.of_pieces [Piece.lit "\"", Piece.txt _ hT, Piece.lit "\".\"",
        Piece.txt _ hp.1, Piece.lit "\""] 0 0 _
        (by simp only [pieces, Piece.str, String.append_assoc, String.append_empty]) rfl
    · exact Steps.empty 0
  · exact Steps.empty 0

end psql

namespace psql

open qcode GoStr

theorem plainCompiler_facts (c : Compiler) (h : plainCompiler c = true) :
    (∀ k ti, c.schema.Tables.lookup k = some ti →
      plain ti.PrimaryCol = true ∧ plain ti.TSVCol = true) ∧
    (∀ k r, c.schema.RelMap.lookup k = some r →
      plain r.Through = true ∧ plain r.ColT = true ∧ plain r.Col1 = true ∧
        plain r.Col2 = true) ∧
    c.vars.all (fun e => plain e.2) = true ∧
    (∀ k v, c.tmap.lookup k = some v → plain v = true) := by
  simp only [plainCompiler, Bool.and_eq_true] at h
  obtain ⟨⟨⟨h1, h2⟩, h3⟩, h4⟩ := h
  refine ⟨?_, ?_, h3, ?_⟩
  · intro k ti hl
    obtain ⟨k1, hm⟩ := lookup_mem _ _ _ hl
    have := List.all_eq_true.mp h1 _ hm
    simpa using this
  · intro k r hl
    obtain ⟨k1, hm⟩ := lookup_mem _ _ _ hl
    have := List.all_eq_true.mp h2 _ hm
    simp only [plainRel, Bool.and_eq_true] at this
    exact ⟨this.1.1.1, this.1.1.2, this.1.2, this.2⟩
  · intro k v hl
    obtain ⟨k1, hm⟩ := lookup_mem _ _ _ hl
    exact List.all_eq_true.mp h4 _ hm

theorem getTable_plain (c : Compiler) (hc : plainCompiler c = true) (sel : Select)
    (ti : DBTableInfo) (h : c.getTable sel = some ti) :
    plain ti.PrimaryCol = true ∧ plain ti.TSVCol = true := by
  have hf := (plainCompiler_facts c hc).1
  unfold Compiler.getTable at h
  split at h
  · exact hf _ _ h
  · exact hf _ _ h

theorem childColumn_plain (c : Compiler) (hc : plainCompiler c = true) (P C : Select)
    (colmap : List String) (hT : plain P.Table = true) :
    ∀ col ∈ childColumn c P colmap C, plain col.Table = true ∧ plain col.Name = true := by
  intro col hm
  unfold childColumn at hm
  split at hm
  · simp at hm
  · rename_i rel hl
    obtain ⟨_, _, h1, h2⟩ := (plainCompiler_facts c hc).2.1 _ _ hl
    split at hm <;> split at hm <;> simp at hm <;> subst hm <;> exact ⟨hT, by assumption⟩

theorem childCols_steps (c : Compiler) (hc : plainCompiler c = true) (sel : Select)
    (hT : plain sel.Table = true) :
    Steps 0 0 (commaSep (fun col : Column => "\"" ++ col.Table ++ "\".\"" ++ col.Name ++ "\"")
      (c.relationshipColumns sel).1) := by
  apply Steps.commaSep
  intro col hm
  simp only [Compiler.relationshipColumns, relationshipColumnsFrom_cols, List.mem_flatten,
    List.mem_map] at hm
  obtain ⟨l, ⟨C, _, rfl⟩, hcol⟩ := hm
  obtain ⟨h1, h2⟩ := childColumn_plain c hc sel C _ hT col hcol
  exact Steps.of_pieces [Piece.lit "\"", Piece.txt _ h1, Piece.lit "\".\"", Piece.txt _ h2,
    Piece.lit "\""] 0 0 _
    (by simp only [pieces, Piece.str, String.append_assoc, String.append_empty]) rfl

theorem renderFrom_steps (c : Compiler) (hc : plainCompiler c = true) (sel : Select)
    (hT : plain sel.Table = true) : Steps 0 0 (renderFrom c sel) := by
  unfold renderFrom
  split
  · rename_i tn hl
    have hp := (plainCompiler_facts c hc).2.2.2 _ _ hl
    exact Steps.of_pieces [Piece.lit " FROM \"", Piece.txt _ hp, Piece.lit "\" AS \"",
      Piece.txt _ hT, Piece.lit "\""] 0 0 _
      (by simp only [pieces, Piece.str, String.append_assoc, String.append_empty]) rfl
  · exact Steps.of_pieces [Piece.lit " FROM \"", Piece.txt _ hT, Piece.lit "\""] 0 0 _
      (by simp only [pieces, Piece.str, String.append_assoc, String.append_empty]) rfl

theorem renderJoinTable_steps (c : Compiler) (hc : plainCompiler c = true) (p sel : Select)
    (hr : resolves c p sel = true) (hP : plain p.Table = true) :
    WSteps 0 0 (renderJoinTable c.schema p sel) := by
  unfold renderJoinTable
  unfold resolves at hr
  split
  · rename_i h1; simp [h1] at hr
  · rename_i rel hl
    obtain ⟨h1, h2, h3, h4⟩ := (plainCompiler_facts c hc).2.1 _ _ hl
    split
    · exact WSteps.text (Steps.of_pieces [Piece.lit " LEFT OUTER JOIN \"", Piece.txt _ h1,
        Piece.lit "\" ON ((\"", Piece.txt _ h1, Piece.lit "\".\"", Piece.txt _ h2,
        Piece.lit "\") = (\"", Piece.txt _ (plain_scope p hP), Piece.lit "\".\"",
        Piece.txt _ h3, Piece.lit "\"))"] 0 0 _
        (by simp only [pieces, Piece.str, String.append_assoc, String.append_empty]) rfl)
    · exact WSteps.text (Steps.empty 0)

theorem renderRelationship_steps (c : Compiler) (hc : plainCompiler c = true) (p sel : Select)
    (hr : resolves c p sel = true) (hP : plain p.Table = true) (hT : plain sel.Table = true) :
    WSteps 0 0 (renderRelationship c.schema p sel) := by
  unfold renderRelationship
  unfold resolves at hr
  split
  · rename_i h1; simp [h1] at hr
  · rename_i rel hl
    obtain ⟨h1, h2, h3, h4⟩ := (plainCompiler_facts c hc).2.1 _ _ hl
    split
    · exact WSteps.text (Steps.of_pieces [Piece.lit "((\"", Piece.txt _ hT, Piece.lit "\".\"",
        Piece.txt _ h3, Piece.lit "\") = (\"", Piece.txt _ (plain_scope p hP),
        Piece.lit "\".\"", Piece.txt _ h4, Piece.lit "\"))"] 0 0 _
        (by simp only [pieces, Piece.str, String.append_assoc, String.append_empty]) rfl)
    · exact WSteps.text (Steps.of_pieces [Piece.lit "((\"", Piece.txt _ hT, Piece.lit "\".\"",
        Piece.txt _ h3, Piece.lit "\") = (\"", Piece.txt _ (plain_scope p hP),
        Piece.lit "\".\"", Piece.txt _ h4, Piece.lit "\"))"] 0 0 _
        (by simp only [pieces, Piece.str, String.append_assoc, String.append_empty]) rfl)
    · exact WSteps.text (Steps.of_pieces [Piece.lit "((\"", Piece.txt _ hT, Piece.lit "\".\"",
        Piece.txt _ h3, Piece.lit "\") = (\"", Piece.txt _ h1,
        Piece.lit "\".\"", Piece.txt _ h4, Piece.lit "\"))"] 0 0 _
        (by simp only [pieces, Piece.str, String.append_assoc, String.append_empty]) rfl)

theorem WSteps.raise {a b : Nat} {w : Wr} (h : WSteps a b w) (k : Nat) :
    WSteps (a + k) (b + k) w := ⟨h.1, h.2.shift k⟩

end psql

namespace psql

open qcode GoStr

theorem renderBaseWhere_steps (c : Compiler) (hc : plainCompiler c = true)
    (parent : Option Select) (sel : Select) (ti : DBTableInfo)
    (hpk : plain ti.PrimaryCol = true) (htsv : plain ti.TSVCol = true)
    (hs : headStrict ti sel = true)
    (hp : ∀ p, parent = some p → resolves c p sel = true ∧ plain p.Table = true) :
    WSteps 0 0 (renderBaseWhere c parent sel ti) := by
  obtain ⟨hT, _, _, _, _, _, _, _, hw⟩ := headStrict_facts ti sel hs
  have hvars := (plainCompiler_facts c hc).2.2.1
  have hopen : WSteps 0 1 (Wr.text " WHERE (") := WSteps.text (Steps.lit rfl)
  have hclose : WSteps 1 0 (Wr.text ")") := WSteps.text (Steps.lit rfl)
  cases parent with
  | none =>
    simp only [renderBaseWhere]
    split
    · rename_i h
      obtain ⟨e, hwe⟩ := Option.isSome_iff_exists.mp h
      exact hopen.andThen
        (((renderWhere_steps sel ti c.vars e hwe (hw e hwe) hT hpk htsv hvars).raise 1).andThen
          hclose)
    · exact WSteps.text (Steps.empty 0)
  | some p =>
    obtain ⟨hr, hP⟩ := hp p rfl
    simp only [renderBaseWhere]
    refine (renderJoinTable_steps c hc p sel hr hP).andThen (hopen.andThen
      (((renderRelationship_steps c hc p sel hr hP hT).raise 1).andThen
        (WSteps.andThen (b := 1) ?_ hclose)))
    split
    · rename_i h
      obtain ⟨e, hwe⟩ := Option.isSome_iff_exists.mp h
      exact (WSteps.text (Steps.plain (by decide) 1)).andThen
        ((renderWhere_steps sel ti c.vars e hwe (hw e hwe) hT hpk htsv hvars).raise 1)
    · exact WSteps.text (Steps.empty 1)

theorem renderBaseSelect_steps (c : Compiler) (hc : plainCompiler c = true)
    (parent : Option Select) (sel : Select) (ti : DBTableInfo)
    (hpk : plain ti.PrimaryCol = true) (htsv : plain ti.TSVCol = true)
    (hs : headStrict ti sel = true)
    (hp : ∀ p, parent = some p → resolves c p sel = true ∧ plain p.Table = true) :
    WSteps 0 0 (renderBaseSelect c parent sel ti (c.relationshipColumns sel).1) := by
  obtain ⟨hT, _, hl, ho, hcols, _, _, hsearch, _⟩ := headStrict_facts ti sel hs
  unfold renderBaseSelect
  simp only []
  refine WSteps.andThen (b := 1) (WSteps.text ?_) (WSteps.andThen (b := 1)
    ((renderBaseWhere_steps c hc parent sel ti hpk htsv hs hp).raise 1) (WSteps.text ?_))
  · exact Steps.of_pieces [Piece.lit " FROM (SELECT ",
      Piece.sub _ 0 0 (renderBaseColsFrom_steps sel ti ((c.relationshipColumns sel).1.length != 0)
        hT htsv hsearch sel.Cols 0 hcols),
      Piece.sub _ 0 0 (childCols_steps c hc sel hT),
      Piece.sub _ 0 0 (renderFrom_steps c hc sel hT)] 0 1 _
      (by simp only [pieces, Piece.str, String.append_assoc, String.append_empty]) rfl
  · exact Steps.of_pieces [Piece.sub _ 0 0 (renderGroupBy_steps sel
        (renderBaseColsFrom sel ti ((c.relationshipColumns sel).1.length != 0) 0 sel.Cols).2.1
        (renderBaseColsFrom sel ti ((c.relationshipColumns sel).1.length != 0) 0 sel.Cols).2.2
        hT hcols),
      Piece.sub _ 0 0 (renderPaging_steps sel hl ho), Piece.lit ") AS \"",
      Piece.txt _ (plain_scope sel hT), Piece.lit "\""] 1 0 _
      (by simp only [pieces, Piece.str, String.append_assoc, String.append_empty]) rfl

theorem renderJoinedColumns_steps (c : Compiler) (sel : Select)
    (hj : ∀ j ∈ emitted c sel, plain j.Table = true ∧ plain j.FieldName = true) :
    Steps 0 0 (renderJoinedColumns sel (c.relationshipColumns sel).2) := by
  rw [renderJoinedColumns_emitted]
  refine Steps.append (b := 0) ?_ (Steps.commaSep _ 0 _
    (fun j hm => joinedColumn_steps j (hj j hm).1 (hj j hm).2))
  split
  · exact Steps.plain (by decide) 0
  · exact Steps.empty 0

theorem renderSelect_steps (c : Compiler) (hc : plainCompiler c = true)
    (parent : Option Select) (sel : Select) (ti : DBTableInfo)
    (hpk : plain ti.PrimaryCol = true) (htsv : plain ti.TSVCol = true)
    (hs : headStrict ti sel = true)
    (hp : ∀ p, parent = some p → resolves c p sel = true ∧ plain p.Table = true)
    (hj : ∀ j ∈ emitted c sel, plain j.Table = true ∧ plain j.FieldName = true) :
    WSteps 0 (if sel.AsList then 1 else 0)
      (renderSelect c parent sel ti (c.relationshipColumns sel).1
        (c.relationshipColumns sel).2) := by
  obtain ⟨hT, _, hl, ho, hcols, hob, hdist, hsearch, _⟩ := headStrict_facts ti sel hs
  have hid : plain (itoa sel.ID) = true := plain_itoa sel.ID
  have hdo : Steps 0 0 (if sel.DistinctOn.length != 0 then renderDistinctOn sel else "") := by
    split
    · exact renderDistinctOn_steps sel hT hdist
    · exact Steps.empty 0
  have hoc : Steps 0 0 (if sel.OrderBy.length != 0 then renderOrderByColumns sel else "") := by
    split
    · exact renderOrderByColumns_steps sel hT hob
    · exact Steps.empty 0
  have hord : WSteps 0 0 (if sel.OrderBy.length != 0 then renderOrderBy sel else Wr.text "") := by
    split
    · exact renderOrderBy_steps sel hT hob
    · exact WSteps.text (Steps.empty 0)
  have hbody : Steps 0 0 ("SELECT " ++
      (if sel.DistinctOn.length != 0 then renderDistinctOn sel else "")
      ++ "row_to_json((" ++ "SELECT \"sel_" ++ itoa sel.ID ++ "\" FROM (SELECT "
      ++ renderColumns sel ++ renderJoinedColumns sel (c.relationshipColumns sel).2
      ++ ") AS \"sel_" ++ itoa sel.ID ++ "\"" ++ ")) AS \"" ++ sel.Table ++ "\""
      ++ (if sel.OrderBy.length != 0 then renderOrderByColumns sel else "")) :=
    Steps.of_pieces [Piece.lit "SELECT ", Piece.sub _ 0 0 hdo, Piece.lit "row_to_json((",
      Piece.lit "SELECT \"sel_", Piece.txt _ hid, Piece.lit "\" FROM (SELECT ",
      Piece.sub _ 0 0 (renderColumns_steps sel hT hcols 0),
      Piece.sub _ 0 0 (renderJoinedColumns_steps c sel hj),
      Piece.lit ") AS \"sel_", Piece.txt _ hid, Piece.lit "\"", Piece.lit ")) AS \"",
      Piece.txt _ hT, Piece.lit "\"", Piece.sub _ 0 0 hoc] 0 0 _
      (by simp only [pieces, Piece.str, String.append_assoc, String.append_empty]) rfl
  have hbase := renderBaseSelect_steps c hc parent sel ti hpk htsv hs hp
  unfold renderSelect
  simp only []
  cases hal : sel.AsList with
  | false =>
    simp only [Bool.false_eq_true, if_false]
    exact (WSteps.text (Steps.empty 0)).andThen ((WSteps.text hbody).andThen hbase)
  | true =>
    simp only [if_true]
    refine WSteps.andThen (b := 1) ?_
      (((WSteps.text hbody).raise 1).andThen (hbase.raise 1))
    refine WSteps.andThen (b := 2) (WSteps.text ?_)
      (WSteps.andThen (b := 2) (hord.raise 2) (WSteps.text ?_))
    · exact Steps.of_pieces [Piece.lit "SELECT coalesce(json_agg(\"", Piece.txt _ hT,
        Piece.lit "\""] 0 2 _
        (by simp only [pieces, Piece.str, String.append_assoc, String.append_empty]) rfl
    · exact Steps.of_pieces [Piece.lit "), '[]') AS \"", Piece.txt _ hT,
        Piece.lit "\" FROM ("] 2 1 _
        (by simp only [pieces, Piece.str, String.append_assoc, String.append_empty]) rfl

theorem renderSelectClose_steps (sel : Select) (ti : DBTableInfo)
    (hs : headStrict ti sel = true) :
    WSteps (if sel.AsList then 1 else 0) 0 (renderSelectClose sel) := by
  obtain ⟨hT, _, hl, ho, hcols, hob, hdist, hsearch, _⟩ := headStrict_facts ti sel hs
  have hord : WSteps 0 0 (if sel.OrderBy.length != 0 then renderOrderBy sel else Wr.text "") := by
    split
    · exact renderOrderBy_steps sel hT hob
    · exact WSteps.text (Steps.empty 0)
  unfold renderSelectClose
  cases hal : sel.AsList with
  | false =>
    simp only [Bool.false_eq_true, if_false]
    exact hord.andThen (WSteps.text (Steps.of_pieces
      [Piece.sub _ 0 0 (renderPaging_steps sel hl ho)] 0 0 _
      (by simp only [pieces, Piece.str, String.append_assoc, String.append_empty]) rfl))
  | true =>
    simp only [if_true]
    exact (hord.raise 1).andThen (WSteps.text (Steps.of_pieces
      [Piece.sub _ 0 0 (renderPaging_steps sel hl ho), Piece.lit ") AS \"",
        Piece.txt _ (plain_scope sel hT), Piece.lit "\""] 1 0 _
      (by simp only [pieces, Piece.str, String.append_assoc, String.append_empty]) rfl))

end psql

namespace psql

open qcode GoStr

theorem selStrict_eq (c : Compiler) (sel : Select) :
    selStrict c sel =
      ((match c.getTable sel with
        | some ti => headStrict ti sel
        | none => false) && selsStrict c sel sel.Joins) := by
  cases sel
  simp [selStrict]

theorem selStrict_head (c : Compiler) (sel : Select) (h : selStrict c sel = true) :
    ∃ ti, c.getTable sel = some ti ∧ headStrict ti sel = true ∧
      selsStrict c sel sel.Joins = true := by
  rw [selStrict_eq, Bool.and_eq_true] at h
  obtain ⟨h1, h2⟩ := h
  split at h1
  · rename_i ti ht
    exact ⟨ti, ht, h1, h2⟩
  · cases h1

theorem selsStrict_mem (c : Compiler) (p : Select) :
    ∀ (js : List Select), selsStrict c p js = true →
      ∀ j ∈ js.filter (resolves c p), selStrict c j = true
  | [], _, j, hm => by simp at hm
  | x :: js, h, j, hm => by
    simp only [selsStrict, Bool.and_eq_true] at h
    by_cases hr : resolves c p x = true
    · rw [List.filter_cons_of_pos hr, List.mem_cons] at hm
      rcases hm with rfl | hm
      · simpa [hr] using h.1
      · exact selsStrict_mem c p js h.2 j hm
    · rw [List.filter_cons_of_neg hr] at hm
      exact selsStrict_mem c p js h.2 j hm

theorem emitted_plain (c : Compiler) (sel : Select) (h : selsStrict c sel sel.Joins = true) :
    ∀ j ∈ emitted c sel, plain j.Table = true ∧ plain j.FieldName = true := by
  intro j hm
  obtain ⟨ti, _, hh, _⟩ := selStrict_head c j (selsStrict_mem c sel sel.Joins h j hm)
  obtain ⟨h1, h2, _⟩ := headStrict_facts ti j hh
  exact ⟨h1, h2⟩

mutual
theorem selStrict_emitOK (c : Compiler) :
    ∀ (s : Select), selStrict c s = true → emitOK c s = true
  | ⟨id, args, asList, table, singular, fieldName, cols, wh, ob, dist, paging, js⟩, h => by
    obtain ⟨ti, ht, hh, hjs⟩ := selStrict_head c _ h
    rw [emitOK_eq]
    simp only [Bool.and_eq_true]
    refine ⟨⟨by rw [ht]; rfl, ?_⟩, selsStrict_emitOKs c js _ hjs⟩
    have hw := (headStrict_facts ti _ hh).2.2.2.2.2.2.2.2
    cases wh with
    | none => rfl
    | some e => exact expStrict_safe ti e (hw e rfl)
theorem selsStrict_emitOKs (c : Compiler) :
    ∀ (js : List Select) (p : Select), selsStrict c p js = true → emitOKs c p js = true
  | [], _, _ => rfl
  | j :: js, p, h => by
    simp only [selsStrict, Bool.and_eq_true] at h
    simp only [emitOKs, Bool.and_eq_true]
    refine ⟨?_, selsStrict_emitOKs c js p h.2⟩
    by_cases hr : resolves c p j = true
    · simp only [hr, if_true] at h ⊢
      exact selStrict_emitOK c j h.1
    · simp only [hr, if_false, Bool.false_eq_true]
end

mutual
theorem selText_steps (c : Compiler) (hc : plainCompiler c = true) :
    ∀ (s : Select) (parent : Option Select), selStrict c s = true →
      (∀ p, parent = some p → resolves c p s = true ∧ plain p.Table = true) →
      Steps 0 0 (selText c parent s)
  | ⟨id, args, asList, table, singular, fieldName, cols, wh, ob, dist, paging, js⟩, parent, h,
      hp => by
    obtain ⟨ti, ht, hh, hjs⟩ := selStrict_head c _ h
    obtain ⟨hpk, htsv⟩ := getTable_plain c hc _ ti ht
    have hT := (headStrict_facts ti _ hh).1
    have h1 := (renderSelect_steps c hc parent _ ti hpk htsv hh hp (emitted_plain c _ hjs)).2
    have h2 : Steps (if asList = true then 1 else 0) (if asList = true then 1 else 0)
        (joinsText c
          ⟨id, args, asList, table, singular, fieldName, cols, wh, ob, dist, paging, js⟩ js) := by
      simpa using (joinsText_steps c hc js _ hT hjs).shift (if asList = true then 1 else 0)
    have h3 := (renderSelectClose_steps _ ti hh).2
    rw [selText_eq]
    simp only [blockText, ht, closeText]
    exact (Steps.append (b := if asList = true then 1 else 0) h1 h2).append h3
theorem joinsText_steps (c : Compiler) (hc : plainCompiler c = true) :
    ∀ (js : List Select) (p : Select), plain p.Table = true → selsStrict c p js = true →
      Steps 0 0 (joinsText c p js)
  | [], _, _, _ => Steps.empty 0
  | j :: js, p, hP, h => by
    simp only [selsStrict, Bool.and_eq_true] at h
    simp only [joinsText]
    refine (joinsText_steps c hc js p hP h.2).append ?_
    by_cases hr : resolves c p j = true
    · simp only [hr, if_true] at h ⊢
      have hj := selText_steps c hc j (some p) h.1 (fun q hq => by cases hq; exact ⟨hr, hP⟩)
      obtain ⟨ti, _, hh, _⟩ := selStrict_head c j h.1
      have hT := (headStrict_facts ti j hh).1
      exact Steps.of_pieces [Piece.lit " LEFT OUTER JOIN LATERAL (", Piece.sub _ 0 0 hj,
        Piece.lit ") AS \"", Piece.txt _ (plain_scope j hT), Piece.lit ".join\" ON ('true')"]
        0 0 _
        (by simp only [pieces, Piece.str, String.append_assoc, String.append_empty,
          renderJoinOpen, renderJoinClose]) rfl
    · simp only [hr, if_false, Bool.false_eq_true]
      exact Steps.empty 0
end

theorem Steps_terminated {s : String} (h : Steps 0 0 s) :
    HasSuffix (s ++ ";") ";" = true ∧ semicolons (s ++ ";") = 1 ∧
      ParensBalanced (s ++ ";") := by
  refine ⟨?_, ?_, ?_⟩
  · simp [HasSuffix]
  · have : List.count ';' s.data = 0 := List.count_eq_zero.mpr h.2
    simp [semicolons, this]
  · have h0 := h.1 0
    simp only [Nat.add_zero] at h0
    simp only [ParensBalanced, String.data_append, depthAfter_append, h0]
    rfl

set_option maxRecDepth 100000 in
/-- C2 (counterexample): the operation
`{ users(where: { profile: { age: { eq: 1 } } }) { id } }` compiles to a QCode
whose comparison has no column; all names and values are free of parentheses
and semicolons and `Compile` ends without error, but the comparison is written
as `= (1))` without its opening parenthesis, so the statement has a closing
parenthesis without an opening one. -/
theorem Compile_two_segment_filter_unbalanced :
    Examples.com.compileQuery Examples.inflect Examples.opTwoSegment
      = Result.ok ⟨some Examples.twoSegmentRoot⟩ ∧
    plainCompiler Examples.sqlc = true ∧
    Examples.sqlc.Compile ⟨some ⟨some Examples.twoSegmentRoot⟩⟩ =
      ⟨"SELECT json_object_agg('users', users) FROM (SELECT coalesce(json_agg(\"users\"), '[]') AS \"users\" FROM (SELECT row_to_json((SELECT \"sel_0\" FROM (SELECT \"users_0\".\"id\" AS \"id\") AS \"sel_0\")) AS \"users\" FROM (SELECT \"users\".\"id\" FROM \"users\" WHERE (= (1))) LIMIT ('20') :: integer) AS \"users_0\" LIMIT ('20') :: integer) AS \"users_0\") AS \"done_1337\";",
        Status.done⟩ ∧
    ¬ ParensBalanced (Examples.sqlc.Compile ⟨some ⟨some Examples.twoSegmentRoot⟩⟩).out := by
  refine ⟨rfl, rfl, rfl, ?_⟩
  unfold ParensBalanced
  decide

/-- C2 (amended): when the names of the schema, the table map and the values of
the variables have no parenthesis and no semicolon, and the root select and
every emitted child meet `selStrict` (known table, names and literal values
without parenthesis and semicolon, an ordering direction among the six, a
filter within the invariants of the IR: a column on every comparison, none on
`EqID` and `TsQuery` and the key column they read defined, no `Nop`, a child
under every `Not`, no nil child), `Compile` ends without error and writes a
statement that ends with `;`, has exactly one `;`, and has balanced
parentheses. -/
theorem Compile_balanced_single_semicolon (c : Compiler) (qc : QCode) (q : Query)
    (root : Select) (hq : qc.Query = some q) (hroot : q.Select = some root)
    (hc : plainCompiler c = true) (hs : selStrict c root = true) :
    (c.Compile qc).st = Status.done ∧ HasSuffix (c.Compile qc).out ";" = true ∧
      semicolons (c.Compile qc).out = 1 ∧ ParensBalanced (c.Compile qc).out := by
  obtain ⟨ti, ht, hh, _⟩ := selStrict_head c root hs
  obtain ⟨hT, hF, _⟩ := headStrict_facts ti root hh
  have hbody := selText_steps c hc root none hs (fun p hp => by cases hp)
  have hall : Steps 0 0 ("SELECT json_object_agg('" ++ root.FieldName ++ "', " ++ root.Table
      ++ ") FROM (" ++ selText c none root ++ ") AS \"done_1337\"") :=
    Steps.of_pieces [Piece.lit "SELECT json_object_agg('", Piece.txt _ hF, Piece.lit "', ",
      Piece.txt _ hT, Piece.lit ") FROM (", Piece.sub _ 0 0 hbody,
      Piece.lit ") AS \"done_1337\""] 0 0 _
      (by simp only [pieces, Piece.str, String.append_assoc, String.append_empty]) rfl
  have e : c.Compile qc = ⟨"SELECT json_object_agg('" ++ root.FieldName ++ "', " ++ root.Table
      ++ ") FROM (" ++ selText c none root ++ ") AS \"done_1337\"" ++ ";", Status.done⟩ := by
    obtain ⟨qq⟩ := qc
    obtain ⟨qs⟩ := q
    simp only at hq hroot
    subst hq
    subst hroot
    rw [Compile_eq_emitSel c root ti ht,
      emitSel_text c root none ti (selStrict_emitOK c root hs) ht (fun p hp => by cases hp)]
    simp only [Wr.text, Wr.done_andThen, String.append_assoc]
    rfl
  rw [e]
  exact ⟨rfl, Steps_terminated hall⟩

set_option maxRecDepth 100000 in
/-- C2 (witness): the catalog of the examples and the select of
`{ posts { id title user { id name } tags { label } } }` meet the
preconditions. -/
theorem Compile_balanced_single_semicolon_witness :
    (plainCompiler Examples.sqlc = true ∧ selStrict Examples.sqlc Examples.postsSel = true) ∧
    (Examples.sqlc.Compile ⟨some ⟨some Examples.postsSel⟩⟩).st = Status.done ∧
    HasSuffix (Examples.sqlc.Compile ⟨some ⟨some Examples.postsSel⟩⟩).out ";" = true ∧
    semicolons (Examples.sqlc.Compile ⟨some ⟨some Examples.postsSel⟩⟩).out = 1 ∧
    ParensBalanced (Examples.sqlc.Compile ⟨some ⟨some Examples.postsSel⟩⟩).out :=
  ⟨⟨rfl, rfl⟩, Compile_balanced_single_semicolon Examples.sqlc
    ⟨some ⟨some Examples.postsSel⟩⟩ ⟨some Examples.postsSel⟩ Examples.postsSel rfl rfl rfl rfl⟩

end psql

namespace qcode

open GoStr

/-- C12 (failing input): for `{ secrets { key } }` with `secrets` blacklisted the
walk of `compileQuery` skips the only top-level field, `selRoot` stays nil, and
the lookup `com.fm[selRoot.Table]` after the loop panics: no QCode with an
absent root is returned. -/
theorem compileQuery_blacklisted_root_panics :
    Examples.comBlacklist.compileQueryWalk Examples.inflect Examples.opSecrets
      = Result.ok ⟨0, [none, none], [], none⟩ ∧
    Examples.comBlacklist.compileQuery Examples.inflect Examples.opSecrets
      = Result.panicked "nil pointer dereference" :=
  ⟨rfl, rfl⟩

end qcode

namespace psql

open qcode GoStr

/-- C14 (failing input): with one entry for each of the six directions,
`renderOrderBy` writes the alias of `DESC NULLS FIRST` and `DESC NULLS LAST`
without quotes and that of `ASC NULLS LAST` without its closing quote, while
`renderOrderByColumns` projects every alias as `"users_0.ob.<col>"`. -/
theorem renderOrderBy_drops_quotes :
    renderOrderBy Examples.orderedSel =
      ⟨" ORDER BY \"users_0.ob.name\" ASC, \"users_0.ob.id\" DESC, \"users_0.ob.a\" ASC NULLS FIRST, users_0.ob.b DESC NULLS FIRST, \"users_0.ob.c ASC NULLS LAST, users_0.ob.d DESC NULLS LAST",
        Status.done⟩ ∧
    renderOrderByColumns Examples.orderedSel =
      ", \"users_0\".\"name\" AS \"users_0.ob.name\", \"users_0\".\"id\" AS \"users_0.ob.id\", \"users_0\".\"a\" AS \"users_0.ob.a\", \"users_0\".\"b\" AS \"users_0.ob.b\", \"users_0\".\"c\" AS \"users_0.ob.c\", \"users_0\".\"d\" AS \"users_0.ob.d\"" :=
  ⟨rfl, rfl⟩

/-- C15 (failing input): `funcPrefixLen` tests `stddev_` before `stddev_pop_`
and `stddev_samp_`, so for the columns `stddev_pop_x` and `stddev_samp_x` it
returns 7 and the base select applies `stddev` to the columns `pop_x` and
`samp_x`. -/
theorem renderBaseSelect_stddev_pop_shadowed :
    funcPrefixLen "stddev_pop_x" = 7 ∧ funcPrefixLen "stddev_samp_x" = 7 ∧
    renderBaseSelect Examples.sqlc none Examples.stddevSel Examples.tiT [] =
      ⟨" FROM (SELECT stddev(\"T\".\"pop_x\") AS stddev_pop_x, stddev(\"T\".\"samp_x\") AS stddev_samp_x, \"T\".\"name\" FROM \"T\" GROUP BY \"T\".\"name\" LIMIT ('20') :: integer) AS \"T_0\"",
        Status.done⟩ :=
  ⟨rfl, rfl, rfl⟩

/-- C16 (failing input): with a `search` argument the column `count_id`, which
is neither real nor `search_rank` nor `search_headline_<col>`, gets no
select-list item at all: the switch under `isSearch` has no other case, the
aggregate rule and the `not defined` literal are in the `else` branch.  The
separator is still written, and the select list starts with `, `. -/
theorem renderBaseSelect_search_writes_empty_item :
    renderBaseCol Examples.searchSel Examples.tiPosts ⟨"", "count_id", "count_id"⟩
      = ("", ColKind.other) ∧
    renderBaseSelect Examples.sqlc none Examples.searchSel Examples.tiPosts [] =
      ⟨" FROM (SELECT , \"posts\".\"title\" FROM \"posts\" LIMIT ('20') :: integer) AS \"posts_0\"",
        Status.done⟩ :=
  ⟨rfl, rfl⟩

end psql

namespace psql

open qcode GoStr

mutual
theorem serExp_congr (sel sel1 : Select) (ti : DBTableInfo) (vars : List (String × String))
    (h : sel.Table = sel1.Table) :
    ∀ (e : Exp), serExp sel ti vars e = serExp sel1 ti vars e
  | ⟨op, col, nested, typ, val, lt, lv, []⟩ => by
    cases op <;> simp [serExp, renderWhereTerminal, whereColOpen, h]
  | ⟨op, col, nested, typ, val, lt, lv, none :: rest⟩ => by
    cases op <;> simp [serExp, renderWhereTerminal, whereColOpen, h]
  | ⟨op, col, nested, typ, val, lt, lv, some e :: rest⟩ => by
    have ih := serExp_congr sel sel1 ti vars h e
    have ihs := fun o => serRest_congr sel sel1 ti vars h o rest
    cases op <;> simp [serExp, renderWhereTerminal, whereColOpen, h, ih, ihs]
theorem serRest_congr (sel sel1 : Select) (ti : DBTableInfo) (vars : List (String × String))
    (h : sel.Table = sel1.Table) (o : ExpOp) :
    ∀ (cs : List (Option Exp)), serRest sel ti vars o cs = serRest sel1 ti vars o cs
  | [] => rfl
  | none :: rest => rfl
  | some e :: rest => by
    rw [serRest, serRest, serExp_congr sel sel1 ti vars h e, serRest_congr sel sel1 ti vars h o rest]
end

theorem serRest_joinWith (sel : Select) (ti : DBTableInfo) (vars : List (String × String))
    (o : ExpOp) :
    ∀ (rest : List Exp) (e1 : Exp),
      (serExp sel ti vars e1).andThen (serRest sel ti vars o (rest.map some)) =
        Wr.joinWith (serToken o) ((e1 :: rest).map (serExp sel ti vars))
  | [], e1 => by simp [serRest, Wr.joinWith, Wr.andThen_text_empty]
  | e2 :: rest, e1 => by
    simp only [List.map_cons, serRest, Wr.joinWith]
    rw [serRest_joinWith sel ti vars o rest e2]
    rfl

/-- What `renderWhere` writes for an And or Or expression: what it writes for
each child taken as the filter, one after the other, with ` AND ` or ` OR `
between two children; it writes no parenthesis of its own, neither around the
expression nor around a child that is itself an And or Or. -/
theorem renderWhere_and_or_flat (sel : Select) (ti : DBTableInfo)
    (vars : List (String × String)) (e : Exp) (o : ExpOp) (cs : List Exp)
    (hw : sel.Where = some e) (ho : o = ExpOp.OpAnd ∨ o = ExpOp.OpOr) (hop : e.Op = o)
    (hcs : e.Children = cs.map some) :
    renderWhere sel ti vars =
      Wr.joinWith (Wr.text (if o = ExpOp.OpAnd then " AND " else " OR "))
        (cs.map (fun c => renderWhere { sel with Where := some c } ti vars)) := by
  have htok : Wr.text (if o = ExpOp.OpAnd then " AND " else " OR ") = serToken o := by
    rcases ho with rfl | rfl <;> rfl
  have hchild : ∀ c : Exp, renderWhere { sel with Where := some c } ti vars
      = serExp sel ti vars c := fun c => by
    rw [renderWhere_eq_serExp { sel with Where := some c } ti vars c rfl]
    exact serExp_congr { sel with Where := some c } sel ti vars rfl c
  rw [renderWhere_eq_serExp sel ti vars e hw, serExp_andor sel ti vars e o ho hop, hcs, htok]
  simp only [hchild]
  cases cs with
  | nil => rfl
  | cons e1 rest => exact serRest_joinWith sel ti vars o rest e1

/-- The filter
`And[GreaterThan(age, 18), Or[Like(name, "A%"), Equals(active, true)]]` on the
table `T`: the text of the whole is that of the two children with ` AND `
between them. -/
theorem renderWhere_and_or_flat_witness :
    renderWhere Examples.groupedSel Examples.tiT [] =
      Wr.joinWith (Wr.text (if ExpOp.OpAnd = ExpOp.OpAnd then " AND " else " OR "))
        ([Examples.gtAge, Examples.orNameActive].map
          (fun c => renderWhere { Examples.groupedSel with Where := some c } Examples.tiT [])) :=
  renderWhere_and_or_flat Examples.groupedSel Examples.tiT [] Examples.groupedFilter ExpOp.OpAnd
    _ rfl (Or.inl rfl) rfl rfl

/-- C18: for the filter
`And[GreaterThan(age, 18), Or[Like(name, "A%"), Equals(active, true)]]` the
WHERE clause of the root is written without the parentheses around the Or that
the tree asks for: the text is `A AND B OR C`, which SQL reads as
`(A AND B) OR C`, not the `A AND (B OR C)` of the tree. -/
theorem renderWhere_nested_or_not_grouped :
    renderBaseWhere Examples.sqlc none Examples.groupedSel Examples.tiT =
      ⟨" WHERE (((\"T\".\"age\") > (18)) AND ((\"T\".\"name\") LIKE ('A%')) OR ((\"T\".\"active\") = (true)))",
        Status.done⟩ ∧
    (renderWhere Examples.groupedSel Examples.tiT []).out ≠
      "(((\"T\".\"age\") > (18)) AND (((\"T\".\"name\") LIKE ('A%')) OR ((\"T\".\"active\") = (true))))" :=
  ⟨rfl, by decide⟩

end psql

namespace psql

open qcode GoStr

/-- What `Compile` returns when every table is known and no filter breaks the
arity of Not, And and Or: the heading, the emission of the root, the closing. -/
theorem Compile_of_emitOK (c : Compiler) (root : Select) (h : emitOK c root = true) :
    c.Compile ⟨some ⟨some root⟩⟩ =
      ⟨"SELECT json_object_agg('" ++ root.FieldName ++ "', " ++ root.Table ++ ") FROM (" ++
        selText c none root ++ ") AS \"done_1337\";", Status.done⟩ := by
  have h1 := h
  rw [emitOK_eq] at h1
  simp only [Bool.and_eq_true] at h1
  obtain ⟨ti, ht⟩ := Option.isSome_iff_exists.mp h1.1.1
  rw [Compile_eq_emitSel c root ti ht,
    emitSel_text c root none ti h ht (fun p hp => by cases hp)]
  simp [Wr.andThen, Wr.text, String.append_assoc]

theorem joinText_eq (c : Compiler) (p j : Select) :
    joinText c p j = renderJoinOpen ++ selText c (some p) j ++ renderJoinClose j := by
  rw [joinText, selText_eq]
  simp only [String.append_assoc]

theorem joinsText_order (c : Compiler) (p ci cj : Select) (l2 l3 : List Select) :
    ∀ (js l1 : List Select), js.filter (resolves c p) = l1 ++ ci :: (l2 ++ cj :: l3) →
      ∃ a m b, joinsText c p js = a ++ joinText c p cj ++ m ++ joinText c p ci ++ b
  | [], l1, h => by
    cases l1 <;> simp at h
  | x :: xs, l1, h => by
    rw [joinsText]
    by_cases hr : resolves c p x = true
    · rw [List.filter_cons_of_pos hr] at h
      simp only [hr, if_true]
      cases l1 with
      | nil =>
        simp only [List.nil_append, List.cons.injEq] at h
        obtain ⟨rfl, h2⟩ := h
        have hmem : cj ∈ xs.filter (resolves c p) := by
          rw [h2]
          exact List.mem_append_right _ (List.mem_cons_self _ _)
        obtain ⟨m1, m2, e⟩ := joinsText_mem c p cj xs hmem
        refine ⟨m1, m2, "", ?_⟩
        rw [e, joinText_eq, joinText_eq]
        simp only [String.append_assoc, String.append_empty]
      | cons y l1 =>
        simp only [List.cons_append, List.cons.injEq] at h
        obtain ⟨a, m, b, e⟩ := joinsText_order c p ci cj l2 l3 xs l1 h.2
        refine ⟨a, m, b ++ (renderJoinOpen ++ selText c (some p) x ++ renderJoinClose x), ?_⟩
        rw [e]
        simp only [String.append_assoc]
    · rw [List.filter_cons_of_neg hr] at h
      simp only [hr, if_false, Bool.false_eq_true]
      obtain ⟨a, m, b, e⟩ := joinsText_order c p ci cj l2 l3 xs l1 h
      exact ⟨a, m, b, by rw [e]; simp only [String.append_empty]⟩

/-- C19 (amended): the lateral joins of the emitted children of a select are
written from the last child of `Joins` to the first: when `ci` stands before
`cj` among the emitted children of an emitted select `P`, the text of `Compile`
has the join of `cj` before the join of `ci`, both between the select block
and the select close of `P`. -/
theorem Compile_emits_joins_last_to_first (c : Compiler) (root : Select)
    (h : emitOK c root = true) (par : Option Select) (P ci cj : Select)
    (l1 l2 l3 : List Select) (hP : Emits c root par P)
    (hord : emitted c P = l1 ++ ci :: (l2 ++ cj :: l3)) :
    ∃ a m1 m m2 b, (c.Compile ⟨some ⟨some root⟩⟩).out =
      a ++ blockText c par P ++ m1 ++ joinText c P cj ++ m ++ joinText c P ci ++ m2 ++
        closeText P ++ b := by
  obtain ⟨a, b, e⟩ := selText_emits c root par P hP
  obtain ⟨m1, m, m2, e2⟩ := joinsText_order c P ci cj l2 l3 P.Joins l1 hord
  refine ⟨"SELECT json_object_agg('" ++ root.FieldName ++ "', " ++ root.Table ++ ") FROM (" ++ a,
    m1, m, m2, b ++ ") AS \"done_1337\";", ?_⟩
  rw [Compile_of_emitOK c root h, e, selText_eq c par P, e2]
  simp only [String.append_assoc]

set_option maxRecDepth 100000 in
/-- C19 (witness): the select of
`{ posts { id title user { id name } tags { label } } }`, whose emitted
children are `tags` and `user` in this order. -/
theorem Compile_emits_joins_last_to_first_witness :
    (emitOK Examples.sqlc Examples.postsSel = true ∧
      emitted Examples.sqlc Examples.postsSel = [Examples.tagsSel, Examples.userSel]) ∧
    ∃ a m1 m m2 b, (Examples.sqlc.Compile ⟨some ⟨some Examples.postsSel⟩⟩).out =
      a ++ blockText Examples.sqlc none Examples.postsSel ++ m1 ++
        joinText Examples.sqlc Examples.postsSel Examples.userSel ++ m ++
        joinText Examples.sqlc Examples.postsSel Examples.tagsSel ++ m2 ++
        closeText Examples.postsSel ++ b :=
  ⟨⟨by decide, rfl⟩, Compile_emits_joins_last_to_first Examples.sqlc Examples.postsSel
    (by decide) none Examples.postsSel Examples.tagsSel Examples.userSel [] [] []
    (Emits.root) rfl⟩

set_option maxRecDepth 100000 in
/-- C19 (counterexample): the emitted children of the select of
`{ posts { id title user { id name } tags { label } } }` are `tags`, `user` in
the order of `Joins`, and in the text of `Compile` the lateral join of `user`
starts before that of `tags`. -/
theorem Compile_joins_not_left_to_right :
    emitted Examples.sqlc Examples.postsSel = [Examples.tagsSel, Examples.userSel] ∧
    Index (Examples.sqlc.Compile ⟨some ⟨some Examples.postsSel⟩⟩).out
      (joinText Examples.sqlc Examples.postsSel Examples.userSel) = 407 ∧
    Index (Examples.sqlc.Compile ⟨some ⟨some Examples.postsSel⟩⟩).out
      (joinText Examples.sqlc Examples.postsSel Examples.tagsSel) = 751 := by
  refine ⟨rfl, ?_, ?_⟩ <;> rfl

end psql

namespace psql

open qcode GoStr

theorem Wr.andThen_done (a b : Wr) (h : (a.andThen b).st = Status.done) :
    a.st = Status.done ∧ b.st = Status.done ∧ (a.andThen b).out = a.out ++ b.out := by
  obtain ⟨ao, ast⟩ := a
  cases ast <;> simp_all [Wr.andThen]

theorem Wr.andThen_of_done (a b : Wr) (h : a.st = Status.done) :
    a.andThen b = ⟨a.out ++ b.out, b.st⟩ := by
  obtain ⟨ao, ast⟩ := a
  simp only at h
  subst h
  rfl

/-- What `renderBaseSelect` writes when its WHERE part ends without error. -/
theorem renderBaseSelect_of_where_done (c : Compiler) (par : Option Select) (sel : Select)
    (ti : DBTableInfo) (cc : List Column)
    (hw : (renderBaseWhere c par sel ti).st = Status.done) :
    renderBaseSelect c par sel ti cc =
      ⟨" FROM (SELECT " ++ (renderBaseColsFrom sel ti (cc.length != 0) 0 sel.Cols).1 ++
        commaSep (fun col : Column => "\"" ++ col.Table ++ "\".\"" ++ col.Name ++ "\"") cc ++
        renderFrom c sel ++ (renderBaseWhere c par sel ti).out ++
        renderGroupBy sel (renderBaseColsFrom sel ti (cc.length != 0) 0 sel.Cols).2.1
          (renderBaseColsFrom sel ti (cc.length != 0) 0 sel.Cols).2.2 ++
        renderPaging sel ++ ") AS \"" ++ scope sel ++ "\"", Status.done⟩ := by
  unfold renderBaseSelect
  simp only [Wr.andThen_of_done _ _ hw, Wr.text, Wr.done_andThen, String.append_assoc]

theorem renderBaseCol_real (sel : Select) (ti : DBTableInfo) (col : Column) :
    ((renderBaseCol sel ti col).2 = ColKind.real) ↔ isRealCol ti col = true := by
  unfold renderBaseCol isRealCol
  simp only
  split
  · simp_all
  · rename_i h
    split
    · split
      · simp_all
      · split <;> simp_all
    · split <;> simp_all

theorem isAggCol_eq (sel : Select) (ti : DBTableInfo) (col : Column) :
    isAggCol sel ti col =
      (!isRealCol ti col && (sel.Args.lookup "search").isNone && funcPrefixLen col.Name != 0) := by
  unfold isAggCol renderBaseCol isRealCol
  simp only
  split
  · simp_all
  · rename_i h
    split
    · rename_i arg ha
      split
      · simp_all
      · split <;> simp_all
    · rename_i ha
      rw [ha]
      split
      · rename_i h0
        simp [h, h0]
      · rename_i h0
        simp_all

theorem renderBaseColsFrom_agg (sel : Select) (ti : DBTableInfo) (more : Bool) :
    ∀ (cols : List Column) (i : Nat),
      (renderBaseColsFrom sel ti more i cols).2.2 = cols.any (isAggCol sel ti)
  | [], _ => rfl
  | col :: rest, i => by
    simp only [renderBaseColsFrom, List.any_cons, renderBaseColsFrom_agg sel ti more rest (i + 1)]
    rfl

theorem renderBaseColsFrom_real (sel : Select) (ti : DBTableInfo) (more : Bool) :
    ∀ (cols pre : List Column), pre ++ cols = sel.Cols →
      (renderBaseColsFrom sel ti more pre.length cols).2.1.map (fun id => sel.Cols[id]?) =
        (cols.filter (isRealCol ti)).map some := by
  intro cols
  induction cols with
  | nil => intro pre _; simp [renderBaseColsFrom]
  | cons col rest ih =>
    intro pre hpre
    have hcol : sel.Cols[pre.length]? = some col := by
      rw [← hpre, List.getElem?_append_right (le_refl _)]
      simp
    have ih1 := ih (pre ++ [col]) (by simpa using hpre)
    simp only [List.length_append, List.length_singleton] at ih1
    simp only [renderBaseColsFrom]
    by_cases hr : isRealCol ti col = true
    · have h1 : (renderBaseCol sel ti col).2 = ColKind.real := (renderBaseCol_real sel ti col).2 hr
      simp only [h1, if_true, List.map_cons, hcol, ih1, List.filter_cons_of_pos hr]
    · have h1 : ¬ (renderBaseCol sel ti col).2 = ColKind.real :=
        fun h => hr ((renderBaseCol_real sel ti col).1 h)
      simp only [h1, if_false, ih1]
      rw [List.filter_cons_of_neg hr]

/-- The GROUP BY clause written after the column loop: the real columns among
the requested ones, when one of the others is an aggregate. -/
theorem renderGroupBy_eq (sel : Select) (ti : DBTableInfo) (more : Bool) :
    renderGroupBy sel (renderBaseColsFrom sel ti more 0 sel.Cols).2.1
        (renderBaseColsFrom sel ti more 0 sel.Cols).2.2 =
      (if sel.Cols.any (isAggCol sel ti) && (sel.Cols.filter (isRealCol ti)).length != 0 then
        " GROUP BY " ++ commaSep (fun col : Column =>
          "\"" ++ sel.Table ++ "\".\"" ++ col.Name ++ "\"") (sel.Cols.filter (isRealCol ti))
      else "") := by
  have h := renderBaseColsFrom_real sel ti more sel.Cols [] rfl
  simp only [List.length_nil] at h
  have hlen : (renderBaseColsFrom sel ti more 0 sel.Cols).2.1.length
      = (sel.Cols.filter (isRealCol ti)).length := by
    have := congrArg List.length h
    simpa using this
  unfold renderGroupBy
  rw [renderBaseColsFrom_agg, hlen]
  split
  · congr 1
    have key := commaSep_map (fun o : Option Column => match o with
        | some col => "\"" ++ sel.Table ++ "\".\"" ++ col.Name ++ "\""
        | none => "") (fun id : Nat => sel.Cols[id]?) (renderBaseColsFrom sel ti more 0 sel.Cols).2.1
    refine Eq.trans key ?_
    rw [h]
    exact (commaSep_map _ some _).symm
  · rfl

theorem funcPrefixLen_spec (cn : String) :
    (funcPrefixLen cn != 0) = aggPrefixes.any (fun p => HasPrefix cn p) := by
  unfold funcPrefixLen aggPrefixes
  simp only [List.any_cons, List.any_nil, Bool.or_false]
  repeat' split
  all_goals simp_all

/-- Without a `search` argument the columns at which `renderBaseSelect` sets
`isAgg` are the aggregate columns of the specification. -/
theorem isAggCol_spec (sel : Select) (ti : DBTableInfo) (col : Column)
    (hs : sel.Args.lookup "search" = none) : isAggCol sel ti col = specAggCol ti col := by
  rw [isAggCol_eq, hs, funcPrefixLen_spec]
  simp [specAggCol]

/-- C17 (amended): for a select without `search` argument whose WHERE part is
written without error, the base select is the select list, the FROM clause and
the WHERE part, then the GROUP BY clause, the paging and the alias.  The GROUP
BY clause is there exactly when a requested column is an aggregate column (no
real column of the table, an aggregate prefix) and a requested column is real;
it lists the real columns as `"<Table>"."<Name>"` in the order of the request,
separated by `, `. -/
theorem renderBaseSelect_group_by (c : Compiler) (par : Option Select) (sel : Select)
    (ti : DBTableInfo) (cc : List Column)
    (hs : sel.Args.lookup "search" = none)
    (hw : (renderBaseWhere c par sel ti).st = Status.done) :
    (renderBaseSelect c par sel ti cc).out =
      " FROM (SELECT " ++ (renderBaseColsFrom sel ti (cc.length != 0) 0 sel.Cols).1 ++
        commaSep (fun col : Column => "\"" ++ col.Table ++ "\".\"" ++ col.Name ++ "\"") cc ++
        renderFrom c sel ++ (renderBaseWhere c par sel ti).out ++
        (if sel.Cols.any (specAggCol ti) && (sel.Cols.filter (isRealCol ti)).length != 0 then
          " GROUP BY " ++ commaSep (fun col : Column =>
            "\"" ++ sel.Table ++ "\".\"" ++ col.Name ++ "\"") (sel.Cols.filter (isRealCol ti))
        else "") ++
        renderPaging sel ++ ") AS \"" ++ scope sel ++ "\"" := by
  have hagg : sel.Cols.any (isAggCol sel ti) = sel.Cols.any (specAggCol ti) := by
    congr 1
    funext col
    exact isAggCol_spec sel ti col hs
  rw [renderBaseSelect_of_where_done c par sel ti cc hw, renderGroupBy_eq, hagg]

/-- C17 (witness): for `{ orders { count_id sum_amount customer_id } }` the
select list is `count("orders"."id") AS count_id, sum("orders"."amount") AS
sum_amount, "orders"."customer_id"` and the clause is
`GROUP BY "orders"."customer_id"`. -/
theorem renderBaseSelect_group_by_witness :
    (Examples.ordersSel.Args.lookup "search" = none ∧
      (renderBaseWhere Examples.sqlc none Examples.ordersSel Examples.tiOrders).st
        = Status.done) ∧
    (Examples.ordersSel.Cols.any (specAggCol Examples.tiOrders) = true ∧
      Examples.ordersSel.Cols.filter (isRealCol Examples.tiOrders)
        = [⟨"", "customer_id", "customer_id"⟩]) ∧
    (renderBaseSelect Examples.sqlc none Examples.ordersSel Examples.tiOrders []).out =
      " FROM (SELECT count(\"orders\".\"id\") AS count_id, sum(\"orders\".\"amount\") AS sum_amount, \"orders\".\"customer_id\" FROM \"orders\" GROUP BY \"orders\".\"customer_id\" LIMIT ('20') :: integer) AS \"orders_0\"" :=
  ⟨⟨rfl, rfl⟩, ⟨by decide, rfl⟩,
    (renderBaseSelect_group_by Examples.sqlc none Examples.ordersSel Examples.tiOrders []
      rfl rfl).trans rfl⟩

/-- C17 (counterexample): two selects that request an aggregate column and a
real column and get no GROUP BY clause.  Under a `search` argument
(`{ posts(search: "rust") { count_id title } }`) the column loop does not look
for aggregate prefixes, and `isAgg` stays unset.  For
`{ log(id: 5) { count_line line } }` on a table without primary key the WHERE
part ends with the error of `renderWhere` and `renderBaseSelect` returns before
the GROUP BY clause. -/
theorem renderBaseSelect_aggregate_without_group_by :
    (Examples.searchCountSel.Cols.any (specAggCol Examples.tiPosts) = true ∧
      Examples.searchCountSel.Cols.filter (isRealCol Examples.tiPosts)
        = [⟨"", "title", "title"⟩] ∧
      renderBaseSelect Examples.sqlc none Examples.searchCountSel Examples.tiPosts [] =
        ⟨" FROM (SELECT , \"posts\".\"title\" FROM \"posts\" WHERE (((\"tsv\") @@ to_tsquery('rust'))) LIMIT ('20') :: integer) AS \"posts_0\"",
          Status.done⟩) ∧
    (Examples.logCountSel.Cols.any (specAggCol Examples.tiLogs) = true ∧
      Examples.logCountSel.Cols.filter (isRealCol Examples.tiLogs)
        = [⟨"", "line", "line"⟩] ∧
      renderBaseSelect Examples.sqlc none Examples.logCountSel Examples.tiLogs [] =
        ⟨" FROM (SELECT count(\"logs\".\"line\") AS count_line, \"logs\".\"line\" FROM \"logs\" WHERE (",
          Status.error "no primary key column defined for logs"⟩) := by
  refine ⟨⟨by decide, rfl, by decide⟩, ⟨by decide, rfl, by decide⟩⟩

end psql

namespace qcode

open GoStr

theorem compileArg_keeps_limit (com : Compiler) (sel s1 : Select) (an : String) (arg : Arg)
    (hn : an ≠ "limit") (h : com.compileArg sel an arg = Result.ok s1) :
    s1.Paging.Limit = sel.Paging.Limit := by
  unfold Compiler.compileArg at h
  split at h
  · split at h <;> cases h
    · unfold Compiler.compileArgID
      split <;> rfl
    · rfl
  · split at h
    · cases h
      unfold Compiler.compileArgSearch
      split <;> rfl
    · split at h
      · unfold Compiler.compileArgWhere at h
        split at h
        · cases h
        · cases h
        · cases h
        · split at h <;> cases h <;> rfl
      · split at h
        · unfold Compiler.compileArgOrderBy at h
          split at h
          · cases h
          · split at h
            · cases h; rfl
            · cases h
            · cases h
            · cases h
        · split at h
          · unfold Compiler.compileArgDistinctOn at h
            simp only at h
            split at h
            · cases h; rfl
            · split at h
              · cases h
              · cases h; rfl
          · split at h
            · unfold Compiler.compileArgOffset at h
              split at h
              · cases h
              · cases h; rfl
            · cases h; rfl

theorem compileArgsLoop_keeps_limit (com : Compiler) :
    ∀ (args : List (Option Arg)) (sel s1 : Select),
      (∀ arg, some arg ∈ args → ToLower arg.Name ≠ "limit") →
      com.compileArgsLoop sel args = Result.ok s1 → s1.Paging.Limit = sel.Paging.Limit
  | [], sel, s1, _, h => by
    simp only [Compiler.compileArgsLoop] at h
    cases h
    rfl
  | none :: _, sel, s1, _, h => by
    simp only [Compiler.compileArgsLoop] at h
    cases h
  | some arg :: rest, sel, s1, hn, h => by
    have hrest : ∀ a, some a ∈ rest → ToLower a.Name ≠ "limit" :=
      fun a ha => hn a (List.mem_cons_of_mem _ ha)
    simp only [Compiler.compileArgsLoop] at h
    split at h
    · exact compileArgsLoop_keeps_limit com rest sel s1 hrest h
    · split at h
      · rename_i s2 h2
        rw [compileArgsLoop_keeps_limit com rest _ s1 hrest h]
        exact compileArg_keeps_limit com sel s2 _ arg (hn arg (List.mem_cons_self _ _)) h2
      · cases h
      · cases h
      · cases h

/-- Without a `limit` argument the select of a field keeps the limit it is
created with: none for a list select, `1` for a singular one. -/
theorem builtFrom_limit (com : Compiler) (inf : Inflect) (f : Field) (s : Select)
    (h : builtFrom com inf f s) (hn : ∀ arg, some arg ∈ f.Args → ToLower arg.Name ≠ "limit") :
    s.Paging.Limit = if ToLower f.Name = inf.Pluralize (ToLower f.Name) then "" else "1" := by
  obtain ⟨s0, ⟨id, s1, hs1, rfl⟩, _, _, _, _, _, _, _, _, _, hp⟩ := h
  rw [hp]
  have := compileArgsLoop_keeps_limit com f.Args _ s1 hn hs1
  simp only [this, newSelect]
  by_cases hf : ToLower f.Name = inf.Pluralize (ToLower f.Name)
  · simp [← hf]
  · simp [hf]

end qcode

namespace psql

open qcode GoStr

theorem renderSelect_done (c : Compiler) (par : Option Select) (s : Select) (ti : DBTableInfo)
    (cols : List Column) (ids : List Nat)
    (h : (renderSelect c par s ti cols ids).st = Status.done) :
    (renderBaseSelect c par s ti cols).st = Status.done ∧
      ∃ pre, (renderSelect c par s ti cols ids).out = pre ++ (renderBaseSelect c par s ti cols).out := by
  simp only [renderSelect] at h ⊢
  obtain ⟨_, h2, e2⟩ := Wr.andThen_done _ _ h
  obtain ⟨_, h3, e3⟩ := Wr.andThen_done _ _ h2
  refine ⟨h3, ?_⟩
  apply Exists.intro
  rw [e2, e3]
  exact (String.append_assoc _ _ _).symm

theorem renderBaseSelect_paging (c : Compiler) (par : Option Select) (sel : Select)
    (ti : DBTableInfo) (cc : List Column)
    (hw : (renderBaseWhere c par sel ti).st = Status.done) :
    ∃ pre, (renderBaseSelect c par sel ti cc).out =
      pre ++ (renderPaging sel ++ (") AS \"" ++ (scope sel ++ "\""))) :=
  ⟨" FROM (SELECT " ++ (renderBaseColsFrom sel ti (cc.length != 0) 0 sel.Cols).1 ++
      commaSep (fun col : Column => "\"" ++ col.Table ++ "\".\"" ++ col.Name ++ "\"") cc ++
      renderFrom c sel ++ (renderBaseWhere c par sel ti).out ++
      renderGroupBy sel (renderBaseColsFrom sel ti (cc.length != 0) 0 sel.Cols).2.1
        (renderBaseColsFrom sel ti (cc.length != 0) 0 sel.Cols).2.2, by
    rw [renderBaseSelect_of_where_done c par sel ti cc hw]
    simp only [String.append_assoc]⟩

theorem renderPaging_eq (sel : Select) :
    renderPaging sel =
      " LIMIT ('" ++ (if sel.Paging.Limit.length != 0 then sel.Paging.Limit else "20")
        ++ "') :: integer" ++
      (if sel.Paging.Offset.length != 0 then " OFFSET ('" ++ sel.Paging.Offset ++ "') :: integer"
        else "") := by
  unfold renderPaging
  split <;> rfl

end psql

namespace qcode

open GoStr

theorem orderOf_ne_zero (s : String) (o : Order) (h : orderOf s = some o) :
    o ≠ Order.OrderZero := by
  unfold orderOf at h
  split at h <;> cases h <;> decide

theorem setOrderByColName_order (ob : OrderBy) (node : Node) (anc : List Node) :
    (setOrderByColName ob node anc).Order = ob.Order := by
  unfold setOrderByColName
  simp only
  split <;> rfl

/-- The loop of `compileArgOrderBy` appends entries with one of the six
directions only. -/
theorem compileArgOrderByLoop_orders (com : Compiler) :
    ∀ (fuel : Nat) (st : List (Node × List Node)) (obs r : List OrderBy),
      (∀ ob ∈ obs, ob.Order ≠ Order.OrderZero) →
      compileArgOrderByLoop com fuel st obs = Result.ok r →
      ∀ ob ∈ r, ob.Order ≠ Order.OrderZero := by
  intro fuel
  induction fuel with
  | zero =>
    intro st obs r hobs h
    cases st with
    | nil => simp only [compileArgOrderByLoop] at h; cases h; exact hobs
    | cons e st => simp only [compileArgOrderByLoop] at h; cases h
  | succ n ih =>
    intro st obs r hobs h
    cases st with
    | nil => simp only [compileArgOrderByLoop] at h; cases h; exact hobs
    | cons e st =>
      obtain ⟨node, anc⟩ := e
      rw [compileArgOrderByLoop] at h
      split at h
      · exact ih _ _ _ hobs h
      · split at h
        · exact ih _ _ _ hobs h
        · split at h
          · cases h
          · rename_i o ho
            refine ih _ _ _ ?_ h
            intro ob hob
            rcases List.mem_append.mp hob with h1 | h1
            · exact hobs ob h1
            · rw [List.mem_singleton] at h1
              subst h1
              rw [setOrderByColName_order]
              exact orderOf_ne_zero _ o ho

theorem compileArg_orders (com : Compiler) (sel s1 : Select) (an : String) (arg : Arg)
    (hobs : ∀ ob ∈ sel.OrderBy, ob.Order ≠ Order.OrderZero)
    (h : com.compileArg sel an arg = Result.ok s1) :
    ∀ ob ∈ s1.OrderBy, ob.Order ≠ Order.OrderZero := by
  unfold Compiler.compileArg at h
  split at h
  · split at h <;> cases h
    · unfold Compiler.compileArgID
      split <;> exact hobs
    · exact hobs
  · split at h
    · cases h
      unfold Compiler.compileArgSearch
      split <;> exact hobs
    · split at h
      · unfold Compiler.compileArgWhere at h
        split at h
        · cases h
        · cases h
        · cases h
        · split at h <;> cases h <;> exact hobs
      · split at h
        · unfold Compiler.compileArgOrderBy at h
          split at h
          · cases h
          · split at h
            · rename_i obs hl
              cases h
              exact compileArgOrderByLoop_orders com _ _ _ _ hobs hl
            · cases h
            · cases h
            · cases h
        · split at h
          · unfold Compiler.compileArgDistinctOn at h
            simp only at h
            split at h
            · cases h; exact hobs
            · split at h
              · cases h
              · cases h; exact hobs
          · split at h
            · unfold Compiler.compileArgLimit at h
              split at h
              · cases h
              · cases h; exact hobs
            · split at h
              · unfold Compiler.compileArgOffset at h
                split at h
                · cases h
                · cases h; exact hobs
              · cases h; exact hobs

theorem compileArgsLoop_orders (com : Compiler) :
    ∀ (args : List (Option Arg)) (sel s1 : Select),
      (∀ ob ∈ sel.OrderBy, ob.Order ≠ Order.OrderZero) →
      com.compileArgsLoop sel args = Result.ok s1 →
      ∀ ob ∈ s1.OrderBy, ob.Order ≠ Order.OrderZero
  | [], sel, s1, hobs, h => by
    simp only [Compiler.compileArgsLoop] at h
    cases h
    exact hobs
  | none :: _, sel, s1, _, h => by
    simp only [Compiler.compileArgsLoop] at h
    cases h
  | some arg :: rest, sel, s1, hobs, h => by
    simp only [Compiler.compileArgsLoop] at h
    split at h
    · exact compileArgsLoop_orders com rest sel s1 hobs h
    · split at h
      · rename_i s2 h2
        exact compileArgsLoop_orders com rest
          { s2 with Args := s2.Args ++ [(ToLower arg.Name, arg.Val)] } s1
          (compileArg_orders com sel s2 _ arg hobs h2) h
      · cases h
      · cases h
      · cases h

/-- Every ordering entry of a select built by `compileQuery` has one of the
six directions. -/
theorem builtFrom_orders (com : Compiler) (inf : Inflect) (f : Field) (s : Select)
    (h : builtFrom com inf f s) : ∀ ob ∈ s.OrderBy, ob.Order ≠ Order.OrderZero := by
  obtain ⟨s0, ⟨id, s1, hs1, rfl⟩, _, _, _, _, _, _, _, ho, _, _⟩ := h
  rw [ho]
  exact compileArgsLoop_orders com f.Args _ s1 (fun ob hob => by simp [newSelect] at hob) hs1

/-- Every select of the QCode that `compileQuery` returns is built from a field
that is not blacklisted and has no blacklisted ancestor. -/
theorem compileQuery_builtFrom (com : Compiler) (inf : Inflect) (op : Operation) (q : Query)
    (root : Select) (h : com.compileQuery inf op = Result.ok q) (hroot : q.Select = some root) :
    ∀ s ∈ root.subs, ∃ f, Live com op f ∧ builtFrom com inf f s := by
  obtain ⟨qs, a, root0, hw, hr, hb, rfl⟩ := compileQuery_ok com inf op q h
  obtain ⟨hheap, _⟩ := compileQueryWalk_inv com inf op qs hw
  simp only [Option.some.injEq] at hroot
  subst hroot
  intro s hs
  rw [Select.subs_eq] at hs
  rcases List.mem_cons.mp hs with rfl | hs1
  · obtain ⟨s0, h0, e0⟩ := buildSelect_subs qs.heap _ a root0 hb root0
      (by rw [Select.subs_eq]; exact List.mem_cons_self _ _)
    obtain ⟨f, hl, hc⟩ := hheap s0 h0
    obtain ⟨h1, h2, h3, h4, h5, h6, h7, _, h9, h10, h11⟩ := withJoins_nil_eq root0 s0 e0
    exact ⟨f, hl, s0, hc, h1, h2, h3, h4, h5, h6, h7, h9, h10, h11⟩
  · obtain ⟨s0, h0, e0⟩ := buildSelect_subs qs.heap _ a root0 hb s
      (by rw [Select.subs_eq]; exact List.mem_cons_of_mem _ hs1)
    obtain ⟨f, hl, hc⟩ := hheap s0 h0
    exact ⟨f, hl, builtFrom_of_withJoins com inf f s s0 hc e0⟩

end qcode

namespace psql

open qcode GoStr

theorem renderOrderByLoop_done (sel : Select) :
    ∀ (obs : List OrderBy), (∀ ob ∈ obs, ob.Order ≠ Order.OrderZero) →
      (renderOrderByLoop sel obs).st = Status.done
  | [], _ => rfl
  | ob :: rest, h => by
    have h1 := h ob (List.mem_cons_self _ _)
    have h2 := renderOrderByLoop_done sel rest (fun x hx => h x (List.mem_cons_of_mem _ hx))
    unfold renderOrderByLoop
    cases ho : ob.Order <;> simp only [renderOrderByEntry, ho] <;>
      first
      | exact absurd ho h1
      | (simp only [Wr.andThen, Wr.text]; exact h2)

theorem renderSelectClose_done (sel : Select)
    (h : ∀ ob ∈ sel.OrderBy, ob.Order ≠ Order.OrderZero) :
    (renderSelectClose sel).st = Status.done := by
  have h1 := renderOrderByLoop_done sel sel.OrderBy h
  unfold renderSelectClose renderOrderBy
  split
  · simp only [Wr.andThen, Wr.text, h1]
  · rfl

theorem Select.mem_subsList_of (t : Select) :
    ∀ (l : List Select) (j : Select), j ∈ l → t ∈ j.subs → t ∈ Select.subsList l
  | [], j, hj, _ => by cases hj
  | x :: l, j, hj, ht => by
    simp only [Select.subsList, List.mem_append]
    rcases List.mem_cons.mp hj with rfl | hj1
    · exact Or.inl ht
    · exact Or.inr (Select.mem_subsList_of t l j hj1 ht)

/-- Every select that `Compile` emits is a select of the tree of the root. -/
theorem Emits_subs (c : Compiler) (root : Select) (par : Option Select) (s : Select)
    (h : Emits c root par s) : ∀ t ∈ s.subs, t ∈ root.subs := by
  induction h with
  | root => exact fun t ht => ht
  | child par p j _ hj ih =>
    intro t ht
    have hjj : j ∈ p.Joins := (List.mem_filter.mp hj).1
    refine ih t ?_
    rw [Select.subs_eq]
    exact List.mem_cons_of_mem _ (Select.mem_subsList_of t p.Joins j hjj ht)

end psql

namespace psql

open qcode GoStr

/-- C13 (amended): a select built by `compileQuery` for a field without `limit`
argument has `Paging.Limit` unset when the lower-cased field name is its own
plural (a list select) and `"1"` otherwise; and when every table is known and
no filter makes `renderWhere` panic (`emitOK`), for every select that `Compile`
emits and whose select block is written without error, the text has
` LIMIT ('<Paging.Limit>') :: integer`, with `20` for an unset limit, at the
end of the base select (before OFFSET and the alias) and in the select close
(after ORDER BY). -/
theorem default_limit_one_or_twenty (com : qcode.Compiler) (inf : Inflect) (op : Operation)
    (q : Query) (root : Select) (c : Compiler)
    (h : com.compileQuery inf op = Result.ok q) (hroot : q.Select = some root)
    (hok : emitOK c root = true) :
    (∀ s ∈ root.subs, ∃ f, Live com op f ∧ builtFrom com inf f s ∧
      ((∀ arg, some arg ∈ f.Args → ToLower arg.Name ≠ "limit") →
        s.Paging.Limit = if ToLower f.Name = inf.Pluralize (ToLower f.Name) then "" else "1")) ∧
    (∀ (par : Option Select) (s : Select) (ti : DBTableInfo), Emits c root par s →
      c.getTable s = some ti →
      (renderSelect c par s ti (c.relationshipColumns s).1 (c.relationshipColumns s).2).st
        = Status.done →
      ∃ a m b pre, (c.Compile ⟨some q⟩).out = a ++ blockText c par s ++ m ++ closeText s ++ b ∧
        blockText c par s = pre ++
          " LIMIT ('" ++ (if s.Paging.Limit.length != 0 then s.Paging.Limit else "20")
            ++ "') :: integer" ++
          (if s.Paging.Offset.length != 0 then " OFFSET ('" ++ s.Paging.Offset ++ "') :: integer"
            else "") ++ ") AS \"" ++ scope s ++ "\"" ∧
        closeText s = (if s.OrderBy.length != 0 then (renderOrderBy s).out else "") ++
          " LIMIT ('" ++ (if s.Paging.Limit.length != 0 then s.Paging.Limit else "20")
            ++ "') :: integer" ++
          (if s.Paging.Offset.length != 0 then " OFFSET ('" ++ s.Paging.Offset ++ "') :: integer"
            else "") ++ (if s.AsList then ") AS \"" ++ scope s ++ "\"" else "")) := by
  have hbuilt := compileQuery_builtFrom com inf op q root h hroot
  constructor
  · intro s hs
    obtain ⟨f, hl, hbf⟩ := hbuilt s hs
    exact ⟨f, hl, hbf, builtFrom_limit com inf f s hbf⟩
  · intro par s ti hE ht hblock
    have hclose : (renderSelectClose s).st = Status.done := by
      obtain ⟨f, _, hbf⟩ := hbuilt s (Emits_subs c root par s hE s (by
        rw [Select.subs_eq]
        exact List.mem_cons_self _ _))
      exact renderSelectClose_done s (builtFrom_orders com inf f s hbf)
    obtain ⟨a, b, e⟩ := selText_emits c root par s hE
    obtain ⟨q1⟩ := q
    simp only at hroot
    subst hroot
    obtain ⟨hbase, pre0, hpre0⟩ := renderSelect_done c par s ti _ _ hblock
    have hwhere : (renderBaseWhere c par s ti).st = Status.done := by
      unfold renderBaseSelect at hbase
      exact (Wr.andThen_done _ _ (Wr.andThen_done _ _ hbase).2.1).1
    have hblockText : ∃ pre, blockText c par s = pre ++ renderPaging s ++
        ") AS \"" ++ scope s ++ "\"" := by
      obtain ⟨pre1, hpre1⟩ := renderBaseSelect_paging c par s ti (c.relationshipColumns s).1 hwhere
      refine ⟨pre0 ++ pre1, ?_⟩
      simp only [blockText, ht]
      rw [hpre0, hpre1]
      simp only [String.append_assoc]
    have hcloseText : closeText s =
        (if s.OrderBy.length != 0 then (renderOrderBy s).out else "") ++ renderPaging s ++
          (if s.AsList then ") AS \"" ++ scope s ++ "\"" else "") := by
      unfold renderSelectClose at hclose
      obtain ⟨h1, _, e1⟩ := Wr.andThen_done _ _ hclose
      unfold closeText renderSelectClose
      rw [e1]
      simp only [Wr.text, String.append_assoc]
      congr 1
      split <;> rfl
    obtain ⟨pre, hpre⟩ := hblockText
    refine ⟨"SELECT json_object_agg('" ++ root.FieldName ++ "', " ++ root.Table ++ ") FROM (" ++ a,
      joinsText c s s.Joins, b ++ ") AS \"done_1337\";", pre, ?_, ?_, ?_⟩
    · rw [Compile_of_emitOK c root hok, e, selText_eq c par s]
      simp only [String.append_assoc]
    · rw [hpre, renderPaging_eq]
      simp only [String.append_assoc]
    · rw [hcloseText, renderPaging_eq]
      simp only [String.append_assoc]

set_option maxRecDepth 100000 in
/-- C13 (witness): `{ posts { id title user { id name } tags { label } } }`
compiles to a QCode whose selects `posts` and `tags` have no limit and whose
select `user` has the limit `1`; the block of the select `user`, a child of
`posts`, is written without error. -/
theorem default_limit_one_or_twenty_witness :
    (Examples.com.compileQuery Examples.inflect Examples.opPosts
        = Result.ok ⟨some Examples.postsRoot⟩ ∧
      emitOK Examples.sqlc Examples.postsRoot = true ∧
      Examples.postsRoot.Paging.Limit = "" ∧
      Examples.userSel.Paging.Limit = "1" ∧
      (renderSelect Examples.sqlc none Examples.postsRoot Examples.tiPosts
        (Examples.sqlc.relationshipColumns Examples.postsRoot).1
        (Examples.sqlc.relationshipColumns Examples.postsRoot).2).st = Status.done) ∧
    (∀ s ∈ Examples.postsRoot.subs, ∃ f, Live Examples.com Examples.opPosts f ∧
      builtFrom Examples.com Examples.inflect f s ∧
      ((∀ arg, some arg ∈ f.Args → ToLower arg.Name ≠ "limit") →
        s.Paging.Limit =
          if ToLower f.Name = Examples.inflect.Pluralize (ToLower f.Name) then "" else "1")) ∧
    ∃ a m b pre, (Examples.sqlc.Compile ⟨some ⟨some Examples.postsRoot⟩⟩).out
        = a ++ blockText Examples.sqlc none Examples.postsRoot ++ m ++
          closeText Examples.postsRoot ++ b ∧
      blockText Examples.sqlc none Examples.postsRoot
        = pre ++ " LIMIT ('" ++ "20" ++ "') :: integer" ++ "" ++ ") AS \"" ++
          scope Examples.postsRoot ++ "\"" ∧
      closeText Examples.postsRoot = "" ++ " LIMIT ('" ++ "20" ++ "') :: integer" ++ "" ++
        (") AS \"" ++ scope Examples.postsRoot ++ "\"") :=
  ⟨⟨rfl, by decide, rfl, rfl, by decide⟩,
    (default_limit_one_or_twenty Examples.com Examples.inflect Examples.opPosts
      ⟨some Examples.postsRoot⟩ Examples.postsRoot Examples.sqlc rfl rfl (by decide)).1,
    (default_limit_one_or_twenty Examples.com Examples.inflect Examples.opPosts
      ⟨some Examples.postsRoot⟩ Examples.postsRoot Examples.sqlc rfl rfl (by decide)).2
      none Examples.postsRoot Examples.tiPosts Emits.root rfl (by decide)⟩

set_option maxRecDepth 100000 in
/-- C13 (counterexample): `{ log(id: 5) { line } }` on the table `logs`, which
has no primary key.  `compileQuery` gives a singular select with the limit `1`
and the filter `EqID`; every table is known and `Compile` ends normally, but
the select block stops at the error of `renderWhere` (which `Compile` drops):
the base select ends after ` WHERE (` and has no LIMIT; the one LIMIT of the
text is that of the select close. -/
theorem Compile_base_select_without_limit :
    Examples.com.compileQuery Examples.inflect Examples.opLogByID
      = Result.ok ⟨some Examples.logRoot⟩ ∧
    emitOK Examples.sqlc Examples.logRoot = true ∧
    Examples.sqlc.getTable Examples.logRoot = some Examples.tiLogs ∧
    renderSelect Examples.sqlc none Examples.logRoot Examples.tiLogs
        (Examples.sqlc.relationshipColumns Examples.logRoot).1
        (Examples.sqlc.relationshipColumns Examples.logRoot).2 =
      ⟨"SELECT row_to_json((SELECT \"sel_0\" FROM (SELECT \"logs_0\".\"line\" AS \"line\") AS \"sel_0\")) AS \"logs\" FROM (SELECT \"logs\".\"line\" FROM \"logs\" WHERE (",
        Status.error "no primary key column defined for logs"⟩ ∧
    renderSelectClose Examples.logRoot = ⟨" LIMIT ('1') :: integer", Status.done⟩ ∧
    Examples.sqlc.Compile ⟨some ⟨some Examples.logRoot⟩⟩ =
      ⟨"SELECT json_object_agg('log', logs) FROM (SELECT row_to_json((SELECT \"sel_0\" FROM (SELECT \"logs_0\".\"line\" AS \"line\") AS \"sel_0\")) AS \"logs\" FROM (SELECT \"logs\".\"line\" FROM \"logs\" WHERE ( LIMIT ('1') :: integer) AS \"done_1337\";",
        Status.done⟩ := by
  refine ⟨rfl, by decide, rfl, by decide, by decide, by decide⟩

end psql

namespace qcode

open GoStr

/-! ### The outcome of `compileArgs` and the order of the arguments -/

theorem Exp.conjuncts_eq (e : Exp) :
    e.conjuncts = if e.Op = ExpOp.OpAnd then Exp.conjunctsList e.Children else [some e] := by
  cases e
  simp [Exp.conjuncts]

theorem whereConjuncts_andPair (a b : Exp) :
    (andPair (some a) (some b)).conjuncts = a.conjuncts ++ b.conjuncts := by
  rw [Exp.conjuncts_eq]
  simp [andPair, Exp.zero, Exp.conjunctsList]

theorem whereConjuncts_andOnto (w : Option Exp) (c : Exp) :
    whereConjuncts (andOnto w c) = c.conjuncts ++ whereConjuncts w := by
  cases w with
  | none => simp [andOnto, whereConjuncts]
  | some w1 => simp only [andOnto, whereConjuncts, whereConjuncts_andPair]

theorem ArgEffect.relates_zero (b : Select) :
    (⟨[], [], [], none, none⟩ : ArgEffect).relates b b := by
  simp [ArgEffect.relates]

theorem ArgEffect.within_zero (key : String) :
    (⟨[], [], [], none, none⟩ : ArgEffect).within key := by
  simp [ArgEffect.within]

theorem compileArgOrderByLoop_append (com : Compiler) :
    ∀ (fuel : Nat) (st : List (Node × List Node)) (obs r : List OrderBy),
      compileArgOrderByLoop com fuel st obs = Result.ok r →
      ∃ new, ∀ obs1, compileArgOrderByLoop com fuel st obs1 = Result.ok (obs1 ++ new) := by
  intro fuel
  induction fuel with
  | zero =>
    intro st obs r h
    cases st with
    | nil => exact ⟨[], fun obs1 => by simp [compileArgOrderByLoop]⟩
    | cons e st => simp [compileArgOrderByLoop] at h
  | succ n ih =>
    intro st obs r h
    cases st with
    | nil => exact ⟨[], fun obs1 => by simp [compileArgOrderByLoop]⟩
    | cons e st =>
      obtain ⟨node, anc⟩ := e
      rw [compileArgOrderByLoop] at h
      split at h
      · rename_i hb
        obtain ⟨new, hnew⟩ := ih _ _ _ h
        exact ⟨new, fun obs1 => by rw [compileArgOrderByLoop, if_pos hb]; exact hnew obs1⟩
      · rename_i hb
        split at h
        · rename_i ho
          obtain ⟨new, hnew⟩ := ih _ _ _ h
          exact ⟨new, fun obs1 => by
            rw [compileArgOrderByLoop, if_neg hb, if_pos ho]; exact hnew obs1⟩
        · rename_i ho
          split at h
          · cases h
          · rename_i o hoo
            obtain ⟨new, hnew⟩ := ih _ _ _ h
            refine ⟨setOrderByColName ⟨"", o⟩ node anc :: new, fun obs1 => ?_⟩
            rw [compileArgOrderByLoop, if_neg hb, if_neg ho]
            simp only [hoo]
            rw [hnew]
            simp

theorem compileArg_id (com : Compiler) (b : Select) (arg : Arg) (hb : b.ID ≠ 0) :
    com.compileArg b "id" arg = Result.ok b := by
  simp [Compiler.compileArg, hb]

theorem compileArg_search (com : Compiler) (b : Select) (arg : Arg) :
    com.compileArg b "search" arg = Result.ok (com.compileArgSearch b arg) := by
  simp [Compiler.compileArg]

theorem compileArg_where (com : Compiler) (b : Select) (arg : Arg) :
    com.compileArg b "where" arg = com.compileArgWhere b arg := by
  simp [Compiler.compileArg]

theorem compileArg_orderby (com : Compiler) (b : Select) (an : String) (arg : Arg)
    (h : an = "orderby" ∨ an = "order_by" ∨ an = "order") :
    com.compileArg b an arg = com.compileArgOrderBy b arg := by
  rcases h with rfl | rfl | rfl <;> simp [Compiler.compileArg]

theorem compileArg_distinct (com : Compiler) (b : Select) (an : String) (arg : Arg)
    (h : an = "distinct_on" ∨ an = "distinct") :
    com.compileArg b an arg = com.compileArgDistinctOn b arg := by
  rcases h with rfl | rfl <;> simp [Compiler.compileArg]

theorem compileArg_limit (com : Compiler) (b : Select) (arg : Arg) :
    com.compileArg b "limit" arg = com.compileArgLimit b arg := by
  simp [Compiler.compileArg]

theorem compileArg_offset (com : Compiler) (b : Select) (arg : Arg) :
    com.compileArg b "offset" arg = com.compileArgOffset b arg := by
  simp [Compiler.compileArg]

theorem compileArg_other (com : Compiler) (b : Select) (an : String) (arg : Arg)
    (h1 : an ≠ "id") (h2 : an ≠ "search") (h3 : an ≠ "where")
    (h4 : ¬ (an = "orderby" ∨ an = "order_by" ∨ an = "order"))
    (h5 : ¬ (an = "distinct_on" ∨ an = "distinct")) (h6 : an ≠ "limit") (h7 : an ≠ "offset") :
    com.compileArg b an arg = Result.ok b := by
  simp only [Compiler.compileArg, h1, h2, h3, h4, h5, h6, h7, if_false]

theorem conjuncts_tsquery (v : String) :
    ({ Exp.zero with Op := ExpOp.OpTsQuery, Typ := ValType.ValStr, Val := v } : Exp).conjuncts
      = [some { Exp.zero with Op := ExpOp.OpTsQuery, Typ := ValType.ValStr, Val := v }] := by
  rw [Exp.conjuncts_eq]
  rfl

/-- What an argument does to a select does not depend on the select, apart
from the `id` argument of the select with ID 0 and from a `where` argument that
compiles to nil. -/
theorem compileArg_effect (com : Compiler) (an : String) (arg : Arg) (a a1 : Select)
    (hid : a.ID = 0 → an ≠ "id")
    (hwh : an = "where" → com.compileArgObj arg ≠ Result.ok none)
    (h : com.compileArg a an arg = Result.ok a1) :
    ∃ e : ArgEffect, e.within (canonArg an) ∧
      ∀ b : Select, (b.ID = 0 → an ≠ "id") →
        ∃ b1, com.compileArg b an arg = Result.ok b1 ∧ e.relates b b1 := by
  by_cases h1 : an = "id"
  · subst h1
    exact ⟨⟨[], [], [], none, none⟩, ArgEffect.within_zero _, fun b hb =>
      ⟨b, compileArg_id com b arg (fun h0 => hb h0 rfl), ArgEffect.relates_zero b⟩⟩
  by_cases h2 : an = "search"
  · subst h2
    refine ⟨⟨[some
        { Exp.zero with Op := ExpOp.OpTsQuery, Typ := ValType.ValStr, Val := arg.Val.Val }],
      [], [], none, none⟩, by simp [ArgEffect.within], fun b _ =>
        ⟨com.compileArgSearch b arg, compileArg_search com b arg, ?_⟩⟩
    unfold Compiler.compileArgSearch
    split
    · rename_i w hw
      refine ⟨rfl, rfl, ?_, (List.append_nil _).symm, (List.append_nil _).symm, rfl, rfl⟩
      simp only [whereConjuncts, whereConjuncts_andPair, hw, conjuncts_tsquery]
      exact List.Perm.refl _
    · rename_i hw
      refine ⟨rfl, rfl, ?_, (List.append_nil _).symm, (List.append_nil _).symm, rfl, rfl⟩
      simp only [whereConjuncts, hw, conjuncts_tsquery, List.append_nil]
      exact List.Perm.refl _
  by_cases h3 : an = "where"
  · subst h3
    rw [compileArg_where] at h
    unfold Compiler.compileArgWhere at h
    split at h
    · cases h
    · cases h
    · cases h
    · rename_i ex hex
      cases ex with
      | none => exact absurd hex (hwh rfl)
      | some ex =>
      refine ⟨⟨ex.conjuncts, [], [], none, none⟩, by simp [ArgEffect.within], fun b _ => ?_⟩
      rw [compileArg_where]
      unfold Compiler.compileArgWhere
      rw [hex]
      simp only
      split
      · rename_i w hw
        refine ⟨_, rfl, rfl, rfl, ?_, (List.append_nil _).symm, (List.append_nil _).symm, rfl,
          rfl⟩
        simp only [whereConjuncts, whereConjuncts_andPair, hw]
        exact List.Perm.refl _
      · rename_i hw
        refine ⟨_, rfl, rfl, rfl, ?_, (List.append_nil _).symm, (List.append_nil _).symm, rfl,
          rfl⟩
        simp only [hw, whereConjuncts, List.append_nil]
        exact List.Perm.refl _
  by_cases h4 : an = "orderby" ∨ an = "order_by" ∨ an = "order"
  · rw [compileArg_orderby com a an arg h4] at h
    unfold Compiler.compileArgOrderBy at h
    split at h
    · cases h
    · rename_i hty
      split at h
      · rename_i obs hobs
        obtain ⟨new, hnew⟩ := compileArgOrderByLoop_append com _ _ _ _ hobs
        have hk : canonArg an = "orderby" := by
          rcases h4 with rfl | rfl | rfl <;> decide
        refine ⟨⟨[], new, [], none, none⟩, by simp [ArgEffect.within, hk], fun b _ => ?_⟩
        rw [compileArg_orderby com b an arg h4]
        unfold Compiler.compileArgOrderBy
        rw [if_neg hty, hnew]
        exact ⟨_, rfl, rfl, rfl, List.Perm.refl _, rfl, (List.append_nil _).symm, rfl, rfl⟩
      · cases h
      · cases h
      · cases h
  by_cases h5 : an = "distinct_on" ∨ an = "distinct"
  · have hk : canonArg an = "distinct_on" := by
      rcases h5 with rfl | rfl <;> decide
    rw [compileArg_distinct com a an arg h5] at h
    unfold Compiler.compileArgDistinctOn at h
    simp only at h
    split at h
    · rename_i hbl
      refine ⟨⟨[], [], [], none, none⟩, ArgEffect.within_zero _, fun b _ => ⟨b, ?_,
        ArgEffect.relates_zero b⟩⟩
      rw [compileArg_distinct com b an arg h5]
      unfold Compiler.compileArgDistinctOn
      simp only [hbl, if_true]
    · rename_i hbl
      split at h
      · cases h
      · rename_i hty
        refine ⟨⟨[], [], (if arg.Val.Typ = NodeType.nodeStr then [arg.Val.Val] else []) ++
          arg.Val.Children.map (fun c => c.Val), none, none⟩,
          by simp [ArgEffect.within, hk], fun b _ => ?_⟩
        rw [compileArg_distinct com b an arg h5]
        unfold Compiler.compileArgDistinctOn
        simp only [hbl, hty, if_false]
        refine ⟨_, rfl, rfl, rfl, List.Perm.refl _, (List.append_nil _).symm, ?_, rfl, rfl⟩
        by_cases hs : arg.Val.Typ = NodeType.nodeStr <;> simp [hs]
  by_cases h6 : an = "limit"
  · subst h6
    rw [compileArg_limit] at h
    unfold Compiler.compileArgLimit at h
    split at h
    · cases h
    · rename_i hty
      refine ⟨⟨[], [], [], some arg.Val.Val, none⟩, by simp [ArgEffect.within, canonArg],
        fun b _ => ?_⟩
      rw [compileArg_limit]
      unfold Compiler.compileArgLimit
      rw [if_neg hty]
      exact ⟨_, rfl, rfl, rfl, List.Perm.refl _, (List.append_nil _).symm,
        (List.append_nil _).symm, rfl, rfl⟩
  by_cases h7 : an = "offset"
  · subst h7
    rw [compileArg_offset] at h
    unfold Compiler.compileArgOffset at h
    split at h
    · cases h
    · rename_i hty
      refine ⟨⟨[], [], [], none, some arg.Val.Val⟩, by simp [ArgEffect.within, canonArg],
        fun b _ => ?_⟩
      rw [compileArg_offset]
      unfold Compiler.compileArgOffset
      rw [if_neg hty]
      exact ⟨_, rfl, rfl, rfl, List.Perm.refl _, (List.append_nil _).symm,
        (List.append_nil _).symm, rfl, rfl⟩
  · exact ⟨⟨[], [], [], none, none⟩, ArgEffect.within_zero _, fun b _ =>
      ⟨b, compileArg_other com b an arg h1 h2 h3 h4 h5 h6 h7, ArgEffect.relates_zero b⟩⟩

end qcode

namespace qcode

open GoStr

theorem compileArgsLoop_cons (com : Compiler) (a : Select) (x : Arg) (rest : List (Option Arg))
    (hf : a.Args.lookup (ToLower x.Name) = none) :
    com.compileArgsLoop a (some x :: rest) =
      match com.compileArg a (ToLower x.Name) x with
      | Result.ok a1 =>
        com.compileArgsLoop { a1 with Args := a1.Args ++ [(ToLower x.Name, x.Val)] } rest
      | Result.error e => Result.error e
      | Result.panicked e => Result.panicked e
      | Result.outOfFuel => Result.outOfFuel := by
  simp only [Compiler.compileArgsLoop, hf, Option.isSome_none, Bool.false_eq_true, if_false]
  try rfl

theorem lookup_snoc_ne (l : List (String × Node)) (k k1 : String) (v : Node) (h : k1 ≠ k)
    (hl : l.lookup k1 = none) : (l ++ [(k, v)]).lookup k1 = none := by
  have hb : (k1 == k) = false := by simpa using h
  rw [List.lookup_append, hl]
  simp [List.lookup, hb]

theorem argKey_ne (x y : Arg) (h : argKey x.Name ≠ argKey y.Name) :
    ToLower x.Name ≠ ToLower y.Name := fun e => h (by simp [argKey, e])

theorem ArgEffect.sameOutcome_of (e : ArgEffect) (a b a1 b1 : Select) (hab : sameOutcome a b)
    (ha : e.relates a a1) (hb : e.relates b b1) : sameOutcome a1 b1 := by
  obtain ⟨i1, w1, o1, d1, p1⟩ := hab
  obtain ⟨ai, _, aw, ao, ad, al, af⟩ := ha
  obtain ⟨bi, _, bw, bo, bd, bl, bf⟩ := hb
  refine ⟨by rw [ai, bi, i1], aw.trans ((List.Perm.append_left _ w1).trans bw.symm),
    by rw [ao, bo, o1], by rw [ad, bd, d1], ?_⟩
  have hl : a1.Paging.Limit = b1.Paging.Limit := by rw [al, bl, p1]
  have hf : a1.Paging.Offset = b1.Paging.Offset := by rw [af, bf, p1]
  cases hpa : a1.Paging
  cases hpb : b1.Paging
  simp_all

/-- Two arguments with different names can be compiled in either order. -/
theorem ArgEffect.commute (ex ey : ArgEffect) (kx ky : String) (hk : kx ≠ ky)
    (hwx : ex.within kx) (hwy : ey.within ky) (a a1 a1n a2 b b1 b1n b2 : Select)
    (hab : sameOutcome a b) (h1 : ey.relates a a1)
    (ha : a1n.ID = a1.ID ∧ a1n.Where = a1.Where ∧ a1n.OrderBy = a1.OrderBy ∧
      a1n.DistinctOn = a1.DistinctOn ∧ a1n.Paging = a1.Paging)
    (h2 : ex.relates a1n a2) (h3 : ex.relates b b1)
    (hb : b1n.ID = b1.ID ∧ b1n.Where = b1.Where ∧ b1n.OrderBy = b1.OrderBy ∧
      b1n.DistinctOn = b1.DistinctOn ∧ b1n.Paging = b1.Paging)
    (h4 : ey.relates b1n b2) : sameOutcome a2 b2 := by
  obtain ⟨i0, w0, o0, d0, p0⟩ := hab
  obtain ⟨i1, _, w1, o1, d1, l1, f1⟩ := h1
  obtain ⟨i2, _, w2, o2, d2, l2, f2⟩ := h2
  obtain ⟨i3, _, w3, o3, d3, l3, f3⟩ := h3
  obtain ⟨i4, _, w4, o4, d4, l4, f4⟩ := h4
  obtain ⟨ai, aw, ao, ad, ap⟩ := ha
  obtain ⟨bi, bw, bo, bd, bp⟩ := hb
  obtain ⟨xo, xd, xl, xf⟩ := hwx
  obtain ⟨yo, yd, yl, yf⟩ := hwy
  rw [aw] at w2
  rw [bw] at w4
  rw [ao, o1] at o2
  rw [bo, o3] at o4
  rw [ad, d1] at d2
  rw [bd, d3] at d4
  rw [ap, l1] at l2
  rw [bp, l3] at l4
  rw [ap, f1] at f2
  rw [bp, f3] at f4
  refine ⟨by rw [i2, ai, i1, i4, bi, i3, i0], ?_, ?_, ?_, ?_⟩
  · have p1 := w2.trans (List.Perm.append_left _ w1)
    have p2 := w4.trans (List.Perm.append_left _ w3)
    refine p1.trans (List.Perm.trans ?_ p2.symm)
    rw [← List.append_assoc, ← List.append_assoc]
    exact List.Perm.append List.perm_append_comm w0
  · rw [o2, o4, o0]
    by_cases hx : ex.ob = []
    · simp [hx]
    · by_cases hy : ey.ob = []
      · simp [hy]
      · exact absurd ((xo hx).trans (yo hy).symm) hk
  · rw [d2, d4, d0]
    by_cases hx : ex.dist = []
    · simp [hx]
    · by_cases hy : ey.dist = []
      · simp [hy]
      · exact absurd ((xd hx).trans (yd hy).symm) hk
  · have hl : a2.Paging.Limit = b2.Paging.Limit := by
      rw [l2, l4, p0]
      cases hx : ex.limit with
      | none => cases hy : ey.limit <;> rfl
      | some v =>
        cases hy : ey.limit with
        | none => rfl
        | some u =>
          exact absurd ((xl (by simp [hx])).trans (yl (by simp [hy])).symm) hk
    have hf : a2.Paging.Offset = b2.Paging.Offset := by
      rw [f2, f4, p0]
      cases hx : ex.offset with
      | none => cases hy : ey.offset <;> rfl
      | some v =>
        cases hy : ey.offset with
        | none => rfl
        | some u =>
          exact absurd ((xf (by simp [hx])).trans (yf (by simp [hy])).symm) hk
    cases hpa : a2.Paging
    cases hpb : b2.Paging
    simp_all

/-- One step of the loop of `compileArgs` from two selects with the same
outcome so far. -/
theorem compileArgsLoop_step (com : Compiler) (x : Arg) (a b a1 : Select)
    (hab : sameOutcome a b) (hid : a.ID = 0 → ToLower x.Name ≠ "id")
    (hwh : ToLower x.Name = "where" → com.compileArgObj x ≠ Result.ok none)
    (h : com.compileArg a (ToLower x.Name) x = Result.ok a1) :
    ∃ (e : ArgEffect) (b1 : Select), e.within (argKey x.Name) ∧
      com.compileArg b (ToLower x.Name) x = Result.ok b1 ∧
      e.relates a a1 ∧ e.relates b b1 := by
  obtain ⟨e, hw, hall⟩ := compileArg_effect com _ x a a1 hid hwh h
  obtain ⟨a1n, ha1, hra⟩ := hall a hid
  rw [h] at ha1
  cases ha1
  obtain ⟨b1, hb1, hrb⟩ := hall b (fun h0 => hid (hab.1.trans h0))
  exact ⟨e, b1, hw, hb1, hra, hrb⟩

theorem compileArgsLoop_congr (com : Compiler) :
    ∀ (l : List Arg) (a b ra : Select), sameOutcome a b →
      (∀ x ∈ l, a.Args.lookup (ToLower x.Name) = none) →
      (∀ x ∈ l, b.Args.lookup (ToLower x.Name) = none) →
      (l.map (fun x => argKey x.Name)).Nodup →
      (a.ID = 0 → ∀ x ∈ l, ToLower x.Name ≠ "id") →
      (∀ x ∈ l, ToLower x.Name = "where" → com.compileArgObj x ≠ Result.ok none) →
      com.compileArgsLoop a (l.map some) = Result.ok ra →
      ∃ rb, com.compileArgsLoop b (l.map some) = Result.ok rb ∧ sameOutcome ra rb
  | [], a, b, ra, hab, _, _, _, _, _, h => by
    simp only [List.map_nil, Compiler.compileArgsLoop] at h
    cases h
    exact ⟨b, rfl, hab⟩
  | x :: l, a, b, ra, hab, hfa, hfb, hk, hid, hwh, h => by
    have hx := List.mem_cons_self x l
    rw [List.map_cons, compileArgsLoop_cons com a x _ (hfa x hx)] at h
    rw [List.map_cons, List.nodup_cons] at hk
    split at h
    · rename_i a1 ha1
      obtain ⟨e, b1, _, hb1, hra, hrb⟩ := compileArgsLoop_step com x a b a1 hab
        (fun h0 => hid h0 x hx) (hwh x hx) ha1
      have hne : ∀ y ∈ l, ToLower y.Name ≠ ToLower x.Name := fun y hy =>
        argKey_ne y x (fun e1 => hk.1 (by rw [← e1]; exact List.mem_map_of_mem _ hy))
      rw [List.map_cons, compileArgsLoop_cons com b x _ (hfb x hx), hb1]
      simp only
      have hab1 : sameOutcome { a1 with Args := a1.Args ++ [(ToLower x.Name, x.Val)] }
          { b1 with Args := b1.Args ++ [(ToLower x.Name, x.Val)] } :=
        e.sameOutcome_of a b a1 b1 hab hra hrb
      refine compileArgsLoop_congr com l
        { a1 with Args := a1.Args ++ [(ToLower x.Name, x.Val)] }
        { b1 with Args := b1.Args ++ [(ToLower x.Name, x.Val)] } ra hab1 ?_ ?_ hk.2 ?_
        (fun y hy => hwh y (List.mem_cons_of_mem _ hy)) h
      · intro y hy
        have h1 := hfa y (List.mem_cons_of_mem _ hy)
        rw [← hra.2.1] at h1
        exact lookup_snoc_ne _ _ _ _ (hne y hy) h1
      · intro y hy
        have h1 := hfb y (List.mem_cons_of_mem _ hy)
        rw [← hrb.2.1] at h1
        exact lookup_snoc_ne _ _ _ _ (hne y hy) h1
      · intro h0 y hy
        exact hid (hra.1 ▸ h0) y (List.mem_cons_of_mem _ hy)
    · cases h
    · cases h
    · cases h

end qcode

namespace qcode

open GoStr

theorem compileArgsLoop_perm (com : Compiler) {l1 l2 : List Arg} (hp : l1.Perm l2) :
    ∀ (a b ra : Select), sameOutcome a b →
      (∀ x ∈ l1, a.Args.lookup (ToLower x.Name) = none) →
      (∀ x ∈ l2, b.Args.lookup (ToLower x.Name) = none) →
      (l1.map (fun x => argKey x.Name)).Nodup →
      (a.ID = 0 → ∀ x ∈ l1, ToLower x.Name ≠ "id") →
      (∀ x ∈ l1, ToLower x.Name = "where" → com.compileArgObj x ≠ Result.ok none) →
      com.compileArgsLoop a (l1.map some) = Result.ok ra →
      ∃ rb, com.compileArgsLoop b (l2.map some) = Result.ok rb ∧ sameOutcome ra rb := by
  induction hp with
  | nil =>
    intro a b ra hab _ _ _ _ _ h
    simp only [List.map_nil, Compiler.compileArgsLoop] at h
    cases h
    exact ⟨b, rfl, hab⟩
  | @cons x l l' _ ih =>
    intro a b ra hab hfa hfb hk hid hwh h
    have hx := List.mem_cons_self x l
    have hx' := List.mem_cons_self x l'
    rw [List.map_cons, compileArgsLoop_cons com a x _ (hfa x hx)] at h
    rw [List.map_cons, List.nodup_cons] at hk
    split at h
    · rename_i a1 ha1
      obtain ⟨e, b1, _, hb1, hra, hrb⟩ := compileArgsLoop_step com x a b a1 hab
        (fun h0 => hid h0 x hx) (hwh x hx) ha1
      have hne : ∀ y ∈ l, ToLower y.Name ≠ ToLower x.Name := fun y hy =>
        argKey_ne y x (fun e1 => hk.1 (by rw [← e1]; exact List.mem_map_of_mem _ hy))
      rw [List.map_cons, compileArgsLoop_cons com b x _ (hfb x hx'), hb1]
      simp only
      have hab1 : sameOutcome { a1 with Args := a1.Args ++ [(ToLower x.Name, x.Val)] }
          { b1 with Args := b1.Args ++ [(ToLower x.Name, x.Val)] } :=
        e.sameOutcome_of a b a1 b1 hab hra hrb
      refine ih { a1 with Args := a1.Args ++ [(ToLower x.Name, x.Val)] }
        { b1 with Args := b1.Args ++ [(ToLower x.Name, x.Val)] } ra hab1 ?_ ?_ hk.2 ?_
        (fun y hy => hwh y (List.mem_cons_of_mem _ hy)) h
      · intro y hy
        have h1 := hfa y (List.mem_cons_of_mem _ hy)
        rw [← hra.2.1] at h1
        exact lookup_snoc_ne _ _ _ _ (hne y hy) h1
      · intro y hy
        have hy1 : y ∈ l := (List.Perm.mem_iff ‹l.Perm l'›).2 hy
        have h1 := hfb y (List.mem_cons_of_mem _ hy)
        rw [← hrb.2.1] at h1
        exact lookup_snoc_ne _ _ _ _ (hne y hy1) h1
      · intro h0 y hy
        exact hid (hra.1 ▸ h0) y (List.mem_cons_of_mem _ hy)
    · cases h
    · cases h
    · cases h
  | swap x y l =>
    intro a b ra hab hfa hfb hk hid hwh h
    have hya : y ∈ y :: x :: l := List.mem_cons_self _ _
    have hxa : x ∈ y :: x :: l := List.mem_cons_of_mem _ (List.mem_cons_self _ _)
    have hxb : x ∈ x :: y :: l := List.mem_cons_self _ _
    have hyb : y ∈ x :: y :: l := List.mem_cons_of_mem _ (List.mem_cons_self _ _)
    simp only [List.map_cons, List.nodup_cons, List.mem_cons, List.mem_map, not_or] at hk
    obtain ⟨⟨hyx, hyl⟩, hxl, hl⟩ := hk
    have hkxy : argKey x.Name ≠ argKey y.Name := fun e => hyx e.symm
    have hnxy : ToLower x.Name ≠ ToLower y.Name := argKey_ne x y hkxy
    have hnl : ∀ z ∈ l, ToLower z.Name ≠ ToLower x.Name ∧ ToLower z.Name ≠ ToLower y.Name :=
      fun z hz => ⟨argKey_ne z x (fun e1 => hxl ⟨z, hz, e1⟩),
        argKey_ne z y (fun e1 => hyl ⟨z, hz, e1⟩)⟩
    rw [List.map_cons, compileArgsLoop_cons com a y _ (hfa y hya)] at h
    split at h
    · rename_i a1 ha1
      have hidy : a.ID = 0 → ToLower y.Name ≠ "id" := fun h0 => hid h0 y hya
      obtain ⟨ey, hwy, hally⟩ := compileArg_effect com _ y a a1 hidy (hwh y hya) ha1
      obtain ⟨a1n, ha1n, hra1⟩ := hally a hidy
      rw [ha1] at ha1n
      cases ha1n
      have hfx : (a1.Args ++ [(ToLower y.Name, y.Val)]).lookup (ToLower x.Name) = none := by
        have h1 := hfa x hxa
        rw [← hra1.2.1] at h1
        exact lookup_snoc_ne _ _ _ _ hnxy h1
      rw [List.map_cons, compileArgsLoop_cons com _ x _ hfx] at h
      split at h
      · rename_i a2 ha2
        have hidx : a1.ID = 0 → ToLower x.Name ≠ "id" := fun h0 => hid (hra1.1 ▸ h0) x hxa
        obtain ⟨ex, hwx, hallx⟩ := compileArg_effect com _ x
          { a1 with Args := a1.Args ++ [(ToLower y.Name, y.Val)] } a2 hidx (hwh x hxa) ha2
        obtain ⟨a2n, ha2n, hra2⟩ := hallx { a1 with Args := a1.Args ++ [(ToLower y.Name, y.Val)] }
          hidx
        rw [ha2] at ha2n
        cases ha2n
        obtain ⟨b1, hb1, hrb1⟩ := hallx b (fun h0 => hid (hab.1.trans h0) x hxa)
        have hfy : (b1.Args ++ [(ToLower x.Name, x.Val)]).lookup (ToLower y.Name) = none := by
          have h1 := hfb y hyb
          rw [← hrb1.2.1] at h1
          exact lookup_snoc_ne _ _ _ _ hnxy.symm h1
        obtain ⟨b2, hb2, hrb2⟩ := hally { b1 with Args := b1.Args ++ [(ToLower x.Name, x.Val)] }
          (fun h0 => hid (hab.1.trans (hrb1.1 ▸ h0)) y hya)
        rw [List.map_cons, compileArgsLoop_cons com b x _ (hfb x hxb), hb1]
        simp only
        rw [List.map_cons, compileArgsLoop_cons com _ y _ hfy, hb2]
        simp only
        have hab2 : sameOutcome { a2 with Args := a2.Args ++ [(ToLower x.Name, x.Val)] }
            { b2 with Args := b2.Args ++ [(ToLower y.Name, y.Val)] } :=
          ArgEffect.commute ex ey _ _ hkxy hwx hwy a a1
            { a1 with Args := a1.Args ++ [(ToLower y.Name, y.Val)] } a2 b b1
            { b1 with Args := b1.Args ++ [(ToLower x.Name, x.Val)] } b2 hab hra1
            ⟨rfl, rfl, rfl, rfl, rfl⟩ hra2 hrb1 ⟨rfl, rfl, rfl, rfl, rfl⟩ hrb2
        refine compileArgsLoop_congr com l
          { a2 with Args := a2.Args ++ [(ToLower x.Name, x.Val)] }
          { b2 with Args := b2.Args ++ [(ToLower y.Name, y.Val)] } ra hab2 ?_ ?_ hl ?_
          (fun z hz => hwh z (List.mem_cons_of_mem _ (List.mem_cons_of_mem _ hz))) h
        · intro z hz
          have h1 := hfa z (List.mem_cons_of_mem _ (List.mem_cons_of_mem _ hz))
          rw [← hra1.2.1] at h1
          have h2 := lookup_snoc_ne _ (ToLower y.Name) _ y.Val (hnl z hz).2 h1
          have h3 : a2.Args = a1.Args ++ [(ToLower y.Name, y.Val)] := hra2.2.1
          rw [← h3] at h2
          exact lookup_snoc_ne _ _ _ _ (hnl z hz).1 h2
        · intro z hz
          have h1 := hfb z (List.mem_cons_of_mem _ (List.mem_cons_of_mem _ hz))
          rw [← hrb1.2.1] at h1
          have h2 := lookup_snoc_ne _ (ToLower x.Name) _ x.Val (hnl z hz).1 h1
          have h3 : b2.Args = b1.Args ++ [(ToLower x.Name, x.Val)] := hrb2.2.1
          rw [← h3] at h2
          exact lookup_snoc_ne _ _ _ _ (hnl z hz).2 h2
        · intro h0 z hz
          have h3 : a2.ID = a1.ID := hra2.1
          exact hid (hra1.1 ▸ h3 ▸ h0) z (List.mem_cons_of_mem _ (List.mem_cons_of_mem _ hz))
      · cases h
      · cases h
      · cases h
    · cases h
    · cases h
    · cases h
  | @trans l1 l2 l3 hp1 hp2 ih1 ih2 =>
    intro a b ra hab hfa hfb hk hid hwh h
    have hfa2 : ∀ x ∈ l2, a.Args.lookup (ToLower x.Name) = none :=
      fun x hx => hfa x ((List.Perm.mem_iff hp1).2 hx)
    have hwh2 : ∀ x ∈ l2, ToLower x.Name = "where" → com.compileArgObj x ≠ Result.ok none :=
      fun x hx => hwh x ((List.Perm.mem_iff hp1).2 hx)
    obtain ⟨rm, hrm, hram⟩ := ih1 a a ra
      ⟨rfl, List.Perm.refl _, rfl, rfl, rfl⟩ hfa hfa2 hk hid hwh h
    have hk2 : (l2.map (fun x => argKey x.Name)).Nodup :=
      (List.Perm.nodup_iff (hp1.map _)).1 hk
    have hid2 : a.ID = 0 → ∀ x ∈ l2, ToLower x.Name ≠ "id" :=
      fun h0 x hx => hid h0 x ((List.Perm.mem_iff hp1).2 hx)
    obtain ⟨rb, hrb, hrmb⟩ := ih2 a b rm hab hfa2 hfb hk2 hid2 hwh2 hrm
    obtain ⟨i1, w1, o1, d1, p1⟩ := hram
    obtain ⟨i2, w2, o2, d2, p2⟩ := hrmb
    exact ⟨rb, hrb, i1.trans i2, w1.trans w2, o1.trans o2, d1.trans d2, p1.trans p2⟩


/-- What one argument leaves in `Where`: the filter with the expression of the
argument And-ed in front of it. -/
theorem compileArg_where_shape (com : Compiler) (x : Arg) (a a1 : Select)
    (hid : a.ID = 0 → ToLower x.Name ≠ "id")
    (hwh : ToLower x.Name = "where" → com.compileArgObj x ≠ Result.ok none)
    (h : com.compileArg a (ToLower x.Name) x = Result.ok a1) :
    a1.Where = (argExps com x).foldl andOnto a.Where := by
  unfold argExps
  unfold Compiler.compileArg at h
  split at h
  · rename_i h1
    have h2 : ¬ ToLower x.Name = "search" := by rw [h1]; decide
    have h3 : ¬ ToLower x.Name = "where" := by rw [h1]; decide
    rw [if_neg h2, if_neg h3]
    split at h
    · rename_i h0
      exact absurd h1 (hid h0)
    · cases h
      rfl
  · split at h
    · rename_i h2
      rw [if_pos h2]
      cases h
      unfold Compiler.compileArgSearch
      simp only [List.foldl_cons, List.foldl_nil, andOnto]
      cases a.Where <;> rfl
    · rename_i h2
      rw [if_neg h2]
      split at h
      · rename_i h3
        rw [if_pos h3]
        unfold Compiler.compileArgWhere at h
        split at h
        · cases h
        · cases h
        · cases h
        · rename_i ex hex
          cases ex with
          | none => exact absurd hex (hwh h3)
          | some e =>
            rw [hex]
            simp only [List.foldl_cons, List.foldl_nil, andOnto]
            split at h <;> cases h <;> rename_i hw <;> simp only [hw]
      · rename_i h3
        rw [if_neg h3]
        simp only [List.foldl_nil]
        split at h
        · unfold Compiler.compileArgOrderBy at h
          split at h
          · cases h
          · split at h
            · cases h; rfl
            · cases h
            · cases h
            · cases h
        · split at h
          · unfold Compiler.compileArgDistinctOn at h
            simp only at h
            split at h
            · cases h; rfl
            · split at h
              · cases h
              · cases h; rfl
          · split at h
            · unfold Compiler.compileArgLimit at h
              split at h
              · cases h
              · cases h; rfl
            · split at h
              · unfold Compiler.compileArgOffset at h
                split at h
                · cases h
                · cases h; rfl
              · cases h; rfl

/-- The filter after the loop of `compileArgs`: the expressions of the arguments
are And-ed in front of the filter one after the other, in the order of the
arguments. -/
theorem compileArgsLoop_where (com : Compiler) :
    ∀ (l : List Arg) (a r : Select),
      (∀ x ∈ l, a.Args.lookup (ToLower x.Name) = none) →
      (l.map (fun x => argKey x.Name)).Nodup →
      (a.ID = 0 → ∀ x ∈ l, ToLower x.Name ≠ "id") →
      (∀ x ∈ l, ToLower x.Name = "where" → com.compileArgObj x ≠ Result.ok none) →
      com.compileArgsLoop a (l.map some) = Result.ok r →
      r.Where = (l.flatMap (argExps com)).foldl andOnto a.Where
  | [], a, r, _, _, _, _, h => by
    simp only [List.map_nil, Compiler.compileArgsLoop] at h
    cases h
    rfl
  | x :: l, a, r, hfa, hk, hid, hwh, h => by
    have hx := List.mem_cons_self x l
    rw [List.map_cons, compileArgsLoop_cons com a x _ (hfa x hx)] at h
    rw [List.map_cons, List.nodup_cons] at hk
    split at h
    · rename_i a1 ha1
      have hshape := compileArg_where_shape com x a a1 (fun h0 => hid h0 x hx) (hwh x hx) ha1
      obtain ⟨e, _, hall⟩ := compileArg_effect com _ x a a1 (fun h0 => hid h0 x hx) (hwh x hx) ha1
      obtain ⟨a1n, ha1n, hra⟩ := hall a (fun h0 => hid h0 x hx)
      rw [ha1] at ha1n
      cases ha1n
      have hne : ∀ y ∈ l, ToLower y.Name ≠ ToLower x.Name := fun y hy =>
        argKey_ne y x (fun e1 => hk.1 (by rw [← e1]; exact List.mem_map_of_mem _ hy))
      have := compileArgsLoop_where com l
        { a1 with Args := a1.Args ++ [(ToLower x.Name, x.Val)] } r ?_ hk.2 ?_
        (fun y hy => hwh y (List.mem_cons_of_mem _ hy)) h
      · rw [this, List.flatMap_cons, List.foldl_append]
        simp only [hshape]
      · intro y hy
        have h1 := hfa y (List.mem_cons_of_mem _ hy)
        rw [← hra.2.1] at h1
        exact lookup_snoc_ne _ _ _ _ (hne y hy) h1
      · intro h0 y hy
        exact hid (hra.1 ▸ h0) y (List.mem_cons_of_mem _ hy)
    · cases h
    · cases h
    · cases h

/-- C11 (amended): for two argument lists that are permutations of each other,
with pairwise distinct argument names (lower-cased, the aliases of one argument
taken as one name), without an argument `id` when the select has ID 0 and with
no `where` argument that compiles to nil: if `compileArgs` succeeds on the one
it succeeds on the other; each of the two filters is the filter of the select
with the expressions of the arguments (the `TsQuery` of `search`, the
expression of `where`) And-ed in front of it one after the other, in the order
of the list, so that the two filters have the same conjuncts, nil children
included, up to their order; and `OrderBy`, `DistinctOn` and `Paging` are
equal. -/
theorem compileArgs_permutation (com : Compiler) (sel r1 : Select) (l1 l2 : List Arg)
    (hp : l1.Perm l2) (hk : (l1.map (fun x => argKey x.Name)).Nodup)
    (hid : sel.ID = 0 → ∀ x ∈ l1, ToLower x.Name ≠ "id")
    (hwh : ∀ x ∈ l1, ToLower x.Name = "where" → com.compileArgObj x ≠ Result.ok none)
    (h : com.compileArgs sel (l1.map some) = Result.ok r1) :
    ∃ r2, com.compileArgs sel (l2.map some) = Result.ok r2 ∧
      r1.Where = (l1.flatMap (argExps com)).foldl andOnto sel.Where ∧
      r2.Where = (l2.flatMap (argExps com)).foldl andOnto sel.Where ∧
      (l1.flatMap (argExps com)).Perm (l2.flatMap (argExps com)) ∧
      (whereConjuncts r1.Where).Perm (whereConjuncts r2.Where) ∧
      r1.OrderBy = r2.OrderBy ∧ r1.DistinctOn = r2.DistinctOn ∧ r1.Paging = r2.Paging := by
  unfold Compiler.compileArgs at h ⊢
  obtain ⟨r2, h2, _, hw, ho, hd, hpg⟩ := compileArgsLoop_perm com hp { sel with Args := [] }
    { sel with Args := [] } r1 ⟨rfl, List.Perm.refl _, rfl, rfl, rfl⟩
    (fun _ _ => rfl) (fun _ _ => rfl) hk hid hwh h
  have hk2 : (l2.map (fun x => argKey x.Name)).Nodup := (List.Perm.nodup_iff (hp.map _)).1 hk
  have e1 := compileArgsLoop_where com l1 { sel with Args := [] } r1 (fun _ _ => rfl) hk hid hwh h
  have e2 := compileArgsLoop_where com l2 { sel with Args := [] } r2 (fun _ _ => rfl) hk2
    (fun h0 x hx => hid h0 x ((List.Perm.mem_iff hp).2 hx))
    (fun x hx => hwh x ((List.Perm.mem_iff hp).2 hx)) h2
  exact ⟨r2, h2, e1, e2, hp.flatMap_right _, hw, ho, hd, hpg⟩

/-- C11 (witness): the arguments `where: { name: { eq: "x" } }` and
`search: "rust"` of a select `users`, in both orders: the filter is
`And[TsQuery, name = 'x']` for the one and `And[name = 'x', TsQuery]` for the
other. -/
theorem compileArgs_permutation_witness :
    ([Examples.argWhereName, Examples.argSearch].Perm [Examples.argSearch, Examples.argWhereName] ∧
      ([Examples.argWhereName, Examples.argSearch].map (fun x => argKey x.Name)).Nodup ∧
      Examples.com.compileArgObj Examples.argWhereName = Result.ok (some Examples.eqNameX)) ∧
    ∃ r2, Examples.com.compileArgs (newSelect Examples.inflect 0 (Examples.leaf 0 "users"))
        ([Examples.argSearch, Examples.argWhereName].map some) = Result.ok r2 ∧
      some (andPair (some Examples.tsRust) (some Examples.eqNameX))
        = ([Examples.argWhereName, Examples.argSearch].flatMap (argExps Examples.com)).foldl
            andOnto none ∧
      r2.Where = some (andPair (some Examples.eqNameX) (some Examples.tsRust)) ∧
      (whereConjuncts (some (andPair (some Examples.tsRust) (some Examples.eqNameX)))).Perm
        (whereConjuncts r2.Where) :=
  ⟨⟨List.Perm.swap _ _ _, by decide, rfl⟩, by
    obtain ⟨r2, h2, h3, h4, _, hw, _⟩ := compileArgs_permutation Examples.com
      (newSelect Examples.inflect 0 (Examples.leaf 0 "users"))
      { newSelect Examples.inflect 0 (Examples.leaf 0 "users") with
        Args := [("where", Examples.argWhereName.Val), ("search", Examples.argSearch.Val)],
        Where := some (andPair (some Examples.tsRust) (some Examples.eqNameX)) }
      [Examples.argWhereName, Examples.argSearch] [Examples.argSearch, Examples.argWhereName]
      (List.Perm.swap _ _ _) (by decide)
      (fun _ => by decide)
      (fun x hx hw => by
        rcases List.mem_cons.mp hx with rfl | hx1
        · exact fun hn => by cases hn
        · rw [List.mem_singleton] at hx1
          subst hx1
          exact absurd hw (by decide))
      rfl
    exact ⟨r2, h2, h3, h4.trans rfl, hw⟩⟩

/-- C11 (counterexample): three pairs of argument lists with pairwise distinct
names whose order changes the outcome.  On the select with ID 0,
`where: { name: { eq: "x" } }` then `id: 5` gives the filter `EqID` alone
(`compileArgID` overwrites the filter) and `id` then `where` gives
`And[name = 'x', EqID]`.  With `password` blacklisted,
`where: { password: { eq: "x" } }` compiles to nil: after `search: "rust"` it
gives `And[nil, TsQuery]`, before it `TsQuery` alone.  And the aliases `order`
and `order_by` both append to `OrderBy`, in the order of the arguments. -/
theorem compileArgs_order_changes_outcome :
    (([Examples.argWhereName, Examples.argID5].map (fun x => ToLower x.Name)).Nodup ∧
      ((Examples.com.compileArgs (newSelect Examples.inflect 0 (Examples.leaf 0 "users"))
          [some Examples.argWhereName, some Examples.argID5]).toOption.map
            (fun s => s.Where)) = some (some Examples.eqID5) ∧
      ((Examples.com.compileArgs (newSelect Examples.inflect 0 (Examples.leaf 0 "users"))
          [some Examples.argID5, some Examples.argWhereName]).toOption.map
            (fun s => s.Where))
        = some (some (andPair (some Examples.eqNameX) (some Examples.eqID5)))) ∧
    (([Examples.argSearch, Examples.argWhereBlacklisted].map
        (fun x => ToLower x.Name)).Nodup ∧
      Examples.com.compileArgObj Examples.argWhereBlacklisted = Result.ok none ∧
      ((Examples.com.compileArgs (newSelect Examples.inflect 1 (Examples.leaf 0 "users"))
          [some Examples.argSearch, some Examples.argWhereBlacklisted]).toOption.map
            (fun s => s.Where)) = some (some (andPair none (some Examples.tsRust))) ∧
      ((Examples.com.compileArgs (newSelect Examples.inflect 1 (Examples.leaf 0 "users"))
          [some Examples.argWhereBlacklisted, some Examples.argSearch]).toOption.map
            (fun s => s.Where)) = some (some Examples.tsRust)) ∧
    (([Examples.argOrderName, Examples.argOrderByID].map (fun x => ToLower x.Name)).Nodup ∧
      ((Examples.com.compileArgs (newSelect Examples.inflect 1 (Examples.leaf 0 "users"))
          [some Examples.argOrderName, some Examples.argOrderByID]).toOption.map
            (fun s => s.OrderBy))
        = some [⟨"name", Order.OrderAsc⟩, ⟨"id", Order.OrderDesc⟩] ∧
      ((Examples.com.compileArgs (newSelect Examples.inflect 1 (Examples.leaf 0 "users"))
          [some Examples.argOrderByID, some Examples.argOrderName]).toOption.map
            (fun s => s.OrderBy))
        = some [⟨"id", Order.OrderDesc⟩, ⟨"name", Order.OrderAsc⟩]) :=
  ⟨⟨by decide, rfl, rfl⟩, ⟨by decide, rfl, rfl, rfl⟩, ⟨by decide, rfl, rfl⟩⟩

end qcode

namespace qcode

open GoStr

/-! ### The heap of `compileQuery` and the trees it encodes -/

theorem Select.subsList_cons (j : Select) (js : List Select) :
    (Select.subsList (j :: js)).length = j.subs.length + (Select.subsList js).length := by
  simp [Select.subsList]

theorem Select.enc_eq (t : Select) (a : Nat) :
    t.enc a = ⟨psql.withJoins t [], childAddrs (a + 1) t.Joins⟩ :: Select.encList t.Joins (a + 1) := by
  cases t
  simp [Select.enc, psql.withJoins]

mutual
theorem Select.enc_length : ∀ (t : Select) (a : Nat), (t.enc a).length = t.subs.length
  | ⟨id, args, asList, table, singular, fieldName, cols, wh, ob, dist, paging, js⟩, a => by
    simp only [Select.enc, Select.subs, List.length_cons, Select.encList_length js (a + 1)]
theorem Select.encList_length :
    ∀ (js : List Select) (b : Nat), (Select.encList js b).length = (Select.subsList js).length
  | [], _ => rfl
  | j :: js, b => by
    simp only [Select.encList, Select.subsList, List.length_append, Select.enc_length j b,
      Select.encList_length js (b + j.subs.length)]
end

theorem Select.subsList_append (xs ys : List Select) :
    Select.subsList (xs ++ ys) = Select.subsList xs ++ Select.subsList ys := by
  induction xs with
  | nil => rfl
  | cons x xs ih => simp [Select.subsList, ih]

theorem Select.encList_append (xs ys : List Select) :
    ∀ (b : Nat), Select.encList (xs ++ ys) b =
      Select.encList xs b ++ Select.encList ys (b + (Select.subsList xs).length) := by
  induction xs with
  | nil => intro b; simp [Select.encList, Select.subsList]
  | cons x xs ih =>
    intro b
    simp [Select.encList, ih, Select.subsList, Nat.add_assoc]

theorem childAddrs_append (xs : List Select) (y : Select) :
    ∀ (b : Nat), childAddrs b (xs ++ [y]) = childAddrs b xs ++ [b + (Select.subsList xs).length] := by
  induction xs with
  | nil => intro b; simp [childAddrs, Select.subsList]
  | cons x xs ih =>
    intro b
    simp [childAddrs, ih, Select.subsList, Nat.add_assoc]

theorem addJoin_length (heap : List Cell) (p a : Nat) : (addJoin heap p a).length = heap.length := by
  simp [addJoin]

theorem addJoin_append_left (h1 h2 : List Cell) (p a : Nat) (hp : p < h1.length) :
    addJoin (h1 ++ h2) p a = addJoin h1 p a ++ h2 := by
  unfold addJoin
  induction h1 generalizing p with
  | nil => simp at hp
  | cons c h1 ih =>
    cases p with
    | zero => simp
    | succ p =>
      simp only [List.cons_append, List.modify_succ_cons, List.cons.injEq, true_and]
      exact ih p (by simpa using hp)

theorem addJoin_at_end (H T : List Cell) (c : Cell) (x : Nat) :
    addJoin (H ++ c :: T) H.length x = H ++ { c with joins := c.joins ++ [x] } :: T := by
  unfold addJoin
  induction H with
  | nil => simp
  | cons d H ih => simp [ih]

theorem foldl_addJoin_length (p : Nat) :
    ∀ (addrs : List Nat) (heap : List Cell),
      (addrs.foldl (fun h x => addJoin h p x) heap).length = heap.length
  | [], _ => rfl
  | x :: addrs, heap => by
    simp only [List.foldl_cons, foldl_addJoin_length p addrs, addJoin_length]

theorem foldl_addJoin_at_end (H T : List Cell) :
    ∀ (addrs : List Nat) (c : Cell),
      addrs.foldl (fun h x => addJoin h H.length x) (H ++ c :: T) =
        H ++ { c with joins := c.joins ++ addrs } :: T
  | [], c => by simp
  | x :: addrs, c => by
    simp only [List.foldl_cons, addJoin_at_end, foldl_addJoin_at_end H T addrs]
    simp

mutual
theorem buildSelect_enc :
    ∀ (t : Select) (H T : List Cell) (n : Nat), t.subs.length ≤ n →
      buildSelect (H ++ t.enc H.length ++ T) n H.length = some t
  | ⟨id, args, asList, table, singular, fieldName, cols, wh, ob, dist, paging, js⟩, H, T, n,
      hn => by
    cases n with
    | zero => simp [Select.subs] at hn
    | succ m =>
      have hm : (Select.subsList js).length ≤ m := by
        simp only [Select.subs, List.length_cons] at hn
        omega
      have hl := buildSelect_encList js
        (H ++ [⟨⟨id, args, asList, table, singular, fieldName, cols, wh, ob, dist, paging, []⟩,
          childAddrs (H.length + 1) js⟩]) T m hm
      simp only [List.length_append, List.length_singleton, List.append_assoc,
        List.singleton_append] at hl
      simp only [buildSelect, Select.enc, List.append_assoc, List.cons_append]
      rw [List.getElem?_append_right (le_refl _)]
      simp only [Nat.sub_self, List.getElem?_cons_zero]
      simp only [List.cons_append] at hl
      rw [hl]
theorem buildSelect_encList :
    ∀ (js : List Select) (H T : List Cell) (m : Nat), (Select.subsList js).length ≤ m →
      (childAddrs H.length js).filterMap
        (buildSelect (H ++ Select.encList js H.length ++ T) m) = js
  | [], _, _, _, _ => rfl
  | j :: js, H, T, m, hm => by
    rw [Select.subsList_cons] at hm
    have h1 := buildSelect_enc j H (Select.encList js (H.length + j.subs.length) ++ T) m
      (by omega)
    have h2 := buildSelect_encList js (H ++ j.enc H.length) T m (by omega)
    simp only [List.length_append, Select.enc_length, List.append_assoc] at h1 h2
    simp only [childAddrs, Select.encList, List.append_assoc, List.filterMap_cons, h1, h2]
end

end qcode

namespace qcode

open GoStr

theorem TreeOf_eq (com : Compiler) (inf : Inflect) (f : Field) (t : Select) :
    TreeOf com inf f t ↔
      cellFrom com inf f (psql.withJoins t []) ∧ TreesOf com inf f.Children t.Joins := by
  cases f
  simp [TreeOf]

theorem Field.ids_eq (f : Field) : f.ids = f.ID :: Field.idsList f.Children := by
  cases f
  rfl

theorem Field.wellNumbered_eq (f : Field) :
    f.wellNumbered =
      (!(Field.idsList f.Children).contains f.ID && Field.wellNumberedList f.Children) := by
  cases f
  rfl

theorem childrenLoop_skip (com : Compiler) (g : Field) (rest : List Field)
    (h : com.bl.contains (ToLower g.Name) = true ∨ g.Children.isEmpty = true) :
    (childrenLoop com (g :: rest)).2 = (childrenLoop com rest).2 := by
  simp only [childrenLoop]
  split
  · rfl
  · rename_i hb
    rcases h with h | h
    · exact absurd h hb
    · simp [h]

theorem childrenLoop_push (com : Compiler) (g : Field) (rest : List Field)
    (h : ¬ (com.bl.contains (ToLower g.Name) = true ∨ g.Children.isEmpty = true)) :
    (childrenLoop com (g :: rest)).2 = g :: (childrenLoop com rest).2 := by
  obtain ⟨h1, h2⟩ := not_or.mp h
  have h3 : com.bl.contains (ToLower g.Name) = false := by simpa using h1
  have h4 : g.Children.isEmpty = false := by simpa using h2
  simp only [childrenLoop, h3, h4, Bool.false_eq_true, if_false]

theorem withJoins_nil_self (s : Select) (ts : List Select) (h : s.Joins = []) :
    psql.withJoins { s with Joins := ts } [] = s := by
  cases s
  simp_all [psql.withJoins]

theorem heap_after_kids (H : List Cell) (s2 : Select) (ts : List Select) (a : Nat)
    (ha : H.length = a) (hj : s2.Joins = []) :
    (childAddrs (H ++ [(⟨s2, []⟩ : Cell)]).length ts).foldl (fun h x => addJoin h a x)
        (H ++ [(⟨s2, []⟩ : Cell)]) ++ Select.encList ts (H ++ [(⟨s2, []⟩ : Cell)]).length
      = H ++ ({ s2 with Joins := ts } : Select).enc a := by
  subst ha
  rw [foldl_addJoin_at_end H [] _ ⟨s2, []⟩, Select.enc_eq, withJoins_nil_self s2 ts hj]
  simp

mutual
/-- The walk of `compileQuery` over a field and the fields below it: when the
loop ends well, it has added to the heap the tree of the field, and appended
its address to the children of its parent. -/
theorem compileQueryLoop_field (com : Compiler) (inf : Inflect) :
    ∀ (f : Field) (parent : Option Nat) (st : List (Field × Option Nat)) (q qf : QState)
      (fuel : Nat),
      f.wellNumbered = true → com.bl.contains (ToLower f.Name) = false →
      (∀ pid, parent = some pid →
        pid ≠ f.ID ∧ ∃ pa, q.fs[pid]? = some (some pa) ∧ pa < q.heap.length) →
      compileQueryLoop com inf fuel ((f, parent) :: st) q = Result.ok qf →
      ∃ q1 t fuel1, compileQueryLoop com inf fuel1 st q1 = Result.ok qf ∧ TreeOf com inf f t ∧
        (∃ H, H.length = q.heap.length ∧ q1.heap = H ++ t.enc q.heap.length ∧
          (parent = none → H = q.heap) ∧
          (∀ pid pa, parent = some pid → q.fs[pid]? = some (some pa) →
            H = addJoin q.heap pa q.heap.length)) ∧
        (∀ i, i ∉ f.ids → q1.fs[i]? = q.fs[i]?) ∧
        q1.selRoot = (match parent with
          | none => some q.heap.length
          | some _ => q.selRoot)
  | ⟨id, name, al, args, cs⟩, parent, st, q, qf, fuel, hwf, hbl, hpar, h => by
    simp only [Field.wellNumbered, Bool.and_eq_true, Bool.not_eq_true'] at hwf
    obtain ⟨hid, hwfs⟩ := hwf
    have hid1 : id ∉ Field.idsList cs := by simpa using hid
    cases fuel with
    | zero => simp [compileQueryLoop] at h
    | succ n =>
      rw [compileQueryLoop] at h
      simp only [hbl, Bool.false_eq_true, if_false] at h
      split at h
      · cases h
      · rename_i hlen
        have hlen1 : id < q.fs.length := by simpa using hlen
        split at h
        · cases h
        · cases h
        · cases h
        · rename_i s1 hs1
          have hj : ({ s1 with Cols := s1.Cols ++ (childrenLoop com cs).1 } : Select).Joins = [] :=
            (compileArgs_sameCore com _ _ s1 hs1).2.2.2.2.2.2
          have hcell : cellFrom com inf ⟨id, name, al, args, cs⟩
              { s1 with Cols := s1.Cols ++ (childrenLoop com cs).1 } := ⟨q.id, s1, hs1, rfl⟩
          have hfsid : (q.fs.set id (some q.heap.length))[id]? = some (some q.heap.length) :=
            List.getElem?_set_self hlen1
          have hfsne : ∀ i, i ∉ (⟨id, name, al, args, cs⟩ : Field).ids → i ∉ Field.idsList cs ∧
              (q.fs.set id (some q.heap.length))[i]? = q.fs[i]? := by
            intro i hi
            simp only [Field.ids, List.mem_cons, not_or] at hi
            exact ⟨hi.2, List.getElem?_set_ne (fun e => hi.1 e.symm)⟩
          split at h
          · obtain ⟨q1, ts, fuel1, hl, htrees, hheap, hfs, hroot⟩ :=
              compileQueryLoop_kids com inf cs id q.heap.length st _ qf n hwfs hid1 hfsid
                (by simp) h
            refine ⟨q1, { s1 with Cols := s1.Cols ++ (childrenLoop com cs).1, Joins := ts },
              fuel1, hl, ?_, ⟨q.heap, rfl, ?_, fun _ => rfl, fun _ _ hp => by cases hp⟩, ?_,
              hroot⟩
            · simp only [TreeOf]
              exact ⟨by rw [withJoins_nil_self _ ts hj]; exact hcell, htrees⟩
            · rw [hheap]
              exact heap_after_kids q.heap _ ts q.heap.length rfl hj
            · intro i hi
              rw [hfs i (hfsne i hi).1]
              exact (hfsne i hi).2
          · rename_i pid
            obtain ⟨hne, pa, hpa, hlt⟩ := hpar pid rfl
            have hfspid : (q.fs.set id (some q.heap.length))[pid]? = some (some pa) := by
              rw [List.getElem?_set_ne (fun e => hne e.symm)]
              exact hpa
            rw [hfspid] at h
            simp only at h
            rw [addJoin_append_left _ _ _ _ hlt] at h
            obtain ⟨q1, ts, fuel1, hl, htrees, hheap, hfs, hroot⟩ :=
              compileQueryLoop_kids com inf cs id q.heap.length st _ qf n hwfs hid1 hfsid
                (by simp [addJoin_length]) h
            refine ⟨q1, { s1 with Cols := s1.Cols ++ (childrenLoop com cs).1, Joins := ts },
              fuel1, hl, ?_, ⟨addJoin q.heap pa q.heap.length, addJoin_length _ _ _, ?_,
                (fun hp => by cases hp), fun p1 pa1 hp hpa1 => ?_⟩, ?_, hroot⟩
            · simp only [TreeOf]
              exact ⟨by rw [withJoins_nil_self _ ts hj]; exact hcell, htrees⟩
            · rw [hheap]
              exact heap_after_kids (addJoin q.heap pa q.heap.length) _ ts q.heap.length
                (addJoin_length _ _ _) hj
            · cases hp
              rw [hpa] at hpa1
              cases hpa1
              rfl
            · intro i hi
              rw [hfs i (hfsne i hi).1]
              exact (hfsne i hi).2
/-- The walk of `compileQuery` over the children of a field that are pushed:
their trees come after one another in the heap, the tree of the last child
first, and their addresses are appended to the children of the parent. -/
theorem compileQueryLoop_kids (com : Compiler) (inf : Inflect) :
    ∀ (kids : List Field) (pid pa : Nat) (st : List (Field × Option Nat)) (q qf : QState)
      (fuel : Nat),
      Field.wellNumberedList kids = true → pid ∉ Field.idsList kids →
      q.fs[pid]? = some (some pa) → pa < q.heap.length →
      compileQueryLoop com inf fuel
        (((childrenLoop com kids).2.map (fun f => (f, some pid))).reverse ++ st) q
          = Result.ok qf →
      ∃ q1 ts fuel1, compileQueryLoop com inf fuel1 st q1 = Result.ok qf ∧
        TreesOf com inf kids ts ∧
        q1.heap = (childAddrs q.heap.length ts).foldl (fun h x => addJoin h pa x) q.heap ++
          Select.encList ts q.heap.length ∧
        (∀ i, i ∉ Field.idsList kids → q1.fs[i]? = q.fs[i]?) ∧ q1.selRoot = q.selRoot
  | [], pid, pa, st, q, qf, fuel, _, _, _, _, h => by
    refine ⟨q, [], fuel, ?_, by simp [TreesOf], by simp [childAddrs, Select.encList],
      fun _ _ => rfl, rfl⟩
    simpa [childrenLoop] using h
  | g :: rest, pid, pa, st, q, qf, fuel, hwf, hpid, hfs, hlt, h => by
    simp only [Field.wellNumberedList, Bool.and_eq_true] at hwf
    simp only [Field.idsList, List.mem_append, not_or] at hpid
    by_cases hskip : com.bl.contains (ToLower g.Name) = true ∨ g.Children.isEmpty = true
    · rw [childrenLoop_skip com g rest hskip] at h
      obtain ⟨q1, ts, fuel1, hl, htrees, hheap, hfs1, hroot⟩ :=
        compileQueryLoop_kids com inf rest pid pa st q qf fuel hwf.2 hpid.2 hfs hlt h
      refine ⟨q1, ts, fuel1, hl, ?_, hheap, fun i hi => hfs1 i ?_, hroot⟩
      · simp only [TreesOf, hskip, if_true]
        exact htrees
      · simp only [Field.idsList, List.mem_append, not_or] at hi
        exact hi.2
    · rw [childrenLoop_push com g rest hskip] at h
      simp only [List.map_cons, List.reverse_cons, List.append_assoc, List.singleton_append] at h
      obtain ⟨q1, ts1, fuel1, hl1, htrees1, hheap1, hfs1, hroot1⟩ :=
        compileQueryLoop_kids com inf rest pid pa ((g, some pid) :: st) q qf fuel hwf.2 hpid.2
          hfs hlt h
      have hbl : com.bl.contains (ToLower g.Name) = false := by
        simpa using (not_or.mp hskip).1
      have hgid : pid ≠ g.ID := by
        have := hpid.1
        rw [Field.ids_eq] at this
        exact fun e => this (e ▸ List.mem_cons_self _ _)
      have hfs1p : q1.fs[pid]? = some (some pa) := by
        rw [hfs1 pid hpid.2]
        exact hfs
      have hlen1 : q1.heap.length = q.heap.length + (Select.subsList ts1).length := by
        rw [hheap1]
        simp [foldl_addJoin_length, Select.encList_length]
      obtain ⟨q2, tg, fuel2, hl2, htree, ⟨H, _, hheap2, _, hH⟩, hfs2, hroot2⟩ :=
        compileQueryLoop_field com inf g (some pid) st q1 qf fuel1 hwf.1 hbl
          (fun p hp => by cases hp; exact ⟨hgid, pa, hfs1p, by omega⟩) hl1
      refine ⟨q2, ts1 ++ [tg], fuel2, hl2, ?_, ?_, ?_, ?_⟩
      · simp only [TreesOf, hskip, if_false]
        exact ⟨ts1, tg, rfl, htrees1, htree⟩
      · rw [hheap2, hH pid pa rfl hfs1p, hlen1, hheap1, childAddrs_append, List.foldl_append,
          Select.encList_append]
        simp only [List.foldl_cons, List.foldl_nil, Select.encList, List.append_nil]
        rw [addJoin_append_left _ _ _ _ (by rw [foldl_addJoin_length]; exact hlt)]
        simp only [List.append_assoc]
      · intro i hi
        simp only [Field.idsList, List.mem_append, not_or] at hi
        rw [hfs2 i hi.1, hfs1 i hi.2]
      · rw [hroot2]
        exact hroot1
end

end qcode

namespace qcode

open GoStr

theorem childrenLoop_fst (com : Compiler) :
    ∀ (kids : List Field), (childrenLoop com kids).1 =
      (kids.filter (fun g => !com.bl.contains (ToLower g.Name) && g.Children.isEmpty)).map
        newColumn
  | [] => rfl
  | g :: rest => by
    have ih := childrenLoop_fst com rest
    simp only [childrenLoop, List.filter_cons]
    cases hb : com.bl.contains (ToLower g.Name) <;> cases he : g.Children.isEmpty <;>
      simp [ih]

theorem nested_filter_skip (com : Compiler) (g : Field) (rest : List Field)
    (h : com.bl.contains (ToLower g.Name) = true ∨ g.Children.isEmpty = true) :
    (g :: rest).filter (fun g => !com.bl.contains (ToLower g.Name) && !g.Children.isEmpty) =
      rest.filter (fun g => !com.bl.contains (ToLower g.Name) && !g.Children.isEmpty) := by
  have hp : (!com.bl.contains (ToLower g.Name) && !g.Children.isEmpty) = false := by
    rcases h with h | h <;> rw [h] <;> simp
  rw [List.filter_cons]
  simp only [hp, Bool.false_eq_true, if_false]

theorem nested_filter_push (com : Compiler) (g : Field) (rest : List Field)
    (h : ¬ (com.bl.contains (ToLower g.Name) = true ∨ g.Children.isEmpty = true)) :
    (g :: rest).filter (fun g => !com.bl.contains (ToLower g.Name) && !g.Children.isEmpty) =
      g :: rest.filter (fun g => !com.bl.contains (ToLower g.Name) && !g.Children.isEmpty) := by
  obtain ⟨h1, h2⟩ := not_or.mp h
  have h3 : com.bl.contains (ToLower g.Name) = false := by simpa using h1
  have h4 : g.Children.isEmpty = false := by simpa using h2
  have hp : (!com.bl.contains (ToLower g.Name) && !g.Children.isEmpty) = true := by
    rw [h3, h4]
    rfl
  rw [List.filter_cons]
  simp only [hp, if_true]

theorem builtFrom_of_TreeOf (com : Compiler) (inf : Inflect) (f : Field) (t : Select)
    (h : TreeOf com inf f t) : builtFrom com inf f t :=
  builtFrom_of_withJoins com inf f t (psql.withJoins t []) ((TreeOf_eq com inf f t).1 h).1
    (by cases t; rfl)

theorem cols_of_TreeOf (com : Compiler) (inf : Inflect) (f : Field) (t : Select)
    (h : TreeOf com inf f t) : t.Cols = (com.leafChildren f).map newColumn := by
  obtain ⟨⟨id, s1, hs1, he⟩, _⟩ := (TreeOf_eq com inf f t).1 h
  have h0 : s1.Cols = [] := (compileArgs_sameCore com f.Args _ s1 hs1).2.2.2.2.2.1
  have hc : t.Cols = (psql.withJoins t []).Cols := by cases t; rfl
  rw [hc, he]
  simp only [h0, List.nil_append, childrenLoop_fst, Compiler.leafChildren]

mutual
/-- Every select of the tree of a live field has its columns in source order
and its children in the reverse of the source order. -/
theorem TreeOf_shape (com : Compiler) (inf : Inflect) (op : Operation) :
    ∀ (f : Field) (t : Select), Live com op f → TreeOf com inf f t →
      ∀ s ∈ t.subs, ∃ g, Live com op g ∧ builtFrom com inf g s ∧
        s.Cols = (com.leafChildren g).map newColumn ∧
        List.Forall₂ (fun c j => builtFrom com inf c j) (com.nestedChildren g).reverse s.Joins
  | ⟨id, name, al, args, cs⟩, t, hl, ht => by
    have hts : TreesOf com inf cs t.Joins := ((TreeOf_eq com inf _ t).1 ht).2
    have hkids := TreesOf_shape com inf op cs t.Joins
      (fun g hg hbl => Live.child _ g hl hg hbl) hts
    intro s hs
    rw [Select.subs_eq] at hs
    rcases List.mem_cons.mp hs with rfl | hs1
    · exact ⟨_, hl, builtFrom_of_TreeOf com inf _ s ht, cols_of_TreeOf com inf _ s ht, hkids.1⟩
    · exact hkids.2 s hs1
/-- The trees of the children of a live field: they stand in the reverse of the
source order of the children that are pushed. -/
theorem TreesOf_shape (com : Compiler) (inf : Inflect) (op : Operation) :
    ∀ (kids : List Field) (ts : List Select),
      (∀ g ∈ kids, com.bl.contains (ToLower g.Name) = false → Live com op g) →
      TreesOf com inf kids ts →
      List.Forall₂ (fun c j => builtFrom com inf c j)
        (kids.filter
          (fun g => !com.bl.contains (ToLower g.Name) && !g.Children.isEmpty)).reverse ts ∧
      ∀ s ∈ Select.subsList ts, ∃ g, Live com op g ∧ builtFrom com inf g s ∧
        s.Cols = (com.leafChildren g).map newColumn ∧
        List.Forall₂ (fun c j => builtFrom com inf c j) (com.nestedChildren g).reverse s.Joins
  | [], ts, _, h => by
    simp only [TreesOf] at h
    subst h
    exact ⟨by simp, fun s hs => by simp [Select.subsList] at hs⟩
  | g :: rest, ts, hlive, h => by
    by_cases hskip : com.bl.contains (ToLower g.Name) = true ∨ g.Children.isEmpty = true
    · simp only [TreesOf, hskip, if_true] at h
      rw [nested_filter_skip com g rest hskip]
      exact TreesOf_shape com inf op rest ts
        (fun c hc => hlive c (List.mem_cons_of_mem _ hc)) h
    · simp only [TreesOf, hskip, if_false] at h
      obtain ⟨ts1, tg, rfl, h1, h2⟩ := h
      have hbl : com.bl.contains (ToLower g.Name) = false := by
        simpa using (not_or.mp hskip).1
      have ih := TreesOf_shape com inf op rest ts1
        (fun c hc => hlive c (List.mem_cons_of_mem _ hc)) h1
      have hg := TreeOf_shape com inf op g tg (hlive g (List.mem_cons_self _ _) hbl) h2
      rw [nested_filter_push com g rest hskip, List.reverse_cons]
      refine ⟨List.rel_append ih.1
        (List.Forall₂.cons (builtFrom_of_TreeOf com inf g tg h2) List.Forall₂.nil), ?_⟩
      intro s hs
      rw [Select.subsList_append, List.mem_append] at hs
      rcases hs with hs | hs
      · exact ih.2 s hs
      · simp only [Select.subsList, List.append_nil] at hs
        exact hg s hs
end

theorem Field.wellNumberedList_mem :
    ∀ (l : List Field), Field.wellNumberedList l = true → ∀ f ∈ l, f.wellNumbered = true
  | [], _, f, hf => by simp at hf
  | g :: rest, h, f, hf => by
    simp only [Field.wellNumberedList, Bool.and_eq_true] at h
    rcases List.mem_cons.mp hf with rfl | hf1
    · exact h.1
    · exact Field.wellNumberedList_mem rest h.2 f hf1

/-- The walk of `compileQuery` over the top-level fields: the root is the tree
of a top-level field, and it stands at the end of the heap. -/
theorem compileQueryLoop_tops (com : Compiler) (inf : Inflect) (op : Operation) :
    ∀ (tops : List Field) (q qf : QState) (fuel : Nat),
      (∀ f ∈ tops, f ∈ op.Fields ∧ f.wellNumbered = true) →
      (∀ a, q.selRoot = some a → ∃ f t H, f ∈ op.Fields ∧
        com.bl.contains (ToLower f.Name) = false ∧ TreeOf com inf f t ∧
        q.heap = H ++ t.enc a ∧ H.length = a) →
      compileQueryLoop com inf fuel (tops.map (fun f => (f, (none : Option Nat)))) q
        = Result.ok qf →
      ∀ a, qf.selRoot = some a → ∃ f t H, f ∈ op.Fields ∧
        com.bl.contains (ToLower f.Name) = false ∧ TreeOf com inf f t ∧
        qf.heap = H ++ t.enc a ∧ H.length = a
  | [], q, qf, fuel, _, hinv, h => by
    have : q = qf := by
      cases fuel <;> simpa [compileQueryLoop] using h
    subst this
    exact hinv
  | g :: rest, q, qf, fuel, htops, hinv, h => by
    have hrest : ∀ f ∈ rest, f ∈ op.Fields ∧ f.wellNumbered = true :=
      fun f hf => htops f (List.mem_cons_of_mem _ hf)
    cases hbl : com.bl.contains (ToLower g.Name) with
    | true =>
      cases fuel with
      | zero => simp [compileQueryLoop] at h
      | succ n =>
        rw [List.map_cons, compileQueryLoop] at h
        simp only [hbl, if_true] at h
        exact compileQueryLoop_tops com inf op rest q qf n hrest hinv h
    | false =>
      rw [List.map_cons] at h
      obtain ⟨q1, t, fuel1, hl, htree, ⟨H, hHlen, hheap, hH, _⟩, _, hroot⟩ :=
        compileQueryLoop_field com inf g none _ q qf fuel (htops g (List.mem_cons_self _ _)).2
          hbl (fun pid hp => by cases hp) h
      refine compileQueryLoop_tops com inf op rest q1 qf fuel1 hrest ?_ hl
      intro a ha
      rw [hroot] at ha
      simp only [Option.some.injEq] at ha
      subst ha
      refine ⟨g, t, q.heap, (htops g (List.mem_cons_self _ _)).1, hbl, htree, ?_, rfl⟩
      rw [hheap, hH rfl]

end qcode

namespace qcode

open GoStr

theorem builtFrom_table (com : Compiler) (inf : Inflect) (f : Field) (s : Select)
    (h : builtFrom com inf f s) : s.Table = inf.Pluralize (ToLower f.Name) := by
  obtain ⟨s0, ⟨id, s1, hs1, rfl⟩, _, _, _, ht, _⟩ := h
  have hcore := compileArgs_sameCore com f.Args _ s1 hs1
  rw [ht]
  exact hcore.2.2.1

/-- C20 (amended): when `compileQuery` returns and no field of the operation
has the `ID` of a field below it, every select `s` of the QCode was built from a
live field `f` such that `s.Cols` is the list of the columns of the
non-blacklisted children of `f` without children, in source order, and
`s.Joins` is the list of the selects built for the non-blacklisted children of
`f` with children, in the REVERSE of the source order. -/
theorem compileQuery_joins_reverse_source_order (com : Compiler) (inf : Inflect)
    (op : Operation) (q : Query) (root : Select) (h : com.compileQuery inf op = Result.ok q)
    (hroot : q.Select = some root) (hids : Field.wellNumberedList op.Fields = true) :
    ∀ s ∈ root.subs, ∃ f, Live com op f ∧ builtFrom com inf f s ∧
      s.Cols = (com.leafChildren f).map newColumn ∧
      List.Forall₂ (fun c j => builtFrom com inf c j) (com.nestedChildren f).reverse s.Joins := by
  obtain ⟨qs, a, root0, hw, hr, hb, rfl⟩ := compileQuery_ok com inf op q h
  simp only [Option.some.injEq] at hroot
  subst hroot
  have hwalk : compileQueryLoop com inf (Field.sizeList op.Fields)
      (op.Fields.reverse.map (fun f => (f, (none : Option Nat))))
      ⟨0, List.replicate op.FieldLen none, [], none⟩ = Result.ok qs := by
    rw [List.map_reverse]
    exact hw
  obtain ⟨f, t, H, hf, hbl, ht, hheap, hlen⟩ :=
    compileQueryLoop_tops com inf op op.Fields.reverse _ qs _
      (fun f hf => ⟨List.mem_reverse.mp hf,
        Field.wellNumberedList_mem _ hids f (List.mem_reverse.mp hf)⟩)
      (fun a ha => by cases ha) hwalk a hr
  have hbt : buildSelect qs.heap qs.heap.length a = some t := by
    subst hlen
    have key := buildSelect_enc t H [] qs.heap.length (by rw [hheap]; simp [Select.enc_length])
    rw [List.append_nil, ← hheap] at key
    exact key
  rw [hbt] at hb
  simp only [Option.some.injEq] at hb
  subst hb
  have hshape := TreeOf_shape com inf op f t (Live.top f hf hbl) ht
  intro s hs
  rw [Select.subs_eq] at hs
  rcases List.mem_cons.mp hs with rfl | hs1
  · obtain ⟨g, hl, ⟨s0, hc0, h1, h2, h3, h4, h5, h6, h7, h9, h10, h11⟩, hc, hj⟩ :=
      hshape t (by rw [Select.subs_eq]; exact List.mem_cons_self _ _)
    exact ⟨g, hl, ⟨s0, hc0, h1, h2, h3, h4, h5, h6, h7, h9, h10, h11⟩, hc, hj⟩
  · exact hshape s (by rw [Select.subs_eq]; exact List.mem_cons_of_mem _ hs1)

/-- Witness of C20 (amended) on `{ posts { id title user { id name } tags { label } } }`:
the QCode is `postsRoot`, whose columns are `id`, `title` and whose children are
`tags`, `user`. -/
theorem compileQuery_joins_reverse_source_order_witness :
    Examples.com.compileQuery Examples.inflect Examples.opPosts
      = Result.ok ⟨some Examples.postsRoot⟩ ∧
    Field.wellNumberedList Examples.opPosts.Fields = true ∧
    ∀ s ∈ Examples.postsRoot.subs, ∃ f, Live Examples.com Examples.opPosts f ∧
      builtFrom Examples.com Examples.inflect f s ∧
      s.Cols = (Examples.com.leafChildren f).map newColumn ∧
      List.Forall₂ (fun c j => builtFrom Examples.com Examples.inflect c j)
        (Examples.com.nestedChildren f).reverse s.Joins :=
  ⟨rfl, rfl, compileQuery_joins_reverse_source_order Examples.com Examples.inflect
    Examples.opPosts ⟨some Examples.postsRoot⟩ Examples.postsRoot rfl rfl rfl⟩

/-- C20 fails as stated: for `{ posts { id title user { id name } tags { label } } }`
the children of `posts` with children are `user`, `tags` in source order, and
the select that `compileQuery` builds for `posts` has the children `tags`,
`users`: its `Joins` is not the list of the selects of `user`, `tags` in that
order. -/
theorem compileQuery_joins_not_source_order :
    Examples.com.compileQuery Examples.inflect Examples.opPosts
      = Result.ok ⟨some Examples.postsRoot⟩ ∧
    Examples.opPosts.Fields.map
      (fun f => (Examples.com.nestedChildren f).map (fun g => g.Name)) = [["user", "tags"]] ∧
    Examples.postsRoot.Joins.map (fun j => j.Table) = ["tags", "users"] ∧
    ¬ List.Forall₂ (fun c j => builtFrom Examples.com Examples.inflect c j)
      (Examples.opPosts.Fields.flatMap Examples.com.nestedChildren) Examples.postsRoot.Joins := by
  refine ⟨rfl, rfl, rfl, ?_⟩
  intro h
  have h1 : List.Forall₂ (fun c j => builtFrom Examples.com Examples.inflect c j)
      [(⟨3, "user", "", [], [Examples.leaf 4 "id", Examples.leaf 5 "name"]⟩ : Field),
        ⟨6, "tags", "", [], [Examples.leaf 7 "label"]⟩]
      [{ Examples.tagsSel with Singular := "tag" }, Examples.userSel] := h
  cases h1 with
  | cons hb _ =>
    have ht := builtFrom_table _ _ _ _ hb
    have e : Examples.inflect.Pluralize (ToLower "user") = "users" := rfl
    have ht1 : "tags" = "users" := ht.trans e
    exact absurd ht1 (by decide)

end qcode

namespace qcode

open GoStr

/-- C21 fails in the code: for `order_by: { name: asc, id: desc }`, whose
leaves are valid directions and not blacklisted, `compileArgOrderBy` appends
the entry of `id` first and the entry of `name` last: the entries come in the
reverse of the source order. -/
theorem compileArgOrderBy_reverses_source_order (sel : Select) :
    Examples.com.compileArgOrderBy sel Examples.argOrderBy
      = Result.ok { sel with
          OrderBy := sel.OrderBy ++ [⟨"id", Order.OrderDesc⟩, ⟨"name", Order.OrderAsc⟩] } := by
  have h : Examples.com.compileArgOrderBy sel Examples.argOrderBy
      = Result.ok { sel with
          OrderBy := (sel.OrderBy ++ [⟨"id", Order.OrderDesc⟩]) ++ [⟨"name", Order.OrderAsc⟩] } :=
    rfl
  rw [h, List.append_assoc]
  rfl

end qcode

namespace psql

open qcode GoStr

/-- C27 fails in the code: for `{ orders { count_id amount customer { name } } }`
the base select of `orders` has the aggregate `count_id`, the plain column
`"orders"."amount"` and the join column `"orders"."customer_id"` added for the
child `customer`, and its GROUP BY clause lists `"orders"."amount"` alone. -/
theorem renderBaseSelect_join_column_not_grouped :
    Examples.sqlcOrders.relationshipColumns Examples.ordersWithCustomer
      = ([⟨"orders", "customer_id", "customer_id"⟩], [0]) ∧
    renderBaseSelect Examples.sqlcOrders none Examples.ordersWithCustomer Examples.tiOrders
        [⟨"orders", "customer_id", "customer_id"⟩]
      = Wr.text (" FROM (SELECT count(\"orders\".\"id\") AS count_id, \"orders\".\"amount\", "
          ++ "\"orders\".\"customer_id\" FROM \"orders\" GROUP BY \"orders\".\"amount\""
          ++ " LIMIT ('20') :: integer) AS \"orders_0\"") :=
  ⟨rfl, rfl⟩

end psql

namespace qcode

open GoStr

theorem length_ne_zero_iff (k : String) : (k.length != 0) = (k != "") := by
  have h : k.length = 0 ↔ k = "" := by
    constructor
    · intro h0
      have : k.data = [] := List.length_eq_zero.mp h0
      exact String.ext this
    · intro h0
      rw [h0]
      rfl
  by_cases hk : k = ""
  · rw [hk]
    rfl
  · have h1 : k.length ≠ 0 := fun e => hk (h.mp e)
    have h2 : (k.length != 0) = true := by simpa using h1
    have h3 : (k != "") = true := by simpa using hk
    rw [h2, h3]

theorem whereColList_foldl (anc : List Node) :
    ∀ (acc : List String),
      anc.foldl (fun list n =>
        if n.Typ ≠ NodeType.nodeObj then list
        else
          let k := ToLower n.Name
          if k = "and" ∨ k = "or" ∨ k = "not" ∨ k = "_and" ∨ k = "_or" ∨ k = "_not" then list
          else if k.length != 0 then k :: list else list) acc
      = (((anc.filter (fun n => n.Typ = NodeType.nodeObj)).map (fun n => ToLower n.Name)).filter
          (fun k => !connectiveNames.contains k && k != "")).reverse ++ acc := by
  induction anc with
  | nil => intro acc; rfl
  | cons n rest ih =>
    intro acc
    rw [List.foldl_cons, ih]
    by_cases ht : n.Typ = NodeType.nodeObj
    · by_cases hc : ToLower n.Name = "and" ∨ ToLower n.Name = "or" ∨ ToLower n.Name = "not" ∨
          ToLower n.Name = "_and" ∨ ToLower n.Name = "_or" ∨ ToLower n.Name = "_not"
      · have hm : ToLower n.Name ∈ connectiveNames := by
          simp only [connectiveNames, List.mem_cons, List.mem_singleton]
          tauto
        simp [ht, hc, hm, List.filter_cons]
      · have hm : ToLower n.Name ∉ connectiveNames := by
          intro hm
          apply hc
          simp only [connectiveNames, List.mem_cons, List.mem_singleton, List.mem_nil_iff,
            or_false] at hm
          tauto
        by_cases hl : (ToLower n.Name).length != 0
        · have hl2 : ToLower n.Name ≠ "" := by
            have := length_ne_zero_iff (ToLower n.Name)
            rw [hl] at this
            simpa using this.symm
          simp [ht, hc, hl, hm, hl2, List.filter_cons]
        · have hl2 : ToLower n.Name = "" := by
            have := length_ne_zero_iff (ToLower n.Name)
            simp only [Bool.not_eq_true] at hl
            rw [hl] at this
            simpa using this.symm
          simp [ht, hc, hl2, List.filter_cons]
    · simp [ht, List.filter_cons]

/-- The list that the loop of `setWhereColName` builds is the column path. -/
theorem whereColList_eq (anc : List Node) : whereColList anc = pathSegments anc := by
  unfold whereColList pathSegments
  rw [whereColList_foldl anc [], List.append_nil, List.filter_reverse, List.map_reverse,
    List.filter_reverse]

theorem setWhereColName_col (ex : Exp) (anc : List Node) (hc : ex.Col = "")
    (hn : ex.NestedCol = false) :
    (∀ s, pathSegments anc = [s] →
      (setWhereColName ex anc).Col = s ∧ (setWhereColName ex anc).NestedCol = false) ∧
    (3 ≤ (pathSegments anc).length →
      (setWhereColName ex anc).Col = Join (pathSegments anc) "." ∧
        (setWhereColName ex anc).NestedCol = true) ∧
    ((pathSegments anc).length = 2 ∨ pathSegments anc = [] →
      (setWhereColName ex anc).Col = "" ∧ (setWhereColName ex anc).NestedCol = false) := by
  unfold setWhereColName
  rw [whereColList_eq]
  refine ⟨fun s hs => ?_, fun h3 => ?_, fun h2 => ?_⟩
  · simp [hs, hn]
  · have h1 : (pathSegments anc).length ≠ 1 := by omega
    have h2 : (pathSegments anc).length > 2 := by omega
    simp [h1, h2]
  · have h1 : (pathSegments anc).length ≠ 1 := by
      rcases h2 with h2 | h2
      · omega
      · simp [h2]
    have h3 : ¬ (pathSegments anc).length > 2 := by
      rcases h2 with h2 | h2
      · omega
      · simp [h2]
    simp [h1, h3, hc, hn]

theorem finishTerminal_eq (ex0 ex : Exp) (node : Node) (anc : List Node)
    (h : finishTerminal ex0 node anc = Result.ok ex) :
    ∃ t, ex = setWhereColName { ex0 with Typ := t } anc := by
  unfold finishTerminal at h
  cases ht : node.Typ <;> simp [ht] at h <;> exact ⟨_, h.symm⟩

theorem setListVal_col (ex : Exp) (node : Node) :
    (setListVal ex node).Col = ex.Col ∧ (setListVal ex node).NestedCol = ex.NestedCol ∧
      (setListVal ex node).Op = ex.Op := by
  unfold setListVal
  cases node.Children with
  | nil => simp
  | cons c cs =>
    obtain ⟨t, _, _, _⟩ := c
    cases t <;> simp

/-- A terminal expression that `newExp` returns comes from `setWhereColName`
applied to an expression without column. -/
theorem newExp_terminal (st : List expT) (addr : Nat) (eT : expT) (ex : Exp) (st1 : List expT)
    (h : newExp st addr eT = Result.ok (some ex, st1))
    (hterm : ex.Op ≠ ExpOp.OpAnd ∧ ex.Op ≠ ExpOp.OpOr ∧ ex.Op ≠ ExpOp.OpNot) :
    ∃ ex0, ex0.Col = "" ∧ ex0.NestedCol = false ∧ ex = setWhereColName ex0 eT.anc := by
  by_cases h0 : eT.node.Name.length = 0
  · simp [newExp, h0] at h
  · simp only [newExp, h0, if_false] at h
    generalize (if (ToLower eT.node.Name).data.head? = some '_'
      then sliceFrom (ToLower eT.node.Name) 1 else ToLower eT.node.Name) = name at h
    by_cases h1 : name = "and"
    · simp only [h1, if_true] at h
      cases h
      exact absurd rfl hterm.1
    · simp only [h1, if_false] at h
      by_cases h2 : name = "or"
      · simp only [h2, if_true] at h
        cases h
        exact absurd rfl hterm.2.1
      · simp only [h2, if_false] at h
        by_cases h3 : name = "not"
        · simp only [h3, if_true] at h
          split at h
          · cases h
          · cases h
            exact absurd rfl hterm.2.2
        · simp only [h3, if_false] at h
          by_cases h4 : name = "in"
          · simp only [h4, if_true] at h
            split at h
            · rename_i e he
              cases h
              obtain ⟨t, rfl⟩ := finishTerminal_eq _ _ _ _ he
              refine ⟨_, ?_, ?_, rfl⟩
              · exact (setListVal_col _ _).1
              · exact (setListVal_col _ _).2.1
            · cases h
            · cases h
            · cases h
          · simp only [h4, if_false] at h
            by_cases h5 : name = "nin" ∨ name = "not_in"
            · simp only [h5, if_true] at h
              split at h
              · rename_i e he
                cases h
                obtain ⟨t, rfl⟩ := finishTerminal_eq _ _ _ _ he
                refine ⟨_, ?_, ?_, rfl⟩
                · exact (setListVal_col _ _).1
                · exact (setListVal_col _ _).2.1
              · cases h
              · cases h
              · cases h
            · simp only [h5, if_false] at h
              split at h
              · split at h
                · rename_i e he
                  cases h
                  obtain ⟨t, rfl⟩ := finishTerminal_eq _ _ _ _ he
                  exact ⟨_, rfl, rfl, rfl⟩
                · cases h
                · cases h
                · cases h
              · cases h

/-- C25: a terminal where-expression that `newExp` creates for a node gets its
column from the column path of the node, the lower-cased non-empty names of its
object-typed ancestors taken top-down without `and`, `or`, `not` and their
`_` aliases: with exactly one segment `s`, `Col = s` and `NestedCol = false`;
with three or more, `Col` is the segments joined by `.` and `NestedCol = true`;
with exactly two, or none, `Col` stays empty and `NestedCol = false`. -/
theorem newExp_terminal_column (st : List expT) (addr : Nat) (eT : expT) (ex : Exp)
    (st1 : List expT) (h : newExp st addr eT = Result.ok (some ex, st1))
    (hterm : ex.Op ≠ ExpOp.OpAnd ∧ ex.Op ≠ ExpOp.OpOr ∧ ex.Op ≠ ExpOp.OpNot) :
    (∀ s, pathSegments eT.anc = [s] → ex.Col = s ∧ ex.NestedCol = false) ∧
    (3 ≤ (pathSegments eT.anc).length →
      ex.Col = Join (pathSegments eT.anc) "." ∧ ex.NestedCol = true) ∧
    ((pathSegments eT.anc).length = 2 ∨ pathSegments eT.anc = [] →
      ex.Col = "" ∧ ex.NestedCol = false) := by
  obtain ⟨ex0, hc, hn, rfl⟩ := newExp_terminal st addr eT ex st1 h hterm
  exact setWhereColName_col ex0 eT.anc hc hn

/-- Witness of C25 on the node `eq` of `where: { name: { eq: "x" } }`: its column
path is the one segment `name`, and `newExp` returns the comparison with
`Col = "name"`. -/
theorem newExp_terminal_column_witness :
    newExp [] 0 Examples.eqEntry = Result.ok (some Examples.eqNameX, []) ∧
    pathSegments Examples.eqEntry.anc = ["name"] ∧
    ((∀ s, pathSegments Examples.eqEntry.anc = [s] →
        Examples.eqNameX.Col = s ∧ Examples.eqNameX.NestedCol = false) ∧
      (3 ≤ (pathSegments Examples.eqEntry.anc).length →
        Examples.eqNameX.Col = Join (pathSegments Examples.eqEntry.anc) "." ∧
          Examples.eqNameX.NestedCol = true) ∧
      ((pathSegments Examples.eqEntry.anc).length = 2 ∨ pathSegments Examples.eqEntry.anc = [] →
        Examples.eqNameX.Col = "" ∧ Examples.eqNameX.NestedCol = false)) :=
  ⟨rfl, rfl, newExp_terminal_column [] 0 Examples.eqEntry Examples.eqNameX [] rfl
    ⟨by decide, by decide, by decide⟩⟩

end qcode

/-! ### The relationship panic is unreachable -/

namespace psql

open qcode GoStr

theorem Wr.relFound_of_calm (w : Wr) (h : w.calm) : w.relFound := by
  intro hp
  rcases h with h | ⟨m, h⟩ <;> rw [h] at hp <;> cases hp

theorem Wr.relFound_text (s : String) : (Wr.text s).relFound :=
  Wr.relFound_of_calm _ (Wr.calm_text s)

theorem Wr.relFound_andThen (a b : Wr) (ha : a.relFound) (hb : b.relFound) :
    (a.andThen b).relFound := by
  by_cases hd : a.st = Status.done
  · rw [Wr.andThen_of_done a b hd]
    exact hb
  · rw [Wr.andThen_of_not_done a b hd]
    exact ha

theorem Wr.relFound_dropError (a : Wr) (ha : a.relFound) : a.dropError.relFound := by
  unfold Wr.dropError
  split
  · intro hp
    cases hp
  · exact ha

theorem Wr.relFound_nil : (⟨"", Status.panicked "nil pointer dereference"⟩ : Wr).relFound := by
  intro hp
  simp only [Status.panicked.injEq] at hp
  exact absurd hp (by decide)

theorem Wr.relFound_index :
    (⟨"", Status.panicked "index out of range [0] with length 0"⟩ : Wr).relFound := by
  intro hp
  simp only [Status.panicked.injEq] at hp
  exact absurd hp (by decide)

theorem renderWhereTerminal_relFound (sel : Select) (ti : DBTableInfo)
    (vars : List (String × String)) (e : Exp) : (renderWhereTerminal sel ti vars e).relFound :=
  Wr.relFound_of_calm _ (renderWhereTerminal_calm sel ti vars e)

mutual
/-- The serialisation of a filter never ends with the relationship panic. -/
theorem serExp_relFound (sel : Select) (ti : DBTableInfo) (vars : List (String × String)) :
    ∀ (e : Exp), (serExp sel ti vars e).relFound
  | ⟨op, col, nested, typ, val, lt, lv, cs⟩ => by
    by_cases h1 : op = ExpOp.OpAnd ∨ op = ExpOp.OpOr
    · rw [serExp_andor sel ti vars _ op h1 rfl]
      cases cs with
      | nil => exact Wr.relFound_text _
      | cons c rest =>
        cases c with
        | none => exact Wr.relFound_nil
        | some e1 =>
          exact Wr.relFound_andThen _ _ (serExp_relFound sel ti vars e1)
            (serRest_relFound sel ti vars op rest)
    · by_cases h2 : op = ExpOp.OpNot
      · rw [serExp_not sel ti vars _ h2]
        cases cs with
        | nil => exact Wr.relFound_index
        | cons c rest =>
          cases c with
          | none => exact Wr.relFound_andThen _ _ (Wr.relFound_text _) Wr.relFound_nil
          | some e1 =>
            exact Wr.relFound_andThen _ _ (Wr.relFound_text _) (serExp_relFound sel ti vars e1)
      · rw [serExp_terminal sel ti vars _ (fun h => h1 (Or.inl h)) (fun h => h1 (Or.inr h)) h2]
        exact renderWhereTerminal_relFound sel ti vars _
/-- The serialisation of the children after the first never ends with the
relationship panic. -/
theorem serRest_relFound (sel : Select) (ti : DBTableInfo) (vars : List (String × String))
    (o : ExpOp) : ∀ (cs : List (Option Exp)), (serRest sel ti vars o cs).relFound
  | [] => by
    rw [serRest]
    exact Wr.relFound_text _
  | none :: rest => by
    rw [serRest]
    exact Wr.relFound_andThen _ _ (Wr.relFound_of_calm _ (serToken_calm o)) Wr.relFound_nil
  | some e :: rest => by
    rw [serRest]
    exact Wr.relFound_andThen _ _ (Wr.relFound_of_calm _ (serToken_calm o))
      (Wr.relFound_andThen _ _ (serExp_relFound sel ti vars e)
        (serRest_relFound sel ti vars o rest))
end

theorem renderWhere_relFound (sel : Select) (ti : DBTableInfo) (vars : List (String × String)) :
    (renderWhere sel ti vars).relFound := by
  cases h : sel.Where with
  | none =>
    simp only [renderWhere, h]
    exact Wr.relFound_text _
  | some e =>
    rw [renderWhere_eq_serExp sel ti vars e h]
    exact serExp_relFound sel ti vars e

theorem renderBaseWhere_relFound (c : Compiler) (parent : Option Select) (sel : Select)
    (ti : DBTableInfo) (hp : parentOK c parent sel) :
    (renderBaseWhere c parent sel ti).relFound := by
  unfold renderBaseWhere
  cases parent with
  | none =>
    simp only
    split
    · exact Wr.relFound_andThen _ _ (Wr.relFound_text _)
        (Wr.relFound_andThen _ _ (renderWhere_relFound sel ti c.vars) (Wr.relFound_text _))
    · exact Wr.relFound_text _
  | some p =>
    simp only
    have hr := hp p rfl
    refine Wr.relFound_andThen _ _ (Wr.relFound_of_calm _ (renderJoinTable_calm c p sel hr))
      (Wr.relFound_andThen _ _ (Wr.relFound_text _)
        (Wr.relFound_andThen _ _ (Wr.relFound_of_calm _ (renderRelationship_calm c p sel hr))
          (Wr.relFound_andThen _ _ ?_ (Wr.relFound_text _))))
    split
    · exact Wr.relFound_andThen _ _ (Wr.relFound_text _) (renderWhere_relFound sel ti c.vars)
    · exact Wr.relFound_text _

theorem renderSelect_relFound (c : Compiler) (parent : Option Select) (sel : Select)
    (ti : DBTableInfo) (cols : List Column) (ids : List Nat) (hp : parentOK c parent sel) :
    (renderSelect c parent sel ti cols ids).relFound := by
  unfold renderSelect
  refine Wr.relFound_andThen _ _ ?_ (Wr.relFound_andThen _ _ (Wr.relFound_text _) ?_)
  · split
    · refine Wr.relFound_andThen _ _ (Wr.relFound_text _)
        (Wr.relFound_andThen _ _ ?_ (Wr.relFound_text _))
      split
      · exact Wr.relFound_of_calm _ (renderOrderBy_calm sel)
      · exact Wr.relFound_text _
    · exact Wr.relFound_text _
  · unfold renderBaseSelect
    exact Wr.relFound_andThen _ _ (Wr.relFound_text _)
      (Wr.relFound_andThen _ _ (renderBaseWhere_relFound c parent sel ti hp) (Wr.relFound_text _))

mutual
/-- The emission of a select under a parent to which its relationship resolves
never ends with the relationship panic. -/
theorem emitSel_relFound (c : Compiler) :
    ∀ (sel : Select) (parent : Option Select) (ti : DBTableInfo), parentOK c parent sel →
      (emitSel c parent ti sel).relFound
  | ⟨id, args, asList, table, singular, fieldName, cols, wh, ob, dist, paging, js⟩, parent, ti,
      hp => by
    rw [emitSel_eq]
    refine Wr.relFound_andThen _ _
      (Wr.relFound_dropError _ (renderSelect_relFound c parent _ ti _ _ hp)) ?_
    split
    · exact Wr.relFound_of_calm _ (Wr.calm_error _ _)
    · exact Wr.relFound_andThen _ _ (emitJoins_relFound c _ js)
        (Wr.relFound_dropError _ (Wr.relFound_of_calm _ (renderSelectClose_calm _)))
/-- The emission of the children of a select never ends with the relationship
panic: a child is emitted only when its relationship resolves. -/
theorem emitJoins_relFound (c : Compiler) (p : Select) :
    ∀ (js : List Select), (emitJoins c p js).relFound
  | [] => by
    rw [emitJoins]
    exact Wr.relFound_text _
  | j :: js => by
    rw [emitJoins]
    refine Wr.relFound_andThen _ _ (emitJoins_relFound c p js) ?_
    split
    · rename_i hr
      split
      · rename_i ti _
        exact Wr.relFound_andThen _ _ (Wr.relFound_text _)
          (Wr.relFound_andThen _ _
            (emitSel_relFound c j (some p) ti (fun q hq => by cases hq; exact hr))
            (Wr.relFound_text _))
      · exact Wr.relFound_text _
    · exact Wr.relFound_text _
end

/-- C26: for every QCode and schema, `Compile` never ends with the panic
`no relationship found` of `renderJoinTable` and `renderRelationship`: the two
routines run only for a child that `relationshipColumns` recorded in
`childIDs`, that is, whose key `(sel.Table, parent.Table)` is in `RelMap`. -/
theorem Compile_relationship_panic_unreachable (c : Compiler) (qc : QCode) :
    (c.Compile qc).st ≠ Status.panicked "no relationship found" := by
  obtain ⟨q⟩ := qc
  cases q with
  | none => exact Wr.relFound_nil
  | some q =>
    obtain ⟨r⟩ := q
    cases r with
    | none => exact Wr.relFound_nil
    | some root =>
      cases ht : c.getTable root with
      | none =>
        simp only [Compiler.Compile, ht]
        intro hp
        cases hp
      | some ti =>
        rw [Compile_eq_emitSel c root ti ht]
        exact Wr.relFound_andThen _ _ (Wr.relFound_text _)
          (Wr.relFound_andThen _ _
            (emitSel_relFound c root none ti (fun p hp => by cases hp)) (Wr.relFound_text _))

end psql

/-! ### `renderWhere` and the reference serialisation of the specification -/

namespace psql

open qcode GoStr

theorem renderVal_spec (e : Exp) (vars : List (String × String)) :
    renderVal e vars = " (" ++ specScalar e.Typ e.Val vars ++ ")" := by
  obtain ⟨op, col, nested, typ, val, lt, lv, cs⟩ := e
  cases typ <;> rfl

theorem renderList_spec (e : Exp) (vars : List (String × String))
    (h : e.ListType ≠ ValType.ValVar) :
    renderList e = " (" ++ commaSep (fun v => specScalar e.ListType v vars) e.ListVal ++ ")" := by
  obtain ⟨op, col, nested, typ, val, lt, lv, cs⟩ := e
  cases lt <;> first | rfl | exact absurd rfl h

theorem whereColOpen_spec (sel : Select) (e : Exp) (h : (e.Col.length != 0) = true) :
    whereColOpen sel e = specColOpen sel e := by
  unfold whereColOpen specColOpen
  by_cases hn : e.NestedCol = true
  · simp only [hn, if_true]
  · simp only [hn, if_false, h, if_true]

theorem whereColOpen_none (sel : Select) (e : Exp) (h : (e.Col.length == 0) = true)
    (hn : e.NestedCol = false) : whereColOpen sel e = "" := by
  unfold whereColOpen
  have h1 : (e.Col.length != 0) = false := by
    simp only [beq_iff_eq] at h
    simp [h]
  simp only [hn, Bool.false_eq_true, if_false, h1]

theorem equalFold_true (v : String) :
    (if EqualFold v "true" = true then "IS NULL)" else "IS NOT NULL)")
      = (if ToLower v = "true" then "IS NULL)" else "IS NOT NULL)") := by
  have h : ToLower "true" = "true" := by decide
  simp only [EqualFold, h, beq_iff_eq]

theorem specValue_eq (e : Exp) (vars : List (String × String))
    (h : ¬ (e.Typ = ValType.ValList ∧ e.ListType = ValType.ValVar)) :
    (if e.Typ = ValType.ValList then renderList e else renderVal e vars)
      = " (" ++ specValue e vars ++ ")" := by
  unfold specValue
  by_cases ht : e.Typ = ValType.ValList
  · simp only [ht, if_true]
    exact renderList_spec e vars (fun hl => h ⟨ht, hl⟩)
  · simp only [ht, if_false]
    exact renderVal_spec e vars

/-- A comparison of the domain is written as the specification says. -/
theorem renderWhereTerminal_comparison (sel : Select) (ti : DBTableInfo)
    (vars : List (String × String)) (e : Exp) (tok : String) (ht : opToken e.Op = some tok)
    (hc : (e.Col.length != 0) = true)
    (hv : ¬ (e.Typ = ValType.ValList ∧ e.ListType = ValType.ValVar)) :
    renderWhereTerminal sel ti vars e = Wr.text (specTerminal sel ti vars e) := by
  have key : renderWhereTerminal sel ti vars e = (Wr.text (whereColOpen sel e)).andThen
      (Wr.text (tok ++ (if e.Typ = ValType.ValList then renderList e else renderVal e vars)
        ++ ")")) := by
    obtain ⟨op, col, nested, typ, val, lt, lv, cs⟩ := e
    cases op <;> simp only [opToken] at ht <;> first
      | (cases ht; rfl)
      | cases ht
  have key2 : specTerminal sel ti vars e
      = specColOpen sel e ++ tok ++ " (" ++ specValue e vars ++ "))" := by
    obtain ⟨op, col, nested, typ, val, lt, lv, cs⟩ := e
    cases op <;> simp only [opToken] at ht <;> first
      | (cases ht; rfl)
      | cases ht
  rw [key, key2, Wr.text_andThen_text, whereColOpen_spec sel e hc, specValue_eq e vars hv]
  have h2 : "))" = ")" ++ ")" := by decide
  rw [h2]
  simp only [String.append_assoc]

theorem serDomain_and (ti : DBTableInfo) (e : Exp) (h : e.Op = ExpOp.OpAnd ∨ e.Op = ExpOp.OpOr) :
    serDomain ti e = serDomainList ti e.Children := by
  obtain ⟨op, col, nested, typ, val, lt, lv, cs⟩ := e
  rcases h with h | h <;> simp only at h <;> subst h <;> simp only [serDomain]

/-- A terminal of the domain is written as the specification says. -/
theorem renderWhereTerminal_spec (sel : Select) (ti : DBTableInfo)
    (vars : List (String × String)) (e : Exp) (hd : serDomain ti e = true)
    (h1 : e.Op ≠ ExpOp.OpAnd) (h2 : e.Op ≠ ExpOp.OpOr) (h3 : e.Op ≠ ExpOp.OpNot) :
    renderWhereTerminal sel ti vars e = Wr.text (specTerminal sel ti vars e) := by
  by_cases hn : e.Op = ExpOp.OpIsNull
  · obtain ⟨op, col, nested, typ, val, lt, lv, cs⟩ := e
    simp only at hn
    subst hn
    simp only [serDomain] at hd
    have hco := whereColOpen_spec sel
      (⟨ExpOp.OpIsNull, col, nested, typ, val, lt, lv, cs⟩ : Exp) hd
    simp only [renderWhereTerminal, specTerminal, Wr.text_andThen_text, hco, equalFold_true]
  · by_cases hq : e.Op = ExpOp.OpEqID
    · obtain ⟨op, col, nested, typ, val, lt, lv, cs⟩ := e
      simp only at hq
      subst hq
      simp only [serDomain, Bool.and_eq_true, Bool.not_eq_true'] at hd
      obtain ⟨⟨hc, hnest⟩, hp⟩ := hd
      have hp1 : ¬ ti.PrimaryCol.length = 0 := by simpa using hp
      have hco := whereColOpen_none sel
        (⟨ExpOp.OpEqID, col, nested, typ, val, lt, lv, cs⟩ : Exp) hc hnest
      simp only [renderWhereTerminal, specTerminal, hco, hp1, if_false, Wr.text_andThen_text,
        String.empty_append]
    · by_cases hs : e.Op = ExpOp.OpTsQuery
      · obtain ⟨op, col, nested, typ, val, lt, lv, cs⟩ := e
        simp only at hs
        subst hs
        simp only [serDomain, Bool.and_eq_true, Bool.not_eq_true'] at hd
        obtain ⟨⟨hc, hnest⟩, hp⟩ := hd
        have hp1 : ¬ ti.TSVCol.length = 0 := by simpa using hp
        have hco := whereColOpen_none sel
          (⟨ExpOp.OpTsQuery, col, nested, typ, val, lt, lv, cs⟩ : Exp) hc hnest
        simp only [renderWhereTerminal, specTerminal, hco, hp1, if_false, Wr.text_andThen_text,
          String.empty_append]
      · have hd2 : (opToken e.Op).isSome = true ∧ (e.Col.length != 0) = true ∧
            ¬ (e.Typ = ValType.ValList ∧ e.ListType = ValType.ValVar) := by
          obtain ⟨op, col, nested, typ, val, lt, lv, cs⟩ := e
          cases op <;> first
            | exact absurd rfl h1
            | exact absurd rfl h2
            | exact absurd rfl h3
            | exact absurd rfl hn
            | exact absurd rfl hq
            | exact absurd rfl hs
            | (simp only [serDomain, Bool.and_eq_true, Bool.not_eq_true', Bool.and_eq_false_imp,
                beq_iff_eq] at hd
               refine ⟨hd.1.1, hd.1.2, fun hh => ?_⟩
               have := hd.2 hh.1
               exact absurd hh.2 (by simpa using this))
        obtain ⟨tok, htok⟩ := Option.isSome_iff_exists.mp hd2.1
        exact renderWhereTerminal_comparison sel ti vars e tok htok hd2.2.1 hd2.2.2

theorem specSer_terminal (sel : Select) (ti : DBTableInfo) (vars : List (String × String))
    (e : Exp) (h1 : e.Op ≠ ExpOp.OpAnd) (h2 : e.Op ≠ ExpOp.OpOr) (h3 : e.Op ≠ ExpOp.OpNot) :
    specSer sel ti vars e = specTerminal sel ti vars e := by
  obtain ⟨op, col, nested, typ, val, lt, lv, cs⟩ := e
  cases op <;> first
    | exact absurd rfl h1
    | exact absurd rfl h2
    | exact absurd rfl h3
    | simp only [specSer]

mutual
/-- On the domain, the recursive serialisation that `renderWhere` computes ends
normally and writes the reference serialisation of the specification. -/
theorem serExp_spec (sel : Select) (ti : DBTableInfo) (vars : List (String × String)) :
    ∀ (e : Exp), serDomain ti e = true →
      serExp sel ti vars e = Wr.text (specSer sel ti vars e)
  | ⟨op, col, nested, typ, val, lt, lv, cs⟩, hd => by
    by_cases h1 : op = ExpOp.OpAnd
    · subst h1
      rw [serExp_andor sel ti vars _ ExpOp.OpAnd (Or.inl rfl) rfl]
      simp only [serDomain] at hd
      cases cs with
      | nil => simp only [specSer]
      | cons c rest =>
        cases c with
        | none => simp [serDomainList] at hd
        | some e1 =>
          simp only [serDomainList, Bool.and_eq_true] at hd
          simp only [specSer]
          rw [serExp_spec sel ti vars e1 hd.1,
            serRest_spec sel ti vars ExpOp.OpAnd (Or.inl rfl) rest hd.2, Wr.text_andThen_text]
    · by_cases h2 : op = ExpOp.OpOr
      · subst h2
        rw [serExp_andor sel ti vars _ ExpOp.OpOr (Or.inr rfl) rfl]
        simp only [serDomain] at hd
        cases cs with
        | nil => simp only [specSer]
        | cons c rest =>
          cases c with
          | none => simp [serDomainList] at hd
          | some e1 =>
            simp only [serDomainList, Bool.and_eq_true] at hd
            simp only [specSer]
            rw [serExp_spec sel ti vars e1 hd.1,
              serRest_spec sel ti vars ExpOp.OpOr (Or.inr rfl) rest hd.2, Wr.text_andThen_text]
      · by_cases h3 : op = ExpOp.OpNot
        · subst h3
          rw [serExp_not sel ti vars _ rfl]
          cases cs with
          | nil => simp [serDomain] at hd
          | cons c rest =>
            cases c with
            | none => simp [serDomain] at hd
            | some e1 =>
              cases rest with
              | nil =>
                simp only [serDomain] at hd
                simp only [specSer]
                rw [serExp_spec sel ti vars e1 hd, Wr.text_andThen_text]
              | cons c2 rest2 => simp [serDomain] at hd
        · rw [serExp_terminal sel ti vars _ h1 h2 h3, specSer_terminal sel ti vars _ h1 h2 h3]
          exact renderWhereTerminal_spec sel ti vars _ hd h1 h2 h3
/-- On the domain, the children after the first are written each after the
separator. -/
theorem serRest_spec (sel : Select) (ti : DBTableInfo) (vars : List (String × String))
    (o : ExpOp) (ho : o = ExpOp.OpAnd ∨ o = ExpOp.OpOr) :
    ∀ (cs : List (Option Exp)), serDomainList ti cs = true →
      serRest sel ti vars o cs = Wr.text (specSerRest sel ti vars o cs)
  | [], _ => by
    simp only [serRest, specSerRest]
  | none :: rest, hd => by
    simp [serDomainList] at hd
  | some e :: rest, hd => by
    simp only [serDomainList, Bool.and_eq_true] at hd
    have htok : serToken o = Wr.text (specSep o) := by
      rcases ho with ho | ho <;> subst ho <;> rfl
    simp only [serRest, specSerRest]
    rw [htok, serExp_spec sel ti vars e hd.1, serRest_spec sel ti vars o ho rest hd.2,
      Wr.text_andThen_text, Wr.text_andThen_text, String.append_assoc]
end

/-- C24 (amended): for a filter whose child pointers are not nil, whose Not nodes
have exactly one child, whose comparison and IsNull terminals have a non-empty
`Col`, an operator of the table of `renderWhere` and no variable items in a
list value, and whose EqID and TsQuery terminals have no column on a table that
has the primary-key or tsvector column, `renderWhere` ends without error and
writes the reference serialisation `specSer`: the children of And and Or in
their list order, separated by ` AND ` and ` OR `, `NOT ` before the child of a
Not, and the terminal forms of the specification. -/
theorem renderWhere_eq_specSer (sel : Select) (ti : DBTableInfo) (vars : List (String × String))
    (e : Exp) (hw : sel.Where = some e) (hd : serDomain ti e = true) :
    renderWhere sel ti vars = Wr.text (specSer sel ti vars e) := by
  rw [renderWhere_eq_serExp sel ti vars e hw]
  exact serExp_spec sel ti vars e hd

/-- Witness of C24 (amended) on the filter
`And[age > 18, Or[name LIKE 'A%', active = true]]` of the table `T`. -/
theorem renderWhere_eq_specSer_witness :
    Examples.groupedSel.Where = some Examples.groupedFilter ∧
    serDomain Examples.tiT Examples.groupedFilter = true ∧
    renderWhere Examples.groupedSel Examples.tiT []
      = Wr.text (specSer Examples.groupedSel Examples.tiT [] Examples.groupedFilter) ∧
    specSer Examples.groupedSel Examples.tiT [] Examples.groupedFilter
      = "((\"T\".\"age\") > (18)) AND ((\"T\".\"name\") LIKE ('A%')) OR ((\"T\".\"active\") = (true))" :=
  ⟨rfl, rfl, renderWhere_eq_specSer Examples.groupedSel Examples.tiT [] Examples.groupedFilter
    rfl rfl, rfl⟩

/-- C24 fails as stated: the EqID filter of `{ log(id: 5) { line } }` is in the
domain of the claim, the table `logs` has no primary key, and `renderWhere`
writes nothing and returns an error, where `ser` gives `(("") = ('5'))`. -/
theorem renderWhere_eqID_without_primary_key :
    renderWhere Examples.logByID Examples.tiLogs []
      = ⟨"", Status.error "no primary key column defined for logs"⟩ ∧
    specSer Examples.logByID Examples.tiLogs [] Examples.eqID5 = "((\"\") = ('5'))" ∧
    renderWhere Examples.logByID Examples.tiLogs []
      ≠ Wr.text (specSer Examples.logByID Examples.tiLogs [] Examples.eqID5) := by
  refine ⟨rfl, rfl, fun h => ?_⟩
  have h1 : (renderWhere Examples.logByID Examples.tiLogs []).st = Status.done := by
    rw [h]
    rfl
  have h2 : (renderWhere Examples.logByID Examples.tiLogs []).st
      = Status.error "no primary key column defined for logs" := rfl
  rw [h2] at h1
  cases h1

end psql

/-! ### The loop of `compileArgNode`: fuel and ancestors -/

namespace qcode

open GoStr

theorem Node.size_eq (n : Node) : n.size = 1 + Node.sizeList n.Children := by
  cases n
  simp [Node.size]

theorem Node.sizeList_append (a b : List Node) :
    Node.sizeList (a ++ b) = Node.sizeList a + Node.sizeList b := by
  induction a with
  | nil => simp [Node.sizeList]
  | cons x xs ih => simp [Node.sizeList, ih, Nat.add_assoc]

theorem Node.sizeList_reverse (a : List Node) : Node.sizeList a.reverse = Node.sizeList a := by
  induction a with
  | nil => rfl
  | cons x xs ih =>
    simp [Node.sizeList_append, Node.sizeList, ih, Nat.add_comm]

theorem stackSize_cons (e : expT) (st : List expT) :
    stackSize (e :: st) = e.node.size + stackSize st := by
  simp [stackSize, Node.sizeList]

theorem stackSize_pushChildren (st : List expT) (p : Option Nat) (node : Node)
    (anc : List Node) :
    stackSize (pushChildren st p node anc) = Node.sizeList node.Children + stackSize st := by
  simp only [stackSize, pushChildren, List.map_append, List.map_reverse, List.map_map,
    Node.sizeList_append, Node.sizeList_reverse]
  congr 2
  induction node.Children with
  | nil => rfl
  | cons c cs ih => simp [ih]

theorem pushChildren_key (st st1 : List expT) (p : Option Nat) (node : Node)
    (anc anc1 : List Node) (hk : anc.map Node.kindName = anc1.map Node.kindName)
    (hst : st.map expT.key = st1.map expT.key) :
    (pushChildren st p node anc).map expT.key = (pushChildren st1 p node anc1).map expT.key := by
  simp only [pushChildren, List.map_append, List.map_reverse, List.map_map, hst]
  congr 2
  apply List.map_congr_left
  intro c _
  simp [expT.key, hk]

theorem kind_filter_map (l : List Node) :
    (l.filter (fun n => n.Typ = NodeType.nodeObj)).map (fun n => ToLower n.Name) =
      ((l.map Node.kindName).filter (fun q => q.1 = NodeType.nodeObj)).map
        (fun q => ToLower q.2) := by
  induction l with
  | nil => rfl
  | cons n rest ih =>
    by_cases h : n.Typ = NodeType.nodeObj
    · simp [List.filter_cons, Node.kindName, h, ih]
    · simp [List.filter_cons, Node.kindName, h, ih]

theorem pathSegments_congr (anc anc1 : List Node)
    (hk : anc.map Node.kindName = anc1.map Node.kindName) :
    pathSegments anc = pathSegments anc1 := by
  unfold pathSegments
  rw [kind_filter_map, kind_filter_map, List.map_reverse, List.map_reverse, hk]

theorem setWhereColName_congr (ex : Exp) (anc anc1 : List Node)
    (hk : anc.map Node.kindName = anc1.map Node.kindName) :
    setWhereColName ex anc = setWhereColName ex anc1 := by
  unfold setWhereColName
  rw [whereColList_eq, whereColList_eq, pathSegments_congr anc anc1 hk]

theorem finishTerminal_congr (ex : Exp) (node : Node) (anc anc1 : List Node)
    (hk : anc.map Node.kindName = anc1.map Node.kindName) :
    finishTerminal ex node anc = finishTerminal ex node anc1 := by
  unfold finishTerminal
  simp only [setWhereColName_congr _ anc anc1 hk]

theorem finishTerminal_fuel (ex : Exp) (node : Node) (anc : List Node) :
    finishTerminal ex node anc ≠ Result.outOfFuel := by
  unfold finishTerminal
  obtain ⟨t, _, _, _⟩ := node
  cases t <;> simp

theorem finishTerminal_panicked (ex : Exp) (node : Node) (anc : List Node) (e : String) :
    finishTerminal ex node anc ≠ Result.panicked e := by
  unfold finishTerminal
  obtain ⟨t, _, _, _⟩ := node
  cases t <;> simp

theorem newExp_empty (st : List expT) (addr : Nat) (eT : expT)
    (h0 : eT.node.Name.length = 0) :
    newExp st addr eT = Result.ok (none, pushChildren st eT.parent eT.node eT.anc) := by
  simp only [newExp, h0, if_true]

theorem newExp_and (st : List expT) (addr : Nat) (eT : expT)
    (h0 : ¬ eT.node.Name.length = 0) (h1 : nodeOp eT.node = "and") :
    newExp st addr eT = Result.ok (some { Exp.zero with Op := ExpOp.OpAnd },
      pushChildren st (some addr) eT.node eT.anc) := by
  unfold nodeOp at h1
  simp only [newExp, h0, if_false]
  rw [if_pos h1]

theorem newExp_or (st : List expT) (addr : Nat) (eT : expT)
    (h0 : ¬ eT.node.Name.length = 0) (h1 : ¬ nodeOp eT.node = "and")
    (h2 : nodeOp eT.node = "or") :
    newExp st addr eT = Result.ok (some { Exp.zero with Op := ExpOp.OpOr },
      pushChildren st (some addr) eT.node eT.anc) := by
  unfold nodeOp at h1 h2
  simp only [newExp, h0, if_false]
  rw [if_neg h1, if_pos h2]

theorem newExp_not (st : List expT) (addr : Nat) (eT : expT)
    (h0 : ¬ eT.node.Name.length = 0) (h1 : ¬ nodeOp eT.node = "and")
    (h2 : ¬ nodeOp eT.node = "or") (h3 : nodeOp eT.node = "not") :
    newExp st addr eT =
      match eT.node.Children with
      | [] => Result.panicked "index out of range [0] with length 0"
      | c :: _ =>
        Result.ok (some { Exp.zero with Op := ExpOp.OpNot },
          (⟨some addr, c, eT.node :: eT.anc⟩ : expT) :: st) := by
  unfold nodeOp at h1 h2 h3
  simp only [newExp, h0, if_false]
  rw [if_neg h1, if_neg h2, if_pos h3]
  try rfl

theorem setListVal_children (ex : Exp) (node : Node) :
    (setListVal ex node).Children = ex.Children := by
  unfold setListVal
  cases node.Children with
  | nil => rfl
  | cons c cs =>
    obtain ⟨t, _, _, _⟩ := c
    cases t <;> rfl

theorem valOp_terminal (name : String) (o : ExpOp) (h : valOp name = some o) :
    o ≠ ExpOp.OpAnd ∧ o ≠ ExpOp.OpOr ∧ o ≠ ExpOp.OpNot := by
  revert h
  unfold valOp
  split <;> intro h <;> first
    | (cases h; exact ⟨by decide, by decide, by decide⟩)
    | cases h

/-- What `terminalStart` gives is a terminal without children and without
column. -/
theorem terminalStart_some (node : Node) (ex0 : Exp) (h : terminalStart node = some ex0) :
    ex0.Op ≠ ExpOp.OpAnd ∧ ex0.Op ≠ ExpOp.OpOr ∧ ex0.Op ≠ ExpOp.OpNot ∧
      ex0.Children = [] ∧ ex0.Col = "" ∧ ex0.NestedCol = false := by
  unfold terminalStart at h
  split at h
  · cases h
    refine ⟨?_, ?_, ?_, setListVal_children _ _, (setListVal_col _ _).1, (setListVal_col _ _).2.1⟩
    · rw [(setListVal_col _ _).2.2]; decide
    · rw [(setListVal_col _ _).2.2]; decide
    · rw [(setListVal_col _ _).2.2]; decide
  · split at h
    · cases h
      refine ⟨?_, ?_, ?_, setListVal_children _ _, (setListVal_col _ _).1,
        (setListVal_col _ _).2.1⟩
      · rw [(setListVal_col _ _).2.2]; decide
      · rw [(setListVal_col _ _).2.2]; decide
      · rw [(setListVal_col _ _).2.2]; decide
    · cases hv : valOp (nodeOp node) with
      | none => simp [hv] at h
      | some o =>
        simp only [hv, Option.map_some', Option.some.injEq] at h
        subst h
        obtain ⟨a1, a2, a3⟩ := valOp_terminal _ o hv
        exact ⟨a1, a2, a3, rfl, rfl, rfl⟩

/-- The branch of `newExp` for a name that is not `and`, `or` or `not`. -/
theorem newExp_terminal_eq (st : List expT) (addr : Nat) (eT : expT)
    (h0 : ¬ eT.node.Name.length = 0) (h1 : ¬ nodeOp eT.node = "and")
    (h2 : ¬ nodeOp eT.node = "or") (h3 : ¬ nodeOp eT.node = "not") :
    newExp st addr eT =
      match terminalStart eT.node with
      | some ex0 =>
        (match finishTerminal ex0 eT.node eT.anc with
        | Result.ok ex => Result.ok (some ex, st)
        | Result.error e => Result.error e
        | Result.panicked e => Result.panicked e
        | Result.outOfFuel => Result.outOfFuel)
      | none => Result.ok (none, pushChildren st eT.parent eT.node eT.anc) := by
  unfold terminalStart
  by_cases h4 : nodeOp eT.node = "in"
  · rw [if_pos h4]
    unfold nodeOp at h1 h2 h3 h4
    simp only [newExp, h0, if_false]
    rw [if_neg h1, if_neg h2, if_neg h3, if_pos h4]
    try rfl
  · rw [if_neg h4]
    by_cases h5 : nodeOp eT.node = "nin" ∨ nodeOp eT.node = "not_in"
    · rw [if_pos h5]
      unfold nodeOp at h1 h2 h3 h4 h5
      simp only [newExp, h0, if_false]
      rw [if_neg h1, if_neg h2, if_neg h3, if_neg h4, if_pos h5]
      try rfl
    · rw [if_neg h5]
      cases hv : valOp (nodeOp eT.node) with
      | none =>
        unfold nodeOp at h1 h2 h3 h4 h5 hv
        simp only [newExp, h0, if_false]
        rw [if_neg h1, if_neg h2, if_neg h3, if_neg h4, if_neg h5, hv]
        try rfl
      | some o =>
        unfold nodeOp at h1 h2 h3 h4 h5 hv
        simp only [newExp, h0, if_false]
        rw [if_neg h1, if_neg h2, if_neg h3, if_neg h4, if_neg h5, hv]
        try rfl

end qcode

namespace qcode

open GoStr

/-- Two runs of `newExp` on entries that agree up to the kinds and names of the
ancestors end alike, and leave stacks that agree in the same way. -/
theorem newExp_congr (st st1 : List expT) (addr : Nat) (p : Option Nat) (node : Node)
    (anc anc1 : List Node) (hk : anc.map Node.kindName = anc1.map Node.kindName)
    (hst : st.map expT.key = st1.map expT.key) :
    (∃ e, newExp st addr ⟨p, node, anc⟩ = Result.error e ∧
      newExp st1 addr ⟨p, node, anc1⟩ = Result.error e) ∨
    (∃ e, newExp st addr ⟨p, node, anc⟩ = Result.panicked e ∧
      newExp st1 addr ⟨p, node, anc1⟩ = Result.panicked e) ∨
    (∃ ex s s1, newExp st addr ⟨p, node, anc⟩ = Result.ok (ex, s) ∧
      newExp st1 addr ⟨p, node, anc1⟩ = Result.ok (ex, s1) ∧
      s.map expT.key = s1.map expT.key ∧ stackSize s + 1 ≤ node.size + stackSize st) := by
  have hpush : ∀ q, (pushChildren st q node anc).map expT.key
        = (pushChildren st1 q node anc1).map expT.key ∧
      stackSize (pushChildren st q node anc) + 1 ≤ node.size + stackSize st := by
    intro q
    refine ⟨pushChildren_key st st1 q node anc anc1 hk hst, ?_⟩
    rw [stackSize_pushChildren, Node.size_eq]
    omega
  have hsize : 1 ≤ node.size := by
    rw [Node.size_eq]
    omega
  by_cases h0 : node.Name.length = 0
  · exact Or.inr (Or.inr ⟨none, _, _, newExp_empty st addr ⟨p, node, anc⟩ h0,
      newExp_empty st1 addr ⟨p, node, anc1⟩ h0, (hpush p).1, (hpush p).2⟩)
  · by_cases h1 : nodeOp node = "and"
    · exact Or.inr (Or.inr ⟨_, _, _, newExp_and st addr ⟨p, node, anc⟩ h0 h1,
        newExp_and st1 addr ⟨p, node, anc1⟩ h0 h1, (hpush _).1, (hpush _).2⟩)
    · by_cases h2 : nodeOp node = "or"
      · exact Or.inr (Or.inr ⟨_, _, _, newExp_or st addr ⟨p, node, anc⟩ h0 h1 h2,
          newExp_or st1 addr ⟨p, node, anc1⟩ h0 h1 h2, (hpush _).1, (hpush _).2⟩)
      · by_cases h3 : nodeOp node = "not"
        · have e1 := newExp_not st addr ⟨p, node, anc⟩ h0 h1 h2 h3
          have e2 := newExp_not st1 addr ⟨p, node, anc1⟩ h0 h1 h2 h3
          simp only at e1 e2
          cases hc : node.Children with
          | nil =>
            rw [hc] at e1 e2
            exact Or.inr (Or.inl ⟨_, e1, e2⟩)
          | cons c cs =>
            rw [hc] at e1 e2
            refine Or.inr (Or.inr ⟨_, _, _, e1, e2, ?_, ?_⟩)
            · simp [expT.key, hk, hst]
            · rw [stackSize_cons, Node.size_eq node, hc]
              simp only [Node.sizeList]
              omega
        · have t1 := newExp_terminal_eq st addr ⟨p, node, anc⟩ h0 h1 h2 h3
          have t2 := newExp_terminal_eq st1 addr ⟨p, node, anc1⟩ h0 h1 h2 h3
          simp only at t1 t2
          cases hts : terminalStart node with
          | none =>
            rw [hts] at t1 t2
            exact Or.inr (Or.inr ⟨none, _, _, t1, t2, (hpush p).1, (hpush p).2⟩)
          | some ex0 =>
            rw [hts] at t1 t2
            simp only at t1 t2
            rw [← finishTerminal_congr ex0 node anc anc1 hk] at t2
            cases hf : finishTerminal ex0 node anc with
            | ok ex =>
              rw [hf] at t1 t2
              exact Or.inr (Or.inr ⟨some ex, st, st1, t1, t2, hst, by omega⟩)
            | error e =>
              rw [hf] at t1 t2
              exact Or.inl ⟨e, t1, t2⟩
            | panicked e => exact absurd hf (finishTerminal_panicked ex0 node anc e)
            | outOfFuel => exact absurd hf (finishTerminal_fuel ex0 node anc)

theorem map_key_nil (st : List expT) (h : ([] : List expT).map expT.key = st.map expT.key) :
    st = [] := by
  cases st with
  | nil => rfl
  | cons e r => simp at h

/-- The loop of `compileArgNode` does not depend on its fuel once the fuel
covers the nodes on the stack, and reads of the ancestors only their kinds and
names. -/
theorem compileArgNodeLoop_congr (com : Compiler) :
    ∀ (n m : Nat) (st st1 : List expT) (heap : List ExpCell) (root : Option Nat),
      st.map expT.key = st1.map expT.key → stackSize st ≤ n → stackSize st ≤ m →
      compileArgNodeLoop com n st heap root = compileArgNodeLoop com m st1 heap root := by
  intro n
  induction n with
  | zero =>
    intro m st st1 heap root hk hn _
    cases st with
    | nil =>
      rw [map_key_nil st1 hk]
      cases m <;> rfl
    | cons e r =>
      rw [stackSize_cons, Node.size_eq] at hn
      omega
  | succ n ih =>
    intro m st st1 heap root hk hn hm
    cases st with
    | nil =>
      rw [map_key_nil st1 hk]
      cases m <;> rfl
    | cons e r =>
      cases st1 with
      | nil => simp at hk
      | cons e1 r1 =>
        obtain ⟨p, node, anc⟩ := e
        obtain ⟨p1, node1, anc1⟩ := e1
        simp only [List.map_cons, List.cons.injEq, expT.key, Prod.mk.injEq] at hk
        obtain ⟨⟨hp, hnode, hanc⟩, hr⟩ := hk
        subst hp
        subst hnode
        rw [stackSize_cons] at hn hm
        simp only at hn hm
        have hsize : 1 ≤ node.size := by
          rw [Node.size_eq]
          omega
        cases m with
        | zero => omega
        | succ m =>
          rw [compileArgNodeLoop, compileArgNodeLoop]
          simp only
          split
          · exact ih m r r1 heap root hr (by omega) (by omega)
          · rcases newExp_congr r r1 heap.length p node anc anc1 hanc hr with
              ⟨e, h1, h2⟩ | ⟨e, h1, h2⟩ | ⟨ex, s, s1, h1, h2, hs, hsz⟩
            · rw [h1, h2]
            · rw [h1, h2]
            · rw [h1, h2]
              cases ex with
              | none => exact ih m s s1 heap root hs (by omega) (by omega)
              | some ex =>
                simp only
                cases p with
                | none => exact ih m s s1 _ _ hs (by omega) (by omega)
                | some pa => exact ih m s s1 _ _ hs (by omega) (by omega)

/-- The loop of `compileArgNode` ends within its fuel once the fuel covers the
nodes on the stack. -/
theorem compileArgNodeLoop_fuel (com : Compiler) :
    ∀ (n : Nat) (st : List expT) (heap : List ExpCell) (root : Option Nat),
      stackSize st ≤ n → compileArgNodeLoop com n st heap root ≠ Result.outOfFuel := by
  intro n
  induction n with
  | zero =>
    intro st heap root hn
    cases st with
    | nil => simp [compileArgNodeLoop]
    | cons e r =>
      rw [stackSize_cons, Node.size_eq] at hn
      omega
  | succ n ih =>
    intro st heap root hn
    cases st with
    | nil => simp [compileArgNodeLoop]
    | cons e r =>
      obtain ⟨p, node, anc⟩ := e
      rw [stackSize_cons] at hn
      simp only at hn
      have hsize : 1 ≤ node.size := by
        rw [Node.size_eq]
        omega
      rw [compileArgNodeLoop]
      simp only
      split
      · exact ih r heap root (by omega)
      · rcases newExp_congr r r heap.length p node anc anc rfl rfl with
          ⟨e, h1, _⟩ | ⟨e, h1, _⟩ | ⟨ex, s, s1, h1, _, _, hsz⟩
        · rw [h1]
          simp
        · rw [h1]
          simp
        · rw [h1]
          cases ex with
          | none => exact ih s heap root (by omega)
          | some ex =>
            simp only
            cases p with
            | none => exact ih s _ _ (by omega)
            | some pa => exact ih s _ _ (by omega)

/-- C28: `compileArgNode` compiles the first child of the argument object
alone: for an object with the children `c :: rest` the result (the expression
or nil, or the error) is the result for the object with the single child `c`,
and the loop ends within its fuel; what it returns is one expression root, not
a combination of the siblings. -/
theorem compileArgNode_first_child_only (com : Compiler) (val c : Node) (rest : List Node)
    (h : val.Children = c :: rest) :
    com.compileArgNode val = com.compileArgNode { val with Children := [c] } ∧
      com.compileArgNode val ≠ Result.outOfFuel := by
  have hfuel : stackSize [(⟨none, c, [val]⟩ : expT)] ≤ val.size := by
    rw [stackSize_cons, Node.size_eq val, h]
    simp only [Node.sizeList, stackSize, List.map_nil]
    omega
  have key : compileArgNodeLoop com val.size [⟨none, c, [val]⟩] [] none
      = compileArgNodeLoop com ({ val with Children := [c] } : Node).size
          [⟨none, c, [{ val with Children := [c] }]⟩] [] none := by
    apply compileArgNodeLoop_congr
    · rfl
    · exact hfuel
    · rw [stackSize_cons, Node.size_eq ({ val with Children := [c] } : Node)]
      simp only [Node.sizeList, stackSize, List.map_nil]
      omega
  refine ⟨by simp only [Compiler.compileArgNode, h, key], ?_⟩
  have hf := compileArgNodeLoop_fuel com val.size [⟨none, c, [val]⟩] [] none hfuel
  simp only [Compiler.compileArgNode, h]
  split
  · simp
  · simp
  · simp
  · rename_i hr
    exact absurd hr hf

/-- Witness of C28 on `where: { name: { eq: "x" }, age: { gt: 5 } }`: the result
is the comparison of `name`, as for `where: { name: { eq: "x" } }`. -/
theorem compileArgNode_first_child_only_witness :
    Examples.whereTwoConditions.Children
      = ⟨NodeType.nodeObj, "name", "", [⟨NodeType.nodeStr, "eq", "x", []⟩]⟩ ::
        [⟨NodeType.nodeObj, "age", "", [⟨NodeType.nodeInt, "gt", "5", []⟩]⟩] ∧
    Examples.com.compileArgNode Examples.whereTwoConditions = Result.ok (some Examples.eqNameX) ∧
    (Examples.com.compileArgNode Examples.whereTwoConditions
      = Examples.com.compileArgNode { Examples.whereTwoConditions with
          Children := [⟨NodeType.nodeObj, "name", "", [⟨NodeType.nodeStr, "eq", "x", []⟩]⟩] } ∧
      Examples.com.compileArgNode Examples.whereTwoConditions ≠ Result.outOfFuel) :=
  ⟨rfl, rfl, compileArgNode_first_child_only Examples.com Examples.whereTwoConditions _ _ rfl⟩

end qcode

/-! ### The IDs of the selects of a QCode -/

namespace qcode

open GoStr

theorem incr16_wrap16 (k : Nat) : incr16 (wrap16 k) = wrap16 (k + 1) := by
  unfold incr16 wrap16
  push_cast
  omega

theorem wrap16_period (a : Nat) : wrap16 (a + 65536) = wrap16 a := by
  unfold wrap16
  push_cast
  omega

theorem wrap16_inj (a i j : Nat) (hi : i < 65536) (hj : j < 65536)
    (h : wrap16 (a + i) = wrap16 (a + j)) : i = j := by
  unfold wrap16 at h
  push_cast at h
  omega

theorem newSelect_ID (inf : Inflect) (id : Int) (f : Field) : (newSelect inf id f).ID = id := rfl

/-- The loop of `compileQuery` numbers the cells of the heap with the values of
the 16-bit counter, in the order of their addresses. -/
theorem compileQueryLoop_ids (com : Compiler) (inf : Inflect) :
    ∀ (fuel : Nat) (st : List (Field × Option Nat)) (q q1 : QState),
      q.id = wrap16 q.heap.length →
      (q.heap.map Cell.sel).map (fun s => s.ID) = (List.range q.heap.length).map wrap16 →
      compileQueryLoop com inf fuel st q = Result.ok q1 →
      q1.id = wrap16 q1.heap.length ∧
      (q1.heap.map Cell.sel).map (fun s => s.ID) = (List.range q1.heap.length).map wrap16 := by
  intro fuel
  induction fuel with
  | zero =>
    intro st q q1 hid hh h
    cases st with
    | nil => simp only [compileQueryLoop] at h; cases h; exact ⟨hid, hh⟩
    | cons e st => simp only [compileQueryLoop] at h; cases h
  | succ n ih =>
    intro st q q1 hid hh h
    cases st with
    | nil => simp only [compileQueryLoop] at h; cases h; exact ⟨hid, hh⟩
    | cons e st =>
      obtain ⟨field, parent⟩ := e
      rw [compileQueryLoop] at h
      split at h
      · exact ih st q q1 hid hh h
      · simp only at h
        split at h
        · cases h
        · split at h
          · cases h
          · cases h
          · cases h
          · rename_i s1 hs1
            have hs1id : s1.ID = q.id := (compileArgs_sameCore com _ _ s1 hs1).1
            have hid1 : incr16 q.id = wrap16 (q.heap ++ [(⟨{ s1 with Cols := s1.Cols ++
                (childrenLoop com field.Children).1 }, []⟩ : Cell)]).length := by
              rw [hid, incr16_wrap16]
              simp
            have hh1 : ((q.heap ++ [(⟨{ s1 with Cols := s1.Cols ++
                (childrenLoop com field.Children).1 }, []⟩ : Cell)]).map Cell.sel).map
                  (fun s => s.ID)
                = (List.range (q.heap ++ [(⟨{ s1 with Cols := s1.Cols ++
                  (childrenLoop com field.Children).1 }, []⟩ : Cell)]).length).map wrap16 := by
              simp only [List.map_append, List.map_cons, List.map_nil, List.length_append,
                List.length_singleton, List.range_succ, hh, hs1id, hid]
            split at h
            · exact ih _ _ q1 hid1 hh1 h
            · split at h
              · cases h
              · cases h
              · rename_i pa hpa
                refine ih _ _ q1 ?_ ?_ h
                · simp only [addJoin_length]
                  exact hid1
                · simp only [addJoin_map_sel, addJoin_length]
                  exact hh1

mutual
/-- The cells that encode a tree carry the IDs of its selects, in order. -/
theorem Select.enc_ids :
    ∀ (t : Select) (a : Nat),
      ((t.enc a).map Cell.sel).map (fun s => s.ID) = t.subs.map (fun s => s.ID)
  | ⟨id, args, asList, table, singular, fieldName, cols, wh, ob, dist, paging, js⟩, a => by
    simp only [Select.enc, Select.subs, List.map_cons, Select.encList_ids js (a + 1)]
/-- The cells that encode a list of trees carry the IDs of their selects, in
order. -/
theorem Select.encList_ids :
    ∀ (js : List Select) (b : Nat),
      ((Select.encList js b).map Cell.sel).map (fun s => s.ID)
        = (Select.subsList js).map (fun s => s.ID)
  | [], _ => rfl
  | j :: js, b => by
    simp only [Select.encList, Select.subsList, List.map_append, Select.enc_ids j b,
      Select.encList_ids js (b + j.subs.length)]
end

end qcode

namespace qcode

open GoStr

/-- The heap at the end of the walk of `compileQuery`: the tree of the root
stands at the end of the heap, from the address of the root on. -/
theorem compileQueryWalk_layout (com : Compiler) (inf : Inflect) (op : Operation)
    (qs : QState) (a : Nat) (hw : com.compileQueryWalk inf op = Result.ok qs)
    (hr : qs.selRoot = some a) (hids : Field.wellNumberedList op.Fields = true) :
    ∃ f t H, f ∈ op.Fields ∧ com.bl.contains (ToLower f.Name) = false ∧ TreeOf com inf f t ∧
      qs.heap = H ++ t.enc a ∧ H.length = a ∧
      buildSelect qs.heap qs.heap.length a = some t := by
  have hwalk : compileQueryLoop com inf (Field.sizeList op.Fields)
      (op.Fields.reverse.map (fun f => (f, (none : Option Nat))))
      ⟨0, List.replicate op.FieldLen none, [], none⟩ = Result.ok qs := by
    rw [List.map_reverse]
    exact hw
  obtain ⟨f, t, H, hf, hbl, ht, hheap, hlen⟩ :=
    compileQueryLoop_tops com inf op op.Fields.reverse _ qs _
      (fun f hf => ⟨List.mem_reverse.mp hf,
        Field.wellNumberedList_mem _ hids f (List.mem_reverse.mp hf)⟩)
      (fun a ha => by cases ha) hwalk a hr
  refine ⟨f, t, H, hf, hbl, ht, hheap, hlen, ?_⟩
  subst hlen
  have key := buildSelect_enc t H [] qs.heap.length (by rw [hheap]; simp [Select.enc_length])
  rw [List.append_nil, ← hheap] at key
  exact key

theorem compileQueryWalk_ids (com : Compiler) (inf : Inflect) (op : Operation) (qs : QState)
    (hw : com.compileQueryWalk inf op = Result.ok qs) :
    (qs.heap.map Cell.sel).map (fun s => s.ID) = (List.range qs.heap.length).map wrap16 := by
  have h0 : (0 : Int) = wrap16 0 := by
    unfold wrap16
    norm_num
  exact (compileQueryLoop_ids com inf (Field.sizeList op.Fields) _
    ⟨0, List.replicate op.FieldLen none, [], none⟩ qs h0 (by simp) hw).2

/-- The IDs of the selects of the QCode that `compileQuery` returns, in the
order root, then the trees of its children: consecutive values of the 16-bit
counter from the address of the root on. -/
theorem compileQuery_subs_ids (com : Compiler) (inf : Inflect) (op : Operation) (q : Query)
    (root : Select) (h : com.compileQuery inf op = Result.ok q) (hroot : q.Select = some root)
    (hids : Field.wellNumberedList op.Fields = true) :
    ∃ a, root.subs.map (fun s => s.ID)
      = (List.range root.subs.length).map (fun i => wrap16 (a + i)) := by
  obtain ⟨qs, a, root0, hw, hr, hb, rfl⟩ := compileQuery_ok com inf op q h
  simp only [Option.some.injEq] at hroot
  subst hroot
  obtain ⟨f, t, H, _, _, _, hheap, hlen, hbt⟩ :=
    compileQueryWalk_layout com inf op qs a hw hr hids
  rw [hbt] at hb
  simp only [Option.some.injEq] at hb
  subst hb
  have hidl := compileQueryWalk_ids com inf op qs hw
  have hsubs : ({ t with Where := applyFilter (com.filterFor t.Table) t.Where } : Select).subs.map
      (fun s => s.ID) = t.subs.map (fun s => s.ID) := by
    rw [Select.subs_eq, Select.subs_eq]
    rfl
  have hlen2 : ({ t with Where := applyFilter (com.filterFor t.Table) t.Where } : Select).subs.length
      = t.subs.length := by
    rw [Select.subs_eq, Select.subs_eq]
    rfl
  refine ⟨a, ?_⟩
  rw [hsubs, hlen2]
  rw [hheap, List.map_append, List.map_append, List.length_append, Select.enc_length, hlen,
    List.range_add, List.map_append, Select.enc_ids] at hidl
  have := (List.append_inj hidl (by simp [hlen])).2
  rw [this, List.map_map]
  rfl

/-- C22 (amended): when `compileQuery` returns a QCode (for an operation in
which no field has the `ID` of a field below it), the IDs of its selects, root
first, are consecutive values of the 16-bit signed counter, which wraps from
32767 to -32768; so any two distinct selects of the QCode have different IDs
when the QCode has at most 65536 selects. -/
theorem compileQuery_ids_unique_up_to_wrap (com : Compiler) (inf : Inflect) (op : Operation)
    (q : Query) (root : Select) (h : com.compileQuery inf op = Result.ok q)
    (hroot : q.Select = some root) (hids : Field.wellNumberedList op.Fields = true) :
    (∃ a, root.subs.map (fun s => s.ID)
      = (List.range root.subs.length).map (fun i => wrap16 (a + i))) ∧
    (root.subs.length ≤ 65536 → (root.subs.map (fun s => s.ID)).Nodup) := by
  obtain ⟨a, ha⟩ := compileQuery_subs_ids com inf op q root h hroot hids
  refine ⟨⟨a, ha⟩, fun hn => ?_⟩
  rw [ha]
  refine List.Nodup.map_on ?_ (List.nodup_range _)
  intro i hi j hj hij
  rw [List.mem_range] at hi hj
  exact wrap16_inj a i j (by omega) (by omega) hij

/-- Witness of C22 (amended) on `{ posts { id title user { id name } tags { label } } }`:
the three selects have the IDs 0, 1, 2. -/
theorem compileQuery_ids_unique_up_to_wrap_witness :
    Examples.com.compileQuery Examples.inflect Examples.opPosts
      = Result.ok ⟨some Examples.postsRoot⟩ ∧
    Field.wellNumberedList Examples.opPosts.Fields = true ∧
    Examples.postsRoot.subs.map (fun s => s.ID) = [0, 1, 2] ∧
    ((∃ a, Examples.postsRoot.subs.map (fun s => s.ID)
      = (List.range Examples.postsRoot.subs.length).map (fun i => wrap16 (a + i))) ∧
    (Examples.postsRoot.subs.length ≤ 65536 →
      (Examples.postsRoot.subs.map (fun s => s.ID)).Nodup)) :=
  ⟨rfl, rfl, rfl, compileQuery_ids_unique_up_to_wrap Examples.com Examples.inflect
    Examples.opPosts ⟨some Examples.postsRoot⟩ Examples.postsRoot rfl rfl rfl⟩

end qcode

/-! ### An operation with more selects than the 16-bit counter has values -/

namespace qcode

open GoStr

theorem childrenLoop_wide :
    ∀ (l : List Nat), childrenLoop Examples.com (l.map Examples.wideKid)
      = ([], l.map Examples.wideKid)
  | [] => rfl
  | i :: l => by
    have hb : Examples.com.bl.contains (ToLower (Examples.wideKid i).Name) = false := rfl
    have he : (Examples.wideKid i).Children.isEmpty = false := rfl
    rw [List.map_cons, childrenLoop, childrenLoop_wide l]
    simp only [hb, he, Bool.false_eq_true, if_false]

theorem sizeList_wide :
    ∀ (l : List Nat), Field.sizeList (l.map Examples.wideKid) = 2 * l.length
  | [] => rfl
  | i :: l => by
    have h1 : (Examples.wideKid i).size = 2 := rfl
    rw [List.map_cons, Field.sizeList, sizeList_wide l, h1, List.length_cons]
    omega

theorem idsList_wide :
    ∀ (l : List Nat), 0 ∉ Field.idsList (l.map Examples.wideKid)
  | [] => by simp [Field.idsList]
  | i :: l => by
    have h1 : (Examples.wideKid i).ids = [2 * i + 1, 2 * i + 2] := rfl
    rw [List.map_cons, Field.idsList, h1]
    have := idsList_wide l
    simp only [List.mem_append, List.mem_cons, List.mem_singleton, List.mem_nil_iff, or_false,
      not_or]
    exact ⟨⟨by omega, by omega⟩, this⟩

theorem wellNumberedList_wide :
    ∀ (l : List Nat), Field.wellNumberedList (l.map Examples.wideKid) = true
  | [] => rfl
  | i :: l => by
    have h1 : (Examples.wideKid i).wellNumbered = true := by
      simp [Examples.wideKid, Examples.leaf, Field.wellNumbered, Field.wellNumberedList,
        Field.idsList, Field.ids]
    rw [List.map_cons, Field.wellNumberedList, h1, wellNumberedList_wide l]
    rfl

theorem wellNumbered_opWide (n : Nat) :
    Field.wellNumberedList (Examples.opWide n).Fields = true := by
  have h0 := idsList_wide (List.range n)
  simp only [Examples.opWide, Field.wellNumberedList, Field.wellNumbered, Bool.and_true,
    wellNumberedList_wide, Bool.and_eq_true, Bool.not_eq_true']
  simpa using h0

/-- The loop of `compileQuery` on a stack of children `posts { id }` of the
select at field ID 0: it ends well, whatever their number. -/
theorem compileQueryLoop_wide :
    ∀ (l : List Nat) (q : QState) (fuel pa : Nat),
      (∀ i ∈ l, 2 * i + 1 < q.fs.length) → q.fs[0]? = some (some pa) →
      ∃ q1, compileQueryLoop Examples.com Examples.inflect (fuel + l.length)
          (l.map (fun i => (Examples.wideKid i, some 0))) q = Result.ok q1 ∧
        q1.selRoot = q.selRoot
  | [], q, fuel, pa, _, _ => ⟨q, by cases fuel <;> rfl, rfl⟩
  | i :: l, q, fuel, pa, hl, hfs => by
    have hi : 2 * i + 1 < q.fs.length := hl i (List.mem_cons_self _ _)
    have hb : Examples.com.bl.contains (ToLower (Examples.wideKid i).Name) = false := rfl
    have hlen : ¬ q.fs.length ≤ (Examples.wideKid i).ID := by
      show ¬ q.fs.length ≤ 2 * i + 1
      omega
    have hargs : Examples.com.compileArgs (newSelect Examples.inflect q.id (Examples.wideKid i))
        (Examples.wideKid i).Args
          = Result.ok (newSelect Examples.inflect q.id (Examples.wideKid i)) := rfl
    have hch : childrenLoop Examples.com (Examples.wideKid i).Children
        = ([⟨"", "id", "id"⟩], []) := rfl
    have hfs1 : (q.fs.set (Examples.wideKid i).ID (some q.heap.length))[0]? = some (some pa) := by
      rw [List.getElem?_set_ne]
      · exact hfs
      · show 2 * i + 1 ≠ 0
        omega
    have hfuel : fuel + (i :: l).length = (fuel + l.length) + 1 := by
      simp only [List.length_cons]
      omega
    rw [hfuel, List.map_cons, compileQueryLoop]
    simp only [hb, Bool.false_eq_true, if_false, hlen, hargs, hch, hfs1, List.map_nil,
      List.reverse_nil, List.nil_append]
    obtain ⟨q1, h1, h2⟩ := compileQueryLoop_wide l
      ⟨incr16 q.id, q.fs.set (Examples.wideKid i).ID (some q.heap.length),
        addJoin (q.heap ++ [(⟨{ newSelect Examples.inflect q.id (Examples.wideKid i) with
          Cols := (newSelect Examples.inflect q.id (Examples.wideKid i)).Cols ++
            [⟨"", "id", "id"⟩] }, []⟩ : Cell)]) pa q.heap.length, q.selRoot⟩ fuel pa
      (fun j hj => by
        simp only [List.length_set]
        exact hl j (List.mem_cons_of_mem _ hj)) hfs1
    exact ⟨q1, h1, h2⟩

end qcode

namespace qcode

open GoStr

/-- The walk of `compileQuery` over the wide operation ends well, with the
select of the top-level field as root. -/
theorem compileQueryWalk_wide (n : Nat) :
    ∃ qs, Examples.com.compileQueryWalk Examples.inflect (Examples.opWide n) = Result.ok qs ∧
      qs.selRoot = some 0 := by
  have hfuel : Field.sizeList (Examples.opWide n).Fields = (n + (List.range n).reverse.length) + 1 := by
    simp only [Examples.opWide, Field.sizeList, Field.size, sizeList_wide, List.length_reverse,
      List.length_range]
    omega
  have hb : Examples.com.bl.contains (ToLower "users") = false := rfl
  have hargs : ∀ kids, Examples.com.compileArgs
      (newSelect Examples.inflect 0 ⟨0, "users", "", [], kids⟩) []
        = Result.ok (newSelect Examples.inflect 0 ⟨0, "users", "", [], kids⟩) := fun _ => rfl
  have hstack : ((List.range n).map Examples.wideKid).map (fun f => (f, some 0))
      = (List.range n).map (fun i => (Examples.wideKid i, some 0)) := by
    rw [List.map_map]
    rfl
  unfold Compiler.compileQueryWalk
  rw [hfuel]
  simp only [Examples.opWide, List.map_cons, List.map_nil, List.reverse_cons, List.reverse_nil,
    List.nil_append]
  rw [compileQueryLoop]
  simp only [hb, Bool.false_eq_true, if_false, List.length_replicate, Nat.le_zero_eq,
    hargs, childrenLoop_wide, hstack, List.append_nil, ← List.map_reverse]
  rw [if_neg (by omega)]
  refine compileQueryLoop_wide (List.range n).reverse _ n 0 ?_ ?_
  · intro i hi
    simp only [List.length_set, List.length_replicate]
    have := List.mem_range.mp (List.mem_reverse.mp hi)
    omega
  · exact List.getElem?_set_self (by simp)

end qcode

namespace qcode

open GoStr

theorem TreesOf_length (com : Compiler) (inf : Inflect) :
    ∀ (kids : List Field) (ts : List Select), TreesOf com inf kids ts →
      ts.length = (childrenLoop com kids).2.length
  | [], ts, h => by
    simp only [TreesOf] at h
    subst h
    rfl
  | g :: rest, ts, h => by
    by_cases hskip : com.bl.contains (ToLower g.Name) = true ∨ g.Children.isEmpty = true
    · simp only [TreesOf, hskip, if_true] at h
      rw [childrenLoop_skip com g rest hskip]
      exact TreesOf_length com inf rest ts h
    · simp only [TreesOf, hskip, if_false] at h
      obtain ⟨ts1, tg, rfl, h1, _⟩ := h
      rw [childrenLoop_push com g rest hskip, List.length_append, List.length_cons,
        TreesOf_length com inf rest ts1 h1]
      rfl

theorem Select.subsList_length_ge :
    ∀ (js : List Select), js.length ≤ (Select.subsList js).length
  | [] => Nat.le_refl _
  | j :: js => by
    have := Select.subsList_length_ge js
    rw [Select.subsList_cons, Select.subs_eq]
    simp only [List.length_cons]
    omega

/-- The function `compileQuery` returns a QCode for the wide operation, with at
least one select for each of the `n` children. -/
theorem compileQuery_wide (n : Nat) :
    ∃ q root, Examples.com.compileQuery Examples.inflect (Examples.opWide n) = Result.ok q ∧
      q.Select = some root ∧ n ≤ (Select.subsList root.Joins).length := by
  obtain ⟨qs, hw, hr⟩ := compileQueryWalk_wide n
  obtain ⟨f, t, H, hf, _, ht, _, _, hbt⟩ :=
    compileQueryWalk_layout Examples.com Examples.inflect (Examples.opWide n) qs 0 hw hr
      (wellNumbered_opWide n)
  refine ⟨⟨some { t with Where := applyFilter (Examples.com.filterFor t.Table) t.Where }⟩, _,
    ?_, rfl, ?_⟩
  · simp only [Compiler.compileQuery, hw, hr, Option.some_bind, hbt]
  · simp only [Examples.opWide, List.mem_singleton] at hf
    subst hf
    have hts := ((TreeOf_eq Examples.com Examples.inflect _ t).1 ht).2
    have hlen := TreesOf_length Examples.com Examples.inflect _ _ hts
    simp only [childrenLoop_wide, List.length_map, List.length_range] at hlen
    have := Select.subsList_length_ge t.Joins
    show n ≤ (Select.subsList t.Joins).length
    omega

/-- C22 fails as stated: for the operation `{ users { posts { id } ... } }` with
65536 children `posts { id }`, `compileQuery` returns a QCode in which a select
below the root has the ID of the root: the 16-bit counter has wrapped. -/
theorem compileQuery_ids_repeat_after_wrap :
    ∃ q root, Examples.com.compileQuery Examples.inflect (Examples.opWide 65536) = Result.ok q ∧
      q.Select = some root ∧ ∃ s ∈ Select.subsList root.Joins, s.ID = root.ID := by
  obtain ⟨q, root, hq, hroot, hlen⟩ := compileQuery_wide 65536
  obtain ⟨a, ha⟩ := compileQuery_subs_ids Examples.com Examples.inflect (Examples.opWide 65536)
    q root hq hroot (wellNumbered_opWide 65536)
  refine ⟨q, root, hq, hroot, ?_⟩
  rw [Select.subs_eq] at ha
  have hlt : 65535 < (Select.subsList root.Joins).length := by omega
  refine ⟨(Select.subsList root.Joins)[65535], List.getElem_mem _, ?_⟩
  have h0 := congrArg (fun L => L[0]?) ha
  have hk := congrArg (fun L => L[65536]?) ha
  simp only [List.map_cons, List.length_cons, List.getElem?_cons_zero, List.getElem?_cons_succ,
    List.getElem?_map, List.getElem?_range, List.getElem?_eq_getElem hlt] at h0 hk
  rw [List.getElem?_range (by omega)] at h0 hk
  simp only [Option.map_some', Option.some.injEq, Nat.add_zero] at h0 hk
  rw [hk, h0, wrap16_period]

end qcode

/-! ### The arities of the expressions that `compileArgNode` builds -/

namespace qcode

open GoStr

theorem Node.yield_eq (com : Compiler) (n : Node) :
    n.yield com =
      if (n.Name.length != 0 && com.bl.contains (ToLower n.Name)) = true then 0
      else if n.Name.length = 0 then Node.yieldList com n.Children
      else if nodeOp n = "and" ∨ nodeOp n = "or" ∨ nodeOp n = "not" then 1
      else if (terminalStart n).isSome = true then 1
      else Node.yieldList com n.Children := by
  cases n
  simp only [Node.yield]

theorem Node.arityOK_unfold (com : Compiler) (n : Node) :
    n.arityOK com =
      if (n.Name.length != 0 && com.bl.contains (ToLower n.Name)) = true then true
      else if n.Name.length = 0 then Node.arityOKList com n.Children
      else if nodeOp n = "and" ∨ nodeOp n = "or" then
        decide (2 ≤ Node.yieldList com n.Children) && Node.arityOKList com n.Children
      else if nodeOp n = "not" then
        (match n.Children with
        | c :: _ => decide (c.yield com = 1) && c.arityOK com
        | [] => false)
      else if (terminalStart n).isSome = true then true
      else Node.arityOKList com n.Children := by
  obtain ⟨t, nm, v, cs⟩ := n
  cases cs <;> rfl

theorem Node.arityOKList_mem (com : Compiler) :
    ∀ (l : List Node), Node.arityOKList com l = true → ∀ c ∈ l, c.arityOK com = true
  | [], _, c, hc => by simp at hc
  | x :: l, h, c, hc => by
    simp only [Node.arityOKList, Bool.and_eq_true] at h
    rcases List.mem_cons.mp hc with rfl | hc1
    · exact h.1
    · exact Node.arityOKList_mem com l h.2 c hc1

theorem pending_cons (com : Compiler) (e : expT) (st : List expT) (q : Option Nat) :
    pending com (e :: st) q = (if e.parent = q then e.node.yield com else 0) + pending com st q := by
  unfold pending
  by_cases h : e.parent = q
  · simp [List.filter_cons, h]
  · simp [List.filter_cons, h]

theorem pending_append (com : Compiler) (a b : List expT) (q : Option Nat) :
    pending com (a ++ b) q = pending com a q + pending com b q := by
  induction a with
  | nil => simp [pending]
  | cons e a ih =>
    rw [List.cons_append, pending_cons, pending_cons, ih]
    omega

theorem pending_reverse (com : Compiler) (a : List expT) (q : Option Nat) :
    pending com a.reverse q = pending com a q := by
  induction a with
  | nil => rfl
  | cons e a ih =>
    rw [List.reverse_cons, pending_append, ih, pending_cons, pending_cons]
    simp [pending]
    omega

theorem pending_children (com : Compiler) (p q : Option Nat) (anc : List Node) :
    ∀ (cs : List Node), pending com (cs.map (fun c => (⟨p, c, anc⟩ : expT))) q
      = if p = q then Node.yieldList com cs else 0
  | [] => by simp [pending, Node.yieldList]
  | c :: cs => by
    rw [List.map_cons, pending_cons, pending_children com p q anc cs]
    by_cases h : p = q
    · simp [h, Node.yieldList]
    · simp [h]

theorem pending_pushChildren (com : Compiler) (st : List expT) (p q : Option Nat) (node : Node)
    (anc : List Node) :
    pending com (pushChildren st p node anc) q
      = (if p = q then Node.yieldList com node.Children else 0) + pending com st q := by
  unfold pushChildren
  rw [pending_append, pending_reverse, pending_children]

theorem pending_nil (com : Compiler) (q : Option Nat) : pending com [] q = 0 := rfl

/-- No entry of the stack has the parent `q`: nothing is pending for `q`. -/
theorem pending_fresh (com : Compiler) (st : List expT) (q : Option Nat)
    (h : ∀ e ∈ st, e.parent ≠ q) : pending com st q = 0 := by
  induction st with
  | nil => rfl
  | cons e st ih =>
    rw [pending_cons, if_neg (h e (List.mem_cons_self _ _)),
      ih (fun x hx => h x (List.mem_cons_of_mem _ hx))]

theorem Exp.arityOK_eq (e : Exp) :
    e.arityOK =
      ((if e.Op = ExpOp.OpAnd ∨ e.Op = ExpOp.OpOr then decide (2 ≤ e.Children.length)
        else if e.Op = ExpOp.OpNot then decide (e.Children.length = 1) else true) &&
        Exp.arityOKList e.Children) := by
  cases e
  simp only [Exp.arityOK]

theorem Exp.arityOKList_map (f : Nat → Exp) :
    ∀ (l : List Nat), (∀ k ∈ l, (f k).arityOK = true) →
      Exp.arityOKList (l.map (fun k => some (f k))) = true
  | [], _ => rfl
  | k :: l, h => by
    simp only [List.map_cons, Exp.arityOKList, Bool.and_eq_true]
    exact ⟨h k (List.mem_cons_self _ _),
      Exp.arityOKList_map f l (fun x hx => h x (List.mem_cons_of_mem _ hx))⟩

theorem Exp.arityOK_zero : Exp.zero.arityOK = true := rfl

/-- The tree built from a heap whose cells have their children after them and
the arities of the invariant satisfies the invariant. -/
theorem buildExp_arity (heap : List ExpCell)
    (hh : ∀ (a : Nat) (cell : ExpCell), heap[a]? = some cell →
      (∀ k ∈ cell.kids, a < k) ∧ opArity cell.ex.Op cell.kids.length) :
    ∀ (n a : Nat), heap.length ≤ n + a → (buildExp heap n a).arityOK = true := by
  intro n
  induction n with
  | zero =>
    intro a ha
    have hnone : heap[a]? = none := List.getElem?_eq_none (by omega)
    simp only [buildExp, hnone, Option.map_none', Option.getD_none]
    rfl
  | succ n ih =>
    intro a ha
    simp only [buildExp]
    cases hc : heap[a]? with
    | none => rfl
    | some cell =>
      obtain ⟨hk, hop⟩ := hh a cell hc
      simp only
      rw [Exp.arityOK_eq]
      simp only [List.length_map, Bool.and_eq_true]
      refine ⟨?_, Exp.arityOKList_map (buildExp heap n) cell.kids
        (fun k hkm => ih k (by have := hk k hkm; omega))⟩
      by_cases h1 : cell.ex.Op = ExpOp.OpAnd ∨ cell.ex.Op = ExpOp.OpOr
      · rw [if_pos h1]
        simpa using hop.1 h1
      · by_cases h2 : cell.ex.Op = ExpOp.OpNot
        · rw [if_neg h1, if_pos h2]
          simpa using hop.2 h2
        · rw [if_neg h1, if_neg h2]

end qcode
namespace qcode

open GoStr

theorem setWhereColName_op (ex : Exp) (anc : List Node) : (setWhereColName ex anc).Op = ex.Op := by
  unfold setWhereColName
  simp only
  split
  · rfl
  · split <;> rfl

theorem finishTerminal_op (ex0 ex : Exp) (node : Node) (anc : List Node)
    (h : finishTerminal ex0 node anc = Result.ok ex) : ex.Op = ex0.Op := by
  obtain ⟨t, rfl⟩ := finishTerminal_eq ex0 ex node anc h
  rw [setWhereColName_op]

theorem opArity_terminal (op : ExpOp) (k : Nat) (h1 : op ≠ ExpOp.OpAnd) (h2 : op ≠ ExpOp.OpOr)
    (h3 : op ≠ ExpOp.OpNot) : opArity op k :=
  ⟨fun h => by rcases h with h | h <;> contradiction, fun h => absurd h h3⟩

/-- What `newExp` does to the stack when it skips a node: the children take the
place of the node. -/
theorem newExp_none_sum (com : Compiler) (st st1 : List expT) (addr : Nat) (eT : expT)
    (hok : eT.node.arityOK com = true)
    (hnb : ¬ ((eT.node.Name.length != 0 && com.bl.contains (ToLower eT.node.Name)) = true))
    (h : newExp st addr eT = Result.ok (none, st1)) :
    (∀ e ∈ st1, e ∈ st ∨ (e.node.arityOK com = true ∧ e.parent = eT.parent)) ∧
    (∀ q, pending com st1 q = pending com (eT :: st) q) := by
  have hpush : ∀ (hy : eT.node.yield com = Node.yieldList com eT.node.Children)
      (ha : Node.arityOKList com eT.node.Children = true),
      (∀ e ∈ pushChildren st eT.parent eT.node eT.anc,
        e ∈ st ∨ (e.node.arityOK com = true ∧ e.parent = eT.parent)) ∧
      (∀ q, pending com (pushChildren st eT.parent eT.node eT.anc) q
        = pending com (eT :: st) q) := by
    intro hy ha
    refine ⟨fun e he => ?_, fun q => ?_⟩
    · unfold pushChildren at he
      rcases List.mem_append.mp he with h1 | h1
      · obtain ⟨c, hc, rfl⟩ := List.mem_map.mp (List.mem_reverse.mp h1)
        exact Or.inr ⟨Node.arityOKList_mem com _ ha c hc, rfl⟩
      · exact Or.inl h1
    · rw [pending_pushChildren, pending_cons, hy]
  rw [Node.yield_eq, if_neg hnb] at hpush
  rw [Node.arityOK_unfold, if_neg hnb] at hok
  by_cases h0 : eT.node.Name.length = 0
  · rw [newExp_empty st addr eT h0] at h
    cases h
    rw [if_pos h0] at hpush hok
    exact hpush rfl hok
  · rw [if_neg h0] at hpush hok
    by_cases h1 : nodeOp eT.node = "and"
    · rw [newExp_and st addr eT h0 h1] at h
      cases h
    · by_cases h2 : nodeOp eT.node = "or"
      · rw [newExp_or st addr eT h0 h1 h2] at h
        cases h
      · by_cases h3 : nodeOp eT.node = "not"
        · rw [newExp_not st addr eT h0 h1 h2 h3] at h
          split at h <;> cases h
        · rw [newExp_terminal_eq st addr eT h0 h1 h2 h3] at h
          have hn1 : ¬ (nodeOp eT.node = "and" ∨ nodeOp eT.node = "or" ∨
              nodeOp eT.node = "not") := by
            rintro (x | x | x)
            · exact h1 x
            · exact h2 x
            · exact h3 x
          have hn2 : ¬ (nodeOp eT.node = "and" ∨ nodeOp eT.node = "or") := by
            rintro (x | x)
            · exact h1 x
            · exact h2 x
          rw [if_neg hn1] at hpush
          rw [if_neg hn2, if_neg h3] at hok
          cases hts : terminalStart eT.node with
          | none =>
            rw [hts] at h hpush hok
            simp only at h
            cases h
            exact hpush rfl hok
          | some ex0 =>
            rw [hts] at h
            simp only at h
            split at h <;> cases h

/-- What `newExp` does to the stack when it creates an expression: the node
hands one expression to its parent, and what it pushes is pending for the new
expression alone, in the number its arity asks for. -/
theorem newExp_some_sum (com : Compiler) (st st1 : List expT) (addr : Nat) (eT : expT)
    (ex : Exp) (hok : eT.node.arityOK com = true)
    (hnb : ¬ ((eT.node.Name.length != 0 && com.bl.contains (ToLower eT.node.Name)) = true))
    (h : newExp st addr eT = Result.ok (some ex, st1)) :
    eT.node.yield com = 1 ∧
    (∀ e ∈ st1, e ∈ st ∨ (e.node.arityOK com = true ∧ e.parent = some addr)) ∧
    ∃ K, opArity ex.Op K ∧
      ∀ q, pending com st1 q = (if some addr = q then K else 0) + pending com st q := by
  have hpush : ∀ (ha : Node.arityOKList com eT.node.Children = true),
      (∀ e ∈ pushChildren st (some addr) eT.node eT.anc,
        e ∈ st ∨ (e.node.arityOK com = true ∧ e.parent = some addr)) := by
    intro ha e he
    unfold pushChildren at he
    rcases List.mem_append.mp he with h1 | h1
    · obtain ⟨c, hc, rfl⟩ := List.mem_map.mp (List.mem_reverse.mp h1)
      exact Or.inr ⟨Node.arityOKList_mem com _ ha c hc, rfl⟩
    · exact Or.inl h1
  have hy := Node.yield_eq com eT.node
  rw [if_neg hnb] at hy
  rw [Node.arityOK_unfold, if_neg hnb] at hok
  by_cases h0 : eT.node.Name.length = 0
  · rw [newExp_empty st addr eT h0] at h
    cases h
  · rw [if_neg h0] at hy hok
    by_cases h1 : nodeOp eT.node = "and"
    · rw [newExp_and st addr eT h0 h1] at h
      cases h
      rw [if_pos (Or.inl h1)] at hy hok
      simp only [Bool.and_eq_true, decide_eq_true_eq] at hok
      exact ⟨hy, hpush hok.2, Node.yieldList com eT.node.Children,
        ⟨fun _ => hok.1, fun hh => (by cases hh)⟩, fun q => pending_pushChildren com st _ q _ _⟩
    · by_cases h2 : nodeOp eT.node = "or"
      · rw [newExp_or st addr eT h0 h1 h2] at h
        cases h
        rw [if_pos (Or.inr (Or.inl h2))] at hy
        rw [if_pos (Or.inr h2)] at hok
        simp only [Bool.and_eq_true, decide_eq_true_eq] at hok
        exact ⟨hy, hpush hok.2, Node.yieldList com eT.node.Children,
          ⟨fun _ => hok.1, fun hh => (by cases hh)⟩, fun q => pending_pushChildren com st _ q _ _⟩
      · have hn2 : ¬ (nodeOp eT.node = "and" ∨ nodeOp eT.node = "or") := by
          rintro (x | x)
          · exact h1 x
          · exact h2 x
        rw [if_neg hn2] at hok
        by_cases h3 : nodeOp eT.node = "not"
        · rw [newExp_not st addr eT h0 h1 h2 h3] at h
          rw [if_pos (Or.inr (Or.inr h3))] at hy
          rw [if_pos h3] at hok
          cases hc : eT.node.Children with
          | nil =>
            rw [hc] at h
            cases h
          | cons c cs =>
            rw [hc] at h hok
            simp only [Bool.and_eq_true, decide_eq_true_eq] at hok
            cases h
            refine ⟨hy, ?_, 1, ⟨fun hh => (by rcases hh with hh | hh <;> cases hh), fun _ => rfl⟩,
              fun q => ?_⟩
            · intro e he
              rcases List.mem_cons.mp he with rfl | he1
              · exact Or.inr ⟨hok.2, rfl⟩
              · exact Or.inl he1
            · rw [pending_cons]
              simp only [hok.1]
        · rw [newExp_terminal_eq st addr eT h0 h1 h2 h3] at h
          have hn1 : ¬ (nodeOp eT.node = "and" ∨ nodeOp eT.node = "or" ∨
              nodeOp eT.node = "not") := by
            rintro (x | x | x)
            · exact h1 x
            · exact h2 x
            · exact h3 x
          rw [if_neg hn1] at hy
          cases hts : terminalStart eT.node with
          | none =>
            rw [hts] at h
            simp only at h
            cases h
          | some ex0 =>
            rw [hts] at h hy
            simp only at h
            obtain ⟨a1, a2, a3, _⟩ := terminalStart_some eT.node ex0 hts
            cases hf : finishTerminal ex0 eT.node eT.anc with
            | ok ex1 =>
              rw [hf] at h
              simp only at h
              cases h
              have hop := finishTerminal_op ex0 ex eT.node eT.anc hf
              refine ⟨by simpa using hy, fun e he => Or.inl he, 0,
                opArity_terminal _ _ (hop ▸ a1) (hop ▸ a2) (hop ▸ a3), fun q => ?_⟩
              split <;> simp
            | error e =>
              rw [hf] at h
              cases h
            | panicked e =>
              rw [hf] at h
              cases h
            | outOfFuel =>
              rw [hf] at h
              cases h

end qcode
namespace qcode

open GoStr

theorem stackOK_tail (com : Compiler) (e : expT) (st : List expT) (len : Nat)
    (h : stackOK com (e :: st) len) : stackOK com st len :=
  fun x hx => h x (List.mem_cons_of_mem _ hx)

theorem pending_fresh_len (com : Compiler) (st : List expT) (len : Nat)
    (h : stackOK com st len) : pending com st (some len) = 0 := by
  apply pending_fresh
  intro e he hp
  have := (h e he).2 len hp
  omega

/-- The loop of `compileArgNode` keeps the arities: when the entries of the stack
respect them and every cell of the heap has its arity once the stack is worked
off, the cells of the final heap have the arities of the invariant. -/
theorem compileArgNodeLoop_arity (com : Compiler) :
    ∀ (n : Nat) (st : List expT) (heap : List ExpCell) (root : Option Nat)
      (r : List ExpCell × Option Nat),
      stackOK com st heap.length → heapOK com st heap →
      compileArgNodeLoop com n st heap root = Result.ok r → heapOK com [] r.1 := by
  intro n
  induction n with
  | zero =>
    intro st heap root r hs hh h
    cases st with
    | nil =>
      simp only [compileArgNodeLoop] at h
      cases h
      exact hh
    | cons e st =>
      simp only [compileArgNodeLoop] at h
      cases h
  | succ n ih =>
    intro st heap root r hs hh h
    cases st with
    | nil =>
      simp only [compileArgNodeLoop] at h
      cases h
      exact hh
    | cons eT st =>
      rw [compileArgNodeLoop] at h
      have hst := stackOK_tail com eT st heap.length hs
      have heT := hs eT (List.mem_cons_self _ _)
      by_cases hb : (eT.node.Name.length != 0 && com.bl.contains (ToLower eT.node.Name)) = true
      · rw [if_pos hb] at h
        refine ih st heap root r hst ?_ h
        intro a cell hc
        have := hh a cell hc
        rw [pending_cons, Node.yield_eq, if_pos hb] at this
        simpa using this
      · rw [if_neg hb] at h
        cases hn : newExp st heap.length eT with
        | error e =>
          rw [hn] at h
          cases h
        | panicked e =>
          rw [hn] at h
          cases h
        | outOfFuel =>
          rw [hn] at h
          cases h
        | ok res =>
          obtain ⟨oex, st1⟩ := res
          rw [hn] at h
          cases oex with
          | none =>
            simp only at h
            obtain ⟨hm, hp⟩ := newExp_none_sum com st st1 heap.length eT heT.1 hb hn
            refine ih st1 heap root r ?_ ?_ h
            · intro e he
              rcases hm e he with h1 | ⟨h1, h2⟩
              · exact hst e h1
              · exact ⟨h1, fun p hpp => heT.2 p (h2 ▸ hpp)⟩
            · intro a cell hc
              rw [hp]
              exact hh a cell hc
          | some ex =>
            simp only at h
            obtain ⟨hy, hm, K, hK, hp⟩ :=
              newExp_some_sum com st st1 heap.length eT ex heT.1 hb hn
            have hfresh := pending_fresh_len com st heap.length hst
            have hs1 : ∀ (hp2 : List ExpCell), hp2.length = heap.length + 1 →
                stackOK com st1 hp2.length := by
              intro hp2 hl e he
              rcases hm e he with h1 | ⟨h1, h2⟩
              · refine ⟨(hst e h1).1, fun p hpp => ?_⟩
                have := (hst e h1).2 p hpp
                omega
              · refine ⟨h1, fun p hpp => ?_⟩
                rw [h2] at hpp
                cases hpp
                omega
            have hnew : opArity ex.Op (0 + pending com st1 (some heap.length)) := by
              rw [hp, if_pos rfl, hfresh]
              simpa using hK
            have hold : ∀ (a : Nat), a < heap.length →
                pending com st1 (some a) = pending com st (some a) := by
              intro a ha
              rw [hp, if_neg (by intro hx; cases hx; omega)]
              omega
            cases hpar : eT.parent with
            | none =>
              rw [hpar] at h
              simp only at h
              refine ih st1 _ _ r (hs1 _ (by simp)) ?_ h
              intro a cell hc
              by_cases ha : a < heap.length
              · rw [List.getElem?_append_left ha] at hc
                have := hh a cell hc
                rw [pending_cons, hpar] at this
                rw [hold a ha]
                simpa using this
              · have ha2 : a = heap.length := by
                  have := (List.getElem?_eq_some.mp hc).1
                  simp at this
                  omega
                subst ha2
                simp at hc
                subst hc
                exact ⟨fun k hk => by simp at hk, hnew⟩
            | some p =>
              rw [hpar] at h
              simp only at h
              have hpl : p < heap.length := heT.2 p hpar
              refine ih st1 _ _ r (hs1 _ (by simp [addKid])) ?_ h
              intro a cell hc
              unfold addKid at hc
              by_cases hap : a = p
              · subst hap
                rw [List.getElem?_modify_eq, List.getElem?_append_left hpl] at hc
                cases hc0 : heap[a]? with
                | none =>
                  rw [hc0] at hc
                  cases hc
                | some cell0 =>
                  rw [hc0] at hc
                  simp only [Option.map_eq_map, Option.map_some', Option.some.injEq] at hc
                  subst hc
                  have := hh a cell0 hc0
                  rw [pending_cons, hpar, if_pos rfl, hy] at this
                  refine ⟨fun k hk => ?_, ?_⟩
                  · rcases List.mem_append.mp hk with hk1 | hk1
                    · exact this.1 k hk1
                    · simp at hk1
                      omega
                  · rw [hold a hpl]
                    simp only [List.length_append, List.length_singleton]
                    have h2 := this.2
                    rw [show cell0.kids.length + (1 + pending com st (some a))
                      = cell0.kids.length + 1 + pending com st (some a) by omega] at h2
                    exact h2
              · rw [List.getElem?_modify_ne _ _ (Ne.symm hap)] at hc
                by_cases ha : a < heap.length
                · rw [List.getElem?_append_left ha] at hc
                  have := hh a cell hc
                  rw [pending_cons, hpar, if_neg (by intro hx; cases hx; exact hap rfl)] at this
                  rw [hold a ha]
                  simpa using this
                · have ha2 : a = heap.length := by
                    have := (List.getElem?_eq_some.mp hc).1
                    simp at this
                    omega
                  subst ha2
                  simp at hc
                  subst hc
                  exact ⟨fun k hk => by simp at hk, hnew⟩

end qcode
namespace qcode

open GoStr

/-- The arities of a tree of `compileArgNode`: for an argument object whose first
child respects the arities (`Node.arityOK`), the loop ends within its fuel and
every tree it returns satisfies the invariant: each And and Or node has at
least two children and each Not node exactly one. -/
theorem compileArgNode_arity (com : Compiler) (val c : Node) (rest : List Node)
    (hc : val.Children = c :: rest) (hok : c.arityOK com = true) :
    com.compileArgNode val ≠ Result.outOfFuel ∧
      ∀ (e : Exp), com.compileArgNode val = Result.ok (some e) → e.arityOK = true := by
  have hfuel : stackSize [(⟨none, c, [val]⟩ : expT)] ≤ val.size := by
    rw [stackSize_cons, Node.size_eq val, hc]
    simp only [Node.sizeList, stackSize, List.map_nil]
    omega
  have hf := compileArgNodeLoop_fuel com val.size [⟨none, c, [val]⟩] [] none hfuel
  have hs : stackOK com [(⟨none, c, [val]⟩ : expT)] ([] : List ExpCell).length := by
    intro e he
    rw [List.mem_singleton] at he
    subst he
    exact ⟨hok, fun p hp => by cases hp⟩
  have hh : heapOK com [(⟨none, c, [val]⟩ : expT)] [] := by
    intro a cell hcell
    simp at hcell
  have hinv := compileArgNodeLoop_arity com val.size [⟨none, c, [val]⟩] [] none
  simp only [Compiler.compileArgNode, hc]
  cases hl : compileArgNodeLoop com val.size [⟨none, c, [val]⟩] [] none with
  | error e => exact ⟨by simp, fun e h => by cases h⟩
  | panicked e => exact ⟨by simp, fun e h => by cases h⟩
  | outOfFuel => exact absurd hl hf
  | ok r =>
    obtain ⟨heap, root⟩ := r
    refine ⟨by simp, fun e h => ?_⟩
    have hfin := hinv (heap, root) hs hh hl
    simp only [Result.ok.injEq] at h
    cases root with
    | none => cases h
    | some a =>
      simp only [Option.map_some', Option.some.injEq] at h
      subst h
      refine buildExp_arity heap (fun a cell hcell => ?_) heap.length a (by omega)
      have := hfin a cell hcell
      rw [pending_nil] at this
      exact this

/-- C23 (counterexample): the arity of a connective follows the where object.
For `where: { and: { name: { eq: "x" } } }` the tree that `compileArgNode`
returns, and the `Where` of the root select of `compileQuery` for
`{ users(where: { and: { name: { eq: "x" } } }) { name } }`, is an `And` with
one child; for `where: { not: { age: { gt: 1, lt: 5 } } }` `compileArgNode`
returns a `Not` with two children. -/
theorem compileArgNode_arity_follows_input :
    Examples.com.compileArgNode Examples.whereAndOne = Result.ok (some Examples.andOfOne) ∧
    (Examples.com.compileQuery Examples.inflect Examples.opWhereAndOne).root.map
      (fun s => s.Where) = some (some Examples.andOfOne) ∧
    Examples.andOfOne.Op = ExpOp.OpAnd ∧ Examples.andOfOne.Children.length = 1 ∧
    Examples.andOfOne.arityOK = false ∧
    Examples.com.compileArgNode Examples.whereNotTwo = Result.ok (some Examples.notOfTwo) ∧
    Examples.notOfTwo.Op = ExpOp.OpNot ∧ Examples.notOfTwo.Children.length = 2 ∧
    Examples.notOfTwo.arityOK = false :=
  ⟨rfl, rfl, rfl, rfl, rfl, rfl, rfl, rfl, rfl⟩

end qcode

namespace qcode

open GoStr

theorem Exp.arityOK_terminal (e : Exp) (h1 : e.Op ≠ ExpOp.OpAnd) (h2 : e.Op ≠ ExpOp.OpOr)
    (h3 : e.Op ≠ ExpOp.OpNot) (hc : e.Children = []) : e.arityOK = true := by
  rw [Exp.arityOK_eq, hc]
  have : ¬ (e.Op = ExpOp.OpAnd ∨ e.Op = ExpOp.OpOr) := by
    rintro (x | x)
    · exact h1 x
    · exact h2 x
  rw [if_neg this, if_neg h3]
  rfl

/-- The node `&Exp{Op: OpAnd, Children: {a, b}}` has two children; it satisfies
the invariant when the children that are not nil do. -/
theorem andPair_arityOK (a b : Option Exp) (ha : whereArityOK a = true)
    (hb : whereArityOK b = true) : (andPair a b).arityOK = true := by
  rw [Exp.arityOK_eq]
  cases a <;> cases b <;>
    simp_all [andPair, Exp.zero, Exp.arityOKList, whereArityOK]

theorem compileArgObj_arity (com : Compiler) (arg : Arg) (ex : Option Exp)
    (hok : Node.firstOK com arg.Val = true) (h : com.compileArgObj arg = Result.ok ex) :
    whereArityOK ex = true := by
  unfold Compiler.compileArgObj at h
  split at h
  · cases h
  · cases ex with
    | none => rfl
    | some e =>
      unfold Node.firstOK at hok
      cases hc : arg.Val.Children with
      | nil =>
        unfold Compiler.compileArgNode at h
        rw [hc] at h
        cases h
      | cons c rest =>
        rw [hc] at hok
        exact (compileArgNode_arity com arg.Val c rest hc hok).2 e h

theorem compileArg_arity (com : Compiler) (sel s1 : Select) (an : String) (arg : Arg)
    (hw : whereArityOK sel.Where = true)
    (hok : an = "where" → Node.firstOK com arg.Val = true)
    (h : com.compileArg sel an arg = Result.ok s1) : whereArityOK s1.Where = true := by
  unfold Compiler.compileArg at h
  split at h
  · split at h <;> cases h
    · unfold Compiler.compileArgID
      split
      · exact hw
      · simp only [whereArityOK]
        apply Exp.arityOK_terminal <;> cases arg.Val.Typ <;> simp [Exp.zero]
    · exact hw
  · split at h
    · cases h
      unfold Compiler.compileArgSearch
      split
      · rename_i w hww
        simp only [whereArityOK]
        refine andPair_arityOK _ _ ?_ (by rw [← hww]; exact hw)
        exact Exp.arityOK_terminal _ (by simp) (by simp) (by simp) rfl
      · simp only [whereArityOK]
        exact Exp.arityOK_terminal _ (by simp) (by simp) (by simp) rfl
    · split at h
      · rename_i h3
        unfold Compiler.compileArgWhere at h
        split at h
        · cases h
        · cases h
        · cases h
        · rename_i ex hex
          have hex1 := compileArgObj_arity com arg ex (hok h3) hex
          split at h
          · rename_i w hww
            cases h
            simp only [whereArityOK]
            exact andPair_arityOK _ _ hex1 (by rw [← hww]; exact hw)
          · cases h
            exact hex1
      · split at h
        · unfold Compiler.compileArgOrderBy at h
          split at h
          · cases h
          · split at h
            · cases h; exact hw
            · cases h
            · cases h
            · cases h
        · split at h
          · unfold Compiler.compileArgDistinctOn at h
            simp only at h
            split at h
            · cases h; exact hw
            · split at h
              · cases h
              · cases h; exact hw
          · split at h
            · unfold Compiler.compileArgLimit at h
              split at h
              · cases h
              · cases h; exact hw
            · split at h
              · unfold Compiler.compileArgOffset at h
                split at h
                · cases h
                · cases h; exact hw
              · cases h; exact hw

theorem compileArgsLoop_arity (com : Compiler) :
    ∀ (args : List (Option Arg)) (sel s1 : Select),
      whereArityOK sel.Where = true → argsArityOK com args →
      com.compileArgsLoop sel args = Result.ok s1 → whereArityOK s1.Where = true
  | [], sel, s1, hw, _, h => by
    simp only [Compiler.compileArgsLoop] at h
    cases h
    exact hw
  | none :: _, sel, s1, _, _, h => by
    simp only [Compiler.compileArgsLoop] at h
    cases h
  | some arg :: rest, sel, s1, hw, hargs, h => by
    have hrest : argsArityOK com rest := fun a ha => hargs a (List.mem_cons_of_mem _ ha)
    simp only [Compiler.compileArgsLoop] at h
    split at h
    · exact compileArgsLoop_arity com rest sel s1 hw hrest h
    · split at h
      · rename_i s2 h2
        exact compileArgsLoop_arity com rest
          { s2 with Args := s2.Args ++ [(ToLower arg.Name, arg.Val)] } s1
          (compileArg_arity com sel s2 _ arg hw (hargs arg (List.mem_cons_self _ _)) h2) hrest h
      · cases h
      · cases h
      · cases h

theorem compileArgs_arity (com : Compiler) (sel s1 : Select) (args : List (Option Arg))
    (hw : whereArityOK sel.Where = true) (hargs : argsArityOK com args)
    (h : com.compileArgs sel args = Result.ok s1) : whereArityOK s1.Where = true :=
  compileArgsLoop_arity com args { sel with Args := [] } s1 hw hargs h

/-- The filter that `compileFilter` builds satisfies the invariant when the
first child of every parsed filter respects the arities. -/
theorem compileFilter_arity (parse : String → Result Node) (filter : List String)
    (w : Option Exp)
    (hok : ∀ f ∈ filter, ∀ node, parse f = Result.ok node →
      Node.firstOK ⟨none, [], []⟩ node = true)
    (h : compileFilter parse filter = Result.ok w) : whereArityOK w = true := by
  have key : ∀ (l : List String) (acc : Result (Option Exp)) (w : Option Exp),
      (∀ f ∈ l, ∀ node, parse f = Result.ok node → Node.firstOK ⟨none, [], []⟩ node = true) →
      (∀ w0, acc = Result.ok w0 → whereArityOK w0 = true) →
      l.foldl (fun acc f =>
        match acc with
        | Result.ok fl =>
          match parse f with
          | Result.ok node =>
            match (⟨none, [], []⟩ : Compiler).compileArgNode node with
            | Result.ok ex =>
              (match fl with
              | none => Result.ok ex
              | some fl1 => Result.ok (some (andPair (some fl1) ex)))
            | r => r
          | Result.error e => Result.error e
          | Result.panicked e => Result.panicked e
          | Result.outOfFuel => Result.outOfFuel
        | r => r) acc = Result.ok w → whereArityOK w = true := by
    intro l
    induction l with
    | nil =>
      intro acc w _ hacc h
      exact hacc w h
    | cons f l ih =>
      intro acc w hl hacc h
      rw [List.foldl_cons] at h
      refine ih _ w (fun f1 hf1 => hl f1 (List.mem_cons_of_mem _ hf1)) ?_ h
      intro w0 hw0
      cases acc with
      | ok fl =>
        simp only at hw0
        cases hp : parse f with
        | ok node =>
          rw [hp] at hw0
          simp only at hw0
          cases hc : (⟨none, [], []⟩ : Compiler).compileArgNode node with
          | ok ex =>
            rw [hc] at hw0
            simp only at hw0
            have hex : whereArityOK ex = true := by
              cases ex with
              | none => rfl
              | some e =>
                have hfo := hl f (List.mem_cons_self _ _) node hp
                unfold Node.firstOK at hfo
                cases hch : node.Children with
                | nil =>
                  unfold Compiler.compileArgNode at hc
                  rw [hch] at hc
                  cases hc
                | cons c rest =>
                  rw [hch] at hfo
                  exact (compileArgNode_arity _ node c rest hch hfo).2 e hc
            cases fl with
            | none =>
              simp only [Result.ok.injEq] at hw0
              subst hw0
              exact hex
            | some fl1 =>
              simp only [Result.ok.injEq] at hw0
              subst hw0
              simp only [whereArityOK]
              exact andPair_arityOK _ _ (hacc (some fl1) rfl) hex
          | error e => rw [hc] at hw0; cases hw0
          | panicked e => rw [hc] at hw0; cases hw0
          | outOfFuel => rw [hc] at hw0; cases hw0
        | error e => rw [hp] at hw0; cases hw0
        | panicked e => rw [hp] at hw0; cases hw0
        | outOfFuel => rw [hp] at hw0; cases hw0
      | error e => cases hw0
      | panicked e => cases hw0
      | outOfFuel => cases hw0
  cases filter with
  | nil =>
    simp only [compileFilter] at h
    cases h
    exact Exp.arityOK_terminal _ (by simp) (by simp) (by simp) rfl
  | cons f l =>
    simp only [compileFilter] at h
    exact key (f :: l) (Result.ok none) w hok (fun w0 hw0 => by cases hw0; rfl) h

theorem filterMap_lookup_mem (l : List (String × Option Exp)) (k : String) (v : Option Exp)
    (h : l.lookup k = some v) : (k, v) ∈ l := by
  induction l with
  | nil => cases h
  | cons p l ih =>
    obtain ⟨k1, v1⟩ := p
    rw [List.lookup_cons] at h
    by_cases hk : (k == k1) = true
    · rw [hk] at h
      cases h
      have : k = k1 := by simpa using hk
      subst this
      exact List.mem_cons_self _ _
    · have hk1 : (k == k1) = false := by simpa using hk
      rw [hk1] at h
      exact List.mem_cons_of_mem _ (ih h)

/-- The effective filter of a compiler whose filters satisfy the invariant
satisfies it. -/
theorem filterFor_arity (com : Compiler) (hfl : whereArityOK com.fl = true)
    (hfm : ∀ p ∈ com.fm, whereArityOK p.2 = true) (t : String) :
    whereArityOK (com.filterFor t) = true := by
  unfold Compiler.filterFor
  split
  · rename_i fil hl
    exact hfm _ (filterMap_lookup_mem com.fm t fil hl)
  · exact hfl

theorem applyFilter_arity (fil w : Option Exp) (hf : whereArityOK fil = true)
    (hw : whereArityOK w = true) : whereArityOK (applyFilter fil w) = true := by
  unfold applyFilter
  split
  · exact hw
  · rename_i f
    split
    · split
      · simp only [whereArityOK]
        exact andPair_arityOK _ _ hf hw
      · exact hf
    · exact hw

/-- The select that `compileQuery` creates for a field has a filter that
satisfies the invariant when the `where` argument of the field respects the
arities. -/
theorem cellFrom_arity (com : Compiler) (inf : Inflect) (f : Field) (s : Select)
    (hargs : argsArityOK com f.Args) (h : cellFrom com inf f s) :
    whereArityOK s.Where = true := by
  obtain ⟨id, s1, hs1, rfl⟩ := h
  exact compileArgs_arity com (newSelect inf id f) s1 f.Args rfl hargs hs1

/-- C23 (amended): the where compiler checks no arity, the children of a
connective are what the where object hands over; the invariant (each And and Or
node has at least two children, each Not node exactly one) holds of what is
built from where objects that respect the arities.  An object respects them
(`Node.firstOK`) when in its first child, the only one that is compiled, below
every name that is not blacklisted, the children of an `and` or `or` hand over
at least two expressions and the first child of a `not` exactly one
(`Node.arityOK`).  Then: the loop of `compileArgNode` ends within its fuel and
every tree it returns satisfies the invariant; `compileArgs` keeps the
invariant of `Where` when the value of every `where` argument respects the
arities; the filter of `compileFilter` satisfies it when every parsed filter
does so under the empty blacklist; and every select of a QCode of
`compileQuery` has a `Where` that satisfies it when the filters of the compiler
satisfy it and the `where` arguments of the fields that are not blacklisted
respect the arities. -/
theorem where_arity_of_input (com : Compiler) :
    (∀ (val : Node), Node.firstOK com val = true →
      com.compileArgNode val ≠ Result.outOfFuel ∧
      ∀ (e : Exp), com.compileArgNode val = Result.ok (some e) → e.arityOK = true) ∧
    (∀ (sel r : Select) (args : List (Option Arg)), whereArityOK sel.Where = true →
      argsArityOK com args → com.compileArgs sel args = Result.ok r →
      whereArityOK r.Where = true) ∧
    (∀ (parse : String → Result Node) (filter : List String) (w : Option Exp),
      (∀ f ∈ filter, ∀ node, parse f = Result.ok node →
        Node.firstOK ⟨none, [], []⟩ node = true) →
      compileFilter parse filter = Result.ok w → whereArityOK w = true) ∧
    (∀ (inf : Inflect) (op : Operation) (q : Query) (root : Select),
      whereArityOK com.fl = true → (∀ p ∈ com.fm, whereArityOK p.2 = true) →
      (∀ f, Live com op f → argsArityOK com f.Args) →
      com.compileQuery inf op = Result.ok q → q.Select = some root →
      ∀ s ∈ root.subs, whereArityOK s.Where = true) := by
  refine ⟨?_, ?_, ?_, ?_⟩
  · intro val hok
    unfold Node.firstOK at hok
    cases hc : val.Children with
    | nil =>
      unfold Compiler.compileArgNode
      rw [hc]
      exact ⟨fun h => (by cases h), fun e h => (by cases h)⟩
    | cons c rest =>
      rw [hc] at hok
      exact compileArgNode_arity com val c rest hc hok
  · intro sel r args hw hargs h
    exact compileArgs_arity com sel r args hw hargs h
  · intro parse filter w hok h
    exact compileFilter_arity parse filter w hok h
  · intro inf op q root hfl hfm hf h hroot
    obtain ⟨qs, a, root0, hw, hr, hb, rfl⟩ := compileQuery_ok com inf op q h
    obtain ⟨hheap, _⟩ := compileQueryWalk_inv com inf op qs hw
    simp only [Option.some.injEq] at hroot
    subst hroot
    have hall : ∀ s ∈ root0.subs, whereArityOK s.Where = true := by
      intro s hs
      obtain ⟨s0, h0, e0⟩ := buildSelect_subs qs.heap _ a root0 hb s hs
      obtain ⟨f, hl, hc⟩ := hheap s0 h0
      obtain ⟨_, _, _, _, _, _, _, hW, _⟩ := withJoins_nil_eq s s0 e0
      rw [hW]
      exact cellFrom_arity com inf f s0 (hf f hl) hc
    intro s hs
    rw [Select.subs_eq] at hs
    rcases List.mem_cons.mp hs with rfl | hs1
    · simp only
      exact applyFilter_arity _ _ (filterFor_arity com hfl hfm _)
        (hall root0 (by rw [Select.subs_eq]; exact List.mem_cons_self _ _))
    · exact hall s (by rw [Select.subs_eq]; exact List.mem_cons_of_mem _ hs1)

/-- The fields of `Examples.opWhereAndTwo` that are not blacklisted: the field
`users` and its child `name`. -/
theorem live_opWhereAndTwo (f : Field) (h : Live Examples.com Examples.opWhereAndTwo f) :
    f = ⟨0, "users", "", [some ⟨"where", Examples.whereAndTwo⟩], [Examples.leaf 1 "name"]⟩ ∨
      f = Examples.leaf 1 "name" := by
  induction h with
  | top f hm _ =>
    simp only [Examples.opWhereAndTwo, List.mem_singleton] at hm
    exact Or.inl hm
  | child p f _ hc _ ih =>
    rcases ih with rfl | rfl
    · simp only [List.mem_singleton] at hc
      exact Or.inr hc
    · simp [Examples.leaf] at hc

/-- Witness of C23 on `where: { and: { name: { eq: "x" }, age: { gt: 5 } } }`:
the `and` has two columns below it, the tree that `compileArgNode` returns is an
`And` with two children, and so is the `Where` of the root of
`{ users(where: { and: { name: { eq: "x" }, age: { gt: 5 } } }) { name } }`. -/
theorem where_arity_of_input_witness :
    (Node.firstOK Examples.com Examples.whereAndTwo = true ∧
      ∃ e, Examples.com.compileArgNode Examples.whereAndTwo = Result.ok (some e) ∧
        e.Op = ExpOp.OpAnd ∧ e.Children.length = 2 ∧ e.arityOK = true) ∧
    (∃ root w, Examples.com.compileQuery Examples.inflect Examples.opWhereAndTwo
        = Result.ok ⟨some root⟩ ∧ root.Where = some w ∧ w.Op = ExpOp.OpAnd ∧
      w.Children.length = 2 ∧ ∀ s ∈ root.subs, whereArityOK s.Where = true) :=
  ⟨⟨rfl, _, rfl, rfl, rfl,
      ((where_arity_of_input Examples.com).1 Examples.whereAndTwo rfl).2 _ rfl⟩,
    ⟨_, _, rfl, rfl, rfl, rfl,
      (where_arity_of_input Examples.com).2.2.2 Examples.inflect Examples.opWhereAndTwo _ _
        rfl (fun p hp => (by cases hp))
        (fun f hf arg harg _ => (by
          rcases live_opWhereAndTwo f hf with rfl | rfl
          · simp only [List.mem_singleton, Option.some.injEq] at harg
            subst harg
            rfl
          · simp [Examples.leaf] at harg))
        rfl rfl⟩⟩

end qcode
